import Mathlib

/-!
# lstime: display-safety encoding of paths and time templates

A shallow embedding of `lstime_format_path.c`, `lstime_iconv.c`,
`lstime_format_timestamp.c`, `lstime_output_item.c` and `lstime_sort_list.c`.

Conventions of the embedding:

* a C string is the list of its bytes before the terminating NUL; a byte is a
  natural number (`IsCString` says every element is in 1..255);
* a UTF-32 unit (`uint32_t`) is a natural number;
* a function that returns a `char *` returns the string it points to, the
  bytes before the first NUL stored there;
* the target is x86-64 Linux: `size_t` has 64 bits and `wchar_t` is a signed
  32-bit integer;
* a function that calls `exit(n)` returns `Except.error n`, a function that
  returns normally returns `Except.ok` of its value;
* the C library is not part of the program: `iconv(3)`, `strftime(3)`,
  `strxfrm(3)` and `qsort(3)` are parameters of the functions that call them;
* a function that writes to a stream returns the bytes written and the exit
  status, if any.
-/

namespace Lstime

/-! ## Constants (lstime_private.h, lstime_format_path.c) -/

/-- The macro `MAX_PATH_LEN`, 8192. -/
def MAX_PATH_LEN : Nat := 8192

/-- The macro `MAX_TIME_LEN`, 1024. -/
def MAX_TIME_LEN : Nat := 1024

/-- no quoting needed, just graphic ASCII -/
def LEVEL1 : Nat := 1
/-- has space or shell specials, single-quotes needed -/
def LEVEL2 : Nat := 2
/-- has multi-byte UTF-8, single-quotes needed -/
def LEVEL3 : Nat := 3
/-- has single quote or control codes, escapes needed -/
def LEVEL4 : Nat := 4
/-- user requested escapes for codepoints beyond 7-bit ASCII -/
def LEVEL5 : Nat := 5
/-- invalid UTF-8 or raw binary, hex escapes needed -/
def LEVEL6 : Nat := 6

/-- The value of `(size_t)-1` on a 64-bit target. -/
def SIZE_MAX : Nat := 2 ^ 64 - 1

/-- A C string: every byte is in 1..255 (NUL-free, `unsigned char` range). -/
def IsCString (s : List Nat) : Prop := ∀ b ∈ s, 0 < b ∧ b < 256

instance (s : List Nat) : Decidable (IsCString s) := by
  unfold IsCString; infer_instance

/-- The table `static const char *hex = "0123456789ABCDEF";` indexed at `i`,
for `i` from 0 to 16: index 16 is the terminating NUL of the literal. The
literal has 17 bytes; a read at a larger index is not defined by the source.
`UnitsDefined` names the units for which every read stays inside the
literal; the units `lstime_format_path` passes at level 6 are bytes, whose
indices are below 16. -/
def hex (i : Nat) : Nat :=
  [0x30, 0x31, 0x32, 0x33, 0x34, 0x35, 0x36, 0x37, 0x38, 0x39,
   0x41, 0x42, 0x43, 0x44, 0x45, 0x46].getD i 0

/-! ## printf conversions used by the program -/

/-- Uppercase hexadecimal digits of `n`, most significant first, no leading
zero (empty for 0); `fuel` bounds the number of digits produced. -/
def hex_digits : Nat → Nat → List Nat
  | 0, _ => []
  | fuel + 1, n => if n = 0 then [] else hex_digits fuel (n / 16) ++ [hex (n % 16)]

/-- The conversion `%0wX` of printf applied to a 32-bit value: the
uppercase hexadecimal digits of `n` (at least one), left-padded with '0' to
`width` characters. -/
def printf_0X (width n : Nat) : List Nat :=
  let ds := if n = 0 then [0x30] else hex_digits 8 n
  List.replicate (width - ds.length) 0x30 ++ ds

/-! ## lstime_format_path.c -/

/-- The function `copy_bytes_to_cps`: the units stored in `cps` (the returned length is the
length of the list); `exit(27)` when the string is longer than the buffer. -/
def copy_bytes_to_cps (capacity : Nat) (str : List Nat) : Except Nat (List Nat) :=
  if str.length > capacity then .error 27
  else .ok (str.map fun b => b % 256)

/-- The conversion of a `uint32_t` unit to the parameter `wchar_t cp` of
`bash_u_escape`. On the target (x86-64 Linux) `wchar_t` is a signed 32-bit
integer, so a unit of 2^31 or more becomes negative. -/
def to_wchar (cp : Nat) : Int :=
  if cp % 2 ^ 32 < 2 ^ 31 then ((cp % 2 ^ 32 : Nat) : Int)
  else ((cp % 2 ^ 32 : Nat) : Int) - 2 ^ 32

/-- The `unsigned int` that the conversion `%X` of printf makes of its `int`
argument. -/
def to_unsigned (n : Int) : Nat := (n % 2 ^ 32).toNat

/-- The function `bash_u_escape(wchar_t cp)`: backslash, `u` and `%04X` of
`cp` when `cp <= 0xFFFF`, backslash, `U` and `%08X` otherwise. A negative `cp`
passes the test and is printed by `%04X` with its eight digits. -/
def bash_u_escape (cp : Nat) : List Nat :=
  if to_wchar cp ≤ 0xFFFF then [0x5C, 0x75] ++ printf_0X 4 (to_unsigned (to_wchar cp))
  else [0x5C, 0x55] ++ printf_0X 8 (to_unsigned (to_wchar cp))

/-- The first group of `case` labels of `parse_for_display_level`:
space `"` `|` `&` `;` `(` `)` `<` `>` `{` `}` `!` `$` backtick backslash
`*` `?` `[` `]`. -/
def is_shell_meta (c : Nat) : Bool :=
  c == 0x20 || c == 0x22 || c == 0x7C || c == 0x26 || c == 0x3B || c == 0x28 ||
  c == 0x29 || c == 0x3C || c == 0x3E || c == 0x7B || c == 0x7D || c == 0x21 ||
  c == 0x24 || c == 0x60 || c == 0x5C || c == 0x2A || c == 0x3F || c == 0x5B ||
  c == 0x5D

/-- One iteration of the loop of `parse_for_display_level`: the new value of
`level` after the byte `c`. -/
def level_step (escape_uni : Bool) (level c : Nat) : Nat :=
  if is_shell_meta c then max level LEVEL2
  else if c = 0x27 then max level LEVEL4
  else if c < 0x20 ∨ c = 0x7F then max level LEVEL4
  else if c < 0x80 then level
  else if escape_uni then max level LEVEL5
  else max level LEVEL3

/-- The function `parse_for_display_level(path, min_level, escape_uni)`. -/
def parse_for_display_level : List Nat → Nat → Bool → Nat
  | [], min_level, _ => min_level
  | c :: rest, min_level, escape_uni =>
    parse_for_display_level rest (level_step escape_uni min_level c) escape_uni

/-- The bytes one iteration of the loop of `bash_quote_cps` appends to
`quoted_buf` for the unit `cp`; `*qptr++ = cp` stores `cp` converted to
`char`. -/
def quote_unit (disp_level cp : Nat) : List Nat :=
  if disp_level ≤ LEVEL3 then [cp % 256]
  else if cp = 0x07 then [0x5C, 0x61]
  else if cp = 0x08 then [0x5C, 0x62]
  else if cp = 0x1B then [0x5C, 0x45]
  else if cp = 0x0C then [0x5C, 0x66]
  else if cp = 0x0A then [0x5C, 0x6E]
  else if cp = 0x0D then [0x5C, 0x72]
  else if cp = 0x09 then [0x5C, 0x74]
  else if cp = 0x0B then [0x5C, 0x76]
  else if cp = 0x5C then [0x5C, 0x5C]
  else if cp = 0x27 then [0x5C, 0x27]
  else if cp = 0x22 then [0x5C, 0x22]
  else if 0x20 ≤ cp ∧ cp ≤ 0x7E then [cp % 256]
  else if disp_level = LEVEL4 then
    if cp ≤ 0x7F then bash_u_escape cp else [cp % 256]
  else if disp_level = LEVEL5 then bash_u_escape cp
  else if disp_level = LEVEL6 then [0x5C, 0x78, hex (cp >>> 4), hex (cp &&& 0x0F)]
  else []

/-- The `while (cps_len-- > 0)` loop of `bash_quote_cps`: `q` is the content
of `quoted_buf` before `qptr`; `exit(13)` when more than
`sizeof(quoted_buf) - 12` bytes are written and a unit is left. -/
def bash_quote_loop (disp_level : Nat) : List Nat → List Nat → Except Nat (List Nat)
  | [], q => .ok q
  | cp :: rest, q =>
    if q.length > MAX_PATH_LEN - 12 then .error 13
    else bash_quote_loop disp_level rest (q ++ quote_unit disp_level cp)

/-- The bytes `bash_quote_cps` writes before its loop. -/
def quote_open (disp_level : Nat) : List Nat :=
  (if disp_level ≥ LEVEL4 then [0x24] else []) ++
  (if disp_level ≥ LEVEL2 then [0x27] else [])

/-- The bytes `bash_quote_cps` writes after its loop, before the NUL. -/
def quote_close (disp_level : Nat) : List Nat :=
  if disp_level ≥ LEVEL2 then [0x27] else []

/-- The bytes `bash_quote_cps(cps, cps_len, disp_level)` has stored in
`quoted_buf` when it reaches `*qptr++ = '\0'`, `cps` being the `cps_len` units
read: the opening frame, what the loop wrote and the closing frame. -/
def bash_quote_cps_buf (cps : List Nat) (disp_level : Nat) : Except Nat (List Nat) :=
  match bash_quote_loop disp_level cps (quote_open disp_level) with
  | .error e => .error e
  | .ok q => .ok (q ++ quote_close disp_level)

/-- The string a `char *` points to, given the bytes stored from there on and
followed by a NUL: the bytes before the first NUL. -/
def c_str (bytes : List Nat) : List Nat := bytes.takeWhile (fun b => b != 0)

/-- The function `bash_quote_cps(cps, cps_len, disp_level)`: the string its
result `quoted_buf` points to, which ends at the first NUL stored. -/
def bash_quote_cps (cps : List Nat) (disp_level : Nat) : Except Nat (List Nat) :=
  match bash_quote_cps_buf cps disp_level with
  | .error e => .error e
  | .ok written => .ok (c_str written)

/-! ## lstime_iconv.c -/

/-- What one call `iconv(cd, &in_ptr, &in_size_left, &out_ptr, &out_size_left)`
leaves behind: the return value, the input bytes not consumed and the UTF-32
units stored in the output buffer. -/
structure IconvResult where
  rc : Nat
  in_size_left : Nat
  out : List Nat
deriving DecidableEq

/-- The C library as seen by `lstime_iconv.c`: whether `iconv_open` succeeds
and what `iconv` does with a byte string and the 8192-unit `outbuf`. -/
structure Libc where
  iconv_open_ok : Bool
  iconv : List Nat → IconvResult

/-- The state `lstime_iconv` leaves: its return value, `outbuf_len`, the
units written to `outbuf`, and whether a warning was printed. -/
structure IconvOutcome where
  ok : Bool
  outbuf_len : Nat
  outbuf : List Nat
  warned : Bool
deriving DecidableEq

/-- The function `lstime_iconv(path, debug)`; `exit(22)` when `lstime_iconv_init` cannot
open the conversion handle. -/
def lstime_iconv (libc : Libc) (path : List Nat) (debug : Bool) : Except Nat IconvOutcome :=
  if libc.iconv_open_ok = false then .error 22
  else
    let r := libc.iconv path
    if r.rc = SIZE_MAX ∨ r.in_size_left ≠ 0 ∨ r.rc ≠ 0 then
      .ok { ok := false, outbuf_len := 0, outbuf := r.out, warned := debug }
    else
      .ok { ok := true, outbuf_len := r.out.length, outbuf := r.out, warned := false }

/-! ## lstime_format_path.c: the entry point -/

/-- Lines 174 to 195 of `lstime_format_path`: the values of `disp_level` and
of the `cps_len` units of `cps_buf` at the call of `bash_quote_cps`. -/
def format_path_resolve (libc : Libc) (path : List Nat) (escape_uni debug : Bool) :
    Except Nat (Nat × List Nat) :=
  let disp_level := parse_for_display_level path LEVEL1 escape_uni
  match (if disp_level ≥ LEVEL3 ∨ disp_level ≤ LEVEL5 then
      match lstime_iconv libc path debug with
      | .error e => (.error e : Except Nat (Nat × List Nat))
      | .ok o =>
        if o.ok then .ok (disp_level, o.outbuf.take o.outbuf_len)
        else .ok (max disp_level LEVEL6, [])
    else .ok (disp_level, [])) with
  | .error e => .error e
  | .ok (level, cps) =>
    if level ≠ LEVEL5 then
      match copy_bytes_to_cps MAX_PATH_LEN path with
      | .error e => .error e
      | .ok bytes => .ok (level, bytes)
    else .ok (level, cps)

/-- The function `lstime_format_path(path, escape_uni, debug)`. -/
def lstime_format_path (libc : Libc) (path : List Nat) (escape_uni debug : Bool) :
    Except Nat (List Nat) :=
  match format_path_resolve libc path escape_uni debug with
  | .error e => .error e
  | .ok (level, cps) => bash_quote_cps cps level

/-! ## lstime_format_timestamp.c -/

/-- Decimal digits of `n`, most significant first, no leading zero (empty for
0); `fuel` bounds the number of digits produced. -/
def dec_digits : Nat → Nat → List Nat
  | 0, _ => []
  | fuel + 1, n => if n = 0 then [] else dec_digits fuel (n / 10) ++ [0x30 + n % 10]

/-- The conversion `%09ld` of printf applied to a 64-bit `long`: the decimal
digits of the absolute value (at least one), after the sign if negative,
left-padded with '0' to nine characters, sign included. -/
def printf_09ld (n : Int) : List Nat :=
  let ds := if n.natAbs = 0 then [0x30] else dec_digits 19 n.natAbs
  if n < 0 then [0x2D] ++ List.replicate (8 - ds.length) 0x30 ++ ds
  else List.replicate (9 - ds.length) 0x30 ++ ds

/-- The test `strchr("_-0^#", c) != NULL` for a byte `c` other than NUL. -/
def is_flag (c : Nat) : Bool :=
  c == 0x5F || c == 0x2D || c == 0x30 || c == 0x5E || c == 0x23

/-- The test `isdigit((unsigned char) c)`. -/
def is_digit (c : Nat) : Bool := decide (0x30 ≤ c ∧ c ≤ 0x39)

/-- The pointer `ptr` after the optional modifier: one `E` or `O` is skipped. -/
def skip_modifier : List Nat → List Nat
  | [] => []
  | c :: rest => if c = 0x45 ∨ c = 0x4F then rest else c :: rest

/-- The value of `nano_width` for the characters from `width_beg` to
`width_end`: 9 by default, `*width_beg - '0'` when there is one character. -/
def nano_width : List Nat → Nat
  | [w] => w - 0x30
  | _ => 9

/-- The loop of `preprocess_time_format`: `ptr` is the rest of the format,
`buf` the bytes of the static buffer before `buf_ptr`; `zbuf` is what
`strftime(zbuf, 12, "%z", tm)` produces for the calendar fields `tm`. `fuel`
bounds the number of iterations; each consumes at least one byte of `ptr`. -/
def preprocess_loop (zbuf : List Nat) (nsec : Int) :
    Nat → List Nat → List Nat → Except Nat (List Nat)
  | _, [], buf => .ok buf
  | 0, _ :: _, _ => .error 0
  | fuel + 1, c :: rest, buf =>
    if c = 0x25 then
      let after_flags := rest.dropWhile is_flag
      let width := after_flags.takeWhile is_digit
      let after_width := after_flags.dropWhile is_digit
      let after_modifier := skip_modifier after_width
      match after_modifier with
      | [] =>
        -- one of the three `break`s: `ptr` is at the terminator
        if buf.length + (c :: rest).length > MAX_TIME_LEN - 1 then .error 17
        else preprocess_loop zbuf nsec fuel [] (buf ++ c :: rest)
      | spec_letter :: ptr =>
        if spec_letter = 0x4E then
          if buf.length > MAX_TIME_LEN - 1 - 10 then .error 16
          else if (printf_09ld nsec).length ≠ 9 then .error 21
          else preprocess_loop zbuf nsec fuel ptr
            (buf ++ (printf_09ld nsec).take (nano_width width))
        else if spec_letter = 0x3A ∧ ptr.head? = some 0x7A then
          let len := if zbuf.length + 1 > 12 then 0 else zbuf.length
          if len = 0 then .error 11
          else if len ≠ 5 then .error 31
          else if buf.length > MAX_TIME_LEN - 1 - 7 then .error 18
          else preprocess_loop zbuf nsec fuel ptr.tail
            (buf ++ zbuf.take 3 ++ [0x3A] ++ (zbuf.drop 3).take 2)
        else
          let span := (c :: rest).take ((c :: rest).length - ptr.length)
          if buf.length + span.length > MAX_TIME_LEN - 1 then .error 17
          else preprocess_loop zbuf nsec fuel ptr (buf ++ span)
    else
      if buf.length > MAX_TIME_LEN - 1 - 1 then .error 20
      else preprocess_loop zbuf nsec fuel rest (buf ++ [c])

/-- The function `preprocess_time_format(time_format, nsec, tm)`: the expanded
format. -/
def preprocess_time_format (zbuf : List Nat) (nsec : Int) (time_format : List Nat) :
    Except Nat (List Nat) :=
  preprocess_loop zbuf nsec time_format.length time_format []

/-- The type `struct timespec`: `tv_sec` is a `time_t`, `tv_nsec` a `long`. -/
structure timespec where
  tv_sec : Int
  tv_nsec : Int
deriving DecidableEq

/-- The macro `HAS_TIMESPEC(ts_ptr)`. -/
def HAS_TIMESPEC (ts : timespec) : Bool := decide (ts.tv_sec ≠ -1 ∧ ts.tv_nsec ≠ -1)

/-- The value the macro `SET_TIMESPEC_EMPTY(ts_ptr)` stores. -/
def TIMESPEC_EMPTY : timespec := ⟨-1, -1⟩

/-- The C library as seen by `lstime_format_timestamp.c`, for calendar fields
of type `Tm`: `gmtime_r` and `localtime_r` (`none` is a null result), and the
text `strftime` makes of a format and calendar fields when its buffer is large
enough. -/
structure TimeLibc (Tm : Type) where
  gmtime_r : Int → Option Tm
  localtime_r : Int → Option Tm
  strftime_text : List Nat → Tm → List Nat

/-- The return value of `strftime(buf, maxsize, format, tm)`: the length of the
text, or 0 when the text and its terminator do not fit `maxsize` bytes. -/
def strftime_len (maxsize : Nat) (text : List Nat) : Nat :=
  if text.length + 1 > maxsize then 0 else text.length

/-- The function `tm_from_timespec(tm, ts, use_utc)`: `exit(5)` when `gmtime_r`
fails, `exit(6)` when `localtime_r` fails. -/
def tm_from_timespec {Tm : Type} (libc : TimeLibc Tm) (ts : timespec) (use_utc : Bool) :
    Except Nat Tm :=
  if use_utc then
    match libc.gmtime_r ts.tv_sec with
    | none => .error 5
    | some tm => .ok tm
  else
    match libc.localtime_r ts.tv_sec with
    | none => .error 6
    | some tm => .ok tm

/-- The function `lstime_format_timestamp(ts, time_format, format_time_as_utc)`:
the string returned; `exit(23)` when the last `strftime` returns 0. -/
def lstime_format_timestamp {Tm : Type} (libc : TimeLibc Tm) (ts : timespec)
    (time_format : List Nat) (format_time_as_utc : Bool) : Except Nat (List Nat) :=
  if HAS_TIMESPEC ts = false then .ok [0x4E, 0x2F, 0x41]
  else
    match tm_from_timespec libc ts format_time_as_utc with
    | .error e => .error e
    | .ok tm =>
      match preprocess_time_format (libc.strftime_text [0x25, 0x7A] tm) ts.tv_nsec
          time_format with
      | .error e => .error e
      | .ok tmpfmt =>
        if strftime_len MAX_TIME_LEN (libc.strftime_text tmpfmt tm) = 0 then .error 23
        else .ok (libc.strftime_text tmpfmt tm)

/-! ## A reference C library

The theorems below hold for every C library. Concrete instances are evaluated
against this one: `iconv_open` succeeds and `iconv` is a strict UTF-8 decoder
(shortest form only, no surrogates, nothing above U+10FFFF) that stops with
`(size_t)-1` at the first malformed or incomplete sequence, or when the
8192-unit output buffer is full. -/

/-- A UTF-8 continuation byte, 0x80..0xBF. -/
def is_cont (b : Nat) : Bool := decide (0x80 ≤ b ∧ b ≤ 0xBF)

/-- The conversion loop of the reference decoder: `out` holds the units
already stored. -/
def utf8_iconv_loop : List Nat → List Nat → IconvResult
  | [], out => ⟨0, 0, out⟩
  | b0 :: rest, out =>
    if out.length ≥ MAX_PATH_LEN then ⟨SIZE_MAX, rest.length + 1, out⟩
    else if b0 < 0x80 then utf8_iconv_loop rest (out ++ [b0])
    else
      match rest with
      | [] => ⟨SIZE_MAX, 1, out⟩
      | b1 :: rest1 =>
        if 0xC2 ≤ b0 ∧ b0 ≤ 0xDF then
          if is_cont b1 then utf8_iconv_loop rest1 (out ++ [(b0 - 0xC0) * 64 + (b1 - 0x80)])
          else ⟨SIZE_MAX, rest1.length + 2, out⟩
        else
          match rest1 with
          | [] => ⟨SIZE_MAX, 2, out⟩
          | b2 :: rest2 =>
            if 0xE0 ≤ b0 ∧ b0 ≤ 0xEF then
              let c := (b0 - 0xE0) * 4096 + (b1 - 0x80) * 64 + (b2 - 0x80)
              if is_cont b1 ∧ is_cont b2 ∧ 0x800 ≤ c ∧ ¬ (0xD800 ≤ c ∧ c ≤ 0xDFFF) then
                utf8_iconv_loop rest2 (out ++ [c])
              else ⟨SIZE_MAX, rest2.length + 3, out⟩
            else
              match rest2 with
              | [] => ⟨SIZE_MAX, 3, out⟩
              | b3 :: rest3 =>
                let c := (b0 - 0xF0) * 262144 + (b1 - 0x80) * 4096 + (b2 - 0x80) * 64 + (b3 - 0x80)
                if 0xF0 ≤ b0 ∧ b0 ≤ 0xF4 ∧ is_cont b1 ∧ is_cont b2 ∧ is_cont b3 ∧
                    0x10000 ≤ c ∧ c ≤ 0x10FFFF then
                  utf8_iconv_loop rest3 (out ++ [c])
                else ⟨SIZE_MAX, rest3.length + 4, out⟩

/-- The reference decoder, started on an empty output buffer. -/
def utf8_iconv (path : List Nat) : IconvResult := utf8_iconv_loop path []

/-- The reference C library. -/
def utf8_libc : Libc := ⟨true, utf8_iconv⟩

/-! ## Vocabulary of the specification -/

/-- The shell metacharacters of the specification: space `"` `|` `&` `;` `(`
`)` `<` `>` `{` `}` `!` `$` backtick backslash `*` `?` `[` `]`. -/
def shell_metacharacters : List Nat :=
  [0x20, 0x22, 0x7C, 0x26, 0x3B, 0x28, 0x29, 0x3C, 0x3E, 0x7B, 0x7D, 0x21, 0x24,
   0x60, 0x5C, 0x2A, 0x3F, 0x5B, 0x5D]

/-- The decode of `path` succeeds: `iconv` returns 0 and consumes all input. -/
def DecodeOk (libc : Libc) (path : List Nat) : Prop :=
  (libc.iconv path).rc = 0 ∧ (libc.iconv path).in_size_left = 0

instance (libc : Libc) (path : List Nat) : Decidable (DecodeOk libc path) := by
  unfold DecodeOk; infer_instance

/-- The level to which one byte raises the running level (0 when it leaves
it alone). -/
def byte_level (escape_uni : Bool) (c : Nat) : Nat := level_step escape_uni 0 c

/-- The uppercase hexadecimal digit character of `d` for `d < 16`. -/
def upper_hex_digit (d : Nat) : Nat := if d < 10 then 0x30 + d else 0x37 + d

/-- The rendering of a printable ASCII byte in the `$'...'` form: backslash,
single quote and double quote are preceded by a backslash. -/
def backslash_escape (b : Nat) : List Nat :=
  if b = 0x5C ∨ b = 0x27 ∨ b = 0x22 then [0x5C, b] else [b]

/-- The `w` low-order decimal digits of `m` as characters, most significant
first, left-padded with '0'. -/
def decimal_field : Nat → Nat → List Nat
  | 0, _ => []
  | w + 1, m => decimal_field w (m / 10) ++ [0x30 + m % 10]

/-- The value of a string of decimal digit characters. -/
def decimal_value (ds : List Nat) : Nat := ds.foldl (fun a d => 10 * a + (d - 0x30)) 0

/-- The number of subsecond digits asked for by the width `ws` of a `%N`
directive: 9 when there is none or its value is 0, else its value, at most 9. -/
def subsecond_count (ws : List Nat) : Nat :=
  if decimal_value ws = 0 then 9 else min (decimal_value ws) 9

/-- The text `x` put in front of the result `r` of the rest of a scan. -/
def prepend (x : List Nat) : Except Nat (List Nat) → Except Nat (List Nat)
  | .ok u => .ok (x ++ u)
  | .error e => .error e

/-- The expansion of a time format with no capacity limit: the scan of
`preprocess_time_format` on a buffer that is never full, as a function from
the rest of the format to its expansion. It keeps the three exits that do not
depend on the buffer (11 and 31 for the offset text, 21 for the nanoseconds). -/
def expand_loop (zbuf : List Nat) (nsec : Int) : Nat → List Nat → Except Nat (List Nat)
  | _, [] => .ok []
  | 0, _ :: _ => .error 0
  | fuel + 1, c :: rest =>
    if c = 0x25 then
      match skip_modifier ((rest.dropWhile is_flag).dropWhile is_digit) with
      | [] => .ok (c :: rest)
      | spec_letter :: ptr =>
        if spec_letter = 0x4E then
          if (printf_09ld nsec).length ≠ 9 then .error 21
          else prepend
            ((printf_09ld nsec).take (nano_width ((rest.dropWhile is_flag).takeWhile is_digit)))
            (expand_loop zbuf nsec fuel ptr)
        else if spec_letter = 0x3A ∧ ptr.head? = some 0x7A then
          if strftime_len 12 zbuf = 0 then .error 11
          else if strftime_len 12 zbuf ≠ 5 then .error 31
          else prepend (zbuf.take 3 ++ [0x3A] ++ (zbuf.drop 3).take 2)
            (expand_loop zbuf nsec fuel ptr.tail)
        else
          prepend ((c :: rest).take ((c :: rest).length - ptr.length))
            (expand_loop zbuf nsec fuel ptr)
    else prepend [c] (expand_loop zbuf nsec fuel rest)

/-- The expansion of a whole time format with no capacity limit. -/
def expand_unbounded (zbuf : List Nat) (nsec : Int) (time_format : List Nat) :
    Except Nat (List Nat) :=
  expand_loop zbuf nsec time_format.length time_format

/-- Whether the scan of a time format meets an extended directive, `%...N` or
`%...:z`. -/
def meets_extended : Nat → List Nat → Bool
  | _, [] => false
  | 0, _ :: _ => false
  | fuel + 1, c :: rest =>
    if c = 0x25 then
      match skip_modifier ((rest.dropWhile is_flag).dropWhile is_digit) with
      | [] => false
      | spec_letter :: ptr =>
        if spec_letter = 0x4E then true
        else if spec_letter = 0x3A ∧ ptr.head? = some 0x7A then true
        else meets_extended fuel ptr
    else meets_extended fuel rest

/-- Whether a string holds the two characters `:z` in a row. -/
def has_colon_z : List Nat → Bool
  | [] => false
  | [_] => false
  | a :: b :: rest => (a == 0x3A && b == 0x7A) || has_colon_z (b :: rest)

/-- The encoding of a unit sequence with no capacity limit: opening frame,
every unit's encoding, closing frame. -/
def bash_quote_unbounded (cps : List Nat) (disp_level : Nat) : List Nat :=
  quote_open disp_level ++ cps.flatMap (quote_unit disp_level) ++ quote_close disp_level

/-- The opening frame of the specification: nothing at level 1, the single
quote at levels 2 and 3, `$'` at levels 4, 5 and 6. -/
def frame_open (level : Nat) : List Nat :=
  if level = 1 then [] else if level = 2 ∨ level = 3 then [0x27] else [0x24, 0x27]

/-- The closing frame of the specification: nothing at level 1, the single
quote at levels 2 to 6. -/
def frame_close (level : Nat) : List Nat :=
  if level = 1 then [] else [0x27]

/-- The level of one byte in the specification of the classifier: 2 for a
shell metacharacter, 4 for the single quote and for a control byte, 3 or 5
(with `escape_unicode`) for a byte of 0x80 or more, 1 for any other printable
ASCII byte. -/
def reference_byte_level (escape_unicode : Bool) (b : Nat) : Nat :=
  if b ∈ shell_metacharacters then 2
  else if b = 0x27 ∨ b < 0x20 ∨ b = 0x7F then 4
  else if 0x80 ≤ b then (if escape_unicode then 5 else 3)
  else 1

/-- The reference definition of the classifier: the maximum of 1 and the
levels of the bytes. -/
def reference_level (escape_unicode : Bool) (bytes : List Nat) : Nat :=
  (bytes.map (reference_byte_level escape_unicode)).foldr max 1

/-! ## lstime_output_item.c -/

/-- The type `lstime_info` (lstime.h); `sortkey` is `none` for a null
pointer. -/
structure lstime_info where
  path : List Nat
  sortkey : Option (List Nat)
  mtime : timespec
  atime : timespec
  ctime : timespec
  btime : timespec
deriving DecidableEq

/-- The `switch (c)` of `lstime_out_it` for the character `c` that follows a
`%`: the bytes the selected case writes to `fp`, or the exit it takes, its own
`exit(15)` or an exit of the formatter it calls. -/
def out_directive {Tm : Type} (libc : Libc) (tlibc : TimeLibc Tm) (info : lstime_info)
    (time_format : List Nat) (utc debug : Bool) (c : Nat) : Except Nat (List Nat) :=
  if c = 0x6D then lstime_format_timestamp tlibc info.mtime time_format utc
  else if c = 0x61 then lstime_format_timestamp tlibc info.atime time_format utc
  else if c = 0x63 then lstime_format_timestamp tlibc info.ctime time_format utc
  else if c = 0x62 then lstime_format_timestamp tlibc info.btime time_format utc
  else if c = 0x6E then .ok [0x0A]
  else if c = 0x70 then lstime_format_path libc info.path false debug
  else if c = 0x72 then .ok info.path
  else if c = 0x75 then lstime_format_path libc info.path true debug
  else if c = 0x7A then .ok [0x00]
  else if c = 0x25 then .ok [0x25]
  else .error 15

/-- The `for` loop of `lstime_out_it`: the first list is the item format from
index `i` on, `fp` holds the bytes written so far. The result is the bytes
written and the exit status, `none` when the loop ends normally. The character
read by `item_format[++i]` after a `%` that ends the format is the terminating
NUL. -/
def out_it_loop {Tm : Type} (libc : Libc) (tlibc : TimeLibc Tm) (info : lstime_info)
    (time_format : List Nat) (utc debug : Bool) : List Nat → List Nat → List Nat × Option Nat
  | [], fp => (fp, none)
  | c :: rest, fp =>
    if c = 0x25 then
      match rest with
      | [] =>
        match out_directive libc tlibc info time_format utc debug 0x00 with
        | .error e => (fp, some e)
        | .ok s => (fp ++ s, none)
      | d :: rest2 =>
        match out_directive libc tlibc info time_format utc debug d with
        | .error e => (fp, some e)
        | .ok s => out_it_loop libc tlibc info time_format utc debug rest2 (fp ++ s)
    else out_it_loop libc tlibc info time_format utc debug rest (fp ++ [c])

/-- The function `lstime_out_it(fp, info, item_format, time_format, utc,
debug)`: the bytes it writes to `fp`, and the exit status when it does not
return. -/
def lstime_out_it {Tm : Type} (libc : Libc) (tlibc : TimeLibc Tm) (info : lstime_info)
    (item_format time_format : List Nat) (utc debug : Bool) : List Nat × Option Nat :=
  out_it_loop libc tlibc info time_format utc debug item_format []

/-! ## lstime_sort_list.c -/

/-- The function `comp_timespec(t1, t2)`. -/
def comp_timespec (t1 t2 : timespec) : Int :=
  if t1.tv_sec > t2.tv_sec then 1
  else if t1.tv_sec < t2.tv_sec then -1
  else if t1.tv_nsec > t2.tv_nsec then 1
  else if t1.tv_nsec < t2.tv_nsec then -1
  else 0

/-- The comparator `COMP_TIME(comp_m_fwd, &info1->mtime, &info2->mtime)`;
the macro returns `comp_timespec((T2), (T1))`. -/
def comp_m_fwd (info1 info2 : lstime_info) : Int := comp_timespec info2.mtime info1.mtime

/-- The comparator `COMP_TIME(comp_m_rev, &info2->mtime, &info1->mtime)`. -/
def comp_m_rev (info1 info2 : lstime_info) : Int := comp_timespec info1.mtime info2.mtime

/-- The comparator `COMP_TIME(comp_a_fwd, &info1->atime, &info2->atime)`. -/
def comp_a_fwd (info1 info2 : lstime_info) : Int := comp_timespec info2.atime info1.atime

/-- The comparator `COMP_TIME(comp_a_rev, &info2->atime, &info1->atime)`. -/
def comp_a_rev (info1 info2 : lstime_info) : Int := comp_timespec info1.atime info2.atime

/-- The comparator `COMP_TIME(comp_c_fwd, &info1->ctime, &info2->ctime)`. -/
def comp_c_fwd (info1 info2 : lstime_info) : Int := comp_timespec info2.ctime info1.ctime

/-- The comparator `COMP_TIME(comp_c_rev, &info2->ctime, &info1->ctime)`. -/
def comp_c_rev (info1 info2 : lstime_info) : Int := comp_timespec info1.ctime info2.ctime

/-- The comparator `COMP_TIME(comp_b_fwd, &info1->btime, &info2->btime)`. -/
def comp_b_fwd (info1 info2 : lstime_info) : Int := comp_timespec info2.btime info1.btime

/-- The comparator `COMP_TIME(comp_b_rev, &info2->btime, &info1->btime)`. -/
def comp_b_rev (info1 info2 : lstime_info) : Int := comp_timespec info1.btime info2.btime

/-- The function `strcmp` of the C library on two strings: the difference of
the first two bytes that differ, the terminator of the shorter string
included, and 0 when a NUL is reached in both; the C standard fixes its sign
only. -/
def strcmp : List Nat → List Nat → Int
  | [], [] => 0
  | [], b :: _ => - (b : Int)
  | a :: _, [] => (a : Int)
  | a :: s1, b :: s2 =>
    if a = b then (if a = 0 then 0 else strcmp s1 s2) else (a : Int) - (b : Int)

/-- The string a `sortkey` pointer designates; the comparators are called
after the loop of `lstime_sort_list` has set every `sortkey`. -/
def sortkey_text (info : lstime_info) : List Nat := info.sortkey.getD []

/-- The comparator `COMP_PATH(comp_p_fwd, info1->sortkey, info2->sortkey)`. -/
def comp_p_fwd (info1 info2 : lstime_info) : Int :=
  strcmp (sortkey_text info1) (sortkey_text info2)

/-- The comparator `COMP_PATH(comp_p_rev, info2->sortkey, info1->sortkey)`. -/
def comp_p_rev (info1 info2 : lstime_info) : Int :=
  strcmp (sortkey_text info2) (sortkey_text info1)

/-- The C library as seen by `lstime_sort_list.c`: the string `strxfrm` makes
of a path in the current locale, and the array `qsort` leaves for a comparison
function and an array. -/
structure SortLibc where
  strxfrm : List Nat → List Nat
  qsort : (lstime_info → lstime_info → Int) → List lstime_info → List lstime_info

/-- The loop of `lstime_sort_list` that sets the `sortkey` of every element;
`exit(39)` at the first path whose key does not fit `buf` with its
terminator. -/
def populate_sortkeys (libc : SortLibc) : List lstime_info → Except Nat (List lstime_info)
  | [] => .ok []
  | info :: rest =>
    if (libc.strxfrm info.path).length ≥ MAX_PATH_LEN then .error 39
    else
      match populate_sortkeys libc rest with
      | .error e => .error e
      | .ok r => .ok ({ info with sortkey := some (libc.strxfrm info.path) } :: r)

/-- The comparison function `lstime_sort_list` selects for `opts->sort_field`
and `opts->reverse`; `exit(34)` and `exit(35)` for a field other than
`m a c b p`. -/
def select_comp (sort_field : Nat) (reverse : Bool) :
    Except Nat (lstime_info → lstime_info → Int) :=
  if reverse then
    if sort_field = 0x6D then .ok comp_m_rev
    else if sort_field = 0x61 then .ok comp_a_rev
    else if sort_field = 0x63 then .ok comp_c_rev
    else if sort_field = 0x62 then .ok comp_b_rev
    else if sort_field = 0x70 then .ok comp_p_rev
    else .error 34
  else
    if sort_field = 0x6D then .ok comp_m_fwd
    else if sort_field = 0x61 then .ok comp_a_fwd
    else if sort_field = 0x63 then .ok comp_c_fwd
    else if sort_field = 0x62 then .ok comp_b_fwd
    else if sort_field = 0x70 then .ok comp_p_fwd
    else .error 35

/-- The function `lstime_sort_list(list, opts)`, for the fields `sort_field`
and `reverse` of `opts`: the array it leaves. -/
def lstime_sort_list (libc : SortLibc) (list : List lstime_info) (sort_field : Nat)
    (reverse : Bool) : Except Nat (List lstime_info) :=
  if list.length = 0 then .ok list
  else
    match (if sort_field = 0x70 then populate_sortkeys libc list else .ok list) with
    | .error e => .error e
    | .ok keyed =>
      match select_comp sort_field reverse with
      | .error e => .error e
      | .ok comp => .ok (libc.qsort comp keyed)

/-! ## Vocabulary of the specification and reference libraries: decode guard, item formats, sorting -/

/-- The algorithm of the specification for `lstime_format_path`: the decode is
attempted only when the classified level is 3, 4 or 5; on failure the level is
raised to 6; the units are the decoded codepoints at level 5 and the raw bytes
otherwise. -/
def format_path_specified (libc : Libc) (path : List Nat) (escape_unicode debug : Bool) :
    Except Nat (List Nat) :=
  let level := parse_for_display_level path LEVEL1 escape_unicode
  match (if level = 3 ∨ level = 4 ∨ level = 5 then
      match lstime_iconv libc path debug with
      | .error e => (.error e : Except Nat (Nat × List Nat))
      | .ok o => if o.ok then .ok (level, o.outbuf.take o.outbuf_len) else .ok (6, [])
    else .ok (level, [])) with
  | .error e => .error e
  | .ok (level, cps) =>
    if level = 5 then bash_quote_cps cps level
    else
      match copy_bytes_to_cps MAX_PATH_LEN path with
      | .error e => .error e
      | .ok bytes => bash_quote_cps bytes level

/-- An element of an item format made of literal characters and the
directives `%n`, `%z` and `%%` only. -/
inductive PlainItem where
  | literal (c : Nat)
  | newline
  | nul
  | percent
deriving DecidableEq

/-- The text of an element in the item format. -/
def PlainItem.text : PlainItem → List Nat
  | .literal c => [c]
  | .newline => [0x25, 0x6E]
  | .nul => [0x25, 0x7A]
  | .percent => [0x25, 0x25]

/-- What the specification has written for an element: the literal itself,
one newline byte, one NUL byte, one `%` byte. -/
def PlainItem.written : PlainItem → List Nat
  | .literal c => [c]
  | .newline => [0x0A]
  | .nul => [0x00]
  | .percent => [0x25]

/-- The stream after a formatter's result `r` is printed with `%s` on the
bytes `fp` and the rest `k` of the run: the exit of the formatter ends the run
with nothing more written. -/
def print_then (r : Except Nat (List Nat)) (fp : List Nat)
    (k : List Nat → List Nat × Option Nat) : List Nat × Option Nat :=
  match r with
  | .ok s => k (fp ++ s)
  | .error e => (fp, some e)

/-- A C library for the time functions, used to evaluate concrete instances
that do not depend on the calendar: the calendar fields are the seconds, the
offset text is `+0000` and every other format is left as it is. -/
def plain_time_libc : TimeLibc Int :=
  ⟨fun sec => some sec, fun sec => some sec,
   fun fmt _ => if fmt = [0x25, 0x7A] then [0x2B, 0x30, 0x30, 0x30, 0x30] else fmt⟩

/-- The item of the tests of `lstime_out_it`: the path `no path`, every other
field zero. -/
def test_info : lstime_info :=
  ⟨[0x6E, 0x6F, 0x20, 0x70, 0x61, 0x74, 0x68], none, ⟨0, 0⟩, ⟨0, 0⟩, ⟨0, 0⟩, ⟨0, 0⟩⟩

/-- What the C standard asks of a comparison function handed to `qsort`: it
orders the elements consistently. Exchanging the arguments exchanges the sign
of the result, and the relation "not greater" is transitive. -/
def ConsistentComparator (comp : lstime_info → lstime_info → Int) : Prop :=
  (∀ a b, 0 < comp a b ↔ comp b a < 0) ∧
  (∀ a b c, comp a b ≤ 0 → comp b c ≤ 0 → comp a c ≤ 0)

/-- The contract of `qsort` in the C standard: with a consistent comparison
function the array it leaves holds the same elements, and no element is
greater than the one after it. The order of elements that compare equal is not
fixed. -/
def QsortContract (qsort : (lstime_info → lstime_info → Int) → List lstime_info →
    List lstime_info) : Prop :=
  ∀ comp list, ConsistentComparator comp →
    (qsort comp list).Perm list ∧ (qsort comp list).Chain' (fun x y => comp x y ≤ 0)

/-- A C library for sorting, used to evaluate concrete instances: the
collation of the C locale, where `strxfrm` copies the string, and an insertion
sort for `qsort`. -/
def c_locale_sort_libc : SortLibc :=
  ⟨fun path => path, fun comp list => list.insertionSort (fun a b => comp a b ≤ 0)⟩

/-- The order of timestamps in the specification: seconds first, nanoseconds
second. -/
def timespec_le (a b : timespec) : Prop :=
  a.tv_sec < b.tv_sec ∨ (a.tv_sec = b.tv_sec ∧ a.tv_nsec ≤ b.tv_nsec)

instance (a b : timespec) : Decidable (timespec_le a b) := by
  unfold timespec_le; infer_instance

/-- The timestamp of an item that a sort field `m`, `a`, `c` or `b` designates. -/
def chosen_time (sort_field : Nat) (info : lstime_info) : timespec :=
  if sort_field = 0x6D then info.mtime
  else if sort_field = 0x61 then info.atime
  else if sort_field = 0x63 then info.ctime
  else info.btime

/-- An item with its `sortkey` set to the collation key of its path. -/
def with_sortkey (libc : SortLibc) (info : lstime_info) : lstime_info :=
  { info with sortkey := some (libc.strxfrm info.path) }

/-- An item of the tests of `lstime_sort_list` built by `build_info_by_time`
for the type `m`. -/
def info_by_mtime (sec nsec : Int) : lstime_info :=
  ⟨[0x6E, 0x6F, 0x20, 0x70, 0x61, 0x74, 0x68], none, ⟨sec, nsec⟩, ⟨0, 0⟩, ⟨0, 0⟩, ⟨0, 0⟩⟩

/-- An item of the tests of `lstime_sort_list` built by `build_info_by_time`
for the type `a`. -/
def info_by_atime (sec nsec : Int) : lstime_info :=
  ⟨[0x6E, 0x6F, 0x20, 0x70, 0x61, 0x74, 0x68], none, ⟨0, 0⟩, ⟨sec, nsec⟩, ⟨0, 0⟩, ⟨0, 0⟩⟩

/-- An item of the tests of `lstime_sort_list` built by `build_info_by_path`. -/
def info_by_path (path : List Nat) : lstime_info :=
  ⟨path, none, ⟨0, 0⟩, ⟨0, 0⟩, ⟨0, 0⟩, ⟨0, 0⟩⟩

/-! ## The static buffers as explicit state

The functions that keep their result in a static array, written on the
arrays themselves: an array is the function from index to element, a store
outside the array is a fault, and the string a function returns is read back
from its array up to the first NUL. -/

/-- How a run that works on the static buffers can stop early: the program
calls `exit(status)`, or an access falls outside an array. -/
inductive Fault where
  | exit (status : Nat)
  | out_of_bounds
deriving DecidableEq

/-- The assignment `buf[i] = v` on an array of `size` elements, given as the
function from index to element. -/
def store (size : Nat) (buf : Nat → Nat) (i v : Nat) : Except Fault (Nat → Nat) :=
  if i < size then .ok (Function.update buf i v) else .error .out_of_bounds

/-- The assignments `*p++ = b` for the bytes `b` of a list in turn, `p`
starting at index `i` of an array of `size` elements. -/
def store_bytes (size : Nat) : List Nat → Nat → (Nat → Nat) → Except Fault (Nat → Nat)
  | [], _, buf => .ok buf
  | b :: bs, i, buf =>
    match store size buf i b with
    | .error f => .error f
    | .ok buf1 => store_bytes size bs (i + 1) buf1

/-- The bytes read from index `i` up to the first NUL, `fuel` being the number
of elements from `i` to the end of the array. -/
def read_string (buf : Nat → Nat) : Nat → Nat → Except Fault (List Nat)
  | 0, _ => .error .out_of_bounds
  | fuel + 1, i =>
    if buf i = 0 then .ok []
    else
      match read_string buf fuel (i + 1) with
      | .error f => .error f
      | .ok s => .ok (buf i :: s)

/-- The C string that starts at index `i` of an array of `size` elements. -/
def c_string (size : Nat) (buf : Nat → Nat) (i : Nat) : Except Fault (List Nat) :=
  read_string buf (size - i) i

/-- The static storage of the program that outlives a call: `outbuf` and
`outbuf_len` of lstime_iconv.c, `buf` of `bash_u_escape`, `quoted_buf` of
`bash_quote_cps` and `buf` of `preprocess_time_format`. -/
structure Statics where
  outbuf : Nat → Nat
  outbuf_len : Nat
  u_escape_buf : Nat → Nat
  quoted_buf : Nat → Nat
  time_buf : Nat → Nat

/-- The function `bash_u_escape` on its static `buf[12]`: `sprintf` stores the
text and its terminator. -/
def bash_u_escape_mem (cp : Nat) (st : Statics) : Except Fault Statics :=
  match store_bytes 12 (bash_u_escape cp ++ [0x00]) 0 st.u_escape_buf with
  | .error f => .error f
  | .ok b => .ok { st with u_escape_buf := b }

/-- The statements `*qptr++ = b` of one `case` of `bash_quote_cps`, for the
bytes `bs`: the new storage and the new `qptr`. -/
def put_quoted (bs : List Nat) (st : Statics) (qptr : Nat) : Except Fault (Statics × Nat) :=
  match store_bytes MAX_PATH_LEN bs qptr st.quoted_buf with
  | .error f => .error f
  | .ok b => .ok ({ st with quoted_buf := b }, qptr + bs.length)

/-- The statements `strcpy(qptr, bash_u_escape(cp)); qptr += strlen(qptr);`. -/
def strcpy_u_escape (cp : Nat) (st : Statics) (qptr : Nat) : Except Fault (Statics × Nat) :=
  match bash_u_escape_mem cp st with
  | .error f => .error f
  | .ok st1 =>
    match c_string 12 st1.u_escape_buf 0 with
    | .error f => .error f
    | .ok text =>
      match store_bytes MAX_PATH_LEN (text ++ [0x00]) qptr st1.quoted_buf with
      | .error f => .error f
      | .ok b =>
        match c_string MAX_PATH_LEN b qptr with
        | .error f => .error f
        | .ok copied => .ok ({ st1 with quoted_buf := b }, qptr + copied.length)

/-- One iteration of the loop of `bash_quote_cps` on the static buffers, after
the capacity test: the `switch` for the unit `cp`. -/
def quote_unit_mem (disp_level cp : Nat) (st : Statics) (qptr : Nat) :
    Except Fault (Statics × Nat) :=
  if disp_level ≤ LEVEL3 then put_quoted [cp % 256] st qptr
  else if cp = 0x07 then put_quoted [0x5C, 0x61] st qptr
  else if cp = 0x08 then put_quoted [0x5C, 0x62] st qptr
  else if cp = 0x1B then put_quoted [0x5C, 0x45] st qptr
  else if cp = 0x0C then put_quoted [0x5C, 0x66] st qptr
  else if cp = 0x0A then put_quoted [0x5C, 0x6E] st qptr
  else if cp = 0x0D then put_quoted [0x5C, 0x72] st qptr
  else if cp = 0x09 then put_quoted [0x5C, 0x74] st qptr
  else if cp = 0x0B then put_quoted [0x5C, 0x76] st qptr
  else if cp = 0x5C then put_quoted [0x5C, 0x5C] st qptr
  else if cp = 0x27 then put_quoted [0x5C, 0x27] st qptr
  else if cp = 0x22 then put_quoted [0x5C, 0x22] st qptr
  else if 0x20 ≤ cp ∧ cp ≤ 0x7E then put_quoted [cp % 256] st qptr
  else if disp_level = LEVEL4 then
    if cp ≤ 0x7F then strcpy_u_escape cp st qptr else put_quoted [cp % 256] st qptr
  else if disp_level = LEVEL5 then strcpy_u_escape cp st qptr
  else if disp_level = LEVEL6 then
    put_quoted [0x5C, 0x78, hex (cp >>> 4), hex (cp &&& 0x0F)] st qptr
  else .ok (st, qptr)

/-- The `while (cps_len-- > 0)` loop of `bash_quote_cps` on the static
buffers, for the units still to read and the index `qptr` into `quoted_buf`. -/
def bash_quote_loop_mem (disp_level : Nat) :
    List Nat → Statics → Nat → Except Fault (Statics × Nat)
  | [], st, qptr => .ok (st, qptr)
  | cp :: rest, st, qptr =>
    if qptr > MAX_PATH_LEN - 12 then .error (.exit 13)
    else
      match quote_unit_mem disp_level cp st qptr with
      | .error f => .error f
      | .ok (st1, qptr1) => bash_quote_loop_mem disp_level rest st1 qptr1

/-- The function `bash_quote_cps` on the static buffers, for the units it
reads from `cps`: the storage it leaves and the string its result points to,
read from `quoted_buf` up to the first NUL. -/
def bash_quote_cps_mem (cps : List Nat) (disp_level : Nat) (st : Statics) :
    Except Fault (Statics × List Nat) :=
  match put_quoted (quote_open disp_level) st 0 with
  | .error f => .error f
  | .ok (st1, qptr1) =>
    match bash_quote_loop_mem disp_level cps st1 qptr1 with
    | .error f => .error f
    | .ok (st2, qptr2) =>
      match put_quoted (quote_close disp_level ++ [0x00]) st2 qptr2 with
      | .error f => .error f
      | .ok (st3, _) =>
        match c_string MAX_PATH_LEN st3.quoted_buf 0 with
        | .error f => .error f
        | .ok s => .ok (st3, s)

/-- The function `lstime_iconv` on the static buffers: `iconv` stores its
units from the start of `outbuf`, and `outbuf_len` is set. The result holds
the return value. -/
def lstime_iconv_mem (libc : Libc) (path : List Nat) (st : Statics) :
    Except Fault (Statics × Bool) :=
  if libc.iconv_open_ok = false then .error (.exit 22)
  else
    let r := libc.iconv path
    match store_bytes MAX_PATH_LEN r.out 0 st.outbuf with
    | .error f => .error f
    | .ok b =>
      if r.rc = SIZE_MAX ∨ r.in_size_left ≠ 0 ∨ r.rc ≠ 0 then
        .ok ({ st with outbuf := b, outbuf_len := 0 }, false)
      else .ok ({ st with outbuf := b, outbuf_len := r.out.length }, true)

/-- The function `copy_bytes_to_cps` on `outbuf`: the storage it leaves and
the length it returns. -/
def copy_bytes_to_cps_mem (capacity : Nat) (str : List Nat) (st : Statics) :
    Except Fault (Statics × Nat) :=
  if str.length > capacity then .error (.exit 27)
  else
    match store_bytes MAX_PATH_LEN (str.map fun b => b % 256) 0 st.outbuf with
    | .error f => .error f
    | .ok b => .ok ({ st with outbuf := b }, str.length)

/-- The function `lstime_format_path` on the static buffers: the storage it
leaves and the string it returns. The units handed to `bash_quote_cps` are
read from `outbuf`. -/
def lstime_format_path_mem (libc : Libc) (path : List Nat) (escape_uni _debug : Bool)
    (st : Statics) : Except Fault (Statics × List Nat) :=
  let disp_level := parse_for_display_level path LEVEL1 escape_uni
  match (if disp_level ≥ LEVEL3 ∨ disp_level ≤ LEVEL5 then
      match lstime_iconv_mem libc path st with
      | .error f => (.error f : Except Fault (Statics × Nat × Nat))
      | .ok (st1, ok) =>
        if ok then .ok (st1, disp_level, st1.outbuf_len)
        else .ok (st1, max disp_level LEVEL6, 0)
    else .ok (st, disp_level, 0)) with
  | .error f => .error f
  | .ok (st1, level, cps_len) =>
    match (if level ≠ LEVEL5 then copy_bytes_to_cps_mem MAX_PATH_LEN path st1
        else .ok (st1, cps_len)) with
    | .error f => .error f
    | .ok (st2, cps_len2) =>
      bash_quote_cps_mem ((List.range cps_len2).map st2.outbuf) level st2

/-- The array `buf` after the bytes `bs` are stored from index `i` on. -/
def write_at (buf : Nat → Nat) (i : Nat) (bs : List Nat) : Nat → Nat :=
  fun j => if i ≤ j ∧ j < i + bs.length then bs.getD (j - i) 0 else buf j

/-- The array `buf` starts with the bytes `out`. -/
def Agree (buf : Nat → Nat) (out : List Nat) : Prop :=
  ∀ j, j < out.length → buf j = out.getD j 0

/-- The exit of a run on the pure model, as a stop of a run on the static
buffers. -/
def as_fault {α : Type} : Except Nat α → Except Fault α
  | .ok a => .ok a
  | .error e => .error (.exit e)

/-- The loop of `preprocess_time_format` on its static `buf`, `buf_ptr` being
an index into it: `ptr` is the rest of the format. `snprintf` stores at most
ten characters of the nanoseconds and a terminator. -/
def preprocess_loop_mem (zbuf : List Nat) (nsec : Int) :
    Nat → List Nat → (Nat → Nat) → Nat → Except Fault ((Nat → Nat) × Nat)
  | _, [], buf, buf_ptr => .ok (buf, buf_ptr)
  | 0, _ :: _, _, _ => .error (.exit 0)
  | fuel + 1, c :: rest, buf, buf_ptr =>
    if c = 0x25 then
      let after_flags := rest.dropWhile is_flag
      let width := after_flags.takeWhile is_digit
      let after_width := after_flags.dropWhile is_digit
      let after_modifier := skip_modifier after_width
      match after_modifier with
      | [] =>
        if buf_ptr + (c :: rest).length > MAX_TIME_LEN - 1 then .error (.exit 17)
        else
          match store_bytes MAX_TIME_LEN (c :: rest) buf_ptr buf with
          | .error f => .error f
          | .ok b => preprocess_loop_mem zbuf nsec fuel [] b (buf_ptr + (c :: rest).length)
      | spec_letter :: ptr =>
        if spec_letter = 0x4E then
          if buf_ptr > MAX_TIME_LEN - 1 - 10 then .error (.exit 16)
          else
            match store_bytes MAX_TIME_LEN ((printf_09ld nsec).take 10 ++ [0x00]) buf_ptr
                buf with
            | .error f => .error f
            | .ok b =>
              if (printf_09ld nsec).length ≠ 9 then .error (.exit 21)
              else preprocess_loop_mem zbuf nsec fuel ptr b (buf_ptr + nano_width width)
        else if spec_letter = 0x3A ∧ ptr.head? = some 0x7A then
          let len := if zbuf.length + 1 > 12 then 0 else zbuf.length
          if len = 0 then .error (.exit 11)
          else if len ≠ 5 then .error (.exit 31)
          else if buf_ptr > MAX_TIME_LEN - 1 - 7 then .error (.exit 18)
          else
            match store_bytes MAX_TIME_LEN (zbuf.take 3 ++ [0x3A] ++ (zbuf.drop 3).take 2)
                buf_ptr buf with
            | .error f => .error f
            | .ok b => preprocess_loop_mem zbuf nsec fuel ptr.tail b (buf_ptr + 6)
        else
          let span := (c :: rest).take ((c :: rest).length - ptr.length)
          if buf_ptr + span.length > MAX_TIME_LEN - 1 then .error (.exit 17)
          else
            match store_bytes MAX_TIME_LEN span buf_ptr buf with
            | .error f => .error f
            | .ok b => preprocess_loop_mem zbuf nsec fuel ptr b (buf_ptr + span.length)
    else
      if buf_ptr > MAX_TIME_LEN - 1 - 1 then .error (.exit 20)
      else
        match store MAX_TIME_LEN buf buf_ptr c with
        | .error f => .error f
        | .ok b => preprocess_loop_mem zbuf nsec fuel rest b (buf_ptr + 1)

/-- The function `preprocess_time_format` on its static `buf`: the storage it
leaves and the string its result points to, read from `buf` up to the first
NUL. -/
def preprocess_time_format_mem (zbuf : List Nat) (nsec : Int) (time_format : List Nat)
    (st : Statics) : Except Fault (Statics × List Nat) :=
  match preprocess_loop_mem zbuf nsec time_format.length time_format st.time_buf 0 with
  | .error f => .error f
  | .ok (b, buf_ptr) =>
    match store MAX_TIME_LEN b buf_ptr 0x00 with
    | .error f => .error f
    | .ok b1 =>
      match c_string MAX_TIME_LEN b1 0 with
      | .error f => .error f
      | .ok s => .ok ({ st with time_buf := b1 }, s)

/-- Static storage filled with the byte `v`, with `outbuf_len` set to `n`,
used to evaluate concrete instances. -/
def statics_filled (v n : Nat) : Statics :=
  ⟨fun _ => v, n, fun _ => v, fun _ => v, fun _ => v⟩

/-! ## lstime_output_item.c: the loop on the index of the format -/

/-- The element `item_format[i]` of the array that holds a format and its
terminating NUL; an index beyond the terminator is a fault. -/
def char_at (item_format : List Nat) (i : Nat) : Except Fault Nat :=
  if i < item_format.length then .ok (item_format.getD i 0)
  else if i = item_format.length then .ok 0x00
  else .error .out_of_bounds

/-- The `for` loop of `lstime_out_it` on the index `i`, every character read
through `char_at`: the bytes written and the exit status, or the fault of a
read beyond the terminator. `fuel` bounds the number of iterations, each of
which moves `i` forward; `exit 0` stands for a loop that runs out of it. -/
def out_it_index_loop {Tm : Type} (libc : Libc) (tlibc : TimeLibc Tm) (info : lstime_info)
    (time_format : List Nat) (utc debug : Bool) (item_format : List Nat) :
    Nat → Nat → List Nat → Except Fault (List Nat × Option Nat)
  | 0, i, fp => if i < item_format.length then .error (.exit 0) else .ok (fp, none)
  | fuel + 1, i, fp =>
    if i < item_format.length then
      match char_at item_format i with
      | .error f => .error f
      | .ok c =>
        if c = 0x25 then
          match char_at item_format (i + 1) with
          | .error f => .error f
          | .ok d =>
            match out_directive libc tlibc info time_format utc debug d with
            | .error e => .ok (fp, some e)
            | .ok s =>
              out_it_index_loop libc tlibc info time_format utc debug item_format fuel (i + 2)
                (fp ++ s)
        else
          out_it_index_loop libc tlibc info time_format utc debug item_format fuel (i + 1)
            (fp ++ [c])
    else .ok (fp, none)

/-! ## Vocabulary of the specification: item directives, reading back an escaped string -/

/-- The characters that make a directive of the item format after a `%`:
`m a c b n p r u z %`. -/
def item_directives : List Nat :=
  [0x6D, 0x61, 0x63, 0x62, 0x6E, 0x70, 0x72, 0x75, 0x7A, 0x25]

/-- The item format up to the first `%` that is followed by a character
outside `item_directives` or that ends the format, and whether there is such a
`%`. -/
def before_bad_directive : List Nat → List Nat × Bool
  | [] => ([], false)
  | [c] => if c = 0x25 then ([], true) else ([c], false)
  | c :: d :: rest =>
    if c = 0x25 then
      if d ∈ item_directives then
        (c :: d :: (before_bad_directive rest).1, (before_bad_directive rest).2)
      else ([], true)
    else (c :: (before_bad_directive (d :: rest)).1, (before_bad_directive (d :: rest)).2)

/-- The end of a run that stops at an unrecognized directive after the run
`r` of the format before it, when `bad` is set. -/
def then_bad (r : List Nat × Option Nat) (bad : Bool) : List Nat × Option Nat :=
  match r.2 with
  | some e => (r.1, some e)
  | none => (r.1, if bad then some 15 else none)

/-- The value of an uppercase hexadecimal digit character. -/
def hex_digit_value (d : Nat) : Nat := if d < 0x3A then d - 0x30 else d - 0x37

/-- The value of a string of uppercase hexadecimal digits. -/
def hex_value (ds : List Nat) : Nat := ds.foldl (fun acc d => acc * 16 + hex_digit_value d) 0

/-- The unit a backslash followed by the character `c` stands for in the
`$'...'` form: `a b E f n r t v` name control codes, any other character
stands for itself. -/
def named_unit (c : Nat) : Nat :=
  if c = 0x61 then 0x07
  else if c = 0x62 then 0x08
  else if c = 0x45 then 0x1B
  else if c = 0x66 then 0x0C
  else if c = 0x6E then 0x0A
  else if c = 0x72 then 0x0D
  else if c = 0x74 then 0x09
  else if c = 0x76 then 0x0B
  else c

/-- A reader of the body of a `$'...'` string: the units it encodes, each with
the kind of its encoding, 0 for a character written as it is or after a
backslash, 1 for a backslash, `u` or `U` and four or eight hexadecimal digits,
2 for a backslash, `x` and two hexadecimal digits. `fuel` bounds the number of
units read. -/
def unescape : Nat → List Nat → List (Nat × Nat)
  | 0, _ => []
  | _ + 1, [] => []
  | fuel + 1, c :: rest =>
    if c = 0x5C then
      match rest with
      | [] => []
      | d :: rest1 =>
        if d = 0x75 then (1, hex_value (rest1.take 4)) :: unescape fuel (rest1.drop 4)
        else if d = 0x55 then (1, hex_value (rest1.take 8)) :: unescape fuel (rest1.drop 8)
        else if d = 0x78 then (2, hex_value (rest1.take 2)) :: unescape fuel (rest1.drop 2)
        else (0, named_unit d) :: unescape fuel rest1
    else (0, c) :: unescape fuel rest

/-- The kind of the encoding `bash_quote_cps` gives the unit `cp` at a level
from 4 to 6, in the terms of `unescape`. -/
def unit_kind (disp_level cp : Nat) : Nat :=
  if cp = 0x07 ∨ cp = 0x08 ∨ cp = 0x1B ∨ cp = 0x0C ∨ cp = 0x0A ∨ cp = 0x0D ∨ cp = 0x09 ∨
      cp = 0x0B then 0
  else if 0x20 ≤ cp ∧ cp ≤ 0x7E then 0
  else if disp_level = 4 then (if cp ≤ 0x7F then 1 else 0)
  else if disp_level = 5 then 1
  else 2

/-- The UTF-8 encoding of a codepoint. -/
def utf8_encode (c : Nat) : List Nat :=
  if c < 0x80 then [c]
  else if c < 0x800 then [0xC0 + c / 64, 0x80 + c % 64]
  else if c < 0x10000 then [0xE0 + c / 4096, 0x80 + c / 64 % 64, 0x80 + c % 64]
  else [0xF0 + c / 262144, 0x80 + c / 4096 % 64, 0x80 + c / 64 % 64, 0x80 + c % 64]

/-- The unit sequences on which a call of `bash_quote_cps` at `disp_level` is
defined: every unit is a `uint32_t` value, and at level 6 every read of the
table `hex` stays inside the literal, which holds exactly when every unit is
below 0x110. -/
def UnitsDefined (disp_level : Nat) (cps : List Nat) : Prop :=
  ∀ u ∈ cps, u < 2 ^ 32 ∧ (disp_level = 6 → u < 0x110)

instance (disp_level : Nat) (cps : List Nat) : Decidable (UnitsDefined disp_level cps) := by
  unfold UnitsDefined; infer_instance

/-- The bytes of the path that one unit handed to the encoder stands for: the
UTF-8 encoding of the codepoint at level 5, the byte itself at the other
levels. -/
def unit_bytes (disp_level u : Nat) : List Nat :=
  if disp_level = 5 then utf8_encode u else [u]

/-- A C library in which `iconv_open` fails, as when the conversion from
UTF-8 is not installed: `lstime_iconv_init` gets `(iconv_t)-1`. -/
def no_iconv_libc : Libc := ⟨false, utf8_iconv⟩

/-! ## Lemmas on the classifier, the encoder loop and the formatter -/

theorem level_step_eq_max (eu : Bool) (l c : Nat) :
    level_step eu l c = max l (byte_level eu c) := by
  unfold byte_level level_step LEVEL2 LEVEL3 LEVEL4 LEVEL5
  split_ifs <;> omega

theorem parse_ge_min (p : List Nat) (m : Nat) (eu : Bool) :
    m ≤ parse_for_display_level p m eu := by
  induction p generalizing m with
  | nil => simp [parse_for_display_level]
  | cons c rest ih =>
    simp only [parse_for_display_level]
    refine le_trans ?_ (ih _)
    rw [level_step_eq_max]; exact le_max_left _ _

theorem parse_ge_byte (p : List Nat) (m : Nat) (eu : Bool) (b : Nat) (hb : b ∈ p) :
    byte_level eu b ≤ parse_for_display_level p m eu := by
  induction p generalizing m with
  | nil => simp at hb
  | cons c rest ih =>
    simp only [parse_for_display_level]
    rcases List.mem_cons.1 hb with h | h
    · subst h
      refine le_trans ?_ (parse_ge_min _ _ _)
      rw [level_step_eq_max]; exact le_max_right _ _
    · exact ih _ h

theorem parse_le_of_bytes (p : List Nat) (m k : Nat) (eu : Bool)
    (h : ∀ b ∈ p, byte_level eu b ≤ k) :
    parse_for_display_level p m eu ≤ max m k := by
  induction p generalizing m with
  | nil => simp [parse_for_display_level]
  | cons c rest ih =>
    simp only [parse_for_display_level]
    have h1 := ih (level_step eu m c) (fun b hb => h b (List.mem_cons_of_mem _ hb))
    have h2 := h c (List.mem_cons_self _ _)
    have h3 := level_step_eq_max eu m c
    omega

theorem bash_quote_loop_eq (lvl : Nat) (cps q out : List Nat)
    (h : bash_quote_loop lvl cps q = .ok out) :
    out = q ++ cps.flatMap (quote_unit lvl) := by
  induction cps generalizing q with
  | nil => simp [bash_quote_loop] at h; simp [h]
  | cons c rest ih =>
    simp only [bash_quote_loop] at h
    split_ifs at h
    rw [ih _ h]; simp

theorem bash_quote_loop_fits (lvl : Nat) (cps q : List Nat)
    (h : q.length + (cps.flatMap (quote_unit lvl)).length ≤ MAX_PATH_LEN - 12) :
    bash_quote_loop lvl cps q = .ok (q ++ cps.flatMap (quote_unit lvl)) := by
  induction cps generalizing q with
  | nil => simp [bash_quote_loop]
  | cons c rest ih =>
    simp only [List.flatMap_cons, List.length_append] at h
    simp only [bash_quote_loop]
    rw [if_neg (by omega), ih]
    · simp
    · simp only [List.length_append]; omega

theorem bash_quote_loop_overflow (lvl : Nat) (a : List Nat) (c : Nat) (b q : List Nat)
    (h : MAX_PATH_LEN - 12 < q.length + (a.flatMap (quote_unit lvl)).length) :
    bash_quote_loop lvl (a ++ c :: b) q = .error 13 := by
  induction a generalizing q with
  | nil => simp at h; simp [bash_quote_loop, h]
  | cons x a ih =>
    simp only [List.cons_append, bash_quote_loop]
    split_ifs
    · rfl
    · apply ih
      simp only [List.flatMap_cons, List.length_append] at h ⊢
      omega

theorem is_shell_meta_iff (c : Nat) : is_shell_meta c = true ↔ c ∈ shell_metacharacters := by
  simp [is_shell_meta, shell_metacharacters, or_assoc]

theorem map_mod_of_cstring (p : List Nat) (h : ∀ b ∈ p, b < 256) :
    p.map (fun b => b % 256) = p := by
  induction p with
  | nil => rfl
  | cons c rest ih =>
    have h1 := h c (List.mem_cons_self _ _)
    simp only [List.map_cons, Nat.mod_eq_of_lt h1]
    rw [ih (fun b hb => h b (List.mem_cons_of_mem _ hb))]

theorem parse_le_five (p : List Nat) (eu : Bool) :
    parse_for_display_level p LEVEL1 eu ≤ 5 := by
  have h := parse_le_of_bytes p LEVEL1 5 eu (by
    intro b _
    unfold byte_level level_step LEVEL2 LEVEL3 LEVEL4 LEVEL5
    split_ifs <;> omega)
  simpa [LEVEL1] using h

/-- The body of `lstime_format_path` with the always-true guard of the decode
removed and the two buffers named. -/
theorem lstime_format_path_unfold (libc : Libc) (p : List Nat) (eu dbg : Bool) :
    lstime_format_path libc p eu dbg =
      if libc.iconv_open_ok = false then .error 22
      else if DecodeOk libc p then
        if parse_for_display_level p LEVEL1 eu = 5 then bash_quote_cps (libc.iconv p).out 5
        else if p.length > MAX_PATH_LEN then .error 27
        else bash_quote_cps (p.map fun b => b % 256) (parse_for_display_level p LEVEL1 eu)
      else if p.length > MAX_PATH_LEN then .error 27
      else bash_quote_cps (p.map fun b => b % 256) 6 := by
  have h5 := parse_le_five p eu
  have hg : parse_for_display_level p LEVEL1 eu ≥ LEVEL3 ∨
      parse_for_display_level p LEVEL1 eu ≤ LEVEL5 := Or.inr h5
  unfold lstime_format_path format_path_resolve lstime_iconv copy_bytes_to_cps DecodeOk
  simp only [if_pos hg]
  by_cases ho : libc.iconv_open_ok = false
  · simp [ho]
  · simp only [ho, if_false]
    by_cases hd : (libc.iconv p).rc = 0 ∧ (libc.iconv p).in_size_left = 0
    · have hd2 : ¬ ((libc.iconv p).rc = SIZE_MAX ∨ (libc.iconv p).in_size_left ≠ 0 ∨
          (libc.iconv p).rc ≠ 0) := by
        rcases hd with ⟨h1, h2⟩
        simp [h1, h2, SIZE_MAX]
      simp only [if_neg hd2, if_pos hd]
      by_cases hl : parse_for_display_level p LEVEL1 eu = 5
      · simp [hl, LEVEL5]
      · by_cases hlen : p.length > MAX_PATH_LEN <;> simp [hl, LEVEL5, hlen]
    · have hd2 : ((libc.iconv p).rc = SIZE_MAX ∨ (libc.iconv p).in_size_left ≠ 0 ∨
          (libc.iconv p).rc ≠ 0) := by
        by_cases h1 : (libc.iconv p).rc = 0
        · right; left; intro h2; exact hd ⟨h1, h2⟩
        · right; right; exact h1
      have hm : max (parse_for_display_level p LEVEL1 eu) LEVEL6 = 6 := by
        unfold LEVEL6; omega
      simp only [if_pos hd2, if_neg hd]
      by_cases hlen : p.length > MAX_PATH_LEN <;> simp [hm, LEVEL5, hlen]

theorem bash_quote_cps_buf_eq (cps : List Nat) (lvl : Nat) (out : List Nat)
    (h : bash_quote_cps_buf cps lvl = .ok out) :
    out = quote_open lvl ++ cps.flatMap (quote_unit lvl) ++ quote_close lvl := by
  unfold bash_quote_cps_buf at h
  split at h
  · simp at h
  · rename_i q hq
    simp only [Except.ok.injEq] at h
    rw [← h, bash_quote_loop_eq _ _ _ _ hq]

theorem bash_quote_cps_buf_fits (cps : List Nat) (lvl : Nat)
    (h : (quote_open lvl).length + (cps.flatMap (quote_unit lvl)).length ≤ MAX_PATH_LEN - 12) :
    bash_quote_cps_buf cps lvl =
      .ok (quote_open lvl ++ cps.flatMap (quote_unit lvl) ++ quote_close lvl) := by
  unfold bash_quote_cps_buf
  rw [bash_quote_loop_fits _ _ _ h]

theorem bash_quote_cps_buf_overflow (lvl : Nat) (a : List Nat) (c : Nat) (b : List Nat)
    (h : MAX_PATH_LEN - 12 < (quote_open lvl).length + (a.flatMap (quote_unit lvl)).length) :
    bash_quote_cps_buf (a ++ c :: b) lvl = .error 13 := by
  unfold bash_quote_cps_buf
  rw [bash_quote_loop_overflow _ _ _ _ _ h]

theorem c_str_of_no_nul (s : List Nat) (h : ∀ x ∈ s, x ≠ 0) : c_str s = s := by
  unfold c_str
  rw [List.takeWhile_eq_self_iff]
  intro x hx
  simpa using h x hx

theorem c_str_no_nul (s : List Nat) : ∀ x ∈ c_str s, x ≠ 0 := by
  intro x hx
  have := List.mem_takeWhile_imp hx
  simpa using this

theorem c_str_length_le (s : List Nat) : (c_str s).length ≤ s.length := by
  unfold c_str
  exact (List.takeWhile_sublist _).length_le

theorem quote_frame_no_nul (lvl x : Nat) (hx : x ∈ quote_open lvl ∨ x ∈ quote_close lvl) :
    x ≠ 0 := by
  rcases hx with hx | hx
  · unfold quote_open at hx
    split_ifs at hx <;> simp at hx <;> omega
  · unfold quote_close at hx
    split_ifs at hx <;> simp at hx
    omega

/-- The frame and the encodings of the units hold no NUL when the encodings
hold none. -/
theorem framed_no_nul (cps : List Nat) (lvl : Nat)
    (hnz : ∀ x ∈ cps.flatMap (quote_unit lvl), x ≠ 0) :
    ∀ x ∈ quote_open lvl ++ cps.flatMap (quote_unit lvl) ++ quote_close lvl, x ≠ 0 := by
  intro x hx
  rw [List.mem_append, List.mem_append] at hx
  rcases hx with (hx | hx) | hx
  · exact quote_frame_no_nul lvl x (Or.inl hx)
  · exact hnz x hx
  · exact quote_frame_no_nul lvl x (Or.inr hx)

theorem bash_quote_cps_of_buf (cps : List Nat) (lvl : Nat) (w : List Nat)
    (h : bash_quote_cps_buf cps lvl = .ok w) : bash_quote_cps cps lvl = .ok (c_str w) := by
  unfold bash_quote_cps
  rw [h]

theorem bash_quote_cps_buf_of_ok (cps : List Nat) (lvl : Nat) (out : List Nat)
    (h : bash_quote_cps cps lvl = .ok out) :
    ∃ w, bash_quote_cps_buf cps lvl = .ok w ∧ out = c_str w := by
  unfold bash_quote_cps at h
  cases hb : bash_quote_cps_buf cps lvl with
  | error e => rw [hb] at h; exact Except.noConfusion h
  | ok w =>
    rw [hb] at h
    injection h with h
    exact ⟨w, rfl, h.symm⟩

theorem bash_quote_cps_error_iff (cps : List Nat) (lvl e : Nat) :
    bash_quote_cps cps lvl = .error e ↔ bash_quote_cps_buf cps lvl = .error e := by
  unfold bash_quote_cps
  cases hb : bash_quote_cps_buf cps lvl with
  | error e2 => exact ⟨fun h => h, fun h => h⟩
  | ok w => exact ⟨fun h => Except.noConfusion h, fun h => Except.noConfusion h⟩

/-- What `bash_quote_cps` returns is the framed text up to its first NUL. -/
theorem bash_quote_cps_str (cps : List Nat) (lvl : Nat) (out : List Nat)
    (h : bash_quote_cps cps lvl = .ok out) :
    out = c_str (quote_open lvl ++ cps.flatMap (quote_unit lvl) ++ quote_close lvl) := by
  obtain ⟨w, hw, ho⟩ := bash_quote_cps_buf_of_ok cps lvl out h
  rw [ho, bash_quote_cps_buf_eq _ _ _ hw]

theorem bash_quote_cps_eq (cps : List Nat) (lvl : Nat) (out : List Nat)
    (hnz : ∀ x ∈ cps.flatMap (quote_unit lvl), x ≠ 0)
    (h : bash_quote_cps cps lvl = .ok out) :
    out = quote_open lvl ++ cps.flatMap (quote_unit lvl) ++ quote_close lvl := by
  rw [bash_quote_cps_str _ _ _ h, c_str_of_no_nul _ (framed_no_nul _ _ hnz)]

theorem bash_quote_cps_fits (cps : List Nat) (lvl : Nat)
    (hnz : ∀ x ∈ cps.flatMap (quote_unit lvl), x ≠ 0)
    (h : (quote_open lvl).length + (cps.flatMap (quote_unit lvl)).length ≤ MAX_PATH_LEN - 12) :
    bash_quote_cps cps lvl =
      .ok (quote_open lvl ++ cps.flatMap (quote_unit lvl) ++ quote_close lvl) := by
  rw [bash_quote_cps_of_buf _ _ _ (bash_quote_cps_buf_fits _ _ h),
    c_str_of_no_nul _ (framed_no_nul _ _ hnz)]

theorem bash_quote_cps_overflow (lvl : Nat) (a : List Nat) (c : Nat) (b : List Nat)
    (h : MAX_PATH_LEN - 12 < (quote_open lvl).length + (a.flatMap (quote_unit lvl)).length) :
    bash_quote_cps (a ++ c :: b) lvl = .error 13 :=
  (bash_quote_cps_error_iff _ _ _).2 (bash_quote_cps_buf_overflow _ _ _ _ h)

theorem flatMap_quote_unit_verbatim (lvl : Nat) (hl : lvl ≤ 3) (p : List Nat)
    (hp : ∀ b ∈ p, b < 256) : p.flatMap (quote_unit lvl) = p := by
  induction p with
  | nil => rfl
  | cons c rest ih =>
    have h1 := hp c (List.mem_cons_self _ _)
    rw [List.flatMap_cons, ih (fun b hb => hp b (List.mem_cons_of_mem _ hb))]
    simp [quote_unit, LEVEL3, hl, Nat.mod_eq_of_lt h1]

theorem hex_eq_upper_hex_digit (d : Nat) (h : d < 16) : hex d = upper_hex_digit d := by
  interval_cases d <;> rfl

theorem printf_0X_four (c : Nat) (h : c ≤ 0xFFFF) :
    printf_0X 4 c = [upper_hex_digit (c / 4096), upper_hex_digit (c / 256 % 16),
      upper_hex_digit (c / 16 % 16), upper_hex_digit (c % 16)] := by
  rw [← hex_eq_upper_hex_digit _ (by omega), ← hex_eq_upper_hex_digit _ (by omega),
    ← hex_eq_upper_hex_digit _ (by omega), ← hex_eq_upper_hex_digit _ (by omega)]
  unfold printf_0X
  by_cases h0 : c = 0
  · subst h0; rfl
  · simp only [h0, if_false, hex_digits]
    by_cases h1 : c / 16 = 0
    · have e1 : c / 4096 = 0 := by omega
      have e2 : c / 256 % 16 = 0 := by omega
      have e3 : c / 16 % 16 = 0 := by omega
      simp [h1, e1, e2, e3, hex]
    · by_cases h2 : c / 16 / 16 = 0
      · have e1 : c / 4096 = 0 := by omega
        have e2 : c / 256 % 16 = 0 := by omega
        simp [h1, h2, e1, e2, hex]
      · by_cases h3 : c / 16 / 16 / 16 = 0
        · have e1 : c / 4096 = 0 := by omega
          have e2 : c / 16 / 16 % 16 = c / 256 % 16 := by omega
          simp [h1, h2, h3, e1, e2, hex]
        · have h4 : c / 16 / 16 / 16 / 16 = 0 := by omega
          have e1 : c / 16 / 16 / 16 % 16 = c / 4096 := by omega
          have e2 : c / 16 / 16 % 16 = c / 256 % 16 := by omega
          simp [h1, h2, h3, h4, e1, e2]

theorem printf_0X_eight (c : Nat) (h1 : 0xFFFF < c) (h2 : c < 2 ^ 32) :
    printf_0X 8 c = [upper_hex_digit (c / 268435456), upper_hex_digit (c / 16777216 % 16),
      upper_hex_digit (c / 1048576 % 16), upper_hex_digit (c / 65536 % 16),
      upper_hex_digit (c / 4096 % 16), upper_hex_digit (c / 256 % 16),
      upper_hex_digit (c / 16 % 16), upper_hex_digit (c % 16)] := by
  rw [← hex_eq_upper_hex_digit _ (by omega), ← hex_eq_upper_hex_digit _ (by omega),
    ← hex_eq_upper_hex_digit _ (by omega), ← hex_eq_upper_hex_digit _ (by omega),
    ← hex_eq_upper_hex_digit _ (by omega), ← hex_eq_upper_hex_digit _ (by omega),
    ← hex_eq_upper_hex_digit _ (by omega), ← hex_eq_upper_hex_digit _ (by omega)]
  unfold printf_0X
  have n0 : c ≠ 0 := by omega
  have n1 : c / 16 ≠ 0 := by omega
  have n2 : c / 16 / 16 ≠ 0 := by omega
  have n3 : c / 16 / 16 / 16 ≠ 0 := by omega
  have n4 : c / 16 / 16 / 16 / 16 ≠ 0 := by omega
  have e1 : c / 16 / 16 % 16 = c / 256 % 16 := by omega
  have e2 : c / 16 / 16 / 16 % 16 = c / 4096 % 16 := by omega
  have e3 : c / 16 / 16 / 16 / 16 % 16 = c / 65536 % 16 := by omega
  simp only [n0, n1, n2, n3, n4, if_false, hex_digits, e1, e2, e3]
  by_cases h5 : c / 16 / 16 / 16 / 16 / 16 = 0
  · have f1 : c / 268435456 = 0 := by omega
    have f2 : c / 16777216 % 16 = 0 := by omega
    have f3 : c / 1048576 % 16 = 0 := by omega
    simp [h5, f1, f2, f3, hex]
  · have e4 : c / 16 / 16 / 16 / 16 / 16 % 16 = c / 1048576 % 16 := by omega
    by_cases h6 : c / 16 / 16 / 16 / 16 / 16 / 16 = 0
    · have f1 : c / 268435456 = 0 := by omega
      have f2 : c / 16777216 % 16 = 0 := by omega
      simp [h5, h6, f1, f2, e4, hex]
    · have e5 : c / 16 / 16 / 16 / 16 / 16 / 16 % 16 = c / 16777216 % 16 := by omega
      by_cases h7 : c / 16 / 16 / 16 / 16 / 16 / 16 / 16 = 0
      · have f1 : c / 268435456 = 0 := by omega
        simp [h5, h6, h7, f1, e4, e5, hex]
      · have e6 : c / 16 / 16 / 16 / 16 / 16 / 16 / 16 % 16 = c / 268435456 := by omega
        simp [h5, h6, h7, e4, e5, e6]

theorem hex_shift_and (b : Nat) (h : b < 256) :
    hex (b >>> 4) = upper_hex_digit (b / 16) ∧ hex (b &&& 0x0F) = upper_hex_digit (b % 16) := by
  have h1 : b >>> 4 = b / 16 := by rw [Nat.shiftRight_eq_div_pow]
  have h2 : b &&& 0x0F = b % 16 := Nat.and_pow_two_sub_one_eq_mod b 4
  rw [h1, h2, hex_eq_upper_hex_digit _ (by omega), hex_eq_upper_hex_digit _ (by omega)]
  exact ⟨rfl, rfl⟩

theorem length_flatMap_replicate (f : Nat → List Nat) (n a : Nat) :
    ((List.replicate n a).flatMap f).length = n * (f a).length := by
  induction n with
  | zero => simp
  | succ n ih =>
    rw [List.replicate_succ, List.flatMap_cons, List.length_append, ih]
    ring

/-- The first part of `lstime_format_path` with the always-true guard of the
decode removed. -/
theorem format_path_resolve_unfold (libc : Libc) (p : List Nat) (eu dbg : Bool) :
    format_path_resolve libc p eu dbg =
      if libc.iconv_open_ok = false then .error 22
      else if DecodeOk libc p then
        if parse_for_display_level p LEVEL1 eu = 5 then .ok (5, (libc.iconv p).out)
        else if p.length > MAX_PATH_LEN then .error 27
        else .ok (parse_for_display_level p LEVEL1 eu, p.map fun b => b % 256)
      else if p.length > MAX_PATH_LEN then .error 27
      else .ok (6, p.map fun b => b % 256) := by
  have h5 := parse_le_five p eu
  have hg : parse_for_display_level p LEVEL1 eu ≥ LEVEL3 ∨
      parse_for_display_level p LEVEL1 eu ≤ LEVEL5 := Or.inr h5
  unfold format_path_resolve lstime_iconv copy_bytes_to_cps DecodeOk
  simp only [if_pos hg]
  by_cases ho : libc.iconv_open_ok = false
  · simp [ho]
  · simp only [ho, if_false]
    by_cases hd : (libc.iconv p).rc = 0 ∧ (libc.iconv p).in_size_left = 0
    · have hd2 : ¬ ((libc.iconv p).rc = SIZE_MAX ∨ (libc.iconv p).in_size_left ≠ 0 ∨
          (libc.iconv p).rc ≠ 0) := by
        rcases hd with ⟨h1, h2⟩
        simp [h1, h2, SIZE_MAX]
      simp only [if_neg hd2, if_pos hd]
      by_cases hl : parse_for_display_level p LEVEL1 eu = 5
      · simp [hl, LEVEL5]
      · by_cases hlen : p.length > MAX_PATH_LEN <;> simp [hl, LEVEL5, hlen]
    · have hd2 : ((libc.iconv p).rc = SIZE_MAX ∨ (libc.iconv p).in_size_left ≠ 0 ∨
          (libc.iconv p).rc ≠ 0) := by
        by_cases h1 : (libc.iconv p).rc = 0
        · right; left; intro h2; exact hd ⟨h1, h2⟩
        · right; right; exact h1
      have hm : max (parse_for_display_level p LEVEL1 eu) LEVEL6 = 6 := by
        unfold LEVEL6; omega
      simp only [if_pos hd2, if_neg hd]
      by_cases hlen : p.length > MAX_PATH_LEN <;> simp [hm, LEVEL5, hlen]

theorem not_shell_meta_of_high (b : Nat) (hb : 0x80 ≤ b) : ¬ (is_shell_meta b = true) := by
  rw [is_shell_meta_iff]; simp [shell_metacharacters]; omega

theorem not_shell_meta_of_trigger (b : Nat) (hb : b = 0x27 ∨ b < 0x20 ∨ b = 0x7F) :
    ¬ (is_shell_meta b = true) := by
  rw [is_shell_meta_iff]; simp [shell_metacharacters]; omega

theorem byte_level_high (eu : Bool) (b : Nat) (hb : 0x80 ≤ b) :
    byte_level eu b = if eu then 5 else 3 := by
  have hm := not_shell_meta_of_high b hb
  unfold byte_level level_step LEVEL2 LEVEL3 LEVEL4 LEVEL5
  cases eu <;> simp only [Bool.false_eq_true, if_false, if_true] <;> split_ifs <;> omega

theorem byte_level_trigger (eu : Bool) (b : Nat) (hb : b = 0x27 ∨ b < 0x20 ∨ b = 0x7F) :
    byte_level eu b = 4 := by
  have hm := not_shell_meta_of_trigger b hb
  unfold byte_level level_step LEVEL2 LEVEL3 LEVEL4 LEVEL5
  split_ifs <;> omega

theorem parse_level3 (p : List Nat)
    (hp : ∀ b ∈ p, 0x20 ≤ b ∧ b ≠ 0x7F ∧ b ≠ 0x27) (hh : ∃ b ∈ p, 0x80 ≤ b) :
    parse_for_display_level p LEVEL1 false = 3 := by
  have h1 := parse_le_of_bytes p LEVEL1 3 false (by
    intro b hb
    obtain ⟨h1, h2, h4⟩ := hp b hb
    unfold byte_level level_step LEVEL2 LEVEL3 LEVEL4 LEVEL5
    simp only [Bool.false_eq_true, if_false]
    split_ifs <;> omega)
  obtain ⟨b, hb, hb8⟩ := hh
  have h2 := parse_ge_byte p LEVEL1 false b hb
  rw [byte_level_high false b hb8] at h2
  unfold LEVEL1 at h1 h2 ⊢
  simp at h2
  omega

theorem parse_level5 (p : List Nat) (hh : ∃ b ∈ p, 0x80 ≤ b) :
    parse_for_display_level p LEVEL1 true = 5 := by
  obtain ⟨b, hb, hb8⟩ := hh
  have h2 := parse_ge_byte p LEVEL1 true b hb
  rw [byte_level_high true b hb8] at h2
  have h1 := parse_le_five p true
  simp at h2
  omega

theorem parse_le_four (p : List Nat) : parse_for_display_level p LEVEL1 false ≤ 4 := by
  have h := parse_le_of_bytes p LEVEL1 4 false (by
    intro b _
    unfold byte_level level_step LEVEL2 LEVEL3 LEVEL4 LEVEL5
    simp only [Bool.false_eq_true, if_false]
    split_ifs <;> omega)
  simpa [LEVEL1] using h

theorem parse_ge_four (p : List Nat) (eu : Bool)
    (ht : ∃ b ∈ p, b = 0x27 ∨ b < 0x20 ∨ b = 0x7F) :
    4 ≤ parse_for_display_level p LEVEL1 eu := by
  obtain ⟨b, hb, hb8⟩ := ht
  have h2 := parse_ge_byte p LEVEL1 eu b hb
  rw [byte_level_trigger eu b hb8] at h2
  exact h2

theorem parse_level4 (p : List Nat) (ht : ∃ b ∈ p, b = 0x27 ∨ b < 0x20 ∨ b = 0x7F) :
    parse_for_display_level p LEVEL1 false = 4 :=
  le_antisymm (parse_le_four p) (parse_ge_four p false ht)

theorem parse_no_high (p : List Nat) (eu : Bool) (hp : ∀ b ∈ p, b < 0x80) :
    parse_for_display_level p LEVEL1 eu ≤ 4 := by
  have h := parse_le_of_bytes p LEVEL1 4 eu (by
    intro b hb
    have := hp b hb
    unfold byte_level level_step LEVEL2 LEVEL3 LEVEL4 LEVEL5
    split_ifs <;> omega)
  simpa [LEVEL1] using h

theorem utf8_iconv_loop_ascii_cons (c : Nat) (rest out : List Nat) (hc : c < 0x80)
    (h : out.length < MAX_PATH_LEN) :
    utf8_iconv_loop (c :: rest) out = utf8_iconv_loop rest (out ++ [c]) := by
  rw [utf8_iconv_loop.eq_def]
  simp only []
  rw [if_neg (by omega), if_pos hc]

theorem utf8_iconv_loop_ascii (s t out : List Nat) (hs : ∀ b ∈ s, b < 0x80)
    (hlen : out.length + s.length ≤ MAX_PATH_LEN) :
    utf8_iconv_loop (s ++ t) out = utf8_iconv_loop t (out ++ s) := by
  induction s generalizing out with
  | nil => simp
  | cons c rest ih =>
    have hc := hs c (List.mem_cons_self _ _)
    simp only [List.length_cons] at hlen
    rw [List.cons_append, utf8_iconv_loop_ascii_cons c _ out hc (by omega),
      ih _ (fun b hb => hs b (List.mem_cons_of_mem _ hb))]
    · simp
    · simp only [List.length_append, List.length_singleton]; omega

theorem utf8_iconv_ascii (s : List Nat) (hs : ∀ b ∈ s, b < 0x80)
    (hlen : s.length ≤ MAX_PATH_LEN) : utf8_iconv s = ⟨0, 0, s⟩ := by
  have h := utf8_iconv_loop_ascii s [] [] hs (by simpa using hlen)
  simp only [List.append_nil, List.nil_append] at h
  unfold utf8_iconv
  rw [h, utf8_iconv_loop.eq_def]

/-- The reference decoder on the two bytes of U+03B1. -/
theorem utf8_iconv_loop_alpha (out : List Nat) (h : out.length < MAX_PATH_LEN) :
    utf8_iconv_loop [0xCE, 0xB1] out = ⟨0, 0, out ++ [0x3B1]⟩ := by
  rw [utf8_iconv_loop.eq_def]
  simp only []
  rw [if_neg (by omega), if_neg (by omega), if_pos (by omega), if_pos (by decide)]
  rw [utf8_iconv_loop.eq_def]

theorem utf8_iconv_loop_lone_ff (rest out : List Nat) :
    (utf8_iconv_loop (0xFF :: rest) out).rc = SIZE_MAX := by
  rw [utf8_iconv_loop.eq_def]
  simp only []
  split
  · rfl
  · rw [if_neg (by omega)]
    split
    · rfl
    · rw [if_neg (by omega)]
      split
      · rfl
      · rw [if_neg (by omega)]
        split
        · rfl
        · rw [if_neg (by omega)]

/-- The `default:` branch of the `switch` of `bash_quote_cps`: what the loop
appends at a level of 4 or more for a unit that has no named escape. -/
theorem quote_unit_default (lvl c : Nat) (hl : 4 ≤ lvl)
    (hn : c ∉ [0x07, 0x08, 0x1B, 0x0C, 0x0A, 0x0D, 0x09, 0x0B, 0x5C, 0x27, 0x22]) :
    quote_unit lvl c =
      if 0x20 ≤ c ∧ c ≤ 0x7E then [c % 256]
      else if lvl = 4 then
        if c ≤ 0x7F then bash_u_escape c else [c % 256]
      else if lvl = 5 then bash_u_escape c
      else if lvl = 6 then [0x5C, 0x78, hex (c >>> 4), hex (c &&& 0x0F)]
      else [] := by
  simp only [List.mem_cons, List.mem_singleton, List.not_mem_nil, or_false, not_or] at hn
  obtain ⟨n1, n2, n3, n4, n5, n6, n7, n8, n9, n10, n11⟩ := hn
  have h3 : ¬ lvl ≤ 3 := by omega
  unfold quote_unit LEVEL3 LEVEL4 LEVEL5 LEVEL6
  rw [if_neg h3, if_neg n1, if_neg n2, if_neg n3, if_neg n4, if_neg n5, if_neg n6, if_neg n7,
    if_neg n8, if_neg n9, if_neg n10, if_neg n11]

theorem not_named_of_high (c : Nat) (h : 0x80 ≤ c) :
    c ∉ [0x07, 0x08, 0x1B, 0x0C, 0x0A, 0x0D, 0x09, 0x0B, 0x5C, 0x27, 0x22] := by
  simp only [List.mem_cons, List.mem_singleton, List.not_mem_nil, or_false, not_or]
  omega

theorem quote_unit_hex (b : Nat) (h1 : 0x80 ≤ b) (h2 : b < 256) :
    quote_unit 6 b = [0x5C, 0x78, upper_hex_digit (b / 16), upper_hex_digit (b % 16)] := by
  obtain ⟨e1, e2⟩ := hex_shift_and b h2
  have hp : ¬ (0x20 ≤ b ∧ b ≤ 0x7E) := by omega
  rw [quote_unit_default 6 b (by omega) (not_named_of_high b h1), if_neg hp, e1, e2]
  rfl

theorem quote_unit_printable (lvl b : Nat) (h1 : 0x20 ≤ b) (h2 : b ≤ 0x7E)
    (h3 : b ≠ 0x5C) (h4 : b ≠ 0x27) (h5 : b ≠ 0x22) : quote_unit lvl b = [b] := by
  have hm : b % 256 = b := Nat.mod_eq_of_lt (by omega)
  by_cases hl : lvl ≤ LEVEL3
  · unfold quote_unit
    rw [if_pos hl, hm]
  · have hn : b ∉ [0x07, 0x08, 0x1B, 0x0C, 0x0A, 0x0D, 0x09, 0x0B, 0x5C, 0x27, 0x22] := by
      simp only [List.mem_cons, List.mem_singleton, List.not_mem_nil, or_false, not_or]
      omega
    rw [quote_unit_default lvl b (by unfold LEVEL3 at hl; omega) hn, if_pos ⟨h1, h2⟩, hm]

theorem utf8_libc_iconv (p : List Nat) : utf8_libc.iconv p = utf8_iconv p := rfl

/-- The reference decoder accepts `n` bytes `a` of ASCII followed by the two
bytes of U+03B1. -/
theorem utf8_iconv_ascii_alpha (n a : Nat) (ha : a < 0x80) (hn : n < MAX_PATH_LEN) :
    utf8_libc.iconv (List.replicate n a ++ [0xCE, 0xB1]) =
      ⟨0, 0, List.replicate n a ++ [0x3B1]⟩ := by
  rw [utf8_libc_iconv]
  unfold utf8_iconv
  rw [utf8_iconv_loop_ascii _ _ _ (by intro b hb; rw [List.eq_of_mem_replicate hb]; exact ha)
      (by rw [List.length_replicate]; simp; omega),
    utf8_iconv_loop_alpha _ (by rw [List.nil_append, List.length_replicate]; exact hn)]
  rfl

theorem to_unsigned_to_wchar (cp : Nat) : to_unsigned (to_wchar cp) = cp % 2 ^ 32 := by
  unfold to_unsigned to_wchar
  split_ifs <;> omega

/-- The function `bash_u_escape` on a unit below 2^31, which `wchar_t` holds
as it is. -/
theorem bash_u_escape_of_lt (cp : Nat) (h : cp < 2 ^ 31) :
    bash_u_escape cp =
      if cp ≤ 0xFFFF then [0x5C, 0x75] ++ printf_0X 4 cp else [0x5C, 0x55] ++ printf_0X 8 cp := by
  have hm : cp % 2 ^ 32 = cp := Nat.mod_eq_of_lt (by omega)
  have hw : (to_wchar cp ≤ 0xFFFF ↔ cp ≤ 0xFFFF) := by
    unfold to_wchar
    split_ifs <;> omega
  unfold bash_u_escape
  rw [to_unsigned_to_wchar, hm]
  by_cases hc : cp ≤ 0xFFFF
  · rw [if_pos (hw.2 hc), if_pos hc]
  · rw [if_neg (fun h2 => hc (hw.1 h2)), if_neg hc]

/-- The function `bash_u_escape` on a unit from 2^31 on, which `wchar_t`
holds as a negative number: backslash, `u` and the eight digits of the
unit. -/
theorem bash_u_escape_negative (cp : Nat) (h1 : 2 ^ 31 ≤ cp) (h2 : cp < 2 ^ 32) :
    bash_u_escape cp = [0x5C, 0x75] ++ printf_0X 4 cp := by
  have hm : cp % 2 ^ 32 = cp := Nat.mod_eq_of_lt h2
  have hw : to_wchar cp ≤ 0xFFFF := by
    unfold to_wchar
    split_ifs <;> omega
  unfold bash_u_escape
  rw [to_unsigned_to_wchar, hm, if_pos hw]

theorem quote_unit_u4 (c : Nat) (h1 : 0x80 ≤ c) (h2 : c ≤ 0xFFFF) :
    quote_unit 5 c = [0x5C, 0x75, upper_hex_digit (c / 4096), upper_hex_digit (c / 256 % 16),
      upper_hex_digit (c / 16 % 16), upper_hex_digit (c % 16)] := by
  have hp : ¬ (0x20 ≤ c ∧ c ≤ 0x7E) := by omega
  have h4 : ¬ ((5 : Nat) = 4) := by decide
  rw [quote_unit_default 5 c (by omega) (not_named_of_high c h1), if_neg hp, if_neg h4,
    if_pos rfl]
  rw [bash_u_escape_of_lt c (by omega), if_pos h2, printf_0X_four c h2]
  rfl

theorem quote_unit_U8 (c : Nat) (h1 : 0xFFFF < c) (h2 : c < 2 ^ 31) :
    quote_unit 5 c = [0x5C, 0x55, upper_hex_digit (c / 268435456),
      upper_hex_digit (c / 16777216 % 16), upper_hex_digit (c / 1048576 % 16),
      upper_hex_digit (c / 65536 % 16), upper_hex_digit (c / 4096 % 16),
      upper_hex_digit (c / 256 % 16), upper_hex_digit (c / 16 % 16),
      upper_hex_digit (c % 16)] := by
  have hp : ¬ (0x20 ≤ c ∧ c ≤ 0x7E) := by omega
  have h4 : ¬ ((5 : Nat) = 4) := by decide
  have hbig : ¬ (c ≤ 0xFFFF) := by omega
  rw [quote_unit_default 5 c (by omega) (not_named_of_high c (by omega)), if_neg hp,
    if_neg h4, if_pos rfl]
  rw [bash_u_escape_of_lt c h2, if_neg hbig, printf_0X_eight c h1 (by omega)]
  rfl

theorem quote_unit_single_quote (lvl : Nat) (h : 4 ≤ lvl) :
    quote_unit lvl 0x27 = [0x5C, 0x27] := by
  unfold quote_unit LEVEL3
  rw [if_neg (by omega)]
  rfl

theorem quote_unit_ascii (lvl b : Nat) (h : 4 ≤ lvl) (h1 : 0x20 ≤ b) (h2 : b ≤ 0x7E) :
    quote_unit lvl b = backslash_escape b := by
  unfold backslash_escape
  by_cases e1 : b = 0x5C
  · subst e1; unfold quote_unit LEVEL3; rw [if_neg (by omega)]; rfl
  · by_cases e2 : b = 0x27
    · subst e2; unfold quote_unit LEVEL3; rw [if_neg (by omega)]; rfl
    · by_cases e3 : b = 0x22
      · subst e3; unfold quote_unit LEVEL3; rw [if_neg (by omega)]; rfl
      · rw [quote_unit_printable lvl b h1 h2 e1 e2 e3, if_neg (by omega)]

theorem flatMap_quote_unit_ascii (lvl : Nat) (h : 4 ≤ lvl) (p : List Nat)
    (hp : ∀ b ∈ p, 0x20 ≤ b ∧ b ≤ 0x7E) :
    p.flatMap (quote_unit lvl) = p.flatMap backslash_escape := by
  induction p with
  | nil => rfl
  | cons c rest ih =>
    have hc := hp c (List.mem_cons_self _ _)
    rw [List.flatMap_cons, List.flatMap_cons,
      ih (fun b hb => hp b (List.mem_cons_of_mem _ hb)), quote_unit_ascii lvl c h hc.1 hc.2]

theorem quote_frame_escaped (lvl : Nat) (h : 4 ≤ lvl) :
    quote_open lvl = [0x24, 0x27] ∧ quote_close lvl = [0x27] := by
  unfold quote_open quote_close LEVEL2 LEVEL4
  rw [if_pos (by omega : lvl ≥ 4), if_pos (by omega : lvl ≥ 2)]
  exact ⟨rfl, rfl⟩

/-- The reference decoder accepts `n <= 8192` copies of an ASCII byte. -/
theorem utf8_iconv_ascii_replicate (n a : Nat) (ha : a < 0x80) (hn : n ≤ MAX_PATH_LEN) :
    utf8_libc.iconv (List.replicate n a) = ⟨0, 0, List.replicate n a⟩ := by
  rw [utf8_libc_iconv]
  exact utf8_iconv_ascii _ (by intro b hb; rw [List.eq_of_mem_replicate hb]; exact ha)
    (by rw [List.length_replicate]; exact hn)

theorem upper_hex_digit_range (d : Nat) (h : d < 16) :
    0x30 ≤ upper_hex_digit d ∧ upper_hex_digit d ≤ 0x46 := by
  unfold upper_hex_digit
  split_ifs <;> omega

theorem hex_digits_range (fuel n x : Nat) (hx : x ∈ hex_digits fuel n) :
    0x30 ≤ x ∧ x ≤ 0x46 := by
  induction fuel generalizing n with
  | zero => simp [hex_digits] at hx
  | succ f ih =>
    simp only [hex_digits] at hx
    split_ifs at hx
    · simp at hx
    · rcases List.mem_append.1 hx with h | h
      · exact ih _ h
      · rw [List.mem_singleton] at h
        rw [h, hex_eq_upper_hex_digit _ (Nat.mod_lt _ (by omega))]
        exact upper_hex_digit_range _ (Nat.mod_lt _ (by omega))

theorem printf_0X_range (w n x : Nat) (hx : x ∈ printf_0X w n) : 0x30 ≤ x ∧ x ≤ 0x46 := by
  unfold printf_0X at hx
  simp only [] at hx
  rcases List.mem_append.1 hx with h | h
  · rw [List.eq_of_mem_replicate h]; omega
  · split_ifs at h
    · rw [List.mem_singleton] at h; omega
    · exact hex_digits_range _ _ _ h

theorem bash_u_escape_range (c x : Nat) (hx : x ∈ bash_u_escape c) : 0x30 ≤ x ∧ x ≤ 0x75 := by
  unfold bash_u_escape at hx
  split_ifs at hx
  · rcases List.mem_append.1 hx with h | h
    · simp at h; omega
    · have := printf_0X_range _ _ _ h; omega
  · rcases List.mem_append.1 hx with h | h
    · simp at h; omega
    · have := printf_0X_range _ _ _ h; omega

/-- At the levels 4 to 6 the rendering of a unit holds no control byte; at the
levels 4 and 6 the unit is a byte. -/
theorem quote_unit_no_control (lvl c : Nat) (hl : lvl = 4 ∨ lvl = 5 ∨ lvl = 6)
    (hc : lvl ≠ 5 → c < 256) (x : Nat) (hx : x ∈ quote_unit lvl c) :
    0x20 ≤ x ∧ x ≠ 0x7F := by
  by_cases hn : c = 0x07 ∨ c = 0x08 ∨ c = 0x1B ∨ c = 0x0C ∨ c = 0x0A ∨ c = 0x0D ∨ c = 0x09 ∨
      c = 0x0B ∨ c = 0x5C ∨ c = 0x27 ∨ c = 0x22
  · have h2 : x = 0x5C ∨ x = 0x61 ∨ x = 0x62 ∨ x = 0x45 ∨ x = 0x66 ∨ x = 0x6E ∨ x = 0x72 ∨
        x = 0x74 ∨ x = 0x76 ∨ x = 0x27 ∨ x = 0x22 := by
      rcases hl with h | h | h <;> subst h <;>
        rcases hn with h | h | h | h | h | h | h | h | h | h | h <;> subst h <;>
        simp [quote_unit, LEVEL3] at hx <;> omega
    omega
  · have hn2 : ¬ c = 0x07 ∧ ¬ c = 0x08 ∧ ¬ c = 0x1B ∧ ¬ c = 0x0C ∧ ¬ c = 0x0A ∧ ¬ c = 0x0D ∧
        ¬ c = 0x09 ∧ ¬ c = 0x0B ∧ ¬ c = 0x5C ∧ ¬ c = 0x27 ∧ ¬ c = 0x22 := by omega
    obtain ⟨n1, n2, n3, n4, n5, n6, n7, n8, n9, n10, n11⟩ := hn2
    have h3 : ¬ lvl ≤ LEVEL3 := by unfold LEVEL3; omega
    unfold quote_unit at hx
    rw [if_neg h3, if_neg n1, if_neg n2, if_neg n3, if_neg n4, if_neg n5, if_neg n6, if_neg n7,
      if_neg n8, if_neg n9, if_neg n10, if_neg n11] at hx
    by_cases hp : 0x20 ≤ c ∧ c ≤ 0x7E
    · rw [if_pos hp, List.mem_singleton, Nat.mod_eq_of_lt (by omega)] at hx
      omega
    · rw [if_neg hp] at hx
      unfold LEVEL4 LEVEL5 LEVEL6 at hx
      rcases hl with h | h | h <;> subst h
      · have hc2 := hc (by omega)
        rw [if_pos rfl] at hx
        split_ifs at hx
        · have := bash_u_escape_range _ _ hx; omega
        · rw [List.mem_singleton, Nat.mod_eq_of_lt hc2] at hx; omega
      · rw [if_neg (by omega), if_pos rfl] at hx
        have := bash_u_escape_range _ _ hx; omega
      · have hc2 := hc (by omega)
        obtain ⟨e1, e2⟩ := hex_shift_and c hc2
        rw [if_neg (by omega), if_neg (by omega), if_pos rfl, e1, e2] at hx
        have r1 := upper_hex_digit_range (c / 16) (by omega)
        have r2 := upper_hex_digit_range (c % 16) (by omega)
        simp only [List.mem_cons, List.mem_singleton, List.not_mem_nil, or_false] at hx
        rcases hx with h | h | h | h <;> omega

theorem flatMap_quote_unit_no_control (lvl : Nat) (units : List Nat)
    (hl : lvl = 4 ∨ lvl = 5 ∨ lvl = 6) (hc : lvl ≠ 5 → ∀ c ∈ units, c < 256) (x : Nat)
    (hx : x ∈ units.flatMap (quote_unit lvl)) : 0x20 ≤ x ∧ x ≠ 0x7F := by
  obtain ⟨c, hcm, hxc⟩ := List.mem_flatMap.1 hx
  exact quote_unit_no_control lvl c hl (fun h => hc h c hcm) x hxc

/-- When the first part of `lstime_format_path` yields a level and units whose
renderings leave the 12-byte margin of the output buffer free, the call
returns the framed renderings. -/
theorem lstime_format_path_fits (libc : Libc) (p : List Nat) (eu dbg : Bool)
    (lvl : Nat) (units : List Nat)
    (hr : format_path_resolve libc p eu dbg = .ok (lvl, units))
    (hnz : ∀ x ∈ units.flatMap (quote_unit lvl), x ≠ 0)
    (hfit : (quote_open lvl).length + (units.flatMap (quote_unit lvl)).length
      ≤ MAX_PATH_LEN - 12) :
    lstime_format_path libc p eu dbg =
      .ok (quote_open lvl ++ units.flatMap (quote_unit lvl) ++ quote_close lvl) := by
  unfold lstime_format_path
  rw [hr]
  exact bash_quote_cps_fits _ _ hnz hfit

theorem quote_unit_control (lvl c : Nat) (hl : lvl = 4 ∨ lvl = 5)
    (hc : c < 0x20 ∨ c = 0x7F)
    (hn : c ≠ 0x07 ∧ c ≠ 0x08 ∧ c ≠ 0x1B ∧ c ≠ 0x0C ∧ c ≠ 0x0A ∧ c ≠ 0x0D ∧ c ≠ 0x09 ∧
      c ≠ 0x0B) :
    quote_unit lvl c =
      [0x5C, 0x75, 0x30, 0x30, upper_hex_digit (c / 16), upper_hex_digit (c % 16)] := by
  obtain ⟨n1, n2, n3, n4, n5, n6, n7, n8⟩ := hn
  have h3 : ¬ lvl ≤ LEVEL3 := by unfold LEVEL3; omega
  have hb : bash_u_escape c =
      [0x5C, 0x75, 0x30, 0x30, upper_hex_digit (c / 16), upper_hex_digit (c % 16)] := by
    rw [bash_u_escape_of_lt c (by omega), if_pos (by omega), printf_0X_four c (by omega)]
    have e1 : c / 4096 = 0 := by omega
    have e2 : c / 256 % 16 = 0 := by omega
    have e3 : c / 16 % 16 = c / 16 := by omega
    rw [e1, e2, e3]
    rfl
  unfold quote_unit
  rw [if_neg h3, if_neg n1, if_neg n2, if_neg n3, if_neg n4, if_neg n5, if_neg n6, if_neg n7,
    if_neg n8, if_neg (by omega), if_neg (by omega), if_neg (by omega), if_neg (by omega)]
  unfold LEVEL4 LEVEL5
  rcases hl with h | h <;> subst h
  · rw [if_pos rfl, if_pos (by omega), hb]
  · rw [if_neg (by omega), if_pos rfl, hb]

theorem quote_unit_high_level4 (b : Nat) (h1 : 0x80 ≤ b) (h2 : b < 256) :
    quote_unit 4 b = [b] := by
  have hp : ¬ (0x20 ≤ b ∧ b ≤ 0x7E) := by omega
  have hc : ¬ (b ≤ 0x7F) := by omega
  rw [quote_unit_default 4 b (by omega) (not_named_of_high b h1), if_neg hp,
    if_pos rfl, if_neg hc, Nat.mod_eq_of_lt h2]

/-- The encodings of the units hold no NUL when the level is 5 or the units
are nonzero bytes. -/
theorem flatMap_quote_unit_no_nul (units : List Nat) (lvl : Nat)
    (h : lvl = 5 ∨ ∀ u ∈ units, 0 < u ∧ u < 256) :
    ∀ x ∈ units.flatMap (quote_unit lvl), x ≠ 0 := by
  intro x hx
  obtain ⟨u, hu, hxu⟩ := List.mem_flatMap.1 hx
  by_cases h3 : lvl ≤ LEVEL3
  · have hb : 0 < u ∧ u < 256 := by
      rcases h with h5 | hb
      · unfold LEVEL3 at h3; omega
      · exact hb u hu
    unfold quote_unit at hxu
    rw [if_pos h3, List.mem_singleton, Nat.mod_eq_of_lt hb.2] at hxu
    omega
  · by_cases h6 : lvl ≤ 6
    · have := quote_unit_no_control lvl u (by unfold LEVEL3 at h3; omega) (fun h5 => by
        rcases h with h5b | hb
        · exact absurd h5b h5
        · exact (hb u hu).2) x hxu
      omega
    · by_cases hn : u ∈ [0x07, 0x08, 0x1B, 0x0C, 0x0A, 0x0D, 0x09, 0x0B, 0x5C, 0x27, 0x22]
      · have h2 : x = 0x5C ∨ x = 0x61 ∨ x = 0x62 ∨ x = 0x45 ∨ x = 0x66 ∨ x = 0x6E ∨
            x = 0x72 ∨ x = 0x74 ∨ x = 0x76 ∨ x = 0x27 ∨ x = 0x22 := by
          simp only [List.mem_cons, List.mem_singleton, List.not_mem_nil, or_false] at hn
          unfold quote_unit at hxu
          rw [if_neg h3] at hxu
          rcases hn with e | e | e | e | e | e | e | e | e | e | e <;> subst e <;>
            simp at hxu <;> omega
        omega
      · rw [quote_unit_default lvl u (by omega) hn] at hxu
        by_cases hp : 0x20 ≤ u ∧ u ≤ 0x7E
        · rw [if_pos hp, List.mem_singleton, Nat.mod_eq_of_lt (by omega)] at hxu
          omega
        · rw [if_neg hp, if_neg (by omega), if_neg (by omega), if_neg (by omega)] at hxu
          simp at hxu

/-- What `lstime_format_path` returns, when it returns: the frame and the
renderings of the units at the resolved level, the units being the decoded
codepoints at level 5 and the raw bytes otherwise. -/
theorem lstime_format_path_ok (libc : Libc) (p : List Nat) (eu dbg : Bool)
    (hp : IsCString p) (out : List Nat) (h : lstime_format_path libc p eu dbg = .ok out) :
    ∃ lvl units,
      (lvl = parse_for_display_level p LEVEL1 eu ∧ DecodeOk libc p ∨
        lvl = 6 ∧ ¬ DecodeOk libc p) ∧
      (lvl ≠ 5 → units = p) ∧ (lvl = 5 → units = (libc.iconv p).out) ∧
      out = quote_open lvl ++ units.flatMap (quote_unit lvl) ++ quote_close lvl := by
  have hmap := map_mod_of_cstring p (fun b hb => (hp b hb).2)
  rw [lstime_format_path_unfold, hmap] at h
  by_cases ho : libc.iconv_open_ok = false
  · rw [if_pos ho] at h; exact absurd h (by simp)
  · rw [if_neg ho] at h
    by_cases hd : DecodeOk libc p
    · rw [if_pos hd] at h
      by_cases hl : parse_for_display_level p LEVEL1 eu = 5
      · rw [if_pos hl] at h
        exact ⟨5, (libc.iconv p).out, Or.inl ⟨hl.symm, hd⟩, fun x => absurd rfl x,
          fun _ => rfl,
          bash_quote_cps_eq _ _ _ (flatMap_quote_unit_no_nul _ 5 (Or.inl rfl)) h⟩
      · rw [if_neg hl] at h
        split_ifs at h
        exact ⟨_, p, Or.inl ⟨rfl, hd⟩, fun _ => rfl, fun x => absurd x hl,
          bash_quote_cps_eq _ _ _ (flatMap_quote_unit_no_nul _ _ (Or.inr hp)) h⟩
    · rw [if_neg hd] at h
      split_ifs at h
      exact ⟨6, p, Or.inr ⟨rfl, hd⟩, fun _ => rfl, fun x => absurd x (by omega),
        bash_quote_cps_eq _ _ _ (flatMap_quote_unit_no_nul _ 6 (Or.inr hp)) h⟩

theorem decimal_field_length (w m : Nat) : (decimal_field w m).length = w := by
  induction w generalizing m with
  | zero => rfl
  | succ w ih => simp [decimal_field, ih]

theorem decimal_field_zero (w : Nat) : decimal_field w 0 = List.replicate w 0x30 := by
  induction w with
  | zero => rfl
  | succ w ih =>
    simp only [decimal_field, Nat.zero_div, Nat.zero_mod, Nat.add_zero, ih]
    exact (List.replicate_succ' w 0x30).symm

theorem dec_digits_zero (fuel : Nat) : dec_digits fuel 0 = [] := by
  cases fuel <;> simp [dec_digits]

/-- Padding the digits of `n < 10 ^ k` with zeros to `k` characters gives the
`k`-digit field of `n`. -/
theorem dec_digits_padded (k : Nat) : ∀ fuel n, k ≤ fuel → n < 10 ^ k →
    (dec_digits fuel n).length ≤ k ∧
    List.replicate (k - (dec_digits fuel n).length) 0x30 ++ dec_digits fuel n =
      decimal_field k n := by
  induction k with
  | zero =>
    intro fuel n _ hn
    have h0 : n = 0 := by simpa using hn
    subst h0
    rw [dec_digits_zero]
    exact ⟨Nat.le_refl _, rfl⟩
  | succ k ih =>
    intro fuel n hf hn
    obtain ⟨f, rfl⟩ : ∃ f, fuel = f + 1 := ⟨fuel - 1, by omega⟩
    by_cases h0 : n = 0
    · subst h0
      rw [dec_digits_zero, decimal_field_zero]
      exact ⟨Nat.zero_le _, by simp⟩
    · have hn10 : n / 10 < 10 ^ k := by
        rw [Nat.div_lt_iff_lt_mul (by omega)]
        rw [pow_succ] at hn
        exact hn
      obtain ⟨h1, h2⟩ := ih f (n / 10) (by omega) hn10
      simp only [dec_digits, if_neg h0, List.length_append, List.length_singleton, decimal_field]
      refine ⟨by omega, ?_⟩
      rw [← h2, show k + 1 - ((dec_digits f (n / 10)).length + 1) =
        k - (dec_digits f (n / 10)).length by omega, List.append_assoc]

theorem printf_09ld_eq (n : Nat) (hn : n ≤ 999999999) :
    printf_09ld (n : Int) = decimal_field 9 n := by
  unfold printf_09ld
  simp only [Int.natAbs_ofNat]
  rw [if_neg (by omega)]
  by_cases h0 : n = 0
  · subst h0; rfl
  · rw [if_neg h0]
    exact (dec_digits_padded 9 19 n (by omega) (by omega)).2

theorem decimal_field_take (a b n : Nat) :
    (decimal_field (a + b) n).take a = decimal_field a (n / 10 ^ b) := by
  induction b generalizing n with
  | zero => simp [decimal_field_length]
  | succ b ih =>
    rw [show a + (b + 1) = (a + b) + 1 by omega, decimal_field,
      List.take_append_of_le_length (by rw [decimal_field_length]; omega), ih,
      Nat.div_div_eq_div_mul, pow_succ, Nat.mul_comm]

theorem dropWhile_flags_append (fs t : List Nat) (hfs : ∀ c ∈ fs, is_flag c = true) :
    (fs ++ t).dropWhile is_flag = t.dropWhile is_flag := by
  induction fs with
  | nil => rfl
  | cons c fs ih =>
    rw [List.cons_append, List.dropWhile_cons, hfs c (List.mem_cons_self _ _)]
    exact ih (fun b hb => hfs b (List.mem_cons_of_mem _ hb))

theorem foldl_decimal_ge (ds : List Nat) (a : Nat) :
    a * 10 ^ ds.length ≤ ds.foldl (fun a d => 10 * a + (d - 0x30)) a := by
  induction ds generalizing a with
  | nil => simp
  | cons d ds ih =>
    simp only [List.foldl_cons, List.length_cons]
    refine le_trans ?_ (ih _)
    rw [pow_succ, ← Nat.mul_assoc, Nat.mul_right_comm]
    exact Nat.mul_le_mul_right _ (by omega)

/-- Skipping the flags in front of a run of digits followed by `t` removes the
leading zeros of the run: what is left is a width `ws2` that does not start
with `0`, of the same value, then `t`. -/
theorem dropWhile_flags_digits (ws t : List Nat) (hws : ∀ c ∈ ws, 0x30 ≤ c ∧ c ≤ 0x39)
    (ht : ∀ c, t.head? = some c → is_flag c = false) :
    ∃ ws2, (ws ++ t).dropWhile is_flag = ws2 ++ t ∧
      (∀ c ∈ ws2, 0x30 ≤ c ∧ c ≤ 0x39) ∧ ws2.head? ≠ some 0x30 ∧
      decimal_value ws2 = decimal_value ws := by
  induction ws with
  | nil =>
    refine ⟨[], ?_, by simp, by simp, rfl⟩
    cases t with
    | nil => rfl
    | cons c r => rw [List.nil_append, List.dropWhile_cons, ht c rfl]; rfl
  | cons d ws ih =>
    by_cases hd : d = 0x30
    · subst hd
      obtain ⟨ws2, h1, h2, h3, h4⟩ := ih (fun c hc => hws c (List.mem_cons_of_mem _ hc))
      refine ⟨ws2, ?_, h2, h3, ?_⟩
      · rw [List.cons_append, List.dropWhile_cons, show is_flag 0x30 = true from rfl]
        exact h1
      · rw [h4]; simp [decimal_value]
    · have hdr := hws d (List.mem_cons_self _ _)
      have hf : is_flag d = false := by
        simp only [is_flag, Bool.or_eq_false_iff, beq_eq_false_iff_ne]
        omega
      refine ⟨d :: ws, ?_, hws, by simpa using hd, rfl⟩
      rw [List.cons_append, List.dropWhile_cons, hf]
      rfl

theorem span_digits_append (ws t : List Nat) (hws : ∀ c ∈ ws, 0x30 ≤ c ∧ c ≤ 0x39)
    (ht : ∀ c, t.head? = some c → is_digit c = false) :
    (ws ++ t).takeWhile is_digit = ws ∧ (ws ++ t).dropWhile is_digit = t := by
  induction ws with
  | nil =>
    cases t with
    | nil => exact ⟨rfl, rfl⟩
    | cons c r =>
      simp only [List.nil_append, List.takeWhile_cons, List.dropWhile_cons, ht c rfl]
      exact ⟨rfl, rfl⟩
  | cons d ws ih =>
    have hd : is_digit d = true := by
      have := hws d (List.mem_cons_self _ _)
      simp [is_digit]; omega
    obtain ⟨h1, h2⟩ := ih (fun c hc => hws c (List.mem_cons_of_mem _ hc))
    simp [List.takeWhile_cons, List.dropWhile_cons, hd, h1, h2]

/-- The width the code uses, from a width that does not start with `0`. -/
theorem nano_width_eq (ws2 : List Nat) (h2 : ∀ c ∈ ws2, 0x30 ≤ c ∧ c ≤ 0x39)
    (h3 : ws2.head? ≠ some 0x30) : nano_width ws2 = subsecond_count ws2 := by
  unfold subsecond_count
  match ws2, h2, h3 with
  | [], _, _ => rfl
  | [w], h2, h3 =>
    have := h2 w (List.mem_cons_self _ _)
    have hw : w ≠ 0x30 := by simpa using h3
    simp only [decimal_value, List.foldl_cons, List.foldl_nil, nano_width]
    rw [if_neg (by omega)]
    omega
  | w :: v :: r, h2, h3 =>
    have := h2 w (List.mem_cons_self _ _)
    have hw : w ≠ 0x30 := by simpa using h3
    have hge := foldl_decimal_ge (v :: r) (10 * 0 + (w - 0x30))
    have hp : 10 ≤ 10 ^ (v :: r).length := by
      rw [List.length_cons, pow_succ]
      have := Nat.one_le_pow r.length 10 (by omega)
      omega
    have h10 : 10 ≤ decimal_value (w :: v :: r) := by
      unfold decimal_value
      rw [List.foldl_cons]
      refine le_trans ?_ hge
      calc 10 ≤ 1 * 10 ^ (v :: r).length := by omega
        _ ≤ (10 * 0 + (w - 0x30)) * 10 ^ (v :: r).length :=
          Nat.mul_le_mul_right _ (by omega)
    simp only [nano_width]
    rw [if_neg (by omega)]
    omega

/-- One iteration of the loop on a `%N` directive with flags `fs`, width `ws`
and modifier `md`, in any context. -/
theorem preprocess_loop_subsecond (zbuf : List Nat) (nsec : Int) (fuel : Nat)
    (fs ws md rest buf : List Nat)
    (hfs : ∀ c ∈ fs, is_flag c = true) (hws : ∀ c ∈ ws, 0x30 ≤ c ∧ c ≤ 0x39)
    (hmd : md = [] ∨ md = [0x45] ∨ md = [0x4F]) :
    preprocess_loop zbuf nsec (fuel + 1) (0x25 :: (fs ++ (ws ++ (md ++ 0x4E :: rest)))) buf =
      if buf.length > MAX_TIME_LEN - 1 - 10 then .error 16
      else if (printf_09ld nsec).length ≠ 9 then .error 21
      else preprocess_loop zbuf nsec fuel rest
        (buf ++ (printf_09ld nsec).take (subsecond_count ws)) := by
  have hthead : ∀ c, (md ++ 0x4E :: rest).head? = some c → c = 0x45 ∨ c = 0x4F ∨ c = 0x4E := by
    intro c hc
    rcases hmd with h | h | h <;> subst h <;> simp at hc <;> omega
  obtain ⟨ws2, h1, h2, h3, h4⟩ := dropWhile_flags_digits ws (md ++ 0x4E :: rest) hws
    (fun c hc => by rcases hthead c hc with h | h | h <;> subst h <;> rfl)
  obtain ⟨h5, h6⟩ := span_digits_append ws2 (md ++ 0x4E :: rest) h2
    (fun c hc => by rcases hthead c hc with h | h | h <;> subst h <;> rfl)
  have h7 : skip_modifier (md ++ 0x4E :: rest) = 0x4E :: rest := by
    rcases hmd with h | h | h <;> subst h <;> rfl
  have h8 : subsecond_count ws2 = subsecond_count ws := by
    unfold subsecond_count; rw [h4]
  rw [preprocess_loop, if_pos rfl]
  simp only [dropWhile_flags_append fs _ hfs, h1, h5, h6, h7, if_true,
    nano_width_eq ws2 h2 h3, h8]

theorem subsecond_count_single (w : Nat) (hw1 : 1 ≤ w) (hw9 : w ≤ 9) :
    subsecond_count [0x30 + w] = w := by
  unfold subsecond_count decimal_value
  simp only [List.foldl_cons, List.foldl_nil]
  rw [if_neg (by omega)]
  omega

theorem subsecond_count_range (ws : List Nat) :
    1 ≤ subsecond_count ws ∧ subsecond_count ws ≤ 9 := by
  unfold subsecond_count
  split_ifs <;> omega

theorem length_dropWhile_le_self (f : Nat → Bool) (l : List Nat) :
    (l.dropWhile f).length ≤ l.length := by
  induction l with
  | nil => simp
  | cons a l ih =>
    rw [List.dropWhile_cons]
    split
    · exact le_trans ih (by simp)
    · exact Nat.le_refl _

theorem length_skip_modifier_le (l : List Nat) : (skip_modifier l).length ≤ l.length := by
  cases l with
  | nil => simp [skip_modifier]
  | cons a l =>
    simp only [skip_modifier]
    split <;> simp

/-- What is left of the format after the letter of a directive is shorter
than what follows the `%`. -/
theorem length_after_spec (rest : List Nat) (spec_letter : Nat) (ptr : List Nat)
    (h : skip_modifier ((rest.dropWhile is_flag).dropWhile is_digit) = spec_letter :: ptr) :
    ptr.length < rest.length := by
  have h1 := length_skip_modifier_le ((rest.dropWhile is_flag).dropWhile is_digit)
  have h2 := length_dropWhile_le_self is_digit (rest.dropWhile is_flag)
  have h3 := length_dropWhile_le_self is_flag rest
  rw [h, List.length_cons] at h1
  omega

/-- The result of the loop does not depend on the fuel, once there is one unit
of fuel per byte of the format: `preprocess_time_format` never runs out. -/
theorem preprocess_loop_fuel (zbuf : List Nat) (nsec : Int) (fuel1 : Nat) :
    ∀ (fuel2 : Nat) (ptr buf : List Nat), ptr.length ≤ fuel1 → ptr.length ≤ fuel2 →
      preprocess_loop zbuf nsec fuel1 ptr buf = preprocess_loop zbuf nsec fuel2 ptr buf := by
  induction fuel1 with
  | zero =>
    intro fuel2 ptr buf h1 _
    have : ptr = [] := List.length_eq_zero.1 (by omega)
    subst this
    simp [preprocess_loop]
  | succ f1 ih =>
    intro fuel2 ptr buf h1 h2
    cases ptr with
    | nil => simp [preprocess_loop]
    | cons c rest =>
      obtain ⟨f2, rfl⟩ : ∃ f2, fuel2 = f2 + 1 := ⟨fuel2 - 1, by simp at h2; omega⟩
      simp only [List.length_cons] at h1 h2
      conv_lhs => rw [preprocess_loop]
      conv_rhs => rw [preprocess_loop]
      by_cases hc : c = 0x25
      · simp only [if_pos hc]
        split
        · rw [ih f2 [] _ (by simp) (by simp)]
        · rename_i spec_letter ptr hm
          have hlt := length_after_spec rest spec_letter ptr hm
          have ht : ptr.tail.length ≤ ptr.length := by simp
          rw [ih f2 ptr _ (by omega) (by omega), ih f2 ptr.tail _ (by omega) (by omega),
            ih f2 ptr _ (by omega) (by omega)]
      · simp only [if_neg hc]
        rw [ih f2 rest _ (by omega) (by omega)]

/-- With one unit of fuel per byte of the format the loop never stops for
lack of fuel. -/
theorem preprocess_loop_fuel_enough (zbuf : List Nat) (nsec : Int) (fuel : Nat) :
    ∀ (ptr buf : List Nat), ptr.length ≤ fuel →
      preprocess_loop zbuf nsec fuel ptr buf ≠ .error 0 := by
  induction fuel with
  | zero =>
    intro ptr buf h
    have : ptr = [] := List.length_eq_zero.1 (by omega)
    subst this
    simp [preprocess_loop]
  | succ f ih =>
    intro ptr buf h
    cases ptr with
    | nil => simp [preprocess_loop]
    | cons c rest =>
      simp only [List.length_cons] at h
      rw [preprocess_loop]
      by_cases hc : c = 0x25
      · simp only [if_pos hc]
        split
        · split
          · simp
          · exact ih [] _ (by simp)
        · rename_i spec_letter ptr hm
          have hlt := length_after_spec rest spec_letter ptr hm
          have ht : ptr.tail.length ≤ ptr.length := by simp
          have i1 := fun b => ih ptr b (by omega)
          have i2 := fun b => ih ptr.tail b (by omega)
          split_ifs <;> first | exact i1 _ | exact i2 _ | simp
      · simp only [if_neg hc]
        split
        · simp
        · exact ih rest _ (by omega)

theorem parse_eq_foldr (p : List Nat) (m : Nat) (eu : Bool) :
    parse_for_display_level p m eu = (p.map (byte_level eu)).foldr max m := by
  induction p generalizing m with
  | nil => rfl
  | cons c rest ih =>
    simp only [parse_for_display_level, List.map_cons, List.foldr_cons]
    rw [ih, level_step_eq_max]
    generalize byte_level eu c = k
    clear ih
    induction rest with
    | nil => simp [Nat.max_comm]
    | cons d rest ih2 =>
      simp only [List.map_cons, List.foldr_cons]
      rw [ih2]
      omega

theorem max_one_byte_level (eu : Bool) (b : Nat) :
    max 1 (byte_level eu b) = reference_byte_level eu b := by
  unfold reference_byte_level
  by_cases hm : b ∈ shell_metacharacters
  · rw [if_pos hm]
    unfold byte_level level_step LEVEL2
    rw [if_pos ((is_shell_meta_iff b).2 hm)]
    rfl
  · rw [if_neg hm]
    have hm2 : ¬ (is_shell_meta b = true) := fun h => hm ((is_shell_meta_iff b).1 h)
    unfold byte_level level_step LEVEL3 LEVEL4 LEVEL5
    rw [if_neg hm2]
    cases eu <;> simp only [Bool.false_eq_true, if_false, if_true] <;> split_ifs <;> omega

theorem hex_digits_length_le (fuel n : Nat) : (hex_digits fuel n).length ≤ fuel := by
  induction fuel generalizing n with
  | zero => simp [hex_digits]
  | succ f ih =>
    simp only [hex_digits]
    split_ifs
    · simp
    · have := ih (n / 16)
      simp only [List.length_append, List.length_singleton]
      omega

theorem printf_0X_length_le (w n : Nat) (hw : w ≤ 8) : (printf_0X w n).length ≤ 8 := by
  unfold printf_0X
  simp only [List.length_append, List.length_replicate]
  split_ifs
  · simp only [List.length_singleton]; omega
  · have := hex_digits_length_le 8 n
    omega

theorem bash_u_escape_length_le (c : Nat) : (bash_u_escape c).length ≤ 10 := by
  unfold bash_u_escape
  split_ifs
  · have := printf_0X_length_le 4 (to_unsigned (to_wchar c)) (by omega)
    simp only [List.length_append, List.length_cons, List.length_nil]; omega
  · have := printf_0X_length_le 8 (to_unsigned (to_wchar c)) (by omega)
    simp only [List.length_append, List.length_cons, List.length_nil]; omega

/-- One unit is rendered in at most ten bytes, the width of `\U` and eight
digits. -/
theorem quote_unit_length_le (lvl c : Nat) : (quote_unit lvl c).length ≤ 10 := by
  by_cases h3 : lvl ≤ 3
  · unfold quote_unit LEVEL3
    rw [if_pos h3]; simp
  · by_cases hn : c ∈ [0x07, 0x08, 0x1B, 0x0C, 0x0A, 0x0D, 0x09, 0x0B, 0x5C, 0x27, 0x22]
    · simp only [List.mem_cons, List.mem_singleton, List.not_mem_nil, or_false] at hn
      have h3b : ¬ lvl ≤ LEVEL3 := h3
      rcases hn with h | h | h | h | h | h | h | h | h | h | h <;> subst h <;>
        simp [quote_unit, h3b]
    · rw [quote_unit_default lvl c (by omega) hn]
      have hb := bash_u_escape_length_le c
      split_ifs <;> simp <;> omega

theorem quote_open_length_le (lvl : Nat) : (quote_open lvl).length ≤ 2 := by
  unfold quote_open
  split_ifs <;> simp

theorem quote_close_length_le (lvl : Nat) : (quote_close lvl).length ≤ 1 := by
  unfold quote_close
  split_ifs <;> simp

/-- The loop of the encoder leaves only through `exit(13)`. -/
theorem bash_quote_loop_error (lvl : Nat) (cps q : List Nat) (e : Nat)
    (h : bash_quote_loop lvl cps q = .error e) : e = 13 := by
  induction cps generalizing q with
  | nil => simp [bash_quote_loop] at h
  | cons c rest ih =>
    simp only [bash_quote_loop] at h
    split_ifs at h
    · injection h with h; exact h.symm
    · exact ih _ h

/-- When the loop of the encoder returns, the text written is at most ten
bytes over the margin, or is the text it started with. -/
theorem bash_quote_loop_length (lvl : Nat) (cps q out : List Nat)
    (h : bash_quote_loop lvl cps q = .ok out) :
    out.length ≤ max q.length (MAX_PATH_LEN - 12 + 10) := by
  induction cps generalizing q with
  | nil =>
    simp only [bash_quote_loop] at h
    injection h with h
    subst h; omega
  | cons c rest ih =>
    simp only [bash_quote_loop] at h
    split_ifs at h with hq
    have h1 := ih _ h
    have h2 := quote_unit_length_le lvl c
    simp only [List.length_append] at h1
    omega

/-- The loop of the encoder returns exactly when fewer than 8181 bytes are
written before each unit, that is before the last one. -/
theorem bash_quote_loop_ok_iff (lvl : Nat) (cps q : List Nat) :
    (∃ out, bash_quote_loop lvl cps q = .ok out) ↔
      (cps = [] ∨
        q.length + (cps.dropLast.flatMap (quote_unit lvl)).length ≤ MAX_PATH_LEN - 12) := by
  induction cps generalizing q with
  | nil => simp [bash_quote_loop]
  | cons c rest ih =>
    cases rest with
    | nil =>
      simp only [bash_quote_loop, List.dropLast_single, List.flatMap_nil, List.length_nil,
        Nat.add_zero]
      by_cases hq : q.length > MAX_PATH_LEN - 12
      · simp [hq]
      · simp [hq]; omega
    | cons d r =>
      rw [bash_quote_loop]
      by_cases hq : q.length > MAX_PATH_LEN - 12
      · rw [if_pos hq]
        simp only [List.dropLast_cons₂, List.flatMap_cons, List.length_append]
        constructor
        · rintro ⟨out, h⟩; exact absurd h (by simp)
        · rintro (h | h)
          · exact absurd h (by simp)
          · omega
      · rw [if_neg hq, ih]
        simp only [List.dropLast_cons₂, List.flatMap_cons, List.length_append]
        constructor
        · rintro (h | h)
          · exact absurd h (by simp)
          · right; omega
        · rintro (h | h)
          · exact absurd h (by simp)
          · right; omega

/-- The encoder leaves only through `exit(13)`. -/
theorem bash_quote_cps_buf_error (cps : List Nat) (lvl e : Nat)
    (h : bash_quote_cps_buf cps lvl = .error e) : e = 13 := by
  unfold bash_quote_cps_buf at h
  split at h
  · rename_i e2 he
    injection h with h
    rw [← h]; exact bash_quote_loop_error _ _ _ _ he
  · exact absurd h (by simp)

theorem bash_quote_cps_buf_length (cps : List Nat) (lvl : Nat) (out : List Nat)
    (h : bash_quote_cps_buf cps lvl = .ok out) : out.length + 1 ≤ MAX_PATH_LEN := by
  unfold bash_quote_cps_buf at h
  split at h
  · exact absurd h (by simp)
  · rename_i q hq
    injection h with h
    have h1 := bash_quote_loop_length _ _ _ _ hq
    have h2 := quote_open_length_le lvl
    have h3 := quote_close_length_le lvl
    rw [← h, List.length_append]
    unfold MAX_PATH_LEN at h1 ⊢
    omega

theorem bash_quote_cps_buf_ok_iff (cps : List Nat) (lvl : Nat) :
    (∃ out, bash_quote_cps_buf cps lvl = .ok out) ↔
      (cps = [] ∨ (quote_open lvl).length + (cps.dropLast.flatMap (quote_unit lvl)).length
        ≤ MAX_PATH_LEN - 12) := by
  rw [← bash_quote_loop_ok_iff]
  unfold bash_quote_cps_buf
  constructor
  · rintro ⟨out, h⟩
    split at h
    · exact absurd h (by simp)
    · rename_i q hq; exact ⟨q, hq⟩
  · rintro ⟨q, hq⟩
    rw [hq]; exact ⟨_, rfl⟩

theorem bash_quote_cps_error (cps : List Nat) (lvl e : Nat)
    (h : bash_quote_cps cps lvl = .error e) : e = 13 :=
  bash_quote_cps_buf_error _ _ _ ((bash_quote_cps_error_iff _ _ _).1 h)

theorem bash_quote_cps_length (cps : List Nat) (lvl : Nat) (out : List Nat)
    (h : bash_quote_cps cps lvl = .ok out) : out.length + 1 ≤ MAX_PATH_LEN := by
  obtain ⟨w, hw, ho⟩ := bash_quote_cps_buf_of_ok cps lvl out h
  have h1 := bash_quote_cps_buf_length _ _ _ hw
  have h2 := c_str_length_le w
  rw [ho]
  omega

theorem bash_quote_cps_ok_iff (cps : List Nat) (lvl : Nat) :
    (∃ out, bash_quote_cps cps lvl = .ok out) ↔
      (cps = [] ∨ (quote_open lvl).length + (cps.dropLast.flatMap (quote_unit lvl)).length
        ≤ MAX_PATH_LEN - 12) := by
  rw [← bash_quote_cps_buf_ok_iff]
  constructor
  · rintro ⟨out, h⟩
    obtain ⟨w, hw, _⟩ := bash_quote_cps_buf_of_ok cps lvl out h
    exact ⟨w, hw⟩
  · rintro ⟨w, hw⟩
    exact ⟨_, bash_quote_cps_of_buf _ _ _ hw⟩

theorem lstime_format_path_of_resolve (libc : Libc) (p : List Nat) (eu dbg : Bool)
    (lvl : Nat) (units : List Nat)
    (hr : format_path_resolve libc p eu dbg = .ok (lvl, units)) :
    lstime_format_path libc p eu dbg = bash_quote_cps units lvl := by
  unfold lstime_format_path
  rw [hr]

/-- The first part of `lstime_format_path` returns when the conversion handle
opens and the path fits the unit buffer. -/
theorem format_path_resolve_total (libc : Libc) (p : List Nat) (eu dbg : Bool)
    (hopen : libc.iconv_open_ok = true) (hlen : p.length ≤ MAX_PATH_LEN) :
    ∃ lvl units, format_path_resolve libc p eu dbg = .ok (lvl, units) := by
  have hlen2 : ¬ p.length > MAX_PATH_LEN := by omega
  rw [format_path_resolve_unfold, if_neg (by simp [hopen] : ¬ (libc.iconv_open_ok = false))]
  simp only [if_neg hlen2]
  by_cases hd : DecodeOk libc p
  · rw [if_pos hd]
    by_cases h5 : parse_for_display_level p LEVEL1 eu = 5
    · rw [if_pos h5]; exact ⟨_, _, rfl⟩
    · rw [if_neg h5]; exact ⟨_, _, rfl⟩
  · rw [if_neg hd]; exact ⟨_, _, rfl⟩

theorem quote_open_eq_frame (lvl : Nat) (h1 : 1 ≤ lvl) (h6 : lvl ≤ 6) :
    quote_open lvl = frame_open lvl ∧ quote_close lvl = frame_close lvl := by
  have h : lvl = 1 ∨ lvl = 2 ∨ lvl = 3 ∨ lvl = 4 ∨ lvl = 5 ∨ lvl = 6 := by omega
  rcases h with h | h | h | h | h | h <;> subst h <;> exact ⟨rfl, rfl⟩

/-- A path resolved at level 1 has no `$` byte. -/
theorem no_dollar_at_level1 (p : List Nat) (eu : Bool)
    (h : parse_for_display_level p LEVEL1 eu = 1) : 0x24 ∉ p := by
  intro hmem
  have h2 := parse_ge_byte p LEVEL1 eu 0x24 hmem
  have h3 : byte_level eu 0x24 = 2 := by cases eu <;> rfl
  omega

theorem prepend_eq_ok (x : List Nat) (r : Except Nat (List Nat)) (u : List Nat) :
    prepend x r = .ok u ↔ ∃ v, r = .ok v ∧ u = x ++ v := by
  cases r with
  | error e => simp [prepend]
  | ok v =>
    simp only [prepend, Except.ok.injEq]
    constructor
    · intro h; exact ⟨v, rfl, h.symm⟩
    · rintro ⟨w, h1, h2⟩; rw [h2, h1]

theorem prepend_eq_error (x : List Nat) (r : Except Nat (List Nat)) (e : Nat) :
    prepend x r = .error e ↔ r = .error e := by
  cases r with
  | error e2 => simp [prepend]
  | ok v => simp [prepend]

theorem zbuf_colon_length (zbuf : List Nat) :
    (zbuf.take 3 ++ [0x3A] ++ (zbuf.drop 3).take 2).length ≤ 6 := by
  simp only [List.length_append, List.length_take, List.length_drop, List.length_singleton]
  omega

/-- The bounded scan against the scan with no capacity limit: what the bounded
scan returns is the text it started with followed by the unbounded expansion,
within 1023 bytes; when it leaves, it is through one of the four capacity
exits or through the exit the unbounded scan takes. -/
theorem preprocess_loop_sim (zbuf : List Nat) (nsec : Int) (fuel : Nat) :
    ∀ (ptr buf : List Nat), buf.length ≤ MAX_TIME_LEN - 1 →
      (∀ out, preprocess_loop zbuf nsec fuel ptr buf = .ok out →
        ∃ u, expand_loop zbuf nsec fuel ptr = .ok u ∧ out = buf ++ u ∧
          out.length ≤ MAX_TIME_LEN - 1) ∧
      (∀ e, preprocess_loop zbuf nsec fuel ptr buf = .error e →
        e ∈ [16, 17, 18, 20] ∨ expand_loop zbuf nsec fuel ptr = .error e) := by
  induction fuel with
  | zero =>
    intro ptr buf hb
    cases ptr with
    | nil =>
      refine ⟨fun out h => ?_, fun e h => ?_⟩
      · simp only [preprocess_loop] at h
        injection h with h
        exact ⟨[], by simp [expand_loop], by simp [h], by rw [← h]; exact hb⟩
      · simp [preprocess_loop] at h
    | cons c rest =>
      refine ⟨fun out h => ?_, fun e h => ?_⟩
      · simp [preprocess_loop] at h
      · simp only [preprocess_loop] at h
        right; rw [← h]; simp [expand_loop]
  | succ f ih =>
    intro ptr buf hb
    cases ptr with
    | nil =>
      refine ⟨fun out h => ?_, fun e h => ?_⟩
      · simp only [preprocess_loop] at h
        injection h with h
        exact ⟨[], by simp [expand_loop], by simp [h], by rw [← h]; exact hb⟩
      · simp [preprocess_loop] at h
    | cons c rest =>
      rw [preprocess_loop, expand_loop]
      by_cases hc : c = 0x25
      · simp only [if_pos hc]
        split
        · -- unterminated directive
          by_cases hfit : buf.length + (c :: rest).length > MAX_TIME_LEN - 1
          · rw [if_pos hfit]
            exact ⟨fun out h => absurd h (by simp), fun e h => by
              injection h with h; left; rw [← h]; simp⟩
          · rw [if_neg hfit]
            simp only [preprocess_loop]
            refine ⟨fun out h => ?_, fun e h => absurd h (by simp)⟩
            injection h with h
            refine ⟨c :: rest, by rw [hc], h.symm, ?_⟩
            rw [← h, List.length_append]; omega
        · rename_i spec_letter ptr hm
          by_cases hN : spec_letter = 0x4E
          · simp only [if_pos hN]
            by_cases hfit : buf.length > MAX_TIME_LEN - 1 - 10
            · rw [if_pos hfit]
              exact ⟨fun out h => absurd h (by simp), fun e h => by
                injection h with h; left; rw [← h]; simp⟩
            · rw [if_neg hfit]
              by_cases hrc : (printf_09ld nsec).length ≠ 9
              · rw [if_pos hrc, if_pos hrc]
                exact ⟨fun out h => absurd h (by simp), fun e h => Or.inr h⟩
              · rw [if_neg hrc, if_neg hrc]
                have hx : ((printf_09ld nsec).take (nano_width
                    ((rest.dropWhile is_flag).takeWhile is_digit))).length ≤ 9 := by
                  rw [List.length_take]; omega
                obtain ⟨i1, i2⟩ := ih ptr (buf ++ (printf_09ld nsec).take (nano_width
                    ((rest.dropWhile is_flag).takeWhile is_digit)))
                  (by rw [List.length_append]; unfold MAX_TIME_LEN at hfit ⊢; omega)
                refine ⟨fun out h => ?_, fun e h => ?_⟩
                · obtain ⟨u, hu1, hu2, hu3⟩ := i1 out h
                  exact ⟨_, (prepend_eq_ok _ _ _).2 ⟨u, hu1, rfl⟩,
                    by rw [hu2, List.append_assoc], hu3⟩
                · rcases i2 e h with h2 | h2
                  · exact Or.inl h2
                  · exact Or.inr ((prepend_eq_error _ _ _).2 h2)
          · simp only [if_neg hN]
            by_cases hz : spec_letter = 0x3A ∧ ptr.head? = some 0x7A
            · simp only [if_pos hz, strftime_len]
              by_cases hl0 : (if zbuf.length + 1 > 12 then 0 else zbuf.length) = 0
              · rw [if_pos hl0, if_pos hl0]
                exact ⟨fun out h => absurd h (by simp), fun e h => Or.inr h⟩
              · rw [if_neg hl0, if_neg hl0]
                by_cases hl5 : (if zbuf.length + 1 > 12 then 0 else zbuf.length) ≠ 5
                · rw [if_pos hl5, if_pos hl5]
                  exact ⟨fun out h => absurd h (by simp), fun e h => Or.inr h⟩
                · rw [if_neg hl5, if_neg hl5]
                  by_cases hfit : buf.length > MAX_TIME_LEN - 1 - 7
                  · rw [if_pos hfit]
                    exact ⟨fun out h => absurd h (by simp), fun e h => by
                      injection h with h; left; rw [← h]; simp⟩
                  · rw [if_neg hfit]
                    have hx := zbuf_colon_length zbuf
                    obtain ⟨i1, i2⟩ := ih ptr.tail
                      (buf ++ zbuf.take 3 ++ [0x3A] ++ (zbuf.drop 3).take 2)
                      (by
                        simp only [List.length_append] at hx ⊢
                        unfold MAX_TIME_LEN at hfit ⊢; omega)
                    refine ⟨fun out h => ?_, fun e h => ?_⟩
                    · obtain ⟨u, hu1, hu2, hu3⟩ := i1 out h
                      exact ⟨_, (prepend_eq_ok _ _ _).2 ⟨u, hu1, rfl⟩,
                        by rw [hu2]; simp only [List.append_assoc], hu3⟩
                    · rcases i2 e h with h2 | h2
                      · exact Or.inl h2
                      · exact Or.inr ((prepend_eq_error _ _ _).2 h2)
            · simp only [if_neg hz]
              by_cases hfit : buf.length +
                  ((c :: rest).take ((c :: rest).length - ptr.length)).length > MAX_TIME_LEN - 1
              · rw [if_pos hfit]
                exact ⟨fun out h => absurd h (by simp), fun e h => by
                  injection h with h; left; rw [← h]; simp⟩
              · rw [if_neg hfit]
                obtain ⟨i1, i2⟩ := ih ptr
                  (buf ++ (c :: rest).take ((c :: rest).length - ptr.length))
                  (by rw [List.length_append]; omega)
                refine ⟨fun out h => ?_, fun e h => ?_⟩
                · obtain ⟨u, hu1, hu2, hu3⟩ := i1 out h
                  exact ⟨_, (prepend_eq_ok _ _ _).2 ⟨u, hu1, rfl⟩,
                    by rw [hu2, List.append_assoc], hu3⟩
                · rcases i2 e h with h2 | h2
                  · exact Or.inl h2
                  · exact Or.inr ((prepend_eq_error _ _ _).2 h2)
      · simp only [if_neg hc]
        by_cases hfit : buf.length > MAX_TIME_LEN - 1 - 1
        · rw [if_pos hfit]
          exact ⟨fun out h => absurd h (by simp), fun e h => by
            injection h with h; left; rw [← h]; simp⟩
        · rw [if_neg hfit]
          obtain ⟨i1, i2⟩ := ih rest (buf ++ [c])
            (by rw [List.length_append, List.length_singleton]
                unfold MAX_TIME_LEN at hfit ⊢; omega)
          refine ⟨fun out h => ?_, fun e h => ?_⟩
          · obtain ⟨u, hu1, hu2, hu3⟩ := i1 out h
            exact ⟨_, (prepend_eq_ok _ _ _).2 ⟨u, hu1, rfl⟩,
              by rw [hu2, List.append_assoc], hu3⟩
          · rcases i2 e h with h2 | h2
            · exact Or.inl h2
            · exact Or.inr ((prepend_eq_error _ _ _).2 h2)

/-- The bounded scan returns the unbounded expansion when ten bytes of the
buffer stay free after it. -/
theorem preprocess_loop_fits (zbuf : List Nat) (nsec : Int) (fuel : Nat) :
    ∀ (ptr buf u : List Nat), expand_loop zbuf nsec fuel ptr = .ok u →
      buf.length + u.length ≤ MAX_TIME_LEN - 1 - 10 →
      preprocess_loop zbuf nsec fuel ptr buf = .ok (buf ++ u) := by
  induction fuel with
  | zero =>
    intro ptr buf u h _
    cases ptr with
    | nil =>
      simp only [expand_loop] at h
      injection h with h
      simp [preprocess_loop, ← h]
    | cons c rest => simp [expand_loop] at h
  | succ f ih =>
    intro ptr buf u h hfit
    cases ptr with
    | nil =>
      simp only [expand_loop] at h
      injection h with h
      simp [preprocess_loop, ← h]
    | cons c rest =>
      rw [expand_loop] at h
      rw [preprocess_loop]
      by_cases hc : c = 0x25
      · simp only [if_pos hc] at h ⊢
        split at h
        · rename_i hm
          injection h with h
          rw [← h, hc] at hfit ⊢
          rw [if_neg (by unfold MAX_TIME_LEN at hfit ⊢; omega)]
          simp [preprocess_loop]
        · rename_i spec_letter ptr hm
          by_cases hN : spec_letter = 0x4E
          · simp only [if_pos hN] at h ⊢
            by_cases hrc : (printf_09ld nsec).length ≠ 9
            · rw [if_pos hrc] at h; exact absurd h (by simp)
            · rw [if_neg hrc] at h
              obtain ⟨v, hv1, hv2⟩ := (prepend_eq_ok _ _ _).1 h
              rw [hv2, List.length_append] at hfit
              rw [if_neg (by omega), if_neg hrc,
                ih ptr _ v hv1 (by rw [List.length_append]; omega), hv2, List.append_assoc]
          · simp only [if_neg hN] at h ⊢
            by_cases hz : spec_letter = 0x3A ∧ ptr.head? = some 0x7A
            · simp only [if_pos hz, strftime_len] at h ⊢
              by_cases hl0 : (if zbuf.length + 1 > 12 then 0 else zbuf.length) = 0
              · rw [if_pos hl0] at h; exact absurd h (by simp)
              · rw [if_neg hl0] at h
                by_cases hl5 : (if zbuf.length + 1 > 12 then 0 else zbuf.length) ≠ 5
                · rw [if_pos hl5] at h; exact absurd h (by simp)
                · rw [if_neg hl5] at h
                  obtain ⟨v, hv1, hv2⟩ := (prepend_eq_ok _ _ _).1 h
                  rw [hv2, List.length_append] at hfit
                  rw [if_neg hl0, if_neg hl5, if_neg (by omega),
                    ih ptr.tail _ v hv1 (by
                      simp only [List.length_append] at hfit ⊢; omega), hv2]
                  simp only [List.append_assoc]
            · simp only [if_neg hz] at h ⊢
              obtain ⟨v, hv1, hv2⟩ := (prepend_eq_ok _ _ _).1 h
              rw [hv2, List.length_append] at hfit
              rw [if_neg (by omega),
                ih ptr _ v hv1 (by rw [List.length_append]; omega), hv2, List.append_assoc]
      · simp only [if_neg hc] at h ⊢
        obtain ⟨v, hv1, hv2⟩ := (prepend_eq_ok _ _ _).1 h
        rw [hv2, List.length_append, List.length_singleton] at hfit
        rw [if_neg (by omega),
          ih rest _ v hv1 (by rw [List.length_append, List.length_singleton]; omega), hv2,
          List.append_assoc]

theorem skip_modifier_suffix (l : List Nat) : ∃ pre, l = pre ++ skip_modifier l := by
  cases l with
  | nil => exact ⟨[], rfl⟩
  | cons a r =>
    simp only [skip_modifier]
    split_ifs
    · exact ⟨[a], rfl⟩
    · exact ⟨[], rfl⟩

/-- What follows the letter of a directive is the end of what follows its
`%`. -/
theorem after_spec_suffix (rest : List Nat) (spec_letter : Nat) (ptr : List Nat)
    (h : skip_modifier ((rest.dropWhile is_flag).dropWhile is_digit) = spec_letter :: ptr) :
    ∃ pre, rest = pre ++ spec_letter :: ptr := by
  obtain ⟨p3, h3⟩ := skip_modifier_suffix ((rest.dropWhile is_flag).dropWhile is_digit)
  have h1 := List.takeWhile_append_dropWhile is_flag rest
  have h2 := List.takeWhile_append_dropWhile is_digit (rest.dropWhile is_flag)
  rw [h] at h3
  refine ⟨rest.takeWhile is_flag ++ (rest.dropWhile is_flag).takeWhile is_digit ++ p3, ?_⟩
  rw [List.append_assoc, List.append_assoc, ← h3, h2, h1]

/-- The span of a directive, from its `%` to its letter, followed by the rest
of the format, is the format. -/
theorem span_append_ptr (c : Nat) (rest : List Nat) (spec_letter : Nat) (ptr : List Nat)
    (h : skip_modifier ((rest.dropWhile is_flag).dropWhile is_digit) = spec_letter :: ptr) :
    (c :: rest).take ((c :: rest).length - ptr.length) ++ ptr = c :: rest := by
  obtain ⟨pre, hpre⟩ := after_spec_suffix rest spec_letter ptr h
  have e : c :: rest = (c :: (pre ++ [spec_letter])) ++ ptr := by
    rw [hpre]; simp
  have hl : (c :: rest).length - ptr.length = (c :: (pre ++ [spec_letter])).length := by
    rw [e]; simp; omega
  rw [hl]
  conv_lhs => rw [e, List.take_left]
  exact e.symm

/-- On a format whose scan meets no extended directive and that fits what is
left of the buffer, the loop appends the format as it is. -/
theorem preprocess_loop_no_extended (zbuf : List Nat) (nsec : Int) (fuel : Nat) :
    ∀ (ptr buf : List Nat), ptr.length ≤ fuel → buf.length + ptr.length ≤ MAX_TIME_LEN - 1 →
      meets_extended fuel ptr = false →
      preprocess_loop zbuf nsec fuel ptr buf = .ok (buf ++ ptr) := by
  induction fuel with
  | zero =>
    intro ptr buf hf _ _
    have : ptr = [] := List.length_eq_zero.1 (by omega)
    subst this
    simp [preprocess_loop]
  | succ f ih =>
    intro ptr buf hf hfit hme
    cases ptr with
    | nil => simp [preprocess_loop]
    | cons c rest =>
      simp only [List.length_cons] at hf hfit
      rw [meets_extended] at hme
      rw [preprocess_loop]
      by_cases hc : c = 0x25
      · simp only [if_pos hc] at hme ⊢
        split at hme
        · rw [if_neg (by simp only [List.length_cons]; omega)]
          simp [preprocess_loop]
        · rename_i spec_letter ptr hm
          have hlt := length_after_spec rest spec_letter ptr hm
          have hspan := span_append_ptr c rest spec_letter ptr hm
          by_cases hN : spec_letter = 0x4E
          · rw [if_pos hN] at hme; exact absurd hme (by simp)
          · rw [if_neg hN] at hme
            by_cases hz : spec_letter = 0x3A ∧ ptr.head? = some 0x7A
            · rw [if_pos hz] at hme; exact absurd hme (by simp)
            · rw [if_neg hz] at hme
              have hlen : ((c :: rest).take ((c :: rest).length - ptr.length)).length
                  + ptr.length = rest.length + 1 := by
                rw [← List.length_append, hspan, List.length_cons]
              simp only [if_neg hN, if_neg hz]
              rw [if_neg (by omega),
                ih ptr _ (by omega) (by rw [List.length_append]; omega) hme,
                List.append_assoc, hspan]
      · simp only [if_neg hc] at hme ⊢
        rw [if_neg (by unfold MAX_TIME_LEN at hfit ⊢; omega),
          ih rest _ (by omega) (by rw [List.length_append, List.length_singleton]; omega) hme,
          List.append_assoc]
        rfl

theorem has_colon_z_tail (a : Nat) (l : List Nat) (h : has_colon_z (a :: l) = false) :
    has_colon_z l = false := by
  cases l with
  | nil => rfl
  | cons b r =>
    simp only [has_colon_z, Bool.or_eq_false_iff] at h
    exact h.2

theorem has_colon_z_suffix (pre l : List Nat) (h : has_colon_z (pre ++ l) = false) :
    has_colon_z l = false := by
  induction pre with
  | nil => exact h
  | cons a pre ih => exact ih (has_colon_z_tail a _ h)

theorem has_colon_z_head (r : List Nat) : has_colon_z (0x3A :: 0x7A :: r) = true := by
  simp [has_colon_z]

/-- A format with no `N` and no `:z` holds no extended directive. -/
theorem meets_extended_of_plain (fuel : Nat) :
    ∀ (ptr : List Nat), (∀ c ∈ ptr, c ≠ 0x4E) → has_colon_z ptr = false →
      meets_extended fuel ptr = false := by
  induction fuel with
  | zero => intro ptr _ _; cases ptr <;> rfl
  | succ f ih =>
    intro ptr hN hz
    cases ptr with
    | nil => rfl
    | cons c rest =>
      rw [meets_extended]
      have hz2 := has_colon_z_tail c rest hz
      have hN2 : ∀ x ∈ rest, x ≠ 0x4E := fun x hx => hN x (List.mem_cons_of_mem _ hx)
      by_cases hc : c = 0x25
      · simp only [if_pos hc]
        split
        · rfl
        · rename_i spec_letter ptr hm
          obtain ⟨pre, hpre⟩ := after_spec_suffix rest spec_letter ptr hm
          have hl : spec_letter ≠ 0x4E := hN2 spec_letter (by rw [hpre]; simp)
          have hz3 : has_colon_z (spec_letter :: ptr) = false := by
            rw [hpre] at hz2; exact has_colon_z_suffix pre _ hz2
          have hnz : ¬ (spec_letter = 0x3A ∧ ptr.head? = some 0x7A) := by
            rintro ⟨h1, h2⟩
            cases ptr with
            | nil => simp at h2
            | cons d r =>
              simp only [List.head?_cons, Option.some.injEq] at h2
              rw [h1, h2, has_colon_z_head] at hz3
              exact absurd hz3 (by simp)
          rw [if_neg hl, if_neg hnz]
          exact ih ptr (fun x hx => hN2 x (by rw [hpre]; simp [hx]))
            (has_colon_z_tail _ _ hz3)
      · simp only [if_neg hc]
        exact ih rest hN2 hz2

/-- The unbounded expansion does not depend on the fuel, once there is one
unit of fuel per byte of the format. -/
theorem expand_loop_fuel (zbuf : List Nat) (nsec : Int) (fuel1 : Nat) :
    ∀ (fuel2 : Nat) (ptr : List Nat), ptr.length ≤ fuel1 → ptr.length ≤ fuel2 →
      expand_loop zbuf nsec fuel1 ptr = expand_loop zbuf nsec fuel2 ptr := by
  induction fuel1 with
  | zero =>
    intro fuel2 ptr h1 _
    have : ptr = [] := List.length_eq_zero.1 (by omega)
    subst this
    simp [expand_loop]
  | succ f1 ih =>
    intro fuel2 ptr h1 h2
    cases ptr with
    | nil => simp [expand_loop]
    | cons c rest =>
      obtain ⟨f2, rfl⟩ : ∃ f2, fuel2 = f2 + 1 := ⟨fuel2 - 1, by simp at h2; omega⟩
      simp only [List.length_cons] at h1 h2
      conv_lhs => rw [expand_loop]
      conv_rhs => rw [expand_loop]
      by_cases hc : c = 0x25
      · simp only [if_pos hc]
        split
        · rfl
        · rename_i spec_letter ptr hm
          have hlt := length_after_spec rest spec_letter ptr hm
          have ht : ptr.tail.length ≤ ptr.length := by simp
          rw [ih f2 ptr (by omega) (by omega), ih f2 ptr.tail (by omega) (by omega)]
      · simp only [if_neg hc]
        rw [ih f2 rest (by omega) (by omega)]

/-- The loop on a run `a` of literal characters: they are appended, unless
the buffer is full before one of them. -/
theorem preprocess_loop_literals (zbuf : List Nat) (nsec : Int) (a : List Nat) :
    ∀ (fuel : Nat) (rest buf : List Nat), (∀ c ∈ a, c ≠ 0x25) →
      preprocess_loop zbuf nsec (a.length + fuel) (a ++ rest) buf =
        if a ≠ [] ∧ buf.length + a.length > MAX_TIME_LEN - 1 then .error 20
        else preprocess_loop zbuf nsec fuel rest (buf ++ a) := by
  induction a with
  | nil => intro fuel rest buf _; simp
  | cons c a ih =>
    intro fuel rest buf ha
    have hc : c ≠ 0x25 := ha c (List.mem_cons_self _ _)
    rw [show (c :: a).length + fuel = (a.length + fuel) + 1 by simp only [List.length_cons]; omega,
      List.cons_append, preprocess_loop, if_neg hc]
    by_cases hfull : buf.length > MAX_TIME_LEN - 1 - 1
    · rw [if_pos hfull, if_pos ⟨by simp, by
        simp only [List.length_cons]; unfold MAX_TIME_LEN at hfull ⊢; omega⟩]
    · rw [if_neg hfull, ih fuel rest (buf ++ [c]) (fun x hx => ha x (List.mem_cons_of_mem _ hx))]
      by_cases hnil : a = []
      · subst hnil
        rw [if_neg (by simp), if_neg (by
          simp only [List.length_cons, List.length_nil]
          unfold MAX_TIME_LEN at hfull ⊢; omega)]
        simp
      · by_cases hbig : buf.length + (c :: a).length > MAX_TIME_LEN - 1
        · rw [if_pos ⟨hnil, by
            simp only [List.length_append, List.length_cons, List.length_nil] at hbig ⊢
            omega⟩, if_pos ⟨by simp, hbig⟩]
        · rw [if_neg (by
            simp only [List.length_append, List.length_cons, List.length_nil] at hbig ⊢
            omega), if_neg (by intro h; exact hbig h.2), List.append_assoc]
          rfl

/-- The loop on a `%:z` directive, for an offset text of five characters. -/
theorem preprocess_loop_colon_z (zbuf : List Nat) (nsec : Int) (fuel : Nat)
    (b buf : List Nat) (hz : zbuf.length = 5) :
    preprocess_loop zbuf nsec (fuel + 1) (0x25 :: 0x3A :: 0x7A :: b) buf =
      if buf.length > MAX_TIME_LEN - 1 - 7 then .error 18
      else preprocess_loop zbuf nsec fuel b
        (buf ++ zbuf.take 3 ++ [0x3A] ++ (zbuf.drop 3).take 2) := by
  have e1 : (0x3A :: 0x7A :: b).dropWhile is_flag = 0x3A :: 0x7A :: b := by
    rw [List.dropWhile_cons]; rfl
  have e2 : (0x3A :: 0x7A :: b).dropWhile is_digit = 0x3A :: 0x7A :: b := by
    rw [List.dropWhile_cons]; rfl
  have e3 : skip_modifier (0x3A :: 0x7A :: b) = 0x3A :: 0x7A :: b := rfl
  rw [preprocess_loop, if_pos rfl]
  simp only [e1, e2, e3, hz]
  rfl

theorem expand_loop_literals (zbuf : List Nat) (nsec : Int) (a : List Nat) :
    ∀ (fuel : Nat) (rest : List Nat), (∀ c ∈ a, c ≠ 0x25) →
      expand_loop zbuf nsec (a.length + fuel) (a ++ rest) =
        prepend a (expand_loop zbuf nsec fuel rest) := by
  induction a with
  | nil =>
    intro fuel rest _
    simp only [List.length_nil, Nat.zero_add, List.nil_append]
    cases expand_loop zbuf nsec fuel rest <;> rfl
  | cons c a ih =>
    intro fuel rest ha
    have hc : c ≠ 0x25 := ha c (List.mem_cons_self _ _)
    rw [show (c :: a).length + fuel = (a.length + fuel) + 1 by simp only [List.length_cons]; omega,
      List.cons_append, expand_loop, if_neg hc,
      ih fuel rest (fun x hx => ha x (List.mem_cons_of_mem _ hx))]
    cases expand_loop zbuf nsec fuel rest <;> rfl

theorem expand_loop_colon_z (zbuf : List Nat) (nsec : Int) (fuel : Nat) (b : List Nat)
    (hz : zbuf.length = 5) :
    expand_loop zbuf nsec (fuel + 1) (0x25 :: 0x3A :: 0x7A :: b) =
      prepend (zbuf.take 3 ++ [0x3A] ++ (zbuf.drop 3).take 2) (expand_loop zbuf nsec fuel b) := by
  have e1 : (0x3A :: 0x7A :: b).dropWhile is_flag = 0x3A :: 0x7A :: b := by
    rw [List.dropWhile_cons]; rfl
  have e2 : (0x3A :: 0x7A :: b).dropWhile is_digit = 0x3A :: 0x7A :: b := by
    rw [List.dropWhile_cons]; rfl
  have e3 : skip_modifier (0x3A :: 0x7A :: b) = 0x3A :: 0x7A :: b := rfl
  rw [expand_loop, if_pos rfl]
  simp only [e1, e2, e3, strftime_len, hz]
  rfl

/-- The bounded scan started with less text in the buffer: it returns as well,
with the same text appended. -/
theorem preprocess_loop_mono (zbuf : List Nat) (nsec : Int) (fuel : Nat) :
    ∀ (ptr buf buf2 out : List Nat), buf2.length ≤ buf.length →
      preprocess_loop zbuf nsec fuel ptr buf = .ok out →
      ∃ u, out = buf ++ u ∧ preprocess_loop zbuf nsec fuel ptr buf2 = .ok (buf2 ++ u) := by
  induction fuel with
  | zero =>
    intro ptr buf buf2 out _ h
    cases ptr with
    | nil =>
      simp only [preprocess_loop] at h
      injection h with h
      exact ⟨[], by simp [h], by simp [preprocess_loop]⟩
    | cons c rest => simp [preprocess_loop] at h
  | succ f ih =>
    intro ptr buf buf2 out hle h
    cases ptr with
    | nil =>
      simp only [preprocess_loop] at h
      injection h with h
      exact ⟨[], by simp [h], by simp [preprocess_loop]⟩
    | cons c rest =>
      rw [preprocess_loop] at h
      rw [preprocess_loop]
      by_cases hc : c = 0x25
      · simp only [if_pos hc] at h ⊢
        split at h
        · rename_i hm
          by_cases hg : buf.length + (c :: rest).length > MAX_TIME_LEN - 1
          · rw [if_pos hg] at h; exact absurd h (by simp)
          · rw [if_neg hg] at h
            simp only [preprocess_loop] at h
            injection h with h
            refine ⟨c :: rest, h.symm, ?_⟩
            rw [if_neg (by omega)]
            simp [preprocess_loop]
        · rename_i spec_letter ptr hm
          by_cases hN : spec_letter = 0x4E
          · simp only [if_pos hN] at h ⊢
            by_cases hg : buf.length > MAX_TIME_LEN - 1 - 10
            · rw [if_pos hg] at h; exact absurd h (by simp)
            · rw [if_neg hg] at h
              by_cases hrc : (printf_09ld nsec).length ≠ 9
              · rw [if_pos hrc] at h; exact absurd h (by simp)
              · rw [if_neg hrc] at h
                obtain ⟨u, hu1, hu2⟩ := ih ptr _
                  (buf2 ++ (printf_09ld nsec).take
                    (nano_width ((rest.dropWhile is_flag).takeWhile is_digit))) out
                  (by simp only [List.length_append]; omega) h
                refine ⟨_, by rw [hu1, List.append_assoc], ?_⟩
                rw [if_neg (by omega), if_neg hrc, hu2, List.append_assoc]
          · simp only [if_neg hN] at h ⊢
            by_cases hz : spec_letter = 0x3A ∧ ptr.head? = some 0x7A
            · simp only [if_pos hz] at h ⊢
              by_cases hl0 : (if zbuf.length + 1 > 12 then 0 else zbuf.length) = 0
              · rw [if_pos hl0] at h; exact absurd h (by simp)
              · rw [if_neg hl0] at h
                by_cases hl5 : (if zbuf.length + 1 > 12 then 0 else zbuf.length) ≠ 5
                · rw [if_pos hl5] at h; exact absurd h (by simp)
                · rw [if_neg hl5] at h
                  by_cases hg : buf.length > MAX_TIME_LEN - 1 - 7
                  · rw [if_pos hg] at h; exact absurd h (by simp)
                  · rw [if_neg hg] at h
                    obtain ⟨u, hu1, hu2⟩ := ih ptr.tail _
                      (buf2 ++ zbuf.take 3 ++ [0x3A] ++ (zbuf.drop 3).take 2) out
                      (by simp only [List.length_append]; omega) h
                    refine ⟨zbuf.take 3 ++ [0x3A] ++ (zbuf.drop 3).take 2 ++ u, ?_, ?_⟩
                    · rw [hu1]; simp only [List.append_assoc]
                    · rw [if_neg hl0, if_neg hl5, if_neg (by omega), hu2]
                      simp only [List.append_assoc]
            · simp only [if_neg hz] at h ⊢
              by_cases hg : buf.length +
                  ((c :: rest).take ((c :: rest).length - ptr.length)).length > MAX_TIME_LEN - 1
              · rw [if_pos hg] at h; exact absurd h (by simp)
              · rw [if_neg hg] at h
                obtain ⟨u, hu1, hu2⟩ := ih ptr _
                  (buf2 ++ (c :: rest).take ((c :: rest).length - ptr.length)) out
                  (by simp only [List.length_append]; omega) h
                refine ⟨_, by rw [hu1, List.append_assoc], ?_⟩
                rw [if_neg (by omega), hu2, List.append_assoc]
      · simp only [if_neg hc] at h ⊢
        by_cases hg : buf.length > MAX_TIME_LEN - 1 - 1
        · rw [if_pos hg] at h; exact absurd h (by simp)
        · rw [if_neg hg] at h
          obtain ⟨u, hu1, hu2⟩ := ih rest _ (buf2 ++ [c]) out
            (by simp only [List.length_append]; omega) h
          refine ⟨_, by rw [hu1, List.append_assoc], ?_⟩
          rw [if_neg (by omega), hu2, List.append_assoc]

/-- The expander on a format `a ++ "%:z" ++ b` with `a` free of `%`: after the
literal run and the offset, the scan goes on in `b`. -/
theorem preprocess_time_format_colon_z (zbuf : List Nat) (nsec : Int) (a b : List Nat)
    (ha : ∀ c ∈ a, c ≠ 0x25) (hz : zbuf.length = 5) :
    preprocess_time_format zbuf nsec (a ++ [0x25, 0x3A, 0x7A] ++ b) =
      if a ≠ [] ∧ a.length > MAX_TIME_LEN - 1 then .error 20
      else if a.length > MAX_TIME_LEN - 1 - 7 then .error 18
      else preprocess_loop zbuf nsec b.length b
        (a ++ zbuf.take 3 ++ [0x3A] ++ (zbuf.drop 3).take 2) := by
  have e : a ++ [0x25, 0x3A, 0x7A] ++ b = a ++ (0x25 :: 0x3A :: 0x7A :: b) := by simp
  rw [e]
  unfold preprocess_time_format
  rw [preprocess_loop_fuel zbuf nsec _ (a.length + ((b.length + 2) + 1)) _ _ (le_refl _)
      (by simp only [List.length_append, List.length_cons]; omega),
    preprocess_loop_literals zbuf nsec a _ _ _ ha, preprocess_loop_colon_z zbuf nsec _ _ _ hz,
    preprocess_loop_fuel zbuf nsec (b.length + 2) b.length b _ (by omega) (le_refl _)]
  simp only [List.nil_append, List.length_nil, Nat.zero_add]

theorem expand_unbounded_colon_z (zbuf : List Nat) (nsec : Int) (a b : List Nat)
    (ha : ∀ c ∈ a, c ≠ 0x25) (hz : zbuf.length = 5) :
    expand_unbounded zbuf nsec (a ++ [0x25, 0x3A, 0x7A] ++ b) =
      prepend (a ++ (zbuf.take 3 ++ [0x3A] ++ (zbuf.drop 3).take 2))
        (expand_unbounded zbuf nsec b) := by
  have e : a ++ [0x25, 0x3A, 0x7A] ++ b = a ++ (0x25 :: 0x3A :: 0x7A :: b) := by simp
  rw [e]
  unfold expand_unbounded
  rw [expand_loop_fuel zbuf nsec _ (a.length + ((b.length + 2) + 1)) _ (le_refl _)
      (by simp only [List.length_append, List.length_cons]; omega),
    expand_loop_literals zbuf nsec a _ _ ha, expand_loop_colon_z zbuf nsec _ _ hz,
    expand_loop_fuel zbuf nsec (b.length + 2) b.length b (by omega) (le_refl _)]
  cases expand_loop zbuf nsec b.length b <;> simp [prepend]

/-! ## Lemmas on the decode guard, the item format and the sort -/

/-- The classifier on a concatenation: the second part is scanned from the
level the first part reached. -/
theorem parse_append (a b : List Nat) (m : Nat) (eu : Bool) :
    parse_for_display_level (a ++ b) m eu =
      parse_for_display_level b (parse_for_display_level a m eu) eu := by
  induction a generalizing m with
  | nil => rfl
  | cons c rest ih => simp only [List.cons_append, parse_for_display_level]; exact ih _

/-- The starting level only enters the result as a lower bound. -/
theorem parse_eq_max (p : List Nat) (m : Nat) (eu : Bool) :
    parse_for_display_level p m eu = max m (parse_for_display_level p 0 eu) := by
  induction p generalizing m with
  | nil => simp [parse_for_display_level]
  | cons c rest ih =>
    simp only [parse_for_display_level]
    rw [ih (level_step eu m c), ih (level_step eu 0 c), level_step_eq_max, level_step_eq_max]
    omega

/-- A path classified below level 3 has no byte of 0x80 or more. -/
theorem ascii_of_low_level (p : List Nat) (eu : Bool)
    (h : parse_for_display_level p LEVEL1 eu ≤ 2) : ∀ b ∈ p, b < 0x80 := by
  intro b hb
  by_contra hge
  have h1 := parse_ge_byte p LEVEL1 eu b hb
  have h2 : 3 ≤ byte_level eu b := by
    unfold byte_level level_step
    have hm : ¬ (is_shell_meta b = true) := by
      intro hm
      have := (is_shell_meta_iff b).1 hm
      simp [shell_metacharacters] at this
      omega
    rw [if_neg hm, if_neg (by omega), if_neg (by omega), if_neg (by omega)]
    cases eu <;> simp [LEVEL3, LEVEL5]
  omega

/-- The specified algorithm, with the decode and the copy made explicit. -/
theorem format_path_specified_unfold (libc : Libc) (p : List Nat) (eu dbg : Bool) :
    format_path_specified libc p eu dbg =
      if parse_for_display_level p LEVEL1 eu = 3 ∨ parse_for_display_level p LEVEL1 eu = 4 ∨
          parse_for_display_level p LEVEL1 eu = 5 then
        if libc.iconv_open_ok = false then .error 22
        else if DecodeOk libc p then
          if parse_for_display_level p LEVEL1 eu = 5 then bash_quote_cps (libc.iconv p).out 5
          else if p.length > MAX_PATH_LEN then .error 27
          else bash_quote_cps (p.map fun b => b % 256) (parse_for_display_level p LEVEL1 eu)
        else if p.length > MAX_PATH_LEN then .error 27
        else bash_quote_cps (p.map fun b => b % 256) 6
      else if p.length > MAX_PATH_LEN then .error 27
      else bash_quote_cps (p.map fun b => b % 256) (parse_for_display_level p LEVEL1 eu) := by
  unfold format_path_specified lstime_iconv copy_bytes_to_cps DecodeOk
  simp only []
  by_cases hl : parse_for_display_level p LEVEL1 eu = 3 ∨
      parse_for_display_level p LEVEL1 eu = 4 ∨ parse_for_display_level p LEVEL1 eu = 5
  · simp only [if_pos hl]
    by_cases ho : libc.iconv_open_ok = false
    · simp only [if_pos ho]
    · simp only [if_neg ho]
      by_cases hd : (libc.iconv p).rc = 0 ∧ (libc.iconv p).in_size_left = 0
      · have hn : ¬ ((libc.iconv p).rc = SIZE_MAX ∨ (libc.iconv p).in_size_left ≠ 0 ∨
            (libc.iconv p).rc ≠ 0) := by
          rintro (h | h | h)
          · rw [hd.1] at h; exact absurd h (by decide)
          · exact h hd.2
          · exact h hd.1
        simp only [if_neg hn, if_pos hd, if_true]
        by_cases h5 : parse_for_display_level p LEVEL1 eu = 5
        · simp only [if_pos h5, h5, List.take_length, if_true]
        · simp only [if_neg h5]
          by_cases hlen : p.length > MAX_PATH_LEN
          · simp only [if_pos hlen]
          · simp only [if_neg hlen]
      · have hy : (libc.iconv p).rc = SIZE_MAX ∨ (libc.iconv p).in_size_left ≠ 0 ∨
            (libc.iconv p).rc ≠ 0 := by
          by_contra hcon
          push_neg at hcon
          exact hd ⟨hcon.2.2, hcon.2.1⟩
        simp only [if_pos hy, if_neg hd]
        by_cases hlen : p.length > MAX_PATH_LEN
        · simp [if_pos hlen]
        · simp [if_neg hlen]
  · simp only [if_neg hl]
    have h5 : ¬ parse_for_display_level p LEVEL1 eu = 5 := fun h => hl (Or.inr (Or.inr h))
    simp only [if_neg h5]
    by_cases hlen : p.length > MAX_PATH_LEN
    · simp only [if_pos hlen]
    · simp only [if_neg hlen]

/-- A path classified below level 3 is made of printable ASCII bytes. -/
theorem printable_of_low_level (p : List Nat) (eu : Bool)
    (h : parse_for_display_level p LEVEL1 eu ≤ 2) : ∀ b ∈ p, 0x20 ≤ b ∧ b < 0x7F := by
  intro b hb
  have h1 := parse_ge_byte p LEVEL1 eu b hb
  have h2 := ascii_of_low_level p eu h b hb
  by_contra hcon
  have h3 := byte_level_trigger eu b (by omega)
  omega

/-- The units `lstime_format_path` resolves at a level other than 5 are the
bytes of the path. -/
theorem resolve_units_are_bytes (libc : Libc) (p : List Nat) (eu dbg : Bool) (lvl : Nat)
    (units : List Nat) (hr : format_path_resolve libc p eu dbg = .ok (lvl, units))
    (h5 : lvl ≠ 5) : units = p.map (fun b => b % 256) := by
  rw [format_path_resolve_unfold] at hr
  split_ifs at hr
  · injection hr with hr
    injection hr with hr1 hr2
    exact absurd hr1.symm h5
  · injection hr with hr
    injection hr with hr1 hr2
    exact hr2.symm
  · injection hr with hr
    injection hr with hr1 hr2
    exact hr2.symm

/-- One step of the loop of `lstime_out_it` on a `%` followed by `d`. -/
theorem out_it_loop_directive {Tm : Type} (libc : Libc) (tlibc : TimeLibc Tm)
    (info : lstime_info) (tf : List Nat) (utc dbg : Bool) (d : Nat) (rest fp : List Nat) :
    out_it_loop libc tlibc info tf utc dbg (0x25 :: d :: rest) fp =
      print_then (out_directive libc tlibc info tf utc dbg d) fp
        (out_it_loop libc tlibc info tf utc dbg rest) := by
  rw [out_it_loop, if_pos rfl]
  unfold print_then
  cases out_directive libc tlibc info tf utc dbg d <;> rfl

/-- One step of the loop of `lstime_out_it` on a literal character. -/
theorem out_it_loop_literal {Tm : Type} (libc : Libc) (tlibc : TimeLibc Tm)
    (info : lstime_info) (tf : List Nat) (utc dbg : Bool) (c : Nat) (hc : c ≠ 0x25)
    (rest fp : List Nat) :
    out_it_loop libc tlibc info tf utc dbg (c :: rest) fp =
      out_it_loop libc tlibc info tf utc dbg rest (fp ++ [c]) := by
  cases rest with
  | nil =>
    conv_lhs => rw [out_it_loop]
    rw [if_neg hc]
  | cons d rest2 =>
    conv_lhs => rw [out_it_loop]
    rw [if_neg hc]

/-- The loop of `lstime_out_it` on one element of a plain format. -/
theorem out_it_loop_plain_item {Tm : Type} (libc : Libc) (tlibc : TimeLibc Tm)
    (info : lstime_info) (tf : List Nat) (utc dbg : Bool) (x : PlainItem)
    (hx : ∀ c, x = .literal c → c ≠ 0x25) (rest fp : List Nat) :
    out_it_loop libc tlibc info tf utc dbg (x.text ++ rest) fp =
      out_it_loop libc tlibc info tf utc dbg rest (fp ++ x.written) := by
  cases x with
  | literal c => exact out_it_loop_literal libc tlibc info tf utc dbg c (hx c rfl) rest fp
  | newline => exact out_it_loop_directive libc tlibc info tf utc dbg 0x6E rest fp
  | nul => exact out_it_loop_directive libc tlibc info tf utc dbg 0x7A rest fp
  | percent => exact out_it_loop_directive libc tlibc info tf utc dbg 0x25 rest fp

theorem out_it_loop_plain {Tm : Type} (libc : Libc) (tlibc : TimeLibc Tm)
    (info : lstime_info) (tf : List Nat) (utc dbg : Bool) (items : List PlainItem)
    (h : ∀ c, PlainItem.literal c ∈ items → c ≠ 0x25) (rest fp : List Nat) :
    out_it_loop libc tlibc info tf utc dbg (items.flatMap PlainItem.text ++ rest) fp =
      out_it_loop libc tlibc info tf utc dbg rest (fp ++ items.flatMap PlainItem.written) := by
  induction items generalizing fp with
  | nil => simp
  | cons x xs ih =>
    rw [List.flatMap_cons, List.flatMap_cons, List.append_assoc,
      out_it_loop_plain_item libc tlibc info tf utc dbg x
        (fun c hc => h c (by rw [hc]; exact List.mem_cons_self _ _)),
      ih (fun c hc => h c (List.mem_cons_of_mem _ hc)), List.append_assoc]

/-- The result of `comp_timespec` against the order of the specification. -/
theorem comp_timespec_le (a b : timespec) : comp_timespec a b ≤ 0 ↔ timespec_le a b := by
  unfold comp_timespec timespec_le
  split_ifs <;> constructor <;> intro h <;> omega

theorem comp_timespec_swap (a b : timespec) : 0 < comp_timespec a b ↔ comp_timespec b a < 0 := by
  unfold comp_timespec
  split_ifs <;> constructor <;> intro h <;> omega

theorem comp_timespec_trans (a b c : timespec) (h1 : comp_timespec a b ≤ 0)
    (h2 : comp_timespec b c ≤ 0) : comp_timespec a c ≤ 0 := by
  rw [comp_timespec_le] at h1 h2 ⊢
  unfold timespec_le at h1 h2 ⊢
  omega

/-- A comparator that applies `comp_timespec` to one timestamp of each item is
consistent. -/
theorem consistent_of_time (f : lstime_info → timespec) :
    ConsistentComparator (fun x y => comp_timespec (f x) (f y)) :=
  ⟨fun a b => comp_timespec_swap (f a) (f b),
   fun a b c => comp_timespec_trans (f a) (f b) (f c)⟩

theorem strcmp_swap (a : List Nat) : ∀ b, strcmp a b = - strcmp b a := by
  induction a with
  | nil =>
    intro b
    cases b with
    | nil => rfl
    | cons b0 s2 => simp [strcmp]
  | cons a0 s1 ih =>
    intro b
    cases b with
    | nil => simp [strcmp]
    | cons b0 s2 =>
      simp only [strcmp]
      by_cases h : a0 = b0
      · subst h
        by_cases h0 : a0 = 0
        · simp [h0]
        · simp only [if_true, if_neg h0]
          exact ih s2
      · rw [if_neg h, if_neg (fun h2 => h h2.symm)]
        omega

theorem strcmp_trans (a : List Nat) : ∀ b c, strcmp a b ≤ 0 → strcmp b c ≤ 0 →
    strcmp a c ≤ 0 := by
  induction a with
  | nil =>
    intro b c _ _
    cases c with
    | nil => simp [strcmp]
    | cons c0 s3 => simp [strcmp]
  | cons a0 s1 ih =>
    intro b c h1 h2
    cases b with
    | nil =>
      simp only [strcmp] at h1
      have ha : a0 = 0 := by omega
      cases c with
      | nil => simp [strcmp, ha]
      | cons c0 s3 =>
        simp only [strcmp]
        split_ifs <;> omega
    | cons b0 s2 =>
      cases c with
      | nil =>
        simp only [strcmp] at h1 h2 ⊢
        split_ifs at h1 <;> omega
      | cons c0 s3 =>
        simp only [strcmp] at h1 h2 ⊢
        by_cases hab : a0 = b0
        · subst hab
          by_cases hbc : a0 = c0
          · subst hbc
            by_cases h0 : a0 = 0
            · simp [h0]
            · simp only [if_true, if_neg h0] at h1 h2 ⊢
              exact ih s2 s3 h1 h2
          · rw [if_neg hbc] at h2 ⊢
            exact h2
        · rw [if_neg hab] at h1
          by_cases hbc : b0 = c0
          · subst hbc
            rw [if_neg hab]
            exact h1
          · rw [if_neg hbc] at h2
            have hac : a0 ≠ c0 := by omega
            rw [if_neg hac]
            omega

/-- A comparator that applies `strcmp` to one string of each item is
consistent. -/
theorem consistent_of_strcmp (f : lstime_info → List Nat) :
    ConsistentComparator (fun x y => strcmp (f x) (f y)) := by
  refine ⟨fun a b => ?_, fun a b c => strcmp_trans (f a) (f b) (f c)⟩
  have := strcmp_swap (f a) (f b)
  beta_reduce
  constructor <;> intro h <;> omega

/-- The insertion sort of the reference library meets the contract of
`qsort`. -/
theorem c_locale_qsort_contract : QsortContract c_locale_sort_libc.qsort := by
  intro comp list hc
  obtain ⟨hs, ht⟩ := hc
  have htot : IsTotal lstime_info (fun a b => comp a b ≤ 0) := ⟨fun a b => by
    by_cases h : comp a b ≤ 0
    · exact Or.inl h
    · exact Or.inr (le_of_lt ((hs a b).1 (by omega)))⟩
  have htr : IsTrans lstime_info (fun a b => comp a b ≤ 0) := ⟨ht⟩
  exact ⟨List.perm_insertionSort _ list,
    (List.sorted_insertionSort (fun a b => comp a b ≤ 0) list).chain'⟩

/-- Every comparison function `lstime_sort_list` can select is consistent. -/
theorem select_comp_consistent (sort_field : Nat) (reverse : Bool)
    (comp : lstime_info → lstime_info → Int) (h : select_comp sort_field reverse = .ok comp) :
    ConsistentComparator comp := by
  unfold select_comp at h
  split_ifs at h <;> injection h with h <;> subst h
  · exact consistent_of_time (fun x => x.mtime)
  · exact consistent_of_time (fun x => x.atime)
  · exact consistent_of_time (fun x => x.ctime)
  · exact consistent_of_time (fun x => x.btime)
  · refine ⟨fun a b => ?_, fun a b c h1 h2 =>
      strcmp_trans (sortkey_text c) (sortkey_text b) (sortkey_text a) h2 h1⟩
    have := strcmp_swap (sortkey_text b) (sortkey_text a)
    unfold comp_p_rev
    constructor <;> intro h <;> omega
  · exact ⟨fun a b => comp_timespec_swap b.mtime a.mtime,
      fun a b c h1 h2 => comp_timespec_trans c.mtime b.mtime a.mtime h2 h1⟩
  · exact ⟨fun a b => comp_timespec_swap b.atime a.atime,
      fun a b c h1 h2 => comp_timespec_trans c.atime b.atime a.atime h2 h1⟩
  · exact ⟨fun a b => comp_timespec_swap b.ctime a.ctime,
      fun a b c h1 h2 => comp_timespec_trans c.ctime b.ctime a.ctime h2 h1⟩
  · exact ⟨fun a b => comp_timespec_swap b.btime a.btime,
      fun a b c h1 h2 => comp_timespec_trans c.btime b.btime a.btime h2 h1⟩
  · exact consistent_of_strcmp (fun x => sortkey_text x)

/-- The function `lstime_sort_list` for a field other than `p`: the array is
handed to `qsort` as it is. -/
theorem sort_list_of_comp (libc : SortLibc) (hq : QsortContract libc.qsort)
    (list keyed : List lstime_info) (sort_field : Nat) (reverse : Bool)
    (comp : lstime_info → lstime_info → Int)
    (hsel : select_comp sort_field reverse = .ok comp)
    (hkey : (if sort_field = 0x70 then populate_sortkeys libc list else .ok list) = .ok keyed) :
    ∃ out, lstime_sort_list libc list sort_field reverse = .ok out ∧ out.Perm keyed ∧
      out.Chain' (fun x y => comp x y ≤ 0) := by
  unfold lstime_sort_list
  by_cases h0 : list.length = 0
  · rw [if_pos h0]
    have hnil : list = [] := List.length_eq_zero.1 h0
    subst hnil
    have hk : keyed = [] := by
      split_ifs at hkey
      · simp only [populate_sortkeys] at hkey
        injection hkey with hkey
        exact hkey.symm
      · injection hkey with hkey
        exact hkey.symm
    subst hk
    exact ⟨[], rfl, List.Perm.refl _, List.chain'_nil⟩
  · rw [if_neg h0, hkey]
    simp only [hsel]
    obtain ⟨h1, h2⟩ := hq comp keyed (select_comp_consistent sort_field reverse comp hsel)
    exact ⟨_, rfl, h1, h2⟩

theorem timespec_le_trans (a b c : timespec) (h1 : timespec_le a b) (h2 : timespec_le b c) :
    timespec_le a c := by
  unfold timespec_le at h1 h2 ⊢
  omega

/-- The forward comparator of a time field compares the chosen timestamps,
second argument first. -/
theorem select_comp_time_fwd (sort_field : Nat)
    (hf : sort_field = 0x6D ∨ sort_field = 0x61 ∨ sort_field = 0x63 ∨ sort_field = 0x62) :
    select_comp sort_field false =
      .ok (fun x y => comp_timespec (chosen_time sort_field y) (chosen_time sort_field x)) := by
  rcases hf with h | h | h | h <;> subst h <;> rfl

/-- The reverse comparator of a time field compares the chosen timestamps,
first argument first. -/
theorem select_comp_time_rev (sort_field : Nat)
    (hf : sort_field = 0x6D ∨ sort_field = 0x61 ∨ sort_field = 0x63 ∨ sort_field = 0x62) :
    select_comp sort_field true =
      .ok (fun x y => comp_timespec (chosen_time sort_field x) (chosen_time sort_field y)) := by
  rcases hf with h | h | h | h <;> subst h <;> rfl

theorem time_field_ne_p (sort_field : Nat)
    (hf : sort_field = 0x6D ∨ sort_field = 0x61 ∨ sort_field = 0x63 ∨ sort_field = 0x62) :
    sort_field ≠ 0x70 := by omega

/-- The loop that sets the sort keys returns exactly when every key fits the
buffer with its terminator, and then every item has its key. -/
theorem populate_sortkeys_ok (libc : SortLibc) (list : List lstime_info)
    (h : ∀ info ∈ list, (libc.strxfrm info.path).length < MAX_PATH_LEN) :
    populate_sortkeys libc list = .ok (list.map (with_sortkey libc)) := by
  induction list with
  | nil => rfl
  | cons x xs ih =>
    rw [populate_sortkeys, if_neg (by have := h x (List.mem_cons_self _ _); omega),
      ih (fun i hi => h i (List.mem_cons_of_mem _ hi))]
    rfl

theorem populate_sortkeys_overflow (libc : SortLibc) (list : List lstime_info)
    (h : ∃ info ∈ list, MAX_PATH_LEN ≤ (libc.strxfrm info.path).length) :
    populate_sortkeys libc list = .error 39 := by
  induction list with
  | nil => obtain ⟨i, hi, _⟩ := h; exact absurd hi (List.not_mem_nil _)
  | cons x xs ih =>
    rw [populate_sortkeys]
    by_cases hx : (libc.strxfrm x.path).length ≥ MAX_PATH_LEN
    · rw [if_pos hx]
    · rw [if_neg hx]
      obtain ⟨i, hi, hlen⟩ := h
      rcases List.mem_cons.1 hi with heq | hmem
      · subst heq; exact absurd hlen hx
      · rw [ih ⟨i, hmem, hlen⟩]

/-- The comparator of the field `p` selected for a value of `reverse`. -/
theorem select_comp_path (reverse : Bool) :
    select_comp 0x70 reverse = .ok (if reverse then comp_p_rev else comp_p_fwd) := by
  cases reverse <;> rfl

/-- For strings without a NUL byte, `strcmp` is negative exactly when the
first string is before the second in the lexicographic order of the bytes. -/
theorem strcmp_neg_iff_lex (a : List Nat) : ∀ b, (∀ x ∈ a, x ≠ 0) → (∀ x ∈ b, x ≠ 0) →
    (strcmp a b < 0 ↔ List.Lex (fun x y : Nat => x < y) a b) := by
  induction a with
  | nil =>
    intro b _ hb
    cases b with
    | nil =>
      simp only [strcmp]
      constructor
      · intro h; omega
      · intro h; cases h
    | cons b0 s2 =>
      have := hb b0 (List.mem_cons_self _ _)
      simp only [strcmp]
      constructor
      · intro _; exact List.Lex.nil
      · intro _; omega
  | cons a0 s1 ih =>
    intro b ha hb
    have ha0 := ha a0 (List.mem_cons_self _ _)
    cases b with
    | nil =>
      simp only [strcmp]
      constructor
      · intro h; omega
      · intro h; cases h
    | cons b0 s2 =>
      simp only [strcmp]
      by_cases hab : a0 = b0
      · subst hab
        simp only [if_true, if_neg ha0]
        rw [ih s2 (fun x hx => ha x (List.mem_cons_of_mem _ hx))
          (fun x hx => hb x (List.mem_cons_of_mem _ hx))]
        constructor
        · intro h; exact List.Lex.cons h
        · intro h
          cases h with
          | cons ht => exact ht
          | rel hlt => exact absurd hlt (lt_irrefl _)
      · rw [if_neg hab]
        constructor
        · intro h; exact List.Lex.rel (by omega)
        · intro h
          cases h with
          | cons ht => exact absurd rfl hab
          | rel hlt => omega

/-- The function `lstime_sort_list` stops with `exit(39)` when a key does not
fit. -/
theorem sort_list_key_overflow (libc : SortLibc) (list : List lstime_info) (reverse : Bool)
    (h : ∃ info ∈ list, MAX_PATH_LEN ≤ (libc.strxfrm info.path).length) :
    lstime_sort_list libc list 0x70 reverse = .error 39 := by
  unfold lstime_sort_list
  have hne : ¬ (list.length = 0) := by
    obtain ⟨i, hi, _⟩ := h
    intro h0
    rw [List.length_eq_zero.1 h0] at hi
    exact absurd hi (List.not_mem_nil _)
  rw [if_neg hne, if_pos rfl, populate_sortkeys_overflow libc list h]

/-! ## Lemmas on the static buffers -/

theorem write_at_update (buf : Nat → Nat) (i b : Nat) (bs : List Nat) :
    write_at (Function.update buf i b) (i + 1) bs = write_at buf i (b :: bs) := by
  funext j
  unfold write_at
  simp only [List.length_cons]
  by_cases h1 : i + 1 ≤ j ∧ j < i + 1 + bs.length
  · rw [if_pos h1, if_pos (by omega)]
    have : j - i = (j - (i + 1)) + 1 := by omega
    rw [this, List.getD_cons_succ]
  · rw [if_neg h1]
    by_cases h2 : j = i
    · subst h2
      rw [if_pos (by omega), Function.update_same]
      simp
    · rw [if_neg (by omega), Function.update_noteq h2]

/-- Stores that stay inside the array succeed. -/
theorem store_bytes_eq (size : Nat) (bs : List Nat) :
    ∀ (i : Nat) (buf : Nat → Nat), i + bs.length ≤ size →
      store_bytes size bs i buf = .ok (write_at buf i bs) := by
  induction bs with
  | nil =>
    intro i buf _
    simp only [store_bytes]
    congr 1
    funext j
    unfold write_at
    rw [if_neg (by simp)]
  | cons b bs ih =>
    intro i buf h
    simp only [List.length_cons] at h
    simp only [store_bytes, store]
    rw [if_pos (by omega)]
    simp only []
    rw [ih (i + 1) _ (by omega), write_at_update]

theorem agree_write (buf : Nat → Nat) (out bs : List Nat) (h : Agree buf out) :
    Agree (write_at buf out.length bs) (out ++ bs) := by
  intro j hj
  unfold write_at
  rw [List.length_append] at hj
  by_cases h1 : out.length ≤ j
  · rw [if_pos ⟨h1, hj⟩, List.getD_append_right _ _ _ _ h1]
  · rw [if_neg (fun hc => h1 hc.1), h j (by omega), List.getD_append _ _ _ _ (by omega)]

theorem agree_initial (buf : Nat → Nat) (out xs : List Nat) (h : Agree buf (out ++ xs)) :
    Agree buf out := by
  intro j hj
  rw [h j (by rw [List.length_append]; omega), List.getD_append _ _ _ _ hj]

theorem agree_nil (buf : Nat → Nat) : Agree buf [] := fun j hj => by simp at hj

/-- Stores beyond the bytes that two arrays share leave them shared. -/
theorem agree_write_beyond (buf : Nat → Nat) (out bs : List Nat) (i : Nat)
    (h : Agree buf out) (hi : out.length ≤ i) : Agree (write_at buf i bs) out := by
  intro j hj
  unfold write_at
  rw [if_neg (by omega)]
  exact h j hj

/-- The string read where the bytes `s`, none of them NUL, are followed by a
NUL. -/
theorem read_string_eq (buf : Nat → Nat) (s : List Nat) :
    ∀ (fuel i : Nat), (∀ j, j < s.length → buf (i + j) = s.getD j 0) →
      (∀ x ∈ s, x ≠ 0) → buf (i + s.length) = 0 → s.length < fuel →
      read_string buf fuel i = .ok s := by
  induction s with
  | nil =>
    intro fuel i _ _ h0 hf
    obtain ⟨f, rfl⟩ : ∃ f, fuel = f + 1 := ⟨fuel - 1, by simp at hf; omega⟩
    simp only [List.length_nil, Nat.add_zero] at h0
    simp [read_string, h0]
  | cons x xs ih =>
    intro fuel i hs hnz h0 hf
    simp only [List.length_cons] at hf h0
    obtain ⟨f, rfl⟩ : ∃ f, fuel = f + 1 := ⟨fuel - 1, by omega⟩
    have hx : buf i = x := by
      have := hs 0 (by simp)
      simpa using this
    have hxnz : x ≠ 0 := hnz x (List.mem_cons_self _ _)
    simp only [read_string]
    rw [if_neg (by rw [hx]; exact hxnz),
      ih f (i + 1) (fun j hj => by
        have := hs (j + 1) (by simp only [List.length_cons]; omega)
        rw [List.getD_cons_succ] at this
        rw [← this]; congr 1; omega)
        (fun y hy => hnz y (List.mem_cons_of_mem _ hy))
        (by rw [← h0]; congr 1; omega) (by omega), hx]

/-- A NUL inside the array bounds the string read. -/
theorem read_string_bound (buf : Nat → Nat) (k : Nat) :
    ∀ (fuel i : Nat), buf (i + k) = 0 → k < fuel →
      ∃ s, read_string buf fuel i = .ok s ∧ s.length ≤ k := by
  induction k with
  | zero =>
    intro fuel i h0 hf
    obtain ⟨f, rfl⟩ : ∃ f, fuel = f + 1 := ⟨fuel - 1, by omega⟩
    simp only [Nat.add_zero] at h0
    exact ⟨[], by simp [read_string, h0], Nat.le_refl _⟩
  | succ k ih =>
    intro fuel i h0 hf
    obtain ⟨f, rfl⟩ : ∃ f, fuel = f + 1 := ⟨fuel - 1, by omega⟩
    simp only [read_string]
    by_cases hz : buf i = 0
    · rw [if_pos hz]; exact ⟨[], rfl, Nat.zero_le _⟩
    · rw [if_neg hz]
      obtain ⟨s, hs, hl⟩ := ih f (i + 1) (by rw [← h0]; congr 1; omega) (by omega)
      rw [hs]
      exact ⟨buf i :: s, rfl, by simp only [List.length_cons]; omega⟩

/-- The string at the start of an array that begins with the bytes `s`, none
of them NUL, followed by a NUL. -/
theorem c_string_of_agree (size : Nat) (buf : Nat → Nat) (s : List Nat)
    (h : Agree buf (s ++ [0x00])) (hnz : ∀ x ∈ s, x ≠ 0) (hlen : s.length < size) :
    c_string size buf 0 = .ok s := by
  unfold c_string
  refine read_string_eq buf s _ 0 (fun j hj => ?_) hnz ?_ (by omega)
  · rw [Nat.zero_add, h j (by rw [List.length_append]; omega), List.getD_append _ _ _ _ hj]
  · rw [Nat.zero_add, h s.length (by simp)]
    simp

/-- The bytes of one `case` are stored after the bytes already written, when
they fit the array. -/
theorem put_quoted_ok (bs out : List Nat) (st : Statics) (h : Agree st.quoted_buf out)
    (hfit : out.length + bs.length ≤ MAX_PATH_LEN) :
    ∃ st1, put_quoted bs st out.length = .ok (st1, (out ++ bs).length) ∧
      Agree st1.quoted_buf (out ++ bs) := by
  unfold put_quoted
  rw [store_bytes_eq MAX_PATH_LEN bs out.length st.quoted_buf hfit]
  exact ⟨_, by rw [List.length_append], agree_write _ out bs h⟩

theorem bash_u_escape_no_nul (cp : Nat) : ∀ x ∈ bash_u_escape cp, x ≠ 0 := by
  intro x hx
  have := bash_u_escape_range cp x hx
  omega

/-- The escape is copied after the bytes already written, when eleven bytes
are free. -/
theorem strcpy_u_escape_ok (cp : Nat) (out : List Nat) (st : Statics)
    (h : Agree st.quoted_buf out) (hfit : out.length + 11 ≤ MAX_PATH_LEN) :
    ∃ st1, strcpy_u_escape cp st out.length = .ok (st1, (out ++ bash_u_escape cp).length) ∧
      Agree st1.quoted_buf (out ++ bash_u_escape cp) := by
  have hlen := bash_u_escape_length_le cp
  have hnz := bash_u_escape_no_nul cp
  unfold strcpy_u_escape bash_u_escape_mem
  rw [store_bytes_eq 12 (bash_u_escape cp ++ [0x00]) 0 st.u_escape_buf (by
    rw [List.length_append, List.length_singleton]; omega)]
  simp only []
  have hu : Agree (write_at st.u_escape_buf 0 (bash_u_escape cp ++ [0x00]))
      (bash_u_escape cp ++ [0x00]) := by
    have := agree_write st.u_escape_buf [] (bash_u_escape cp ++ [0x00]) (agree_nil _)
    simpa using this
  rw [c_string_of_agree 12 _ (bash_u_escape cp) hu hnz (by omega)]
  simp only []
  rw [store_bytes_eq MAX_PATH_LEN (bash_u_escape cp ++ [0x00]) out.length st.quoted_buf (by
    rw [List.length_append, List.length_singleton]; omega)]
  simp only []
  have hq := agree_write st.quoted_buf out (bash_u_escape cp ++ [0x00]) h
  have hread : c_string MAX_PATH_LEN
      (write_at st.quoted_buf out.length (bash_u_escape cp ++ [0x00])) out.length =
      .ok (bash_u_escape cp) := by
    unfold c_string
    refine read_string_eq _ (bash_u_escape cp) _ out.length (fun j hj => ?_) hnz ?_ (by omega)
    · rw [hq (out.length + j) (by simp only [List.length_append, List.length_singleton]; omega),
        List.getD_append_right _ _ _ _ (by omega), Nat.add_sub_cancel_left,
        List.getD_append _ _ _ _ hj]
    · rw [hq (out.length + (bash_u_escape cp).length)
          (by simp only [List.length_append, List.length_singleton]; omega),
        List.getD_append_right _ _ _ _ (by omega), Nat.add_sub_cancel_left]
      simp
  rw [hread]
  simp only []
  refine ⟨_, by rw [List.length_append], ?_⟩
  rw [← List.append_assoc] at hq
  exact agree_initial _ _ _ hq

/-- One iteration of the loop on the static buffers stores what the pure
iteration appends. -/
theorem quote_unit_mem_ok (lvl cp : Nat) (out : List Nat) (st : Statics)
    (h : Agree st.quoted_buf out) (hfit : out.length ≤ MAX_PATH_LEN - 12) :
    ∃ st1, quote_unit_mem lvl cp st out.length =
        .ok (st1, (out ++ quote_unit lvl cp).length) ∧
      Agree st1.quoted_buf (out ++ quote_unit lvl cp) := by
  have hput : ∀ bs : List Nat, bs.length ≤ 4 →
      ∃ st1, put_quoted bs st out.length = .ok (st1, (out ++ bs).length) ∧
        Agree st1.quoted_buf (out ++ bs) := fun bs hbs =>
    put_quoted_ok bs out st h (by unfold MAX_PATH_LEN at hfit ⊢; omega)
  have hcpy := strcpy_u_escape_ok cp out st h (by unfold MAX_PATH_LEN at hfit ⊢; omega)
  unfold quote_unit_mem quote_unit
  by_cases c1 : lvl ≤ LEVEL3
  · simp only [if_pos c1]; exact hput _ (by simp)
  simp only [if_neg c1]
  by_cases n0 : cp = 0x07
  · simp only [if_pos n0]; exact hput _ (by simp)
  simp only [if_neg n0]
  by_cases n1 : cp = 0x08
  · simp only [if_pos n1]; exact hput _ (by simp)
  simp only [if_neg n1]
  by_cases n2 : cp = 0x1B
  · simp only [if_pos n2]; exact hput _ (by simp)
  simp only [if_neg n2]
  by_cases n3 : cp = 0x0C
  · simp only [if_pos n3]; exact hput _ (by simp)
  simp only [if_neg n3]
  by_cases n4 : cp = 0x0A
  · simp only [if_pos n4]; exact hput _ (by simp)
  simp only [if_neg n4]
  by_cases n5 : cp = 0x0D
  · simp only [if_pos n5]; exact hput _ (by simp)
  simp only [if_neg n5]
  by_cases n6 : cp = 0x09
  · simp only [if_pos n6]; exact hput _ (by simp)
  simp only [if_neg n6]
  by_cases n7 : cp = 0x0B
  · simp only [if_pos n7]; exact hput _ (by simp)
  simp only [if_neg n7]
  by_cases n8 : cp = 0x5C
  · simp only [if_pos n8]; exact hput _ (by simp)
  simp only [if_neg n8]
  by_cases n9 : cp = 0x27
  · simp only [if_pos n9]; exact hput _ (by simp)
  simp only [if_neg n9]
  by_cases n10 : cp = 0x22
  · simp only [if_pos n10]; exact hput _ (by simp)
  simp only [if_neg n10]
  by_cases pr : 0x20 ≤ cp ∧ cp ≤ 0x7E
  · simp only [if_pos pr]; exact hput _ (by simp)
  simp only [if_neg pr]
  by_cases l4 : lvl = LEVEL4
  · simp only [if_pos l4]
    by_cases lo : cp ≤ 0x7F
    · simp only [if_pos lo]; exact hcpy
    · simp only [if_neg lo]; exact hput _ (by simp)
  simp only [if_neg l4]
  by_cases l5 : lvl = LEVEL5
  · simp only [if_pos l5]; exact hcpy
  simp only [if_neg l5]
  by_cases l6 : lvl = LEVEL6
  · simp only [if_pos l6]; exact hput _ (by simp)
  simp only [if_neg l6]
  exact ⟨st, by rw [List.append_nil], by rw [List.append_nil]; exact h⟩

/-- The loop on the static buffers against the pure loop: same exit, or the
bytes of the pure result at the start of `quoted_buf`. -/
theorem bash_quote_loop_mem_sim (lvl : Nat) (cps : List Nat) :
    ∀ (out : List Nat) (st : Statics), Agree st.quoted_buf out →
      (∀ e, bash_quote_loop lvl cps out = .error e →
        bash_quote_loop_mem lvl cps st out.length = .error (.exit e)) ∧
      (∀ out1, bash_quote_loop lvl cps out = .ok out1 →
        ∃ st1, bash_quote_loop_mem lvl cps st out.length = .ok (st1, out1.length) ∧
          Agree st1.quoted_buf out1) := by
  induction cps with
  | nil =>
    intro out st h
    refine ⟨fun e he => ?_, fun out1 ho => ?_⟩
    · simp [bash_quote_loop] at he
    · simp only [bash_quote_loop] at ho
      injection ho with ho
      subst ho
      exact ⟨st, rfl, h⟩
  | cons cp rest ih =>
    intro out st h
    simp only [bash_quote_loop, bash_quote_loop_mem]
    by_cases hg : out.length > MAX_PATH_LEN - 12
    · rw [if_pos hg, if_pos hg]
      refine ⟨fun e he => ?_, fun out1 ho => ?_⟩
      · injection he with he; rw [he]
      · exact absurd ho (by simp)
    · rw [if_neg hg, if_neg hg]
      obtain ⟨st1, h1, h2⟩ := quote_unit_mem_ok lvl cp out st h (by omega)
      rw [h1]
      exact ih (out ++ quote_unit lvl cp) st1 h2

/-- An array that starts with the bytes `w` and a NUL starts with the string
of `w` and a NUL. -/
theorem agree_c_str (buf : Nat → Nat) (w : List Nat) (h : Agree buf (w ++ [0x00])) :
    Agree buf (c_str w ++ [0x00]) := by
  have key : ∀ v : List Nat, ∃ r, v ++ [0x00] = (c_str v ++ [0x00]) ++ r := by
    intro v
    induction v with
    | nil => exact ⟨[], rfl⟩
    | cons a t ih =>
      by_cases ha : a = 0
      · subst ha
        exact ⟨t ++ [0x00], rfl⟩
      · obtain ⟨r, hr⟩ := ih
        refine ⟨r, ?_⟩
        have e : c_str (a :: t) = a :: c_str t := by
          unfold c_str
          rw [List.takeWhile_cons_of_pos (by simpa using ha)]
        rw [e, List.cons_append, hr]
        rfl
  obtain ⟨r, hr⟩ := key w
  rw [hr] at h
  exact agree_initial _ _ _ h

/-- The function `bash_quote_cps` on the static buffers against the pure
functions, whatever the buffers held: same exit, or the bytes written and
their terminator at the start of `quoted_buf`, all stored inside the array,
and the string returned is the one read up to the first NUL. -/
theorem bash_quote_cps_mem_sim (cps : List Nat) (lvl : Nat) (st : Statics) :
    (∀ e, bash_quote_cps_buf cps lvl = .error e →
      bash_quote_cps_mem cps lvl st = .error (.exit e)) ∧
    (∀ out, bash_quote_cps_buf cps lvl = .ok out →
      ∃ st1, bash_quote_cps_mem cps lvl st = .ok (st1, c_str out) ∧
        Agree st1.quoted_buf (out ++ [0x00])) := by
  have hopen := quote_open_length_le lvl
  have hclose := quote_close_length_le lvl
  obtain ⟨st1, h1, h2⟩ := put_quoted_ok (quote_open lvl) [] st (agree_nil _) (by
    unfold MAX_PATH_LEN; simp only [List.length_nil]; omega)
  rw [List.nil_append] at h1 h2
  have h1b : put_quoted (quote_open lvl) st 0 = .ok (st1, (quote_open lvl).length) := h1
  obtain ⟨s1, s2⟩ := bash_quote_loop_mem_sim lvl cps (quote_open lvl) st1 h2
  unfold bash_quote_cps_buf bash_quote_cps_mem
  rw [h1b]
  simp only []
  cases hl : bash_quote_loop lvl cps (quote_open lvl) with
  | error e =>
    rw [s1 e hl]
    refine ⟨fun e2 he => ?_, fun out ho => ?_⟩
    · injection he with he; rw [he]
    · exact absurd ho (by simp)
  | ok q =>
    obtain ⟨st2, h3, h4⟩ := s2 q hl
    rw [h3]
    simp only []
    have hq := bash_quote_loop_length lvl cps (quote_open lvl) q hl
    have hq2 : q.length ≤ MAX_PATH_LEN - 2 := by unfold MAX_PATH_LEN at hq ⊢; omega
    obtain ⟨st3, h5, h6⟩ := put_quoted_ok (quote_close lvl ++ [0x00]) q st2 h4 (by
      rw [List.length_append, List.length_singleton]
      unfold MAX_PATH_LEN at hq2 ⊢; omega)
    rw [h5]
    simp only []
    rw [← List.append_assoc] at h6
    refine ⟨fun e2 he => absurd he (by simp), fun out ho => ?_⟩
    injection ho with ho
    subst ho
    have hlen : (q ++ quote_close lvl).length < MAX_PATH_LEN := by
      rw [List.length_append]; unfold MAX_PATH_LEN at hq2 ⊢; omega
    have hc := c_string_of_agree MAX_PATH_LEN st3.quoted_buf (c_str (q ++ quote_close lvl))
      (agree_c_str _ _ h6) (c_str_no_nul _) (by
        have := c_str_length_le (q ++ quote_close lvl)
        omega)
    rw [hc]
    exact ⟨st3, rfl, h6⟩

/-- The units read back from the start of an array where they were stored. -/
theorem range_map_write_at (buf : Nat → Nat) (bs : List Nat) :
    (List.range bs.length).map (write_at buf 0 bs) = bs := by
  apply List.ext_getElem
  · simp
  · intro n h1 h2
    simp only [List.getElem_map, List.getElem_range]
    unfold write_at
    rw [if_pos ⟨Nat.zero_le _, by omega⟩, Nat.sub_zero]
    exact List.getD_eq_getElem _ _ _

/-- The function `bash_quote_cps` on the static buffers returns what the pure
function returns, whatever the buffers held. -/
theorem bash_quote_cps_mem_eq (cps : List Nat) (lvl : Nat) (st : Statics) :
    (bash_quote_cps_mem cps lvl st).map Prod.snd = as_fault (bash_quote_cps cps lvl) := by
  obtain ⟨s1, s2⟩ := bash_quote_cps_mem_sim cps lvl st
  cases hp : bash_quote_cps_buf cps lvl with
  | error e =>
    rw [s1 e hp, (bash_quote_cps_error_iff _ _ _).2 hp]
    rfl
  | ok out =>
    obtain ⟨st1, h1, _⟩ := s2 out hp
    rw [h1, bash_quote_cps_of_buf _ _ _ hp]
    rfl

/-- The function `lstime_format_path` on the static buffers returns what the
pure function returns, whatever the buffers held. -/
theorem lstime_format_path_mem_eq (libc : Libc) (p : List Nat) (eu dbg : Bool) (st : Statics)
    (hp : IsCString p) (hdec : (libc.iconv p).out.length ≤ MAX_PATH_LEN) :
    (lstime_format_path_mem libc p eu dbg st).map Prod.snd =
      as_fault (lstime_format_path libc p eu dbg) := by
  have hbytes : ∀ u ∈ p.map (fun b => b % 256), 0 < u ∧ u < 256 := by
    intro u hu
    obtain ⟨b, hb, hbu⟩ := List.mem_map.1 hu
    have := hp b hb
    rw [← hbu, Nat.mod_eq_of_lt this.2]
    exact this
  have h5 := parse_le_five p eu
  have hguard : parse_for_display_level p LEVEL1 eu ≥ LEVEL3 ∨
      parse_for_display_level p LEVEL1 eu ≤ LEVEL5 := Or.inr h5
  have hcopy : ∀ (lvl : Nat) (st1 : Statics), lvl ≤ 6 → lvl ≠ 5 →
      (match copy_bytes_to_cps_mem MAX_PATH_LEN p st1 with
        | .error f => (.error f : Except Fault (Statics × List Nat))
        | .ok (st2, cps_len2) =>
          bash_quote_cps_mem ((List.range cps_len2).map st2.outbuf) lvl st2).map Prod.snd =
        as_fault (if p.length > MAX_PATH_LEN then .error 27
          else bash_quote_cps (p.map fun b => b % 256) lvl) := by
    intro lvl st1 hl6 hl5
    unfold copy_bytes_to_cps_mem
    by_cases hlen : p.length > MAX_PATH_LEN
    · rw [if_pos hlen, if_pos hlen]; rfl
    · rw [if_neg hlen, if_neg hlen,
        store_bytes_eq MAX_PATH_LEN _ 0 st1.outbuf (by rw [List.length_map]; omega)]
      simp only []
      have hr := range_map_write_at st1.outbuf (p.map fun b => b % 256)
      rw [List.length_map] at hr
      rw [hr]
      exact bash_quote_cps_mem_eq _ lvl _
  rw [lstime_format_path_unfold]
  unfold lstime_format_path_mem lstime_iconv_mem
  simp only [if_pos hguard]
  by_cases ho : libc.iconv_open_ok = false
  · simp only [if_pos ho]; rfl
  · simp only [if_neg ho]
    rw [store_bytes_eq MAX_PATH_LEN _ 0 st.outbuf (by omega)]
    simp only []
    by_cases hd : DecodeOk libc p
    · have hn : ¬ ((libc.iconv p).rc = SIZE_MAX ∨ (libc.iconv p).in_size_left ≠ 0 ∨
          (libc.iconv p).rc ≠ 0) := by
        rintro (h | h | h)
        · rw [hd.1] at h; exact absurd h (by decide)
        · exact h hd.2
        · exact h hd.1
      simp only [if_neg hn, if_pos hd, if_true]
      by_cases hl5 : parse_for_display_level p LEVEL1 eu = 5
      · have hne : ¬ ((5 : Nat) ≠ LEVEL5) := fun h => h rfl
        simp only [hl5, if_neg hne, if_true, range_map_write_at]
        exact bash_quote_cps_mem_eq _ 5 _
      · have hne : parse_for_display_level p LEVEL1 eu ≠ LEVEL5 := hl5
        simp only [if_neg hl5, if_pos hne]
        exact hcopy _ _ (by omega) hl5
    · have hy : (libc.iconv p).rc = SIZE_MAX ∨ (libc.iconv p).in_size_left ≠ 0 ∨
          (libc.iconv p).rc ≠ 0 := by
        by_contra hcon
        push_neg at hcon
        exact hd ⟨hcon.2.2, hcon.2.1⟩
      have h6 : max (parse_for_display_level p LEVEL1 eu) LEVEL6 = 6 := by
        unfold LEVEL6; omega
      have hne : (6 : Nat) ≠ LEVEL5 := by decide
      simp only [if_pos hy, if_neg hd, Bool.false_eq_true, if_false, h6, if_pos hne]
      exact hcopy 6 _ (by omega) (by omega)

theorem nano_width_le (ws : List Nat) (h : ∀ c ∈ ws, is_digit c = true) : nano_width ws ≤ 9 := by
  match ws, h with
  | [], _ => simp [nano_width]
  | [w], h =>
    have := h w (List.mem_cons_self _ _)
    simp only [is_digit, decide_eq_true_eq] at this
    simp only [nano_width]
    omega
  | _ :: _ :: _, _ => simp [nano_width]

/-- One store of a single byte is a store of a list of one byte. -/
theorem store_eq_store_bytes (size : Nat) (buf : Nat → Nat) (i v : Nat) :
    store size buf i v = store_bytes size [v] i buf := by
  unfold store_bytes store
  split_ifs <;> rfl

/-- After a store, the array starts with the bytes it started with and any
number of the first bytes stored. -/
theorem agree_write_take (buf : Nat → Nat) (out xs ys : List Nat) (k : Nat)
    (h : Agree buf out) : Agree (write_at buf out.length (xs ++ ys)) (out ++ xs.take k) := by
  have h1 := agree_write buf out (xs ++ ys) h
  have e : out ++ (xs ++ ys) = (out ++ xs.take k) ++ (xs.drop k ++ ys) := by
    rw [List.append_assoc, ← List.append_assoc (xs.take k), List.take_append_drop]
  rw [e] at h1
  exact agree_initial _ _ _ h1

/-- The loop of the expander on its static buffer against the pure loop: same
exit, or the bytes of the pure result at the start of the buffer. -/
theorem preprocess_loop_mem_sim (zbuf : List Nat) (nsec : Int) (fuel : Nat) :
    ∀ (ptr out : List Nat) (buf : Nat → Nat), Agree buf out →
      (∀ e, preprocess_loop zbuf nsec fuel ptr out = .error e →
        preprocess_loop_mem zbuf nsec fuel ptr buf out.length = .error (.exit e)) ∧
      (∀ out1, preprocess_loop zbuf nsec fuel ptr out = .ok out1 →
        ∃ b1, preprocess_loop_mem zbuf nsec fuel ptr buf out.length = .ok (b1, out1.length) ∧
          Agree b1 out1) := by
  induction fuel with
  | zero =>
    intro ptr out buf h
    cases ptr with
    | nil =>
      simp only [preprocess_loop, preprocess_loop_mem]
      refine ⟨fun e he => absurd he (by simp), fun out1 ho => ?_⟩
      injection ho with ho
      subst ho
      exact ⟨buf, rfl, h⟩
    | cons c rest =>
      simp only [preprocess_loop, preprocess_loop_mem]
      refine ⟨fun e he => ?_, fun out1 ho => absurd ho (by simp)⟩
      injection he with he
      rw [he]
  | succ f ih =>
    intro ptr out buf h
    cases ptr with
    | nil =>
      simp only [preprocess_loop, preprocess_loop_mem]
      refine ⟨fun e he => absurd he (by simp), fun out1 ho => ?_⟩
      injection ho with ho
      subst ho
      exact ⟨buf, rfl, h⟩
    | cons c rest =>
      have hstep : ∀ (bs next : List Nat), out.length + bs.length ≤ MAX_TIME_LEN →
          (∀ e, preprocess_loop zbuf nsec f next (out ++ bs) = .error e →
            (match store_bytes MAX_TIME_LEN bs out.length buf with
              | .error fl => (.error fl : Except Fault ((Nat → Nat) × Nat))
              | .ok b => preprocess_loop_mem zbuf nsec f next b (out.length + bs.length)) =
              .error (.exit e)) ∧
          (∀ out1, preprocess_loop zbuf nsec f next (out ++ bs) = .ok out1 →
            ∃ b1, (match store_bytes MAX_TIME_LEN bs out.length buf with
              | .error fl => (.error fl : Except Fault ((Nat → Nat) × Nat))
              | .ok b => preprocess_loop_mem zbuf nsec f next b (out.length + bs.length)) =
              .ok (b1, out1.length) ∧ Agree b1 out1) := by
        intro bs next hfit
        rw [store_bytes_eq MAX_TIME_LEN bs out.length buf hfit]
        simp only []
        have := ih next (out ++ bs) _ (agree_write buf out bs h)
        rw [List.length_append] at this
        exact this
      rw [preprocess_loop, preprocess_loop_mem]
      by_cases hc : c = 0x25
      · simp only [if_pos hc]
        cases hm : skip_modifier ((rest.dropWhile is_flag).dropWhile is_digit) with
        | nil =>
          simp only []
          by_cases hg : out.length + (c :: rest).length > MAX_TIME_LEN - 1
          · simp only [if_pos hg]
            refine ⟨fun e he => ?_, fun out1 ho => absurd ho (by simp)⟩
            injection he with he
            rw [he]
          · simp only [if_neg hg]
            exact hstep (c :: rest) [] (by unfold MAX_TIME_LEN at hg ⊢; omega)
        | cons spec_letter ptr =>
          simp only []
          by_cases hN : spec_letter = 0x4E
          · simp only [if_pos hN]
            by_cases hg : out.length > MAX_TIME_LEN - 1 - 10
            · simp only [if_pos hg]
              refine ⟨fun e he => ?_, fun out1 ho => absurd ho (by simp)⟩
              injection he with he
              rw [he]
            · simp only [if_neg hg]
              rw [store_bytes_eq MAX_TIME_LEN _ out.length buf (by
                rw [List.length_append, List.length_take, List.length_singleton]
                unfold MAX_TIME_LEN at hg ⊢; omega)]
              simp only []
              by_cases hrc : (printf_09ld nsec).length ≠ 9
              · simp only [if_pos hrc]
                refine ⟨fun e he => ?_, fun out1 ho => absurd ho (by simp)⟩
                injection he with he
                rw [he]
              · simp only [if_neg hrc]
                have h9 : (printf_09ld nsec).length = 9 := by omega
                have hw := nano_width_le ((rest.dropWhile is_flag).takeWhile is_digit)
                  (fun x hx => (List.mem_takeWhile_imp hx))
                have hlen : (out ++ (printf_09ld nsec).take
                    (nano_width ((rest.dropWhile is_flag).takeWhile is_digit))).length =
                    out.length + nano_width ((rest.dropWhile is_flag).takeWhile is_digit) := by
                  rw [List.length_append, List.length_take, h9]; omega
                have e10 : (printf_09ld nsec).take 10 = printf_09ld nsec :=
                  List.take_of_length_le (by omega)
                rw [e10]
                have hag := agree_write_take buf out (printf_09ld nsec) [0x00]
                  (nano_width ((rest.dropWhile is_flag).takeWhile is_digit)) h
                have := ih ptr _ _ hag
                rw [hlen] at this
                exact this
          · simp only [if_neg hN]
            by_cases hz : spec_letter = 0x3A ∧ ptr.head? = some 0x7A
            · simp only [if_pos hz]
              by_cases hl0 : (if zbuf.length + 1 > 12 then 0 else zbuf.length) = 0
              · simp only [if_pos hl0]
                refine ⟨fun e he => ?_, fun out1 ho => absurd ho (by simp)⟩
                injection he with he
                rw [he]
              · simp only [if_neg hl0]
                by_cases hl5 : (if zbuf.length + 1 > 12 then 0 else zbuf.length) ≠ 5
                · simp only [if_pos hl5]
                  refine ⟨fun e he => ?_, fun out1 ho => absurd ho (by simp)⟩
                  injection he with he
                  rw [he]
                · simp only [if_neg hl5]
                  have hz5 : zbuf.length = 5 := by
                    split_ifs at hl5 <;> omega
                  by_cases hg : out.length > MAX_TIME_LEN - 1 - 7
                  · simp only [if_pos hg]
                    refine ⟨fun e he => ?_, fun out1 ho => absurd ho (by simp)⟩
                    injection he with he
                    rw [he]
                  · simp only [if_neg hg]
                    have hl6 : (zbuf.take 3 ++ [0x3A] ++ (zbuf.drop 3).take 2).length = 6 := by
                      simp only [List.length_append, List.length_take, List.length_drop,
                        List.length_singleton, hz5]
                      rfl
                    have := hstep (zbuf.take 3 ++ [0x3A] ++ (zbuf.drop 3).take 2) ptr.tail (by
                      rw [hl6]; unfold MAX_TIME_LEN at hg ⊢; omega)
                    rw [hl6] at this
                    simp only [List.append_assoc] at this ⊢
                    exact this
            · simp only [if_neg hz]
              by_cases hg : out.length +
                  ((c :: rest).take ((c :: rest).length - ptr.length)).length > MAX_TIME_LEN - 1
              · simp only [if_pos hg]
                refine ⟨fun e he => ?_, fun out1 ho => absurd ho (by simp)⟩
                injection he with he
                rw [he]
              · simp only [if_neg hg]
                exact hstep _ ptr (by unfold MAX_TIME_LEN at hg ⊢; omega)
      · simp only [if_neg hc]
        by_cases hg : out.length > MAX_TIME_LEN - 1 - 1
        · simp only [if_pos hg]
          refine ⟨fun e he => ?_, fun out1 ho => absurd ho (by simp)⟩
          injection he with he
          rw [he]
        · simp only [if_neg hg]
          rw [store_eq_store_bytes]
          exact hstep [c] rest (by
            rw [List.length_singleton]; unfold MAX_TIME_LEN at hg ⊢; omega)

theorem dec_digits_no_nul (fuel : Nat) : ∀ n x, x ∈ dec_digits fuel n → x ≠ 0 := by
  induction fuel with
  | zero => intro n x hx; simp [dec_digits] at hx
  | succ f ih =>
    intro n x hx
    simp only [dec_digits] at hx
    split_ifs at hx
    · simp at hx
    · rcases List.mem_append.1 hx with h | h
      · exact ih _ x h
      · simp at h; omega

theorem printf_09ld_no_nul (n : Int) : ∀ x ∈ printf_09ld n, x ≠ 0 := by
  intro x hx
  have hds : ∀ y ∈ (if n.natAbs = 0 then [0x30] else dec_digits 19 n.natAbs), y ≠ 0 := by
    intro y hy
    split_ifs at hy
    · simp at hy; omega
    · exact dec_digits_no_nul 19 _ y hy
  unfold printf_09ld at hx
  simp only [] at hx
  generalize (if n.natAbs = 0 then [0x30] else dec_digits 19 n.natAbs) = ds at hx hds
  by_cases hneg : n < 0
  · rw [if_pos hneg] at hx
    simp only [List.mem_append, List.mem_singleton, List.mem_replicate] at hx
    rcases hx with (h | h) | h
    · omega
    · omega
    · exact hds x h
  · rw [if_neg hneg] at hx
    simp only [List.mem_append, List.mem_replicate] at hx
    rcases hx with h | h
    · omega
    · exact hds x h

theorem prepend_no_nul (pre : List Nat) (r : Except Nat (List Nat)) (u : List Nat)
    (h : prepend pre r = .ok u) (hpre : ∀ x ∈ pre, x ≠ 0)
    (hr : ∀ v, r = .ok v → ∀ x ∈ v, x ≠ 0) : ∀ x ∈ u, x ≠ 0 := by
  obtain ⟨v, hv1, hv2⟩ := (prepend_eq_ok _ _ _).1 h
  intro x hx
  rw [hv2] at hx
  rcases List.mem_append.1 hx with h1 | h1
  · exact hpre x h1
  · exact hr v hv1 x h1

/-- The expansion of a format without NUL, with an offset text without NUL,
holds no NUL. -/
theorem expand_loop_no_nul (zbuf : List Nat) (nsec : Int) (hz : ∀ x ∈ zbuf, x ≠ 0)
    (fuel : Nat) : ∀ (ptr u : List Nat), expand_loop zbuf nsec fuel ptr = .ok u →
      (∀ x ∈ ptr, x ≠ 0) → ∀ x ∈ u, x ≠ 0 := by
  induction fuel with
  | zero =>
    intro ptr u h _
    cases ptr with
    | nil =>
      simp only [expand_loop] at h
      injection h with h
      subst h
      intro x hx
      exact absurd hx (List.not_mem_nil _)
    | cons c rest => simp [expand_loop] at h
  | succ f ih =>
    intro ptr u h hp
    cases ptr with
    | nil =>
      simp only [expand_loop] at h
      injection h with h
      subst h
      intro x hx
      exact absurd hx (List.not_mem_nil _)
    | cons c rest =>
      rw [expand_loop] at h
      by_cases hc : c = 0x25
      · simp only [if_pos hc] at h
        split at h
        · injection h with h
          subst h
          exact hp
        · rename_i spec_letter ptr hm
          obtain ⟨pre, hpre⟩ := after_spec_suffix rest spec_letter ptr hm
          have hptr : ∀ x ∈ ptr, x ≠ 0 := fun x hx => hp x (by
            rw [hpre]
            exact List.mem_cons_of_mem _ (List.mem_append_right _ (List.mem_cons_of_mem _ hx)))
          split_ifs at h
          · exact prepend_no_nul _ _ u h
              (fun x hx => printf_09ld_no_nul nsec x (List.mem_of_mem_take hx))
              (fun v hv => ih ptr v hv hptr)
          · refine prepend_no_nul _ _ u h (fun x hx => ?_)
              (fun v hv => ih ptr.tail v hv (fun x hx => hptr x (List.mem_of_mem_tail hx)))
            rcases List.mem_append.1 hx with h1 | h1
            · rcases List.mem_append.1 h1 with h2 | h2
              · exact hz x (List.mem_of_mem_take h2)
              · simp at h2; omega
            · exact hz x (List.mem_of_mem_drop (List.mem_of_mem_take h1))
          · exact prepend_no_nul _ _ u h
              (fun x hx => hp x (List.mem_of_mem_take hx))
              (fun v hv => ih ptr v hv hptr)
      · simp only [if_neg hc] at h
        exact prepend_no_nul _ _ u h
          (fun x hx => by
            rw [List.mem_singleton] at hx
            rw [hx]
            exact hp c (List.mem_cons_self _ _))
          (fun v hv => ih rest v hv (fun x hx => hp x (List.mem_cons_of_mem _ hx)))

/-- The expander on its static buffer returns what the pure function returns,
whatever the buffer held, for a format and an offset text without NUL. -/
theorem preprocess_time_format_mem_eq (zbuf : List Nat) (nsec : Int) (tf : List Nat)
    (st : Statics) (htf : ∀ x ∈ tf, x ≠ 0) (hz : ∀ x ∈ zbuf, x ≠ 0) :
    (preprocess_time_format_mem zbuf nsec tf st).map Prod.snd =
      as_fault (preprocess_time_format zbuf nsec tf) := by
  obtain ⟨m1, m2⟩ := preprocess_loop_mem_sim zbuf nsec tf.length tf [] st.time_buf (agree_nil _)
  obtain ⟨s1, _⟩ := preprocess_loop_sim zbuf nsec tf.length tf [] (by simp)
  unfold preprocess_time_format_mem preprocess_time_format
  cases hp : preprocess_loop zbuf nsec tf.length tf [] with
  | error e =>
    have := m1 e hp
    rw [List.length_nil] at this
    rw [this]
    rfl
  | ok out =>
    obtain ⟨b1, hb1, hb2⟩ := m2 out hp
    rw [List.length_nil] at hb1
    obtain ⟨u, hu1, hu2, hu3⟩ := s1 out hp
    rw [List.nil_append] at hu2
    have hnz : ∀ x ∈ out, x ≠ 0 := by
      rw [hu2]
      exact expand_loop_no_nul zbuf nsec hz tf.length tf u hu1 htf
    rw [hb1]
    simp only []
    rw [store_eq_store_bytes, store_bytes_eq MAX_TIME_LEN [0x00] out.length b1 (by
      rw [List.length_singleton]; unfold MAX_TIME_LEN at hu3 ⊢; omega)]
    simp only []
    rw [c_string_of_agree MAX_TIME_LEN _ out (agree_write b1 out [0x00] hb2) hnz (by
      unfold MAX_TIME_LEN at hu3 ⊢; omega)]
    rfl

/-! ## Lemmas on the classifier range, the escaped percent, the item directives and the reader of escapes -/

/-- The level a byte asks for lies in 0, 2, 3, 4 without `escape_uni` and in
0, 2, 4, 5 with it; it is 3 or 5 only for a byte of 0x80 or more. -/
theorem byte_level_values (eu : Bool) (b : Nat) :
    (eu = false → byte_level eu b = 0 ∨ byte_level eu b = 2 ∨ byte_level eu b = 3 ∨
      byte_level eu b = 4) ∧
    (eu = true → byte_level eu b = 0 ∨ byte_level eu b = 2 ∨ byte_level eu b = 4 ∨
      byte_level eu b = 5) ∧
    (byte_level eu b = 3 ∨ byte_level eu b = 5 → 0x80 ≤ b) := by
  unfold byte_level level_step LEVEL2 LEVEL3 LEVEL4 LEVEL5
  cases eu <;> simp only [Bool.false_eq_true, if_false, if_true] <;> split_ifs <;>
    simp <;> omega

/-- The classifier started from a level in 1, 2, 3, 4 or 1, 2, 4, 5 stays
there. -/
theorem parse_values (p : List Nat) (eu : Bool) : ∀ m : Nat,
    (eu = false → (m = 1 ∨ m = 2 ∨ m = 3 ∨ m = 4) →
      parse_for_display_level p m eu = 1 ∨ parse_for_display_level p m eu = 2 ∨
      parse_for_display_level p m eu = 3 ∨ parse_for_display_level p m eu = 4) ∧
    (eu = true → (m = 1 ∨ m = 2 ∨ m = 4 ∨ m = 5) →
      parse_for_display_level p m eu = 1 ∨ parse_for_display_level p m eu = 2 ∨
      parse_for_display_level p m eu = 4 ∨ parse_for_display_level p m eu = 5) := by
  induction p with
  | nil => intro m; exact ⟨fun _ h => h, fun _ h => h⟩
  | cons c rest ih =>
    intro m
    simp only [parse_for_display_level]
    obtain ⟨h1, h2, _⟩ := byte_level_values eu c
    have hs := level_step_eq_max eu m c
    refine ⟨fun he hm => (ih _).1 he ?_, fun he hm => (ih _).2 he ?_⟩
    · have := h1 he; omega
    · have := h2 he; omega

/-- A level 3 or 5 comes from a byte of 0x80 or more. -/
theorem high_byte_of_level (p : List Nat) (eu : Bool)
    (h : parse_for_display_level p LEVEL1 eu = 3 ∨ parse_for_display_level p LEVEL1 eu = 5) :
    ∃ b ∈ p, 0x80 ≤ b := by
  by_contra hcon
  push_neg at hcon
  have h4 := parse_le_of_bytes p LEVEL1 4 eu (fun b hb => by
    obtain ⟨h1, h2, h3⟩ := byte_level_values eu b
    have := hcon b hb
    cases eu
    · have := h1 rfl; omega
    · have := h2 rfl; omega)
  have hno : ∀ b ∈ p, byte_level eu b ≠ 3 ∧ byte_level eu b ≠ 5 := fun b hb => by
    obtain ⟨_, _, h3⟩ := byte_level_values eu b
    have := hcon b hb
    constructor <;> intro hh <;> have := h3 (by omega) <;> omega
  have hfold : ∀ (q : List Nat) (m : Nat), (∀ b ∈ q, byte_level eu b ≠ 3 ∧ byte_level eu b ≠ 5) →
      m ≠ 3 → m ≠ 5 → parse_for_display_level q m eu ≠ 3 ∧
        parse_for_display_level q m eu ≠ 5 := by
    intro q
    induction q with
    | nil => intro m _ h3 h5; exact ⟨h3, h5⟩
    | cons c rest ih =>
      intro m hq h3 h5
      simp only [parse_for_display_level]
      have hs := level_step_eq_max eu m c
      have hc := hq c (List.mem_cons_self _ _)
      exact ih _ (fun b hb => hq b (List.mem_cons_of_mem _ hb)) (by omega) (by omega)
  have := hfold p LEVEL1 hno (by decide) (by decide)
  rcases h with h | h
  · exact this.1 h
  · exact this.2 h

/-- On a string without a byte of 0x80 or more the classifier does not
depend on the flag. -/
theorem parse_flag_ascii (p : List Nat) (hp : ∀ b ∈ p, b < 0x80) : ∀ m : Nat,
    parse_for_display_level p m true = parse_for_display_level p m false := by
  induction p with
  | nil => intro m; rfl
  | cons c rest ih =>
    intro m
    simp only [parse_for_display_level]
    have hc := hp c (List.mem_cons_self _ _)
    have hstep : level_step true m c = level_step false m c := by
      unfold level_step
      split_ifs <;> rfl
    rw [hstep]
    exact ih (fun b hb => hp b (List.mem_cons_of_mem _ hb)) _

/-- One step of the loop of the expander on the two characters `%%`: they are
one directive, copied as it is. -/
theorem preprocess_loop_percent (zbuf : List Nat) (nsec : Int) (fuel : Nat)
    (rest buf : List Nat) :
    preprocess_loop zbuf nsec (fuel + 1) (0x25 :: 0x25 :: rest) buf =
      if buf.length + 2 > MAX_TIME_LEN - 1 then .error 17
      else preprocess_loop zbuf nsec fuel rest (buf ++ [0x25, 0x25]) := by
  have e1 : (0x25 :: rest).dropWhile is_flag = 0x25 :: rest := by
    rw [List.dropWhile_cons]; rfl
  have e2 : (0x25 :: rest).dropWhile is_digit = 0x25 :: rest := by
    rw [List.dropWhile_cons]; rfl
  have e3 : skip_modifier (0x25 :: rest) = 0x25 :: rest := rfl
  have e4 : (0x25 :: 0x25 :: rest).take ((0x25 :: 0x25 :: rest).length - rest.length) =
      [0x25, 0x25] := by
    have : (0x25 :: 0x25 :: rest).length - rest.length = 2 := by
      simp only [List.length_cons]; omega
    rw [this]; rfl
  rw [preprocess_loop, if_pos rfl]
  simp only [e1, e2, e3, e4]
  rfl

theorem expand_loop_percent (zbuf : List Nat) (nsec : Int) (fuel : Nat) (rest : List Nat) :
    expand_loop zbuf nsec (fuel + 1) (0x25 :: 0x25 :: rest) =
      prepend [0x25, 0x25] (expand_loop zbuf nsec fuel rest) := by
  have e1 : (0x25 :: rest).dropWhile is_flag = 0x25 :: rest := by
    rw [List.dropWhile_cons]; rfl
  have e2 : (0x25 :: rest).dropWhile is_digit = 0x25 :: rest := by
    rw [List.dropWhile_cons]; rfl
  have e3 : skip_modifier (0x25 :: rest) = 0x25 :: rest := rfl
  have e4 : (0x25 :: 0x25 :: rest).take ((0x25 :: 0x25 :: rest).length - rest.length) =
      [0x25, 0x25] := by
    have : (0x25 :: 0x25 :: rest).length - rest.length = 2 := by
      simp only [List.length_cons]; omega
    rw [this]; rfl
  rw [expand_loop, if_pos rfl]
  simp only [e1, e2, e3, e4]
  rfl

/-- A path classified below level 4 has no single quote and no control
byte. -/
theorem no_trigger_of_low_level (p : List Nat) (eu : Bool)
    (h : parse_for_display_level p LEVEL1 eu ≤ 3) :
    ∀ b ∈ p, b ≠ 0x27 ∧ 0x20 ≤ b ∧ b ≠ 0x7F := by
  intro b hb
  by_contra hcon
  have h1 := parse_ge_byte p LEVEL1 eu b hb
  have h2 := byte_level_trigger eu b (by omega)
  omega

/-- The frame of the encoder is made of `$` and the single quote. -/
theorem quote_frame_bytes (lvl x : Nat) (hx : x ∈ quote_open lvl ∨ x ∈ quote_close lvl) :
    x = 0x24 ∨ x = 0x27 := by
  rcases hx with hx | hx
  · unfold quote_open at hx
    split_ifs at hx <;> simp at hx <;> omega
  · unfold quote_close at hx
    split_ifs at hx <;> simp at hx
    omega

/-- The bytes the encoder makes of a unit at a level from 4 to 6 are ASCII,
when the unit is below 0x80 at level 4 and a byte at level 6. -/
theorem quote_unit_ascii_out (lvl c : Nat) (hl : lvl = 4 ∨ lvl = 5 ∨ lvl = 6)
    (h4 : lvl = 4 → c < 0x80) (h6 : lvl = 6 → c < 256) (x : Nat)
    (hx : x ∈ quote_unit lvl c) : x < 0x80 := by
  by_cases hn : c = 0x07 ∨ c = 0x08 ∨ c = 0x1B ∨ c = 0x0C ∨ c = 0x0A ∨ c = 0x0D ∨ c = 0x09 ∨
      c = 0x0B ∨ c = 0x5C ∨ c = 0x27 ∨ c = 0x22
  · have h2 : x = 0x5C ∨ x = 0x61 ∨ x = 0x62 ∨ x = 0x45 ∨ x = 0x66 ∨ x = 0x6E ∨ x = 0x72 ∨
        x = 0x74 ∨ x = 0x76 ∨ x = 0x27 ∨ x = 0x22 := by
      rcases hl with h | h | h <;> subst h <;>
        rcases hn with h | h | h | h | h | h | h | h | h | h | h <;> subst h <;>
        simp [quote_unit, LEVEL3] at hx <;> omega
    omega
  · have hnot : c ∉ [0x07, 0x08, 0x1B, 0x0C, 0x0A, 0x0D, 0x09, 0x0B, 0x5C, 0x27, 0x22] := by
      simp only [List.mem_cons, List.mem_singleton, List.not_mem_nil, or_false]
      omega
    rw [quote_unit_default lvl c (by omega) hnot] at hx
    by_cases hp : 0x20 ≤ c ∧ c ≤ 0x7E
    · rw [if_pos hp, List.mem_singleton, Nat.mod_eq_of_lt (by omega)] at hx
      omega
    · rw [if_neg hp] at hx
      rcases hl with h | h | h <;> subst h
      · have hc := h4 rfl
        rw [if_pos rfl, if_pos (by omega)] at hx
        have := bash_u_escape_range _ _ hx; omega
      · rw [if_neg (by omega), if_pos rfl] at hx
        have := bash_u_escape_range _ _ hx; omega
      · have hc2 := h6 rfl
        obtain ⟨e1, e2⟩ := hex_shift_and c hc2
        rw [if_neg (by omega), if_neg (by omega), if_pos rfl, e1, e2] at hx
        have r1 := upper_hex_digit_range (c / 16) (by omega)
        have r2 := upper_hex_digit_range (c % 16) (by omega)
        simp only [List.mem_cons, List.mem_singleton, List.not_mem_nil, or_false] at hx
        rcases hx with h | h | h | h <;> omega

/-- The body of the output of `lstime_format_path`, the encodings of the
units at the resolved level, holds no control byte. -/
theorem body_no_control (libc : Libc) (p : List Nat) (eu : Bool) (hp : IsCString p)
    (lvl : Nat) (units : List Nat)
    (hlvl : lvl = parse_for_display_level p LEVEL1 eu ∧ DecodeOk libc p ∨
      lvl = 6 ∧ ¬ DecodeOk libc p)
    (hu : lvl ≠ 5 → units = p) :
    ∀ x ∈ units.flatMap (quote_unit lvl), 0x20 ≤ x ∧ x ≠ 0x7F := by
  have h5 := parse_le_five p eu
  have h1 := parse_ge_min p LEVEL1 eu
  intro x hx
  by_cases h3 : lvl ≤ 3
  · have hlp : lvl = parse_for_display_level p LEVEL1 eu := by
      rcases hlvl with h | h
      · exact h.1
      · omega
    rw [hu (by omega), flatMap_quote_unit_verbatim lvl h3 p (fun b hb => (hp b hb).2)] at hx
    have := no_trigger_of_low_level p eu (by omega) x hx
    exact ⟨this.2.1, this.2.2⟩
  · refine flatMap_quote_unit_no_control lvl units (by unfold LEVEL1 at h1; omega)
      (fun hne c hc => ?_) x hx
    rw [hu hne] at hc
    exact (hp c hc).2

/-- The exits of `lstime_format_path`: 22, 27 and 13. -/
theorem lstime_format_path_error (libc : Libc) (p : List Nat) (eu dbg : Bool) (e : Nat)
    (h : lstime_format_path libc p eu dbg = .error e) : e = 22 ∨ e = 27 ∨ e = 13 := by
  rw [lstime_format_path_unfold] at h
  split_ifs at h
  · injection h with h; omega
  · exact Or.inr (Or.inr (bash_quote_cps_error _ _ _ h))
  · injection h with h; omega
  · exact Or.inr (Or.inr (bash_quote_cps_error _ _ _ h))
  · injection h with h; omega
  · exact Or.inr (Or.inr (bash_quote_cps_error _ _ _ h))

/-- The exits of the expansion with no capacity limit. -/
theorem expand_loop_error (zbuf : List Nat) (nsec : Int) (fuel : Nat) :
    ∀ (ptr : List Nat) (e : Nat), expand_loop zbuf nsec fuel ptr = .error e →
      e = 0 ∨ e = 11 ∨ e = 21 ∨ e = 31 := by
  induction fuel with
  | zero =>
    intro ptr e h
    cases ptr with
    | nil => simp [expand_loop] at h
    | cons c rest =>
      simp only [expand_loop] at h
      injection h with h
      omega
  | succ f ih =>
    intro ptr e h
    cases ptr with
    | nil => simp [expand_loop] at h
    | cons c rest =>
      rw [expand_loop] at h
      by_cases hc : c = 0x25
      · simp only [if_pos hc] at h
        split at h
        · exact absurd h (by simp)
        · rename_i spec_letter ptr hm
          by_cases hN : spec_letter = 0x4E
          · simp only [if_pos hN] at h
            by_cases hrc : (printf_09ld nsec).length ≠ 9
            · rw [if_pos hrc] at h; injection h with h; omega
            · rw [if_neg hrc] at h
              exact ih _ e ((prepend_eq_error _ _ _).1 h)
          · simp only [if_neg hN] at h
            by_cases hz : spec_letter = 0x3A ∧ ptr.head? = some 0x7A
            · simp only [if_pos hz] at h
              by_cases hl0 : strftime_len 12 zbuf = 0
              · rw [if_pos hl0] at h; injection h with h; omega
              · rw [if_neg hl0] at h
                by_cases hl5 : strftime_len 12 zbuf ≠ 5
                · rw [if_pos hl5] at h; injection h with h; omega
                · rw [if_neg hl5] at h
                  exact ih _ e ((prepend_eq_error _ _ _).1 h)
            · simp only [if_neg hz] at h
              exact ih _ e ((prepend_eq_error _ _ _).1 h)
      · simp only [if_neg hc] at h
        exact ih _ e ((prepend_eq_error _ _ _).1 h)

/-- The exits of `lstime_format_timestamp`: none of them is 15. -/
theorem lstime_format_timestamp_error {Tm : Type} (libc : TimeLibc Tm) (ts : timespec)
    (tf : List Nat) (utc : Bool) (e : Nat)
    (h : lstime_format_timestamp libc ts tf utc = .error e) :
    e ∈ [0, 5, 6, 11, 16, 17, 18, 20, 21, 23, 31] := by
  unfold lstime_format_timestamp at h
  split_ifs at h
  split at h
  · rename_i e2 htm
    injection h with h
    subst h
    unfold tm_from_timespec at htm
    split_ifs at htm
    · split at htm
      · injection htm with htm; subst htm; simp
      · exact absurd htm (by simp)
    · split at htm
      · injection htm with htm; subst htm; simp
      · exact absurd htm (by simp)
  · split at h
    · rename_i e2 hpre
      injection h with h
      subst h
      unfold preprocess_time_format at hpre
      obtain ⟨_, s2⟩ := preprocess_loop_sim _ ts.tv_nsec tf.length tf [] (by simp)
      rcases s2 _ hpre with h1 | h1
      · simp only [List.mem_cons, List.mem_singleton, List.not_mem_nil, or_false] at h1 ⊢
        omega
      · have := expand_loop_error _ _ _ _ _ h1
        simp only [List.mem_cons, List.mem_singleton, List.not_mem_nil, or_false]
        omega
    · split_ifs at h
      injection h with h
      subst h
      simp

/-- The `switch` of `lstime_out_it`: `exit(15)` for a character outside the
directive list, the terminating NUL included, and for no character of the
list. -/
theorem out_directive_exit {Tm : Type} (libc : Libc) (tlibc : TimeLibc Tm)
    (info : lstime_info) (tf : List Nat) (utc dbg : Bool) (d : Nat) :
    (d ∉ item_directives → out_directive libc tlibc info tf utc dbg d = .error 15) ∧
    (d ∈ item_directives → out_directive libc tlibc info tf utc dbg d ≠ .error 15) := by
  constructor
  · intro hd
    simp only [item_directives, List.mem_cons, List.mem_singleton, List.not_mem_nil,
      or_false, not_or] at hd
    obtain ⟨n1, n2, n3, n4, n5, n6, n7, n8, n9, n10⟩ := hd
    unfold out_directive
    simp only [if_neg n1, if_neg n2, if_neg n3, if_neg n4, if_neg n5, if_neg n6, if_neg n7,
      if_neg n8, if_neg n9, if_neg n10]
  · intro hd h
    have hts : ∀ ts : timespec, lstime_format_timestamp tlibc ts tf utc ≠ .error 15 := by
      intro ts hts
      have := lstime_format_timestamp_error tlibc ts tf utc 15 hts
      simp at this
    have hfp : ∀ eu : Bool, lstime_format_path libc info.path eu dbg ≠ .error 15 := by
      intro eu hfp
      have := lstime_format_path_error libc info.path eu dbg 15 hfp
      omega
    simp only [item_directives, List.mem_cons, List.mem_singleton, List.not_mem_nil,
      or_false] at hd
    rcases hd with hd | hd | hd | hd | hd | hd | hd | hd | hd | hd <;> subst hd
    · exact hts info.mtime h
    · exact hts info.atime h
    · exact hts info.ctime h
    · exact hts info.btime h
    · exact Except.noConfusion h
    · exact hfp false h
    · exact Except.noConfusion h
    · exact hfp true h
    · exact Except.noConfusion h
    · exact Except.noConfusion h

theorem char_at_lt (fmt : List Nat) (i : Nat) (h : i < fmt.length) :
    char_at fmt i = .ok fmt[i] := by
  unfold char_at
  rw [if_pos h, List.getD_eq_getElem _ _ h]

theorem char_at_length (fmt : List Nat) : char_at fmt fmt.length = .ok 0x00 := by
  unfold char_at
  rw [if_neg (Nat.lt_irrefl _), if_pos rfl]

/-- The loop of `lstime_out_it` on an index, with every read checked, is the
loop on the rest of the format: no read falls beyond the terminator. -/
theorem out_it_index_loop_eq {Tm : Type} (libc : Libc) (tlibc : TimeLibc Tm)
    (info : lstime_info) (tf : List Nat) (utc dbg : Bool) (fmt : List Nat) (fuel : Nat) :
    ∀ (i : Nat) (fp : List Nat), i ≤ fmt.length → fmt.length - i ≤ fuel →
      out_it_index_loop libc tlibc info tf utc dbg fmt fuel i fp =
        .ok (out_it_loop libc tlibc info tf utc dbg (fmt.drop i) fp) := by
  induction fuel with
  | zero =>
    intro i fp hi hf
    have : i = fmt.length := by omega
    subst this
    simp [out_it_index_loop, out_it_loop]
  | succ f ih =>
    intro i fp hi hf
    rw [out_it_index_loop]
    by_cases hlt : i < fmt.length
    · rw [if_pos hlt, char_at_lt fmt i hlt]
      simp only []
      have hdrop : fmt.drop i = fmt[i] :: fmt.drop (i + 1) := List.drop_eq_getElem_cons hlt
      rw [hdrop]
      by_cases hc : fmt[i] = 0x25
      · rw [if_pos hc, hc]
        by_cases hlt2 : i + 1 < fmt.length
        · rw [char_at_lt fmt (i + 1) hlt2]
          simp only []
          have hdrop2 : fmt.drop (i + 1) = fmt[i + 1] :: fmt.drop (i + 2) :=
            List.drop_eq_getElem_cons hlt2
          rw [hdrop2, out_it_loop_directive]
          cases hd : out_directive libc tlibc info tf utc dbg fmt[i + 1] with
          | error e => rfl
          | ok s =>
            simp only [print_then]
            exact ih (i + 2) (fp ++ s) (by omega) (by omega)
        · have hend : i + 1 = fmt.length := by omega
          rw [hend, char_at_length, List.drop_length]
          rfl
      · rw [if_neg hc, out_it_loop_literal _ _ _ _ _ _ _ hc]
        exact ih (i + 1) (fp ++ [fmt[i]]) (by omega) (by omega)
    · rw [if_neg hlt]
      have : i = fmt.length := by omega
      subst this
      simp [out_it_loop]

/-- The run of the loop stops at the first unrecognized directive. -/
theorem out_it_loop_before_bad {Tm : Type} (libc : Libc) (tlibc : TimeLibc Tm)
    (info : lstime_info) (tf : List Nat) (utc dbg : Bool) (n : Nat) :
    ∀ (fmt fp : List Nat), fmt.length ≤ n →
      out_it_loop libc tlibc info tf utc dbg fmt fp =
        then_bad (out_it_loop libc tlibc info tf utc dbg (before_bad_directive fmt).1 fp)
          (before_bad_directive fmt).2 ∧
      (out_it_loop libc tlibc info tf utc dbg (before_bad_directive fmt).1 fp).2 ≠ some 15 := by
  induction n with
  | zero =>
    intro fmt fp hn
    have : fmt = [] := List.length_eq_zero.1 (by omega)
    subst this
    exact ⟨rfl, by simp [before_bad_directive, out_it_loop]⟩
  | succ n ih =>
    intro fmt fp hn
    match fmt, hn with
    | [], _ => exact ⟨rfl, by simp [before_bad_directive, out_it_loop]⟩
    | [c], _ =>
      simp only [before_bad_directive]
      by_cases hc : c = 0x25
      · rw [if_pos hc, hc]
        exact ⟨rfl, by simp [out_it_loop]⟩
      · rw [if_neg hc, out_it_loop_literal _ _ _ _ _ _ _ hc]
        exact ⟨rfl, by simp [out_it_loop]⟩
    | c :: d :: rest, hn =>
      simp only [List.length_cons] at hn
      simp only [before_bad_directive]
      by_cases hc : c = 0x25
      · rw [if_pos hc, hc]
        by_cases hd : d ∈ item_directives
        · rw [if_pos hd]
          simp only []
          rw [out_it_loop_directive, out_it_loop_directive]
          have hne := (out_directive_exit libc tlibc info tf utc dbg d).2 hd
          cases hdir : out_directive libc tlibc info tf utc dbg d with
          | error e =>
            refine ⟨rfl, ?_⟩
            intro h15
            have h15 : e = 15 := by simpa [print_then] using h15
            rw [hdir, h15] at hne
            exact hne rfl
          | ok s =>
            simp only [print_then]
            exact ih rest (fp ++ s) (by omega)
        · rw [if_neg hd, out_it_loop_directive,
            (out_directive_exit libc tlibc info tf utc dbg d).1 hd]
          exact ⟨rfl, by simp [out_it_loop]⟩
      · rw [if_neg hc]
        simp only []
        rw [out_it_loop_literal _ _ _ _ _ _ _ hc, out_it_loop_literal _ _ _ _ _ _ _ hc]
        exact ih (d :: rest) (fp ++ [c]) (by simp only [List.length_cons]; omega)

/-- What `before_bad_directive` returns: with no unrecognized directive the
whole format; otherwise the part of the format before a `%` whose next
character, if there is one, is outside `item_directives`. -/
theorem before_bad_directive_spec (n : Nat) :
    ∀ fmt : List Nat, fmt.length ≤ n →
      ((before_bad_directive fmt).2 = false → (before_bad_directive fmt).1 = fmt) ∧
      ((before_bad_directive fmt).2 = true →
        ∃ sfx, fmt = (before_bad_directive fmt).1 ++ 0x25 :: sfx ∧
          ∀ d, sfx.head? = some d → d ∉ item_directives) := by
  induction n with
  | zero =>
    intro fmt hn
    have : fmt = [] := List.length_eq_zero.1 (by omega)
    subst this
    simp [before_bad_directive]
  | succ n ih =>
    intro fmt hn
    match fmt, hn with
    | [], _ => simp [before_bad_directive]
    | [c], _ =>
      simp only [before_bad_directive]
      by_cases hc : c = 0x25
      · rw [if_pos hc, hc]
        exact ⟨fun h => Bool.noConfusion h, fun _ => ⟨[], rfl, fun d hd => by simp at hd⟩⟩
      · rw [if_neg hc]
        exact ⟨fun _ => rfl, fun h => Bool.noConfusion h⟩
    | c :: d :: rest, hn =>
      simp only [List.length_cons] at hn
      simp only [before_bad_directive]
      by_cases hc : c = 0x25
      · rw [if_pos hc, hc]
        by_cases hd : d ∈ item_directives
        · rw [if_pos hd]
          have h := ih rest (by omega)
          refine ⟨fun hb => ?_, fun hb => ?_⟩
          · simp only [] at hb ⊢
            rw [h.1 hb]
          · simp only [] at hb ⊢
            obtain ⟨sfx, hs, hbad⟩ := h.2 hb
            exact ⟨sfx, by rw [List.cons_append, List.cons_append, ← hs], hbad⟩
        · rw [if_neg hd]
          refine ⟨fun h => Bool.noConfusion h, fun _ => ⟨d :: rest, rfl, fun e he => ?_⟩⟩
          have : d = e := by simpa using he
          rw [← this]
          exact hd
      · rw [if_neg hc]
        have h := ih (d :: rest) (by simp only [List.length_cons]; omega)
        refine ⟨fun hb => ?_, fun hb => ?_⟩
        · simp only [] at hb ⊢
          rw [h.1 hb]
        · simp only [] at hb ⊢
          obtain ⟨sfx, hs, hbad⟩ := h.2 hb
          exact ⟨sfx, by rw [List.cons_append, ← hs], hbad⟩

theorem hex_digit_value_upper (d : Nat) (h : d < 16) :
    hex_digit_value (upper_hex_digit d) = d := by
  unfold hex_digit_value upper_hex_digit
  split_ifs <;> omega

theorem hex_value_two (a b : Nat) :
    hex_value [a, b] = hex_digit_value a * 16 + hex_digit_value b := by
  simp [hex_value]

theorem hex_value_four (a b c d : Nat) :
    hex_value [a, b, c, d] =
      ((hex_digit_value a * 16 + hex_digit_value b) * 16 + hex_digit_value c) * 16 +
        hex_digit_value d := by
  simp [hex_value]

theorem hex_value_eight (a b c d e f g h : Nat) :
    hex_value [a, b, c, d, e, f, g, h] =
      ((((((hex_digit_value a * 16 + hex_digit_value b) * 16 + hex_digit_value c) * 16 +
        hex_digit_value d) * 16 + hex_digit_value e) * 16 + hex_digit_value f) * 16 +
        hex_digit_value g) * 16 + hex_digit_value h := by
  simp [hex_value]

theorem unescape_lower_u (fuel : Nat) (rest : List Nat) :
    unescape (fuel + 1) (0x5C :: 0x75 :: rest) =
      (1, hex_value (rest.take 4)) :: unescape fuel (rest.drop 4) := rfl

theorem unescape_upper_u (fuel : Nat) (rest : List Nat) :
    unescape (fuel + 1) (0x5C :: 0x55 :: rest) =
      (1, hex_value (rest.take 8)) :: unescape fuel (rest.drop 8) := rfl

theorem unescape_x (fuel : Nat) (rest : List Nat) :
    unescape (fuel + 1) (0x5C :: 0x78 :: rest) =
      (2, hex_value (rest.take 2)) :: unescape fuel (rest.drop 2) := rfl

theorem unescape_named (fuel d : Nat) (rest : List Nat)
    (h1 : d ≠ 0x75) (h2 : d ≠ 0x55) (h3 : d ≠ 0x78) :
    unescape (fuel + 1) (0x5C :: d :: rest) = (0, named_unit d) :: unescape fuel rest := by
  simp only [unescape, if_true, if_neg h1, if_neg h2, if_neg h3]

theorem unescape_literal (fuel c : Nat) (rest : List Nat) (h : c ≠ 0x5C) :
    unescape (fuel + 1) (c :: rest) = (0, c) :: unescape fuel rest := by
  simp only [unescape, if_neg h]

/-- The reader on a `\u` escape of four digits. -/
theorem unescape_u4 (fuel c : Nat) (rest : List Nat) (h : c ≤ 0xFFFF) :
    unescape (fuel + 1) ([0x5C, 0x75, upper_hex_digit (c / 4096), upper_hex_digit (c / 256 % 16),
      upper_hex_digit (c / 16 % 16), upper_hex_digit (c % 16)] ++ rest) =
      (1, c) :: unescape fuel rest := by
  have e : [0x5C, 0x75, upper_hex_digit (c / 4096), upper_hex_digit (c / 256 % 16),
      upper_hex_digit (c / 16 % 16), upper_hex_digit (c % 16)] ++ rest =
      0x5C :: 0x75 :: upper_hex_digit (c / 4096) :: upper_hex_digit (c / 256 % 16) ::
      upper_hex_digit (c / 16 % 16) :: upper_hex_digit (c % 16) :: rest := rfl
  rw [e, unescape_lower_u]
  simp only [List.take, List.drop, hex_value_four]
  rw [hex_digit_value_upper _ (by omega), hex_digit_value_upper _ (by omega),
    hex_digit_value_upper _ (by omega), hex_digit_value_upper _ (by omega)]
  have : ((c / 4096 * 16 + c / 256 % 16) * 16 + c / 16 % 16) * 16 + c % 16 = c := by omega
  rw [this]

/-- The reader on a `\U` escape of eight digits. -/
theorem unescape_U8 (fuel c : Nat) (rest : List Nat) (h : c < 2 ^ 32) :
    unescape (fuel + 1) ([0x5C, 0x55, upper_hex_digit (c / 268435456),
      upper_hex_digit (c / 16777216 % 16), upper_hex_digit (c / 1048576 % 16),
      upper_hex_digit (c / 65536 % 16), upper_hex_digit (c / 4096 % 16),
      upper_hex_digit (c / 256 % 16), upper_hex_digit (c / 16 % 16),
      upper_hex_digit (c % 16)] ++ rest) =
      (1, c) :: unescape fuel rest := by
  have e : [0x5C, 0x55, upper_hex_digit (c / 268435456),
      upper_hex_digit (c / 16777216 % 16), upper_hex_digit (c / 1048576 % 16),
      upper_hex_digit (c / 65536 % 16), upper_hex_digit (c / 4096 % 16),
      upper_hex_digit (c / 256 % 16), upper_hex_digit (c / 16 % 16),
      upper_hex_digit (c % 16)] ++ rest =
      0x5C :: 0x55 :: upper_hex_digit (c / 268435456) ::
      upper_hex_digit (c / 16777216 % 16) :: upper_hex_digit (c / 1048576 % 16) ::
      upper_hex_digit (c / 65536 % 16) :: upper_hex_digit (c / 4096 % 16) ::
      upper_hex_digit (c / 256 % 16) :: upper_hex_digit (c / 16 % 16) ::
      upper_hex_digit (c % 16) :: rest := rfl
  rw [e, unescape_upper_u]
  simp only [List.take, List.drop, hex_value_eight]
  rw [hex_digit_value_upper _ (by omega), hex_digit_value_upper _ (by omega),
    hex_digit_value_upper _ (by omega), hex_digit_value_upper _ (by omega),
    hex_digit_value_upper _ (by omega), hex_digit_value_upper _ (by omega),
    hex_digit_value_upper _ (by omega), hex_digit_value_upper _ (by omega)]
  have : ((((((c / 268435456 * 16 + c / 16777216 % 16) * 16 + c / 1048576 % 16) * 16 +
      c / 65536 % 16) * 16 + c / 4096 % 16) * 16 + c / 256 % 16) * 16 + c / 16 % 16) * 16 +
      c % 16 = c := by omega
  rw [this]

/-- The reader on a `\x` escape. -/
theorem unescape_x2 (fuel c : Nat) (rest : List Nat) (h : c < 256) :
    unescape (fuel + 1) ([0x5C, 0x78, upper_hex_digit (c / 16), upper_hex_digit (c % 16)] ++
      rest) = (2, c) :: unescape fuel rest := by
  have e : [0x5C, 0x78, upper_hex_digit (c / 16), upper_hex_digit (c % 16)] ++ rest =
      0x5C :: 0x78 :: upper_hex_digit (c / 16) :: upper_hex_digit (c % 16) :: rest := rfl
  rw [e, unescape_x]
  simp only [List.take, List.drop, hex_value_two]
  rw [hex_digit_value_upper _ (by omega), hex_digit_value_upper _ (by omega)]
  have : c / 16 * 16 + c % 16 = c := by omega
  rw [this]

/-- The reader gives back the unit `bash_quote_cps` has encoded at a level
from 4 to 6, with the kind of its encoding. -/
theorem unescape_quote_unit (lvl u fuel : Nat) (rest : List Nat)
    (hl : lvl = 4 ∨ lvl = 5 ∨ lvl = 6) (hu : u < 2 ^ 31) (hb : lvl ≠ 5 → u < 256) :
    unescape (fuel + 1) (quote_unit lvl u ++ rest) = (unit_kind lvl u, u) :: unescape fuel rest := by
  by_cases hn : u = 0x07 ∨ u = 0x08 ∨ u = 0x1B ∨ u = 0x0C ∨ u = 0x0A ∨ u = 0x0D ∨ u = 0x09 ∨
      u = 0x0B ∨ u = 0x5C ∨ u = 0x27 ∨ u = 0x22
  · rcases hl with h | h | h <;> subst h <;>
      rcases hn with h | h | h | h | h | h | h | h | h | h | h <;> subst h <;> rfl
  · have hnot : u ∉ [0x07, 0x08, 0x1B, 0x0C, 0x0A, 0x0D, 0x09, 0x0B, 0x5C, 0x27, 0x22] := by
      simp only [List.mem_cons, List.mem_singleton, List.not_mem_nil, or_false]
      omega
    have hk : ¬ (u = 0x07 ∨ u = 0x08 ∨ u = 0x1B ∨ u = 0x0C ∨ u = 0x0A ∨ u = 0x0D ∨ u = 0x09 ∨
        u = 0x0B) := by omega
    by_cases hp : 0x20 ≤ u ∧ u ≤ 0x7E
    · rw [quote_unit_printable lvl u hp.1 hp.2 (by omega) (by omega) (by omega)]
      unfold unit_kind
      rw [if_neg hk, if_pos hp]
      exact unescape_literal fuel u rest (by omega)
    · unfold unit_kind
      rw [if_neg hk, if_neg hp]
      rcases hl with h | h | h <;> subst h
      · have h256 := hb (by omega)
        rw [if_pos rfl]
        by_cases h7 : u ≤ 0x7F
        · rw [if_pos h7, quote_unit_control 4 u (Or.inl rfl) (by omega) (by omega)]
          have e1 : upper_hex_digit 0 = 0x30 := rfl
          have hh := unescape_u4 fuel u rest (by omega)
          have z1 : u / 4096 = 0 := by omega
          have z2 : u / 256 % 16 = 0 := by omega
          have z3 : u / 16 % 16 = u / 16 := by omega
          rw [z1, z2, z3, e1] at hh
          exact hh
        · rw [if_neg h7, quote_unit_high_level4 u (by omega) h256]
          exact unescape_literal fuel u rest (by omega)
      · rw [if_neg (by omega), if_pos rfl]
        by_cases h7 : u ≤ 0x7F
        · rw [quote_unit_control 5 u (Or.inr rfl) (by omega) (by omega)]
          have e1 : upper_hex_digit 0 = 0x30 := rfl
          have hh := unescape_u4 fuel u rest (by omega)
          have z1 : u / 4096 = 0 := by omega
          have z2 : u / 256 % 16 = 0 := by omega
          have z3 : u / 16 % 16 = u / 16 := by omega
          rw [z1, z2, z3, e1] at hh
          exact hh
        · by_cases h16 : u ≤ 0xFFFF
          · rw [quote_unit_u4 u (by omega) h16]
            exact unescape_u4 fuel u rest h16
          · rw [quote_unit_U8 u (by omega) hu]
            exact unescape_U8 fuel u rest (by omega)
      · have h256 := hb (by omega)
        obtain ⟨e1, e2⟩ := hex_shift_and u h256
        rw [if_neg (by omega), if_neg (by omega), quote_unit_default 6 u (by omega) hnot,
          if_neg hp, if_neg (by omega), if_neg (by omega), if_pos rfl, e1, e2]
        exact unescape_x2 fuel u rest h256

/-- The reader gives back the units `bash_quote_cps` has encoded at a level
from 4 to 6, each with the kind of its encoding. -/
theorem unescape_flatMap (lvl : Nat) (hl : lvl = 4 ∨ lvl = 5 ∨ lvl = 6) (units : List Nat)
    (hu : ∀ u ∈ units, u < 2 ^ 31) (hb : lvl ≠ 5 → ∀ u ∈ units, u < 256) :
    ∀ fuel, units.length ≤ fuel →
      unescape fuel (units.flatMap (quote_unit lvl)) =
        units.map (fun u => (unit_kind lvl u, u)) := by
  induction units with
  | nil =>
    intro fuel _
    cases fuel <;> rfl
  | cons u rest ih =>
    intro fuel hf
    cases fuel with
    | zero => simp at hf
    | succ f =>
      rw [List.flatMap_cons, unescape_quote_unit lvl u f _ hl
        (hu u (List.mem_cons_self _ _)) (fun h => hb h u (List.mem_cons_self _ _)),
        ih (fun x hx => hu x (List.mem_cons_of_mem _ hx))
          (fun h x hx => hb h x (List.mem_cons_of_mem _ hx)) f
          (by simp only [List.length_cons] at hf; omega)]
      rfl

/-- Two lists of units that `bash_quote_cps` encodes to the same bytes, at
levels from 4 to 6, are the same list, and the encodings of each unit at the
two levels have the same kind. -/
theorem flatMap_quote_unit_inj (la lb : Nat) (hla : la = 4 ∨ la = 5 ∨ la = 6)
    (hlb : lb = 4 ∨ lb = 5 ∨ lb = 6) (ua ub : List Nat)
    (hua : ∀ u ∈ ua, u < 2 ^ 31) (hub : ∀ u ∈ ub, u < 2 ^ 31)
    (hba : la ≠ 5 → ∀ u ∈ ua, u < 256) (hbb : lb ≠ 5 → ∀ u ∈ ub, u < 256)
    (h : ua.flatMap (quote_unit la) = ub.flatMap (quote_unit lb)) :
    ua = ub ∧ ∀ u ∈ ua, unit_kind la u = unit_kind lb u := by
  have h1 := unescape_flatMap la hla ua hua hba (ua.length + ub.length) (by omega)
  have h2 := unescape_flatMap lb hlb ub hub hbb (ua.length + ub.length) (by omega)
  rw [h, h2] at h1
  have hs : ub = ua := by
    have := congrArg (List.map Prod.snd) h1
    simpa [List.map_map, Function.comp_def] using this
  subst hs
  refine ⟨rfl, fun u hu => ?_⟩
  have := congrArg (List.map Prod.fst) h1
  simp only [List.map_map, Function.comp_def] at this
  exact ((List.map_inj_left.1 this) u hu).symm

theorem size_max_ne_zero : SIZE_MAX ≠ 0 := by unfold SIZE_MAX; omega

theorem is_cont_range (b : Nat) (h : is_cont b = true) : 0x80 ≤ b ∧ b ≤ 0xBF := by
  unfold is_cont at h
  exact of_decide_eq_true h

/-- The reference decoder, when it accepts its input, has appended to the
output the codepoints of which the input is the UTF-8 encoding. -/
theorem utf8_iconv_loop_sound (n : Nat) : ∀ (p out : List Nat), p.length ≤ n →
    (utf8_iconv_loop p out).rc = 0 →
    ∃ us, (utf8_iconv_loop p out).out = out ++ us ∧ p = us.flatMap utf8_encode ∧
      ∀ u ∈ us, u < 0x110000 := by
  induction n with
  | zero =>
    intro p out hn _
    have : p = [] := List.length_eq_zero.1 (by omega)
    subst this
    exact ⟨[], by rw [utf8_iconv_loop.eq_def]; simp, rfl, by simp⟩
  | succ n ih =>
    intro p out hn hrc
    have ext : ∀ (c : Nat) (rest1 pre : List Nat), rest1.length ≤ n → pre = utf8_encode c →
        c < 0x110000 → (utf8_iconv_loop rest1 (out ++ [c])).rc = 0 →
        ∃ us, (utf8_iconv_loop rest1 (out ++ [c])).out = out ++ us ∧
          pre ++ rest1 = us.flatMap utf8_encode ∧ ∀ u ∈ us, u < 0x110000 := by
      intro c rest1 pre hlen hpre hc h0
      obtain ⟨us, h1, h2, h3⟩ := ih rest1 (out ++ [c]) hlen h0
      refine ⟨c :: us, ?_, ?_, ?_⟩
      · rw [h1, List.append_assoc]; rfl
      · rw [List.flatMap_cons, ← h2, hpre]
      · intro u hu
        rcases List.mem_cons.1 hu with h | h
        · rw [h]; exact hc
        · exact h3 u h
    rw [utf8_iconv_loop.eq_def] at hrc ⊢
    match p, hn with
    | [], _ => exact ⟨[], by simp, rfl, by simp⟩
    | b0 :: rest, hn =>
      simp only [List.length_cons] at hn
      simp only [] at hrc ⊢
      by_cases hfull : out.length ≥ MAX_PATH_LEN
      · rw [if_pos hfull] at hrc
        exact absurd hrc size_max_ne_zero
      · rw [if_neg hfull] at hrc ⊢
        by_cases h1 : b0 < 0x80
        · rw [if_pos h1] at hrc ⊢
          exact ext b0 rest [b0] (by omega) (by unfold utf8_encode; rw [if_pos h1]) (by omega) hrc
        · rw [if_neg h1] at hrc ⊢
          match rest, hn with
          | [], _ => exact absurd hrc size_max_ne_zero
          | b1 :: rest1, hn =>
            simp only [List.length_cons] at hn
            simp only [] at hrc ⊢
            by_cases h2 : 0xC2 ≤ b0 ∧ b0 ≤ 0xDF
            · rw [if_pos h2] at hrc ⊢
              by_cases hc1 : is_cont b1 = true
              · rw [if_pos hc1] at hrc ⊢
                have r1 := is_cont_range b1 hc1
                refine ext _ rest1 [b0, b1] (by omega) ?_ (by omega) hrc
                unfold utf8_encode
                rw [if_neg (by omega), if_pos (by omega)]
                have e1 : 0xC0 + ((b0 - 0xC0) * 64 + (b1 - 0x80)) / 64 = b0 := by omega
                have e2 : 0x80 + ((b0 - 0xC0) * 64 + (b1 - 0x80)) % 64 = b1 := by omega
                rw [e1, e2]
              · rw [if_neg hc1] at hrc
                exact absurd hrc size_max_ne_zero
            · rw [if_neg h2] at hrc ⊢
              match rest1, hn with
              | [], _ => exact absurd hrc size_max_ne_zero
              | b2 :: rest2, hn =>
                simp only [List.length_cons] at hn
                simp only [] at hrc ⊢
                by_cases h3 : 0xE0 ≤ b0 ∧ b0 ≤ 0xEF
                · rw [if_pos h3] at hrc ⊢
                  by_cases hv : is_cont b1 = true ∧ is_cont b2 = true ∧
                      0x800 ≤ (b0 - 0xE0) * 4096 + (b1 - 0x80) * 64 + (b2 - 0x80) ∧
                      ¬ (0xD800 ≤ (b0 - 0xE0) * 4096 + (b1 - 0x80) * 64 + (b2 - 0x80) ∧
                        (b0 - 0xE0) * 4096 + (b1 - 0x80) * 64 + (b2 - 0x80) ≤ 0xDFFF)
                  · rw [if_pos hv] at hrc ⊢
                    have r1 := is_cont_range b1 hv.1
                    have r2 := is_cont_range b2 hv.2.1
                    have r3 := hv.2.2.1
                    refine ext _ rest2 [b0, b1, b2] (by omega) ?_ (by omega) hrc
                    unfold utf8_encode
                    rw [if_neg (by omega), if_neg (by omega), if_pos (by omega)]
                    have e1 : 0xE0 + ((b0 - 0xE0) * 4096 + (b1 - 0x80) * 64 + (b2 - 0x80)) / 4096
                        = b0 := by omega
                    have e2 : 0x80 + ((b0 - 0xE0) * 4096 + (b1 - 0x80) * 64 + (b2 - 0x80)) / 64
                        % 64 = b1 := by omega
                    have e3 : 0x80 + ((b0 - 0xE0) * 4096 + (b1 - 0x80) * 64 + (b2 - 0x80)) % 64
                        = b2 := by omega
                    rw [e1, e2, e3]
                  · rw [if_neg hv] at hrc
                    exact absurd hrc size_max_ne_zero
                · rw [if_neg h3] at hrc ⊢
                  match rest2, hn with
                  | [], _ => exact absurd hrc size_max_ne_zero
                  | b3 :: rest3, hn =>
                    simp only [List.length_cons] at hn
                    simp only [] at hrc ⊢
                    by_cases hv : 0xF0 ≤ b0 ∧ b0 ≤ 0xF4 ∧ is_cont b1 = true ∧
                        is_cont b2 = true ∧ is_cont b3 = true ∧
                        0x10000 ≤ (b0 - 0xF0) * 262144 + (b1 - 0x80) * 4096 + (b2 - 0x80) * 64 +
                          (b3 - 0x80) ∧
                        (b0 - 0xF0) * 262144 + (b1 - 0x80) * 4096 + (b2 - 0x80) * 64 +
                          (b3 - 0x80) ≤ 0x10FFFF
                    · rw [if_pos hv] at hrc ⊢
                      have r1 := is_cont_range b1 hv.2.2.1
                      have r2 := is_cont_range b2 hv.2.2.2.1
                      have r3 := is_cont_range b3 hv.2.2.2.2.1
                      have r4 := hv.2.2.2.2.2.1
                      have r5 := hv.2.2.2.2.2.2
                      have r6 := hv.1
                      have r7 := hv.2.1
                      refine ext _ rest3 [b0, b1, b2, b3] (by omega) ?_ (by omega) hrc
                      unfold utf8_encode
                      rw [if_neg (by omega), if_neg (by omega), if_neg (by omega)]
                      have e1 : 0xF0 + ((b0 - 0xF0) * 262144 + (b1 - 0x80) * 4096 +
                          (b2 - 0x80) * 64 + (b3 - 0x80)) / 262144 = b0 := by omega
                      have e2 : 0x80 + ((b0 - 0xF0) * 262144 + (b1 - 0x80) * 4096 +
                          (b2 - 0x80) * 64 + (b3 - 0x80)) / 4096 % 64 = b1 := by omega
                      have e3 : 0x80 + ((b0 - 0xF0) * 262144 + (b1 - 0x80) * 4096 +
                          (b2 - 0x80) * 64 + (b3 - 0x80)) / 64 % 64 = b2 := by omega
                      have e4 : 0x80 + ((b0 - 0xF0) * 262144 + (b1 - 0x80) * 4096 +
                          (b2 - 0x80) * 64 + (b3 - 0x80)) % 64 = b3 := by omega
                      rw [e1, e2, e3, e4]
                    · rw [if_neg hv] at hrc
                      exact absurd hrc size_max_ne_zero

/-- The reference decoder maps different accepted byte strings to different
codepoint sequences, and its codepoints are below 0x110000. -/
theorem utf8_libc_injective :
    (∀ x y : List Nat, DecodeOk utf8_libc x → DecodeOk utf8_libc y →
      (utf8_libc.iconv x).out = (utf8_libc.iconv y).out → x = y) ∧
    (∀ x : List Nat, DecodeOk utf8_libc x → ∀ u ∈ (utf8_libc.iconv x).out, u < 2 ^ 31) := by
  have key : ∀ x : List Nat, DecodeOk utf8_libc x →
      x = (utf8_libc.iconv x).out.flatMap utf8_encode ∧
        ∀ u ∈ (utf8_libc.iconv x).out, u < 0x110000 := by
    intro x hx
    obtain ⟨us, h1, h2, h3⟩ := utf8_iconv_loop_sound x.length x [] (Nat.le_refl _) hx.1
    rw [List.nil_append] at h1
    have e : (utf8_libc.iconv x).out = us := h1
    rw [e]
    exact ⟨h2, h3⟩
  constructor
  · intro x y hx hy h
    rw [(key x hx).1, (key y hy).1, h]
  · intro x hx u hu
    have := (key x hx).2 u hu
    omega

/-- The reference decoder accepts a string of at most 8192 ASCII bytes and
gives its bytes as codepoints. -/
theorem utf8_libc_ascii (x : List Nat) (hx : ∀ c ∈ x, c < 0x80)
    (hlen : x.length ≤ MAX_PATH_LEN) :
    DecodeOk utf8_libc x ∧ (utf8_libc.iconv x).out = x := by
  have h := utf8_iconv_ascii x hx hlen
  unfold DecodeOk
  rw [utf8_libc_iconv, h]
  exact ⟨⟨rfl, rfl⟩, rfl⟩

/-- A path on which `lstime_format_path` returns without using the decoded
units is at most 8192 bytes long. -/
theorem format_path_length (libc : Libc) (p : List Nat) (eu dbg : Bool) (out : List Nat)
    (h : lstime_format_path libc p eu dbg = .ok out)
    (hl : ¬ DecodeOk libc p ∨ parse_for_display_level p LEVEL1 eu ≠ 5) :
    p.length ≤ MAX_PATH_LEN := by
  rw [lstime_format_path_unfold] at h
  by_contra hlen
  have hgt : p.length > MAX_PATH_LEN := by omega
  by_cases ho : libc.iconv_open_ok = false
  · rw [if_pos ho] at h; exact Except.noConfusion h
  · rw [if_neg ho] at h
    by_cases hd : DecodeOk libc p
    · rw [if_pos hd] at h
      rcases hl with hl | hl
      · exact hl hd
      · rw [if_neg hl, if_pos hgt] at h
        exact Except.noConfusion h
    · rw [if_neg hd, if_pos hgt] at h
      exact Except.noConfusion h

/-- The three shapes of what `lstime_format_path` returns: the path itself at
level 1, the path between single quotes at the levels 2 and 3, and the
encodings of the units between `$'` and a single quote at the levels 4 to 6. -/
theorem format_path_shapes (libc : Libc) (p : List Nat) (eu dbg : Bool)
    (hp : IsCString p) (out : List Nat) (h : lstime_format_path libc p eu dbg = .ok out) :
    (parse_for_display_level p LEVEL1 eu = 1 ∧ out = p) ∨
    (parse_for_display_level p LEVEL1 eu ≤ 3 ∧ out = 0x27 :: (p ++ [0x27])) ∨
    (∃ lvl units, (lvl = 4 ∨ lvl = 5 ∨ lvl = 6) ∧
      (lvl = parse_for_display_level p LEVEL1 eu ∧ DecodeOk libc p ∨
        lvl = 6 ∧ ¬ DecodeOk libc p) ∧
      (lvl ≠ 5 → units = p) ∧ (lvl = 5 → units = (libc.iconv p).out) ∧
      out = 0x24 :: 0x27 :: (units.flatMap (quote_unit lvl) ++ [0x27])) := by
  obtain ⟨lvl, units, hlvl, hu, hu5, hout⟩ := lstime_format_path_ok libc p eu dbg hp out h
  have h5 := parse_le_five p eu
  have h1 : 1 ≤ parse_for_display_level p LEVEL1 eu := parse_ge_min p LEVEL1 eu
  have hl16 : 1 ≤ lvl ∧ lvl ≤ 6 := by
    rcases hlvl with h | h <;> omega
  by_cases h4 : 4 ≤ lvl
  · right; right
    rw [(quote_frame_escaped lvl h4).1, (quote_frame_escaped lvl h4).2] at hout
    exact ⟨lvl, units, by omega, hlvl, hu, hu5, by rw [hout]; rfl⟩
  · have hlp : lvl = parse_for_display_level p LEVEL1 eu := by
      rcases hlvl with h | h
      · exact h.1
      · omega
    have hb := flatMap_quote_unit_verbatim lvl (by omega) p (fun b hb => (hp b hb).2)
    rw [hu (by omega), hb] at hout
    by_cases hl1 : lvl = 1
    · left
      have ho : quote_open lvl = [] := by rw [hl1]; rfl
      have hc : quote_close lvl = [] := by rw [hl1]; rfl
      rw [ho, hc, List.nil_append, List.append_nil] at hout
      exact ⟨by omega, hout⟩
    · right; left
      have ho : quote_open lvl = [0x27] := by
        have : lvl = 2 ∨ lvl = 3 := by omega
        rcases this with h | h <;> rw [h] <;> rfl
      have hc : quote_close lvl = [0x27] := by
        have : lvl = 2 ∨ lvl = 3 := by omega
        rcases this with h | h <;> rw [h] <;> rfl
      rw [ho, hc] at hout
      exact ⟨by omega, by rw [hout]; rfl⟩

/-- A path at level 1 begins with neither a single quote nor a `$`. -/
theorem level1_head (p : List Nat) (eu : Bool)
    (h : parse_for_display_level p LEVEL1 eu = 1) (c : Nat) (rest : List Nat)
    (hp : p = c :: rest) : c ≠ 0x27 ∧ c ≠ 0x24 := by
  have hm : c ∈ p := by rw [hp]; exact List.mem_cons_self _ _
  constructor
  · exact (no_trigger_of_low_level p eu (by omega) c hm).1
  · intro hc
    rw [hc] at hm
    exact no_dollar_at_level1 p eu h hm

/-- The encodings of a decoded path at level 5 and of the bytes of a path at
level 4 or 6 are not the same, unless the paths are. -/
theorem level5_against_bytes (libc : Libc) (eu : Bool) (a b : List Nat) (hb : IsCString b)
    (hinj : ∀ x y : List Nat, DecodeOk libc x → DecodeOk libc y →
      (libc.iconv x).out = (libc.iconv y).out → x = y)
    (hascii : ∀ x : List Nat, IsCString x → (∀ c ∈ x, c < 0x80) → x.length ≤ MAX_PATH_LEN →
      DecodeOk libc x ∧ (libc.iconv x).out = x)
    (hda : DecodeOk libc a) (hpa : parse_for_display_level a LEVEL1 eu = 5)
    (lb : Nat) (hlb : lb = 4 ∨ lb = 6)
    (hlvl : lb = parse_for_display_level b LEVEL1 eu ∧ DecodeOk libc b ∨
      lb = 6 ∧ ¬ DecodeOk libc b)
    (hlen : b.length ≤ MAX_PATH_LEN)
    (hunits : (libc.iconv a).out = b)
    (hkind : ∀ u ∈ b, unit_kind 5 u = unit_kind lb u) : a = b := by
  have heu : eu = true := by
    cases eu
    · have := parse_le_four a; omega
    · rfl
  subst heu
  have h5 := parse_le_five b true
  have hasc : ∀ c ∈ b, c < 0x80 := by
    intro c hc
    rcases hlb with h | h
    · by_contra hge
      have := parse_level5 b ⟨c, hc, by omega⟩
      rcases hlvl with hh | hh <;> omega
    · have hk := hkind c hc
      rw [h] at hk
      unfold unit_kind at hk
      by_contra hge
      rw [if_neg (by omega), if_neg (by omega), if_neg (by omega), if_pos rfl,
        if_neg (by omega), if_neg (by omega), if_neg (by omega), if_neg (by omega)] at hk
      omega
  obtain ⟨hdb, hout⟩ := hascii b hb hasc hlen
  exact hinj a b hda hdb (by rw [hunits, hout])

/-! ## Lemmas on the units and the bytes of the path, and on the decode guard -/

/-- The conversion `%X` gives all eight digits of a value of 2^28 or more,
whatever the minimum width. -/
theorem hex_digits_length (f : Nat) : ∀ n : Nat, 16 ^ f ≤ n → (hex_digits (f + 1) n).length = f + 1 := by
  induction f with
  | zero =>
    intro n hn
    have h0 : n ≠ 0 := by
      intro h; rw [h] at hn; simp at hn
    simp [hex_digits, h0]
  | succ f ih =>
    intro n hn
    have h0 : n ≠ 0 := by
      intro h; rw [h] at hn
      have : 0 < 16 ^ (f + 1) := Nat.pow_pos (by omega)
      omega
    have h1 : 16 ^ f ≤ n / 16 := by
      rw [Nat.le_div_iff_mul_le (by omega)]
      rw [pow_succ] at hn
      exact hn
    rw [hex_digits, if_neg h0, List.length_append, ih _ h1]
    rfl

theorem printf_0X_wide (c : Nat) (h : 0x10000000 ≤ c) : printf_0X 4 c = printf_0X 8 c := by
  have hl := hex_digits_length 7 c (by norm_num; exact h)
  have h0 : c ≠ 0 := by omega
  unfold printf_0X
  simp only [if_neg h0, hl]

/-- At level 5 a unit from 2^31 on, negative as a `wchar_t`, is written as
backslash, `u` and its eight digits. -/
theorem quote_unit_negative (c : Nat) (h1 : 2 ^ 31 ≤ c) (h2 : c < 2 ^ 32) :
    quote_unit 5 c = [0x5C, 0x75, upper_hex_digit (c / 268435456),
      upper_hex_digit (c / 16777216 % 16), upper_hex_digit (c / 1048576 % 16),
      upper_hex_digit (c / 65536 % 16), upper_hex_digit (c / 4096 % 16),
      upper_hex_digit (c / 256 % 16), upper_hex_digit (c / 16 % 16),
      upper_hex_digit (c % 16)] := by
  have hp : ¬ (0x20 ≤ c ∧ c ≤ 0x7E) := by omega
  have h4 : ¬ ((5 : Nat) = 4) := by decide
  rw [quote_unit_default 5 c (by omega) (not_named_of_high c (by omega)), if_neg hp,
    if_neg h4, if_pos rfl, bash_u_escape_negative c h1 h2, printf_0X_wide c (by omega),
    printf_0X_eight c (by omega) h2]
  rfl

/-- A byte below 0x80 in the UTF-8 encoding of a codepoint is the codepoint. -/
theorem utf8_encode_ascii_mem (u c : Nat) (hc : c < 0x80) (h : c ∈ utf8_encode u) :
    u = c ∧ utf8_encode u = [c] := by
  unfold utf8_encode at h ⊢
  by_cases h1 : u < 0x80
  · rw [if_pos h1] at h ⊢
    rw [List.mem_singleton] at h
    rw [h]
    exact ⟨rfl, rfl⟩
  · rw [if_neg h1] at h
    exfalso
    split_ifs at h <;> simp only [List.mem_cons, List.mem_singleton, List.not_mem_nil,
      or_false] at h <;> omega

theorem unit_bytes_ascii_mem (lvl u c : Nat) (hc : c < 0x80) (h : c ∈ unit_bytes lvl u) :
    u = c ∧ unit_bytes lvl u = [c] := by
  unfold unit_bytes at h ⊢
  by_cases h5 : lvl = 5
  · rw [if_pos h5] at h ⊢
    exact utf8_encode_ascii_mem u c hc h
  · rw [if_neg h5] at h ⊢
    rw [List.mem_singleton] at h
    rw [h]
    exact ⟨rfl, rfl⟩

/-- A byte below 0x80 of the path is one unit, and what precedes and follows
it in the path are the bytes of the units that precede and follow it. -/
theorem ascii_unit_split (lvl c : Nat) (hc : c < 0x80) (units : List Nat) :
    ∀ a b : List Nat, units.flatMap (unit_bytes lvl) = a ++ c :: b →
      ∃ ua ub, units = ua ++ c :: ub ∧ ua.flatMap (unit_bytes lvl) = a ∧
        ub.flatMap (unit_bytes lvl) = b := by
  induction units with
  | nil =>
    intro a b h
    simp at h
  | cons u rest ih =>
    intro a b h
    rw [List.flatMap_cons, List.append_eq_append_iff] at h
    rcases h with ⟨a1, ha, hr⟩ | ⟨c1, hu, hr⟩
    · obtain ⟨ua, ub, e1, e2, e3⟩ := ih a1 b hr
      refine ⟨u :: ua, ub, by rw [e1]; rfl, ?_, e3⟩
      rw [List.flatMap_cons, e2, ha]
    · cases c1 with
      | nil =>
        rw [List.nil_append] at hr
        rw [List.append_nil] at hu
        obtain ⟨ua, ub, e1, e2, e3⟩ := ih [] b (by rw [← hr]; rfl)
        refine ⟨u :: ua, ub, by rw [e1]; rfl, ?_, e3⟩
        rw [List.flatMap_cons, e2, hu, List.append_nil]
      | cons d c2 =>
        rw [List.cons_append] at hr
        have hd : c = d := (List.cons.inj hr).1
        have hb : b = c2 ++ rest.flatMap (unit_bytes lvl) := (List.cons.inj hr).2
        subst hd
        have hm : c ∈ unit_bytes lvl u := by rw [hu]; simp
        obtain ⟨e1, e2⟩ := unit_bytes_ascii_mem lvl u c hc hm
        rw [e2] at hu
        have ha : a = [] := by
          cases a with
          | nil => rfl
          | cons x xs =>
            have := congrArg List.length hu
            simp at this
        subst ha
        have hc2 : c2 = [] := by
          have := congrArg List.length hu
          simp only [List.length_cons, List.length_nil, List.nil_append] at this
          exact List.length_eq_zero.1 (by omega)
        subst hc2
        refine ⟨[], rest, by rw [e1]; rfl, rfl, ?_⟩
        rw [hb]; rfl

theorem flatMap_unit_bytes_of_ne (lvl : Nat) (h : lvl ≠ 5) (p : List Nat) :
    p.flatMap (unit_bytes lvl) = p := by
  induction p with
  | nil => rfl
  | cons b rest ih =>
    rw [List.flatMap_cons, ih]
    unfold unit_bytes
    rw [if_neg h]
    rfl

/-- The encodings of the units around one unit. -/
theorem flatMap_quote_unit_split (lvl c : Nat) (ua ub : List Nat) :
    (ua ++ c :: ub).flatMap (quote_unit lvl) =
      ua.flatMap (quote_unit lvl) ++ quote_unit lvl c ++ ub.flatMap (quote_unit lvl) := by
  rw [List.flatMap_append, List.flatMap_cons, List.append_assoc]

/-- Where a byte below 0x80 of the path goes in what `lstime_format_path`
returns: it is one unit, encoded between the encodings of the units that
stand for the bytes before it and after it. The decoded codepoints are assumed
to be those of which the path is the UTF-8 encoding. -/
theorem format_path_ascii_byte (libc : Libc) (p : List Nat) (eu dbg : Bool)
    (hp : IsCString p)
    (hutf8 : DecodeOk libc p → p = (libc.iconv p).out.flatMap utf8_encode)
    (out : List Nat) (h : lstime_format_path libc p eu dbg = .ok out)
    (a b : List Nat) (c : Nat) (hc : c < 0x80) (hs : p = a ++ c :: b) :
    ∃ (lvl : Nat) (ua ub : List Nat),
      (lvl = parse_for_display_level p LEVEL1 eu ∧ DecodeOk libc p ∨
        lvl = 6 ∧ ¬ DecodeOk libc p) ∧
      a = ua.flatMap (unit_bytes lvl) ∧ b = ub.flatMap (unit_bytes lvl) ∧
      out = quote_open lvl ++ (ua.flatMap (quote_unit lvl) ++ quote_unit lvl c ++
        ub.flatMap (quote_unit lvl)) ++ quote_close lvl := by
  obtain ⟨lvl, units, hl, hu1, hu2, hout⟩ := lstime_format_path_ok libc p eu dbg hp out h
  have hbytes : units.flatMap (unit_bytes lvl) = a ++ c :: b := by
    rw [← hs]
    by_cases h5 : lvl = 5
    · have hd : DecodeOk libc p := by
        rcases hl with h1 | h1
        · exact h1.2
        · omega
      rw [hu2 h5, h5]
      have e : unit_bytes 5 = utf8_encode := by
        funext u
        unfold unit_bytes
        rw [if_pos rfl]
      rw [e]
      exact (hutf8 hd).symm
    · rw [hu1 h5]
      exact flatMap_unit_bytes_of_ne lvl h5 p
  obtain ⟨ua, ub, e1, e2, e3⟩ := ascii_unit_split lvl c hc units a b hbytes
  refine ⟨lvl, ua, ub, hl, e2.symm, e3.symm, ?_⟩
  rw [hout, e1, flatMap_quote_unit_split]

theorem c_str_cons_ne (a : Nat) (t : List Nat) (h : a ≠ 0) : c_str (a :: t) = a :: c_str t := by
  unfold c_str
  rw [List.takeWhile_cons_of_pos (by simpa using h)]

theorem c_str_cons_nul (t : List Nat) : c_str (0 :: t) = [] := rfl

/-- The units `lstime_format_path` hands to the encoder for a path that is a C
string store no NUL. -/
theorem resolve_no_nul (libc : Libc) (p : List Nat) (eu dbg : Bool) (lvl : Nat)
    (units : List Nat) (hp : IsCString p)
    (hr : format_path_resolve libc p eu dbg = .ok (lvl, units)) :
    ∀ x ∈ units.flatMap (quote_unit lvl), x ≠ 0 := by
  by_cases h5 : lvl = 5
  · exact flatMap_quote_unit_no_nul units lvl (Or.inl h5)
  · rw [resolve_units_are_bytes libc p eu dbg lvl units hr h5,
      map_mod_of_cstring p (fun b hb => (hp b hb).2)]
    exact flatMap_quote_unit_no_nul p lvl (Or.inr hp)

/-- The level `lstime_format_path` hands to the encoder is from 1 to 6. -/
theorem resolve_level_range (libc : Libc) (p : List Nat) (eu dbg : Bool) (lvl : Nat)
    (units : List Nat) (hr : format_path_resolve libc p eu dbg = .ok (lvl, units)) :
    1 ≤ lvl ∧ lvl ≤ 6 := by
  have h5 := parse_le_five p eu
  have h1 : 1 ≤ parse_for_display_level p LEVEL1 eu := parse_ge_min p LEVEL1 eu
  rw [format_path_resolve_unfold] at hr
  split_ifs at hr <;> injection hr with hr <;> injection hr with hr1 hr2 <;> omega

/-- With a conversion handle that opens and a decoder that accepts every
NUL-free ASCII string that fits its buffer, `lstime_format_path` agrees on
every path with the algorithm of the specification, and a path classified at
level 1 or 2 is passed to the encoder at that level. -/
theorem decode_guard_agrees (libc : Libc) (p : List Nat) (eu dbg : Bool)
    (hopen : libc.iconv_open_ok = true)
    (hascii : ∀ q : List Nat, (∀ b ∈ q, 0 < b ∧ b < 0x80) → q.length ≤ MAX_PATH_LEN →
      DecodeOk libc q) :
    lstime_format_path libc p eu dbg = format_path_specified libc p eu dbg ∧
    (parse_for_display_level p LEVEL1 eu ≤ 2 →
      ∀ lvl units, format_path_resolve libc p eu dbg = .ok (lvl, units) →
        lvl = parse_for_display_level p LEVEL1 eu ∧ lvl ≠ 6) := by
  have ho : ¬ (libc.iconv_open_ok = false) := by rw [hopen]; decide
  have hlow : parse_for_display_level p LEVEL1 eu ≤ 2 → p.length ≤ MAX_PATH_LEN →
      DecodeOk libc p := fun h hlen =>
    hascii p (fun b hb => by have := printable_of_low_level p eu h b hb; omega) hlen
  refine ⟨?_, ?_⟩
  · rw [lstime_format_path_unfold, format_path_specified_unfold, if_neg ho]
    by_cases hl : parse_for_display_level p LEVEL1 eu = 3 ∨
        parse_for_display_level p LEVEL1 eu = 4 ∨ parse_for_display_level p LEVEL1 eu = 5
    · rw [if_pos hl]
    · rw [if_neg hl]
      have h5 : ¬ parse_for_display_level p LEVEL1 eu = 5 := fun h => hl (Or.inr (Or.inr h))
      by_cases hlen : p.length > MAX_PATH_LEN
      · simp only [if_pos hlen, if_neg h5, ite_self]
      · have h2 : parse_for_display_level p LEVEL1 eu ≤ 2 := by
          have := parse_le_five p eu
          omega
        simp only [if_pos (hlow h2 (by omega)), if_neg h5, if_neg hlen]
  · intro h2 lvl units hr
    rw [format_path_resolve_unfold, if_neg ho] at hr
    have h5 : ¬ parse_for_display_level p LEVEL1 eu = 5 := by omega
    by_cases hlen : p.length > MAX_PATH_LEN
    · simp only [if_pos hlen, if_neg h5, ite_self] at hr
      exact absurd hr (by simp)
    · rw [if_pos (hlow h2 (by omega)), if_neg h5, if_neg hlen] at hr
      injection hr with hr
      injection hr with hr1 hr2
      exact ⟨hr1.symm, by omega⟩

/-! ## Properties of the path formatter -/

/-- C1. A path made only of plain printable ASCII bytes (0x20..0x7E other than
the shell metacharacters and the single quote) is classified at level 1
whatever the flags, and `lstime_format_path`, whenever it returns, returns the
path itself; it does return when the path leaves the 12-byte margin of the
output buffer free, and the level resolved for the encoder is 1. The decoder
is assumed to accept this ASCII path when it fits its buffer. -/
theorem format_path_plain (libc : Libc) (p : List Nat) (eu dbg : Bool)
    (hp : ∀ b ∈ p, 0x20 ≤ b ∧ b ≤ 0x7E ∧ b ∉ shell_metacharacters ∧ b ≠ 0x27)
    (hdec : p.length ≤ MAX_PATH_LEN → DecodeOk libc p) :
    parse_for_display_level p LEVEL1 eu = 1 ∧
    (∀ out, lstime_format_path libc p eu dbg = .ok out → out = p) ∧
    (libc.iconv_open_ok = true → p.length ≤ MAX_PATH_LEN - 12 →
      lstime_format_path libc p eu dbg = .ok p) ∧
    (∀ l u, format_path_resolve libc p eu dbg = .ok (l, u) → l = 1 ∧ u = p) := by
  have hlt : ∀ b ∈ p, b < 256 := fun b hb => by have := hp b hb; omega
  have hlvl : parse_for_display_level p LEVEL1 eu = 1 := by
    have h1 := parse_le_of_bytes p LEVEL1 0 eu (by
      intro b hb
      obtain ⟨h1, h2, h3, h4⟩ := hp b hb
      have hm : is_shell_meta b = false := by
        rw [← Bool.not_eq_true, is_shell_meta_iff]; exact h3
      unfold byte_level level_step
      rw [if_neg (by simp [hm]), if_neg h4, if_neg (by omega), if_pos (by omega)])
    have h2 := parse_ge_min p LEVEL1 eu
    unfold LEVEL1 at h1 h2 ⊢
    omega
  have hmap := map_mod_of_cstring p hlt
  have hbody := flatMap_quote_unit_verbatim 1 (by omega) p hlt
  have hnz : ∀ x ∈ p.flatMap (quote_unit 1), x ≠ 0 :=
    flatMap_quote_unit_no_nul p 1 (Or.inr (fun b hb => by have := hp b hb; omega))
  refine ⟨hlvl, ?_, ?_, ?_⟩
  · intro out h
    rw [lstime_format_path_unfold, hlvl, hmap] at h
    by_cases ho : libc.iconv_open_ok = false
    · simp [ho] at h
    · by_cases hlen : p.length > MAX_PATH_LEN
      · simp [ho, hlen] at h
      · have hd := hdec (by omega)
        simp only [ho, hlen, hd, if_true, if_false] at h
        rw [if_neg (by omega : ¬ ((1 : Nat) = 5))] at h
        have := bash_quote_cps_eq _ _ _ hnz h
        rw [hbody] at this
        simpa [quote_open, quote_close, LEVEL2, LEVEL4] using this
  · intro ho hlen
    have hlen2 : ¬ p.length > MAX_PATH_LEN := by unfold MAX_PATH_LEN at hlen ⊢; omega
    have hd := hdec (by unfold MAX_PATH_LEN at hlen ⊢; omega)
    rw [lstime_format_path_unfold, hlvl, hmap]
    simp only [ho, hlen2, hd, if_true, if_false]
    rw [if_neg (by omega : ¬ ((1 : Nat) = 5)), bash_quote_cps_fits _ _ hnz]
    · rw [hbody]; simp [quote_open, quote_close, LEVEL2, LEVEL4]
    · rw [hbody]; simpa [quote_open, LEVEL2, LEVEL4] using hlen
  · intro l u h
    rw [format_path_resolve_unfold, hlvl, hmap] at h
    by_cases ho : libc.iconv_open_ok = false
    · simp [ho] at h
    · by_cases hlen : p.length > MAX_PATH_LEN
      · simp [ho, hlen] at h
      · have hd := hdec (by omega)
        simp only [ho, hlen, hd, if_true, if_false] at h
        rw [if_neg (by omega : ¬ ((1 : Nat) = 5))] at h
        injection h with h
        injection h with h1 h2
        exact ⟨h1.symm, h2.symm⟩

/-- C1 at the path `abc_def.ghi` of the test `test_plain`, with the reference
decoder. -/
theorem format_path_plain_witness :
    (∀ b ∈ [0x61, 0x62, 0x63, 0x5F, 0x64, 0x65, 0x66, 0x2E, 0x67, 0x68, 0x69],
      0x20 ≤ b ∧ b ≤ 0x7E ∧ b ∉ shell_metacharacters ∧ b ≠ 0x27) ∧
    lstime_format_path utf8_libc
      [0x61, 0x62, 0x63, 0x5F, 0x64, 0x65, 0x66, 0x2E, 0x67, 0x68, 0x69] false false =
      .ok [0x61, 0x62, 0x63, 0x5F, 0x64, 0x65, 0x66, 0x2E, 0x67, 0x68, 0x69] :=
  ⟨by decide,
   (format_path_plain utf8_libc
      [0x61, 0x62, 0x63, 0x5F, 0x64, 0x65, 0x66, 0x2E, 0x67, 0x68, 0x69] false false
      (by decide) (by decide)).2.2.1 (by decide) (by decide)⟩

/-- C2. A path of printable ASCII bytes without a single quote that holds at
least one shell metacharacter is classified at level 2 whatever the flags, and
`lstime_format_path`, whenever it returns, returns the single quote, the path
byte for byte, and the single quote; it does return when the quoted text
leaves the 12-byte margin of the output buffer free, and the level resolved
for the encoder is 2. The decoder is assumed to accept this ASCII path when it
fits its buffer. -/
theorem format_path_shell_meta (libc : Libc) (p : List Nat) (eu dbg : Bool)
    (hp : ∀ b ∈ p, 0x20 ≤ b ∧ b ≤ 0x7E ∧ b ≠ 0x27)
    (hm : ∃ b ∈ p, b ∈ shell_metacharacters)
    (hdec : p.length ≤ MAX_PATH_LEN → DecodeOk libc p) :
    parse_for_display_level p LEVEL1 eu = 2 ∧
    (∀ out, lstime_format_path libc p eu dbg = .ok out → out = [0x27] ++ p ++ [0x27]) ∧
    (libc.iconv_open_ok = true → p.length + 1 ≤ MAX_PATH_LEN - 12 →
      lstime_format_path libc p eu dbg = .ok ([0x27] ++ p ++ [0x27])) ∧
    (∀ l u, format_path_resolve libc p eu dbg = .ok (l, u) → l = 2 ∧ u = p) := by
  have hlt : ∀ b ∈ p, b < 256 := fun b hb => by have := hp b hb; omega
  have hlvl : parse_for_display_level p LEVEL1 eu = 2 := by
    have h1 := parse_le_of_bytes p LEVEL1 2 eu (by
      intro b hb
      obtain ⟨h1, h2, h4⟩ := hp b hb
      unfold byte_level level_step LEVEL2
      split_ifs <;> omega)
    obtain ⟨b, hb, hbm⟩ := hm
    have h2 := parse_ge_byte p LEVEL1 eu b hb
    have h3 : byte_level eu b = 2 := by
      unfold byte_level level_step LEVEL2
      rw [if_pos ((is_shell_meta_iff b).2 hbm)]; rfl
    unfold LEVEL1 at h1 h2 ⊢
    omega
  have hmap := map_mod_of_cstring p hlt
  have hbody := flatMap_quote_unit_verbatim 2 (by omega) p hlt
  have hnz : ∀ x ∈ p.flatMap (quote_unit 2), x ≠ 0 :=
    flatMap_quote_unit_no_nul p 2 (Or.inr (fun b hb => by have := hp b hb; omega))
  refine ⟨hlvl, ?_, ?_, ?_⟩
  · intro out h
    rw [lstime_format_path_unfold, hlvl, hmap] at h
    by_cases ho : libc.iconv_open_ok = false
    · simp [ho] at h
    · by_cases hlen : p.length > MAX_PATH_LEN
      · simp [ho, hlen] at h
      · have hd := hdec (by omega)
        simp only [ho, hlen, hd, if_true, if_false] at h
        rw [if_neg (by omega : ¬ ((2 : Nat) = 5))] at h
        have := bash_quote_cps_eq _ _ _ hnz h
        rw [hbody] at this
        simpa [quote_open, quote_close, LEVEL2, LEVEL4] using this
  · intro ho hlen
    have hlen2 : ¬ p.length > MAX_PATH_LEN := by unfold MAX_PATH_LEN at hlen ⊢; omega
    have hd := hdec (by unfold MAX_PATH_LEN at hlen ⊢; omega)
    rw [lstime_format_path_unfold, hlvl, hmap]
    simp only [ho, hlen2, hd, if_true, if_false]
    rw [if_neg (by omega : ¬ ((2 : Nat) = 5)), bash_quote_cps_fits _ _ hnz]
    · rw [hbody]; simp [quote_open, quote_close, LEVEL2, LEVEL4]
    · rw [hbody]
      have : (quote_open 2).length = 1 := by simp [quote_open, LEVEL2, LEVEL4]
      omega
  · intro l u h
    rw [format_path_resolve_unfold, hlvl, hmap] at h
    by_cases ho : libc.iconv_open_ok = false
    · simp [ho] at h
    · by_cases hlen : p.length > MAX_PATH_LEN
      · simp [ho, hlen] at h
      · have hd := hdec (by omega)
        simp only [ho, hlen, hd, if_true, if_false] at h
        rw [if_neg (by omega : ¬ ((2 : Nat) = 5))] at h
        injection h with h
        injection h with h1 h2
        exact ⟨h1.symm, h2.symm⟩

/-- C2 at the path `abc$def` of the test `test_shell_meta`, with the reference
decoder and `escape_uni` set. -/
theorem format_path_shell_meta_witness :
    (∀ b ∈ [0x61, 0x62, 0x63, 0x24, 0x64, 0x65, 0x66], 0x20 ≤ b ∧ b ≤ 0x7E ∧ b ≠ 0x27) ∧
    (∃ b ∈ [0x61, 0x62, 0x63, 0x24, 0x64, 0x65, 0x66], b ∈ shell_metacharacters) ∧
    lstime_format_path utf8_libc [0x61, 0x62, 0x63, 0x24, 0x64, 0x65, 0x66] true false =
      .ok [0x27, 0x61, 0x62, 0x63, 0x24, 0x64, 0x65, 0x66, 0x27] :=
  ⟨by decide, by decide,
   (format_path_shell_meta utf8_libc [0x61, 0x62, 0x63, 0x24, 0x64, 0x65, 0x66] true false
      (by decide) (by decide) (by decide)).2.2.1 (by decide) (by decide)⟩

/-- C3, counterexample: on 2046 bytes 0xFF the decode fails and the encoder
leaves through `exit(13)` instead of returning the hex-escaped text. -/
theorem format_path_invalid_utf8_overflow :
    ¬ DecodeOk utf8_libc (List.replicate 2046 0xFF) ∧
    lstime_format_path utf8_libc (List.replicate 2046 0xFF) false false = .error 13 := by
  have hd : ¬ DecodeOk utf8_libc (List.replicate 2046 0xFF) := by
    intro h
    have h1 := utf8_iconv_loop_lone_ff (List.replicate 2045 0xFF) []
    have h2 : (utf8_iconv_loop (0xFF :: List.replicate 2045 0xFF) []).rc = 0 := h.1
    rw [h1] at h2
    exact absurd h2 (by decide)
  refine ⟨hd, ?_⟩
  rw [lstime_format_path_unfold, if_neg (by decide), if_neg hd,
    if_neg (by rw [List.length_replicate]; decide), List.map_replicate,
    show 0xFF % 256 = 0xFF from rfl,
    show List.replicate 2046 0xFF = List.replicate 2045 0xFF ++ [0xFF] from
      List.replicate_succ' 2045 0xFF]
  apply bash_quote_cps_overflow
  rw [length_flatMap_replicate]
  decide

/-- C3, amended. When the UTF-8 decode of a path fails, whatever the flags,
the level resolved for the encoder is 6 and its units are the raw bytes;
`lstime_format_path`, whenever it returns, returns `$'` + body + `'` with one
rendering per byte, a byte >= 0x80 being rendered as backslash, `x` and its two
uppercase hexadecimal digits and a printable ASCII byte other than backslash,
single quote and double quote as itself; it does return when the path fits the
unit buffer and the text leaves the 12-byte margin of the output buffer free. -/
theorem format_path_invalid_utf8 (libc : Libc) (p : List Nat) (eu dbg : Bool)
    (hp : IsCString p) (hdec : ¬ DecodeOk libc p) :
    (∀ l cps, format_path_resolve libc p eu dbg = .ok (l, cps) → l = 6 ∧ cps = p) ∧
    (∀ out, lstime_format_path libc p eu dbg = .ok out →
      out = [0x24, 0x27] ++ p.flatMap (quote_unit 6) ++ [0x27]) ∧
    (∀ b, 0x80 ≤ b → b < 256 →
      quote_unit 6 b = [0x5C, 0x78, upper_hex_digit (b / 16), upper_hex_digit (b % 16)]) ∧
    (∀ b, 0x20 ≤ b → b ≤ 0x7E → b ≠ 0x5C → b ≠ 0x27 → b ≠ 0x22 → quote_unit 6 b = [b]) ∧
    (libc.iconv_open_ok = true → p.length ≤ MAX_PATH_LEN →
      2 + (p.flatMap (quote_unit 6)).length ≤ MAX_PATH_LEN - 12 →
      lstime_format_path libc p eu dbg =
        .ok ([0x24, 0x27] ++ p.flatMap (quote_unit 6) ++ [0x27])) := by
  have hmap := map_mod_of_cstring p (fun b hb => (hp b hb).2)
  have hopen : quote_open 6 = [0x24, 0x27] := rfl
  have hclose : quote_close 6 = [0x27] := rfl
  refine ⟨?_, ?_, quote_unit_hex, quote_unit_printable 6, ?_⟩
  · intro l cps h
    rw [format_path_resolve_unfold, hmap] at h
    split_ifs at h
    simp only [Except.ok.injEq, Prod.mk.injEq] at h
    exact ⟨h.1.symm, h.2.symm⟩
  · intro out h
    rw [lstime_format_path_unfold, hmap] at h
    split_ifs at h
    rw [bash_quote_cps_eq _ _ _
      (flatMap_quote_unit_no_nul _ _ (Or.inr hp)) h, hopen, hclose]
  · intro ho hlen hfit
    rw [lstime_format_path_unfold, hmap, if_neg (by simp [ho]), if_neg hdec,
      if_neg (by omega), bash_quote_cps_fits _ _
      (flatMap_quote_unit_no_nul _ _ (Or.inr hp))
      (by rw [hopen]; simpa using hfit),
      hopen, hclose]

/-- C3 at the path of the test `test_binary_2`, U+03B1 followed by 0xFF,
with the reference decoder. -/
theorem format_path_invalid_utf8_witness :
    IsCString [0xCE, 0xB1, 0xFF] ∧ ¬ DecodeOk utf8_libc [0xCE, 0xB1, 0xFF] ∧
    lstime_format_path utf8_libc [0xCE, 0xB1, 0xFF] false false =
      .ok [0x24, 0x27, 0x5C, 0x78, 0x43, 0x45, 0x5C, 0x78, 0x42, 0x31,
        0x5C, 0x78, 0x46, 0x46, 0x27] :=
  ⟨by decide, by decide,
   (format_path_invalid_utf8 utf8_libc [0xCE, 0xB1, 0xFF] false false
      (by decide) (by decide)).2.2.2.2 (by decide) (by decide) (by decide)⟩

/-- C4, counterexample: 8180 letters `a` followed by U+03B1 decode, hold a
byte >= 0x80 and neither quote nor control byte, and the encoder leaves
through `exit(13)` instead of returning the quoted path. -/
theorem format_path_utf8_plain_overflow :
    DecodeOk utf8_libc (List.replicate 8180 0x61 ++ [0xCE, 0xB1]) ∧
    lstime_format_path utf8_libc (List.replicate 8180 0x61 ++ [0xCE, 0xB1]) false false =
      .error 13 := by
  have hi : utf8_libc.iconv (List.replicate 8180 0x61 ++ [0xCE, 0xB1]) =
      ⟨0, 0, List.replicate 8180 0x61 ++ [0x3B1]⟩ :=
    utf8_iconv_ascii_alpha 8180 0x61 (by omega) (by unfold MAX_PATH_LEN; omega)
  have hd : DecodeOk utf8_libc (List.replicate 8180 0x61 ++ [0xCE, 0xB1]) := by
    unfold DecodeOk; rw [hi]; exact ⟨rfl, rfl⟩
  have hmem : ∀ b ∈ List.replicate 8180 0x61 ++ [0xCE, 0xB1], b = 0x61 ∨ b = 0xCE ∨ b = 0xB1 := by
    intro b hb
    rcases List.mem_append.1 hb with h | h
    · exact Or.inl (List.eq_of_mem_replicate h)
    · exact Or.inr (by simpa using h)
  have hlvl : parse_for_display_level (List.replicate 8180 0x61 ++ [0xCE, 0xB1]) LEVEL1 false
      = 3 :=
    parse_level3 _ (fun b hb => by rcases hmem b hb with h | h | h <;> subst h <;> decide)
      ⟨0xCE, List.mem_append_right _ (List.mem_cons_self _ _), by decide⟩
  refine ⟨hd, ?_⟩
  rw [lstime_format_path_unfold, if_neg (by decide : ¬ (utf8_libc.iconv_open_ok = false)),
    if_pos hd, hlvl, if_neg (by omega : ¬ ((3 : Nat) = 5)),
    if_neg (by rw [List.length_append, List.length_replicate]; unfold MAX_PATH_LEN; simp),
    map_mod_of_cstring _ (fun b hb => by rcases hmem b hb with h | h | h <;> subst h <;> decide)]
  apply bash_quote_cps_overflow
  rw [length_flatMap_replicate]
  decide

/-- C4, amended. A path that decodes as UTF-8, holds a byte >= 0x80 and no
single quote or control byte is, with `escape_uni` false, classified and
resolved at level 3 with its raw bytes as units; `lstime_format_path`,
whenever it returns, returns the single quote, the bytes unchanged, and the
single quote; it does return when the quoted text leaves the 12-byte margin of
the output buffer free. -/
theorem format_path_utf8_plain (libc : Libc) (p : List Nat) (dbg : Bool)
    (hp : IsCString p) (hdec : DecodeOk libc p) (hh : ∃ b ∈ p, 0x80 ≤ b)
    (hq : ∀ b ∈ p, b ≠ 0x27 ∧ 0x20 ≤ b ∧ b ≠ 0x7F) :
    parse_for_display_level p LEVEL1 false = 3 ∧
    (∀ l cps, format_path_resolve libc p false dbg = .ok (l, cps) → l = 3 ∧ cps = p) ∧
    (∀ out, lstime_format_path libc p false dbg = .ok out → out = [0x27] ++ p ++ [0x27]) ∧
    (libc.iconv_open_ok = true → p.length + 1 ≤ MAX_PATH_LEN - 12 →
      lstime_format_path libc p false dbg = .ok ([0x27] ++ p ++ [0x27])) := by
  have hlt : ∀ b ∈ p, b < 256 := fun b hb => (hp b hb).2
  have hmap := map_mod_of_cstring p hlt
  have hlvl := parse_level3 p (fun b hb => ⟨(hq b hb).2.1, (hq b hb).2.2, (hq b hb).1⟩) hh
  have hbody := flatMap_quote_unit_verbatim 3 (by omega) p hlt
  have hopen : quote_open 3 = [0x27] := rfl
  have hclose : quote_close 3 = [0x27] := rfl
  refine ⟨hlvl, ?_, ?_, ?_⟩
  · intro l cps h
    rw [format_path_resolve_unfold, hmap, hlvl, if_pos hdec,
      if_neg (by omega : ¬ ((3 : Nat) = 5))] at h
    split_ifs at h
    simp only [Except.ok.injEq, Prod.mk.injEq] at h
    exact ⟨h.1.symm, h.2.symm⟩
  · intro out h
    rw [lstime_format_path_unfold, hmap, hlvl, if_pos hdec,
      if_neg (by omega : ¬ ((3 : Nat) = 5))] at h
    split_ifs at h
    rw [bash_quote_cps_eq _ _ _
      (flatMap_quote_unit_no_nul _ _ (Or.inr hp)) h, hopen, hclose, hbody]
  · intro ho hfit
    have hlen : ¬ p.length > MAX_PATH_LEN := by unfold MAX_PATH_LEN at hfit ⊢; omega
    rw [lstime_format_path_unfold, hmap, hlvl,
      if_neg (by simp [ho] : ¬ (libc.iconv_open_ok = false)), if_pos hdec,
      if_neg (by omega : ¬ ((3 : Nat) = 5)), if_neg hlen,
      bash_quote_cps_fits _ _
      (flatMap_quote_unit_no_nul _ _ (Or.inr hp))
      (by rw [hopen, hbody]; simp only [List.length_singleton]; omega),
      hopen, hclose, hbody]

/-- C4 at the path of the test `test_u_escapes`, U+03B0 U+03B1 U+03B2, with
the reference decoder. -/
theorem format_path_utf8_plain_witness :
    IsCString [0xCE, 0xB0, 0xCE, 0xB1, 0xCE, 0xB2] ∧
    DecodeOk utf8_libc [0xCE, 0xB0, 0xCE, 0xB1, 0xCE, 0xB2] ∧
    lstime_format_path utf8_libc [0xCE, 0xB0, 0xCE, 0xB1, 0xCE, 0xB2] false false =
      .ok [0x27, 0xCE, 0xB0, 0xCE, 0xB1, 0xCE, 0xB2, 0x27] :=
  ⟨by decide, by decide,
   (format_path_utf8_plain utf8_libc [0xCE, 0xB0, 0xCE, 0xB1, 0xCE, 0xB2] false
      (by decide) (by decide) (by decide) (by decide)).2.2.2 (by decide) (by decide)⟩

/-- C5, counterexample: 1364 bytes 0x01 followed by U+03B1 decode and hold a
byte >= 0x80, and with `escape_uni` set the encoder leaves through `exit(13)`
instead of returning the escaped text. -/
theorem format_path_utf8_escaped_overflow :
    DecodeOk utf8_libc (List.replicate 1364 0x01 ++ [0xCE, 0xB1]) ∧
    lstime_format_path utf8_libc (List.replicate 1364 0x01 ++ [0xCE, 0xB1]) true false =
      .error 13 := by
  have hi := utf8_iconv_ascii_alpha 1364 0x01 (by omega) (by unfold MAX_PATH_LEN; omega)
  have hd : DecodeOk utf8_libc (List.replicate 1364 0x01 ++ [0xCE, 0xB1]) := by
    unfold DecodeOk; rw [hi]; exact ⟨rfl, rfl⟩
  have hlvl : parse_for_display_level (List.replicate 1364 0x01 ++ [0xCE, 0xB1]) LEVEL1 true
      = 5 :=
    parse_level5 _ ⟨0xCE, List.mem_append_right _ (List.mem_cons_self _ _), by decide⟩
  refine ⟨hd, ?_⟩
  rw [lstime_format_path_unfold, if_neg (by decide : ¬ (utf8_libc.iconv_open_ok = false)),
    if_pos hd, if_pos hlvl, hi]
  apply bash_quote_cps_overflow
  rw [length_flatMap_replicate]
  decide

/-- C5, amended. A path that decodes as UTF-8 to the codepoints `cps` and
holds a byte >= 0x80 is, with `escape_uni` set, classified and resolved at
level 5 with the codepoints as units; `lstime_format_path`, whenever it
returns, returns `$'` + one rendering per codepoint + `'`, a codepoint from
0x80 to 0xFFFF being rendered as backslash, `u` and its four uppercase
hexadecimal digits and a larger one, below 2^31, as backslash, `U` and its
eight digits; it does return when the text leaves the 12-byte margin of the
output buffer free. A unit from 2^31 on, which is no codepoint, is negative
as the `wchar_t` of `bash_u_escape` and is written as backslash, `u` and
eight digits. -/
theorem format_path_utf8_escaped (libc : Libc) (p cps : List Nat) (dbg : Bool)
    (hdec : libc.iconv p = ⟨0, 0, cps⟩) (hh : ∃ b ∈ p, 0x80 ≤ b) :
    parse_for_display_level p LEVEL1 true = 5 ∧
    (∀ l u, format_path_resolve libc p true dbg = .ok (l, u) → l = 5 ∧ u = cps) ∧
    (∀ out, lstime_format_path libc p true dbg = .ok out →
      out = [0x24, 0x27] ++ cps.flatMap (quote_unit 5) ++ [0x27]) ∧
    (∀ c, 0x80 ≤ c → c ≤ 0xFFFF →
      quote_unit 5 c = [0x5C, 0x75, upper_hex_digit (c / 4096),
        upper_hex_digit (c / 256 % 16), upper_hex_digit (c / 16 % 16),
        upper_hex_digit (c % 16)]) ∧
    (∀ c, 0xFFFF < c → c < 2 ^ 31 →
      quote_unit 5 c = [0x5C, 0x55, upper_hex_digit (c / 268435456),
        upper_hex_digit (c / 16777216 % 16), upper_hex_digit (c / 1048576 % 16),
        upper_hex_digit (c / 65536 % 16), upper_hex_digit (c / 4096 % 16),
        upper_hex_digit (c / 256 % 16), upper_hex_digit (c / 16 % 16),
        upper_hex_digit (c % 16)]) ∧
    (libc.iconv_open_ok = true →
      2 + (cps.flatMap (quote_unit 5)).length ≤ MAX_PATH_LEN - 12 →
      lstime_format_path libc p true dbg =
        .ok ([0x24, 0x27] ++ cps.flatMap (quote_unit 5) ++ [0x27])) ∧
    (∀ c, 2 ^ 31 ≤ c → c < 2 ^ 32 →
      quote_unit 5 c = [0x5C, 0x75, upper_hex_digit (c / 268435456),
        upper_hex_digit (c / 16777216 % 16), upper_hex_digit (c / 1048576 % 16),
        upper_hex_digit (c / 65536 % 16), upper_hex_digit (c / 4096 % 16),
        upper_hex_digit (c / 256 % 16), upper_hex_digit (c / 16 % 16),
        upper_hex_digit (c % 16)]) := by
  have hlvl := parse_level5 p hh
  have hd : DecodeOk libc p := by unfold DecodeOk; rw [hdec]; exact ⟨rfl, rfl⟩
  have hopen : quote_open 5 = [0x24, 0x27] := rfl
  have hclose : quote_close 5 = [0x27] := rfl
  refine ⟨hlvl, ?_, ?_, quote_unit_u4, quote_unit_U8, ?_, quote_unit_negative⟩
  · intro l u h
    rw [format_path_resolve_unfold, if_pos hd, if_pos hlvl, hdec] at h
    split_ifs at h
    simp only [Except.ok.injEq, Prod.mk.injEq] at h
    exact ⟨h.1.symm, h.2.symm⟩
  · intro out h
    rw [lstime_format_path_unfold, if_pos hd, if_pos hlvl, hdec] at h
    split_ifs at h
    rw [bash_quote_cps_eq _ _ _
      (flatMap_quote_unit_no_nul _ 5 (Or.inl rfl)) h, hopen, hclose]
  · intro ho hfit
    rw [lstime_format_path_unfold, if_neg (by simp [ho] : ¬ (libc.iconv_open_ok = false)),
      if_pos hd, if_pos hlvl, hdec,
      bash_quote_cps_fits _ _
      (flatMap_quote_unit_no_nul _ 5 (Or.inl rfl))
      (by rw [hopen]; simpa using hfit), hopen, hclose]

/-- C5 at the path of the test `test_u_escapes_2`, U+03B0 U+03B1 U+03B2, with
the reference decoder. -/
theorem format_path_utf8_escaped_witness :
    utf8_libc.iconv [0xCE, 0xB0, 0xCE, 0xB1, 0xCE, 0xB2] = ⟨0, 0, [0x3B0, 0x3B1, 0x3B2]⟩ ∧
    lstime_format_path utf8_libc [0xCE, 0xB0, 0xCE, 0xB1, 0xCE, 0xB2] true false =
      .ok [0x24, 0x27, 0x5C, 0x75, 0x30, 0x33, 0x42, 0x30, 0x5C, 0x75, 0x30, 0x33, 0x42, 0x31,
        0x5C, 0x75, 0x30, 0x33, 0x42, 0x32, 0x27] :=
  ⟨by decide,
   (format_path_utf8_escaped utf8_libc [0xCE, 0xB0, 0xCE, 0xB1, 0xCE, 0xB2]
      [0x3B0, 0x3B1, 0x3B2] false (by decide) (by decide)).2.2.2.2.2.1 (by decide)
      (by decide)⟩

/-- C6, counterexample: on 4091 single quotes the decode succeeds and the
encoder leaves through `exit(13)` instead of returning the `$'...'` form. -/
theorem format_path_single_quote_overflow :
    0x27 ∈ List.replicate 4091 0x27 ∧
    lstime_format_path utf8_libc (List.replicate 4091 0x27) false false = .error 13 := by
  have hi := utf8_iconv_ascii_replicate 4091 0x27 (by omega) (by unfold MAX_PATH_LEN; omega)
  have hd : DecodeOk utf8_libc (List.replicate 4091 0x27) := by
    unfold DecodeOk; rw [hi]; exact ⟨rfl, rfl⟩
  have hq : 0x27 ∈ List.replicate 4091 0x27 := List.mem_replicate.2 ⟨by omega, rfl⟩
  have hlvl : parse_for_display_level (List.replicate 4091 0x27) LEVEL1 false = 4 :=
    parse_level4 _ ⟨0x27, hq, Or.inl rfl⟩
  refine ⟨hq, ?_⟩
  rw [lstime_format_path_unfold, if_neg (by decide : ¬ (utf8_libc.iconv_open_ok = false)),
    if_pos hd, hlvl, if_neg (by omega : ¬ ((4 : Nat) = 5)),
    if_neg (by rw [List.length_replicate]; unfold MAX_PATH_LEN; omega), List.map_replicate,
    show 0x27 % 256 = 0x27 from rfl,
    show List.replicate 4091 0x27 = List.replicate 4090 0x27 ++ [0x27] from
      List.replicate_succ' 4090 0x27]
  apply bash_quote_cps_overflow
  rw [length_flatMap_replicate]
  decide

/-- C6, amended. For a path that holds a single quote, `lstime_format_path`,
whenever it returns, returns `$'` + the renderings of its units + `'` at a
level from 4 to 6 (the units are the raw bytes, or the decoded codepoints at
level 5), and at each of these levels the unit 0x27 is rendered as backslash,
single quote; when the path is printable ASCII only, the body is the path with
each backslash, single quote and double quote preceded by a backslash, and the
call does return when the path fits the unit buffer and the text leaves the
12-byte margin of the output buffer free. Every single quote of the path is
rendered as backslash, single quote, where it stands: for each place of a
single quote in the path, the result is `$'`, the renderings of the units that
stand for the bytes before it, backslash and single quote, the renderings of
the units that stand for the bytes after it, and `'`; here the codepoints of a
path that the decoder accepts are assumed to be those of which the path is the
UTF-8 encoding. -/
theorem format_path_single_quote (libc : Libc) (p : List Nat) (eu dbg : Bool)
    (hp : IsCString p) (hq : 0x27 ∈ p) :
    (∀ out, lstime_format_path libc p eu dbg = .ok out →
      ∃ lvl units, 4 ≤ lvl ∧ lvl ≤ 6 ∧
        (lvl ≠ 5 → units = p) ∧ (lvl = 5 → units = (libc.iconv p).out) ∧
        out = [0x24, 0x27] ++ units.flatMap (quote_unit lvl) ++ [0x27]) ∧
    (∀ lvl, 4 ≤ lvl → quote_unit lvl 0x27 = [0x5C, 0x27]) ∧
    ((∀ b ∈ p, 0x20 ≤ b ∧ b ≤ 0x7E) →
      (∀ out, lstime_format_path libc p eu dbg = .ok out →
        out = [0x24, 0x27] ++ p.flatMap backslash_escape ++ [0x27]) ∧
      (libc.iconv_open_ok = true → p.length ≤ MAX_PATH_LEN →
        2 + (p.flatMap backslash_escape).length ≤ MAX_PATH_LEN - 12 →
        lstime_format_path libc p eu dbg =
          .ok ([0x24, 0x27] ++ p.flatMap backslash_escape ++ [0x27]))) ∧
    ((DecodeOk libc p → p = (libc.iconv p).out.flatMap utf8_encode) →
      ∀ out, lstime_format_path libc p eu dbg = .ok out →
        ∀ a b : List Nat, p = a ++ 0x27 :: b →
          ∃ (lvl : Nat) (ua ub : List Nat), 4 ≤ lvl ∧ lvl ≤ 6 ∧
            a = ua.flatMap (unit_bytes lvl) ∧ b = ub.flatMap (unit_bytes lvl) ∧
            out = [0x24, 0x27] ++ ua.flatMap (quote_unit lvl) ++ [0x5C, 0x27] ++
              ub.flatMap (quote_unit lvl) ++ [0x27]) := by
  have hge := parse_ge_four p eu ⟨0x27, hq, Or.inl rfl⟩
  have hle := parse_le_five p eu
  have hmap := map_mod_of_cstring p (fun b hb => (hp b hb).2)
  refine ⟨?_, quote_unit_single_quote, ?_, ?_⟩
  · intro out h
    obtain ⟨lvl, units, hl, hu1, hu2, hout⟩ := lstime_format_path_ok libc p eu dbg hp out h
    have h4 : 4 ≤ lvl ∧ lvl ≤ 6 := by
      rcases hl with ⟨h1, _⟩ | ⟨h1, _⟩ <;> omega
    obtain ⟨e1, e2⟩ := quote_frame_escaped lvl h4.1
    rw [e1, e2] at hout
    exact ⟨lvl, units, h4.1, h4.2, hu1, hu2, hout⟩
  · intro hpr
    have hl4 : parse_for_display_level p LEVEL1 eu = 4 :=
      le_antisymm (parse_no_high p eu (fun b hb => by have := hpr b hb; omega)) hge
    refine ⟨?_, ?_⟩
    · intro out h
      obtain ⟨lvl, units, hl, hu1, hu2, hout⟩ := lstime_format_path_ok libc p eu dbg hp out h
      have h4 : 4 ≤ lvl ∧ lvl ≠ 5 := by
        rcases hl with ⟨h1, _⟩ | ⟨h1, _⟩ <;> omega
      obtain ⟨e1, e2⟩ := quote_frame_escaped lvl h4.1
      rw [e1, e2, hu1 h4.2, flatMap_quote_unit_ascii lvl h4.1 p hpr] at hout
      exact hout
    · intro ho hlen hfit
      have hlen2 : ¬ p.length > MAX_PATH_LEN := by omega
      rw [lstime_format_path_unfold, hmap, hl4,
        if_neg (by simp [ho] : ¬ (libc.iconv_open_ok = false)),
        if_neg (by omega : ¬ ((4 : Nat) = 5)), if_neg hlen2]
      by_cases hd : DecodeOk libc p
      · rw [if_pos hd, bash_quote_cps_fits _ _
      (flatMap_quote_unit_no_nul _ _ (Or.inr hp))
      (by
            rw [flatMap_quote_unit_ascii 4 (by omega) p hpr]
            simpa [quote_open, LEVEL2, LEVEL4] using hfit),
          flatMap_quote_unit_ascii 4 (by omega) p hpr]
        rfl
      · rw [if_neg hd, if_neg hlen2, bash_quote_cps_fits _ _
      (flatMap_quote_unit_no_nul _ _ (Or.inr hp))
      (by
            rw [flatMap_quote_unit_ascii 6 (by omega) p hpr]
            simpa [quote_open, LEVEL2, LEVEL4] using hfit),
          flatMap_quote_unit_ascii 6 (by omega) p hpr]
        rfl
  · intro hutf8 out h a b hs
    obtain ⟨lvl, ua, ub, hl, ea, eb, hout⟩ :=
      format_path_ascii_byte libc p eu dbg hp hutf8 out h a b 0x27 (by omega) hs
    have h4 : 4 ≤ lvl ∧ lvl ≤ 6 := by
      rcases hl with ⟨h1, _⟩ | ⟨h1, _⟩ <;> omega
    obtain ⟨e1, e2⟩ := quote_frame_escaped lvl h4.1
    rw [e1, e2, quote_unit_single_quote lvl h4.1] at hout
    refine ⟨lvl, ua, ub, h4.1, h4.2, ea, eb, ?_⟩
    rw [hout]
    simp only [List.append_assoc]

/-- C6 at the path `abc'def` of the test `test_control_codes_2`, with the
reference decoder, and at the path made of U+03B1, a single quote and `A`
with `escape_uni` set, where the units are the three codepoints: the quote is
rendered between the renderings of U+03B1 and of `A`. -/
theorem format_path_single_quote_witness :
    IsCString [0x61, 0x62, 0x63, 0x27, 0x64, 0x65, 0x66] ∧
    0x27 ∈ [0x61, 0x62, 0x63, 0x27, 0x64, 0x65, 0x66] ∧
    lstime_format_path utf8_libc [0x61, 0x62, 0x63, 0x27, 0x64, 0x65, 0x66] false false =
      .ok [0x24, 0x27, 0x61, 0x62, 0x63, 0x5C, 0x27, 0x64, 0x65, 0x66, 0x27] ∧
    IsCString [0xCE, 0xB1, 0x27, 0x41] ∧ 0x27 ∈ [0xCE, 0xB1, 0x27, 0x41] ∧
    lstime_format_path utf8_libc [0xCE, 0xB1, 0x27, 0x41] true false =
      .ok [0x24, 0x27, 0x5C, 0x75, 0x30, 0x33, 0x42, 0x31, 0x5C, 0x27, 0x41, 0x27] ∧
    ∃ (lvl : Nat) (ua ub : List Nat), 4 ≤ lvl ∧ lvl ≤ 6 ∧
      [0xCE, 0xB1] = ua.flatMap (unit_bytes lvl) ∧ [0x41] = ub.flatMap (unit_bytes lvl) ∧
      [0x24, 0x27, 0x5C, 0x75, 0x30, 0x33, 0x42, 0x31, 0x5C, 0x27, 0x41, 0x27] =
        [0x24, 0x27] ++ ua.flatMap (quote_unit lvl) ++ [0x5C, 0x27] ++
          ub.flatMap (quote_unit lvl) ++ [0x27] :=
  ⟨by decide, by decide,
   ((format_path_single_quote utf8_libc [0x61, 0x62, 0x63, 0x27, 0x64, 0x65, 0x66] false false
      (by decide) (by decide)).2.2.1 (by decide)).2 (by decide) (by decide) (by decide),
   by decide, by decide, rfl,
   (format_path_single_quote utf8_libc [0xCE, 0xB1, 0x27, 0x41] true false
      (by decide) (by decide)).2.2.2 (fun _ => rfl) _ rfl [0xCE, 0xB1] [0x41] rfl⟩

/-- C7, counterexample: 1365 bytes 0x01 decode and hold a control byte, and
the encoder leaves through `exit(13)` instead of returning the `$'...'`
form. -/
theorem format_path_control_overflow :
    DecodeOk utf8_libc (List.replicate 1365 0x01) ∧
    lstime_format_path utf8_libc (List.replicate 1365 0x01) false false = .error 13 := by
  have hi := utf8_iconv_ascii_replicate 1365 0x01 (by omega) (by unfold MAX_PATH_LEN; omega)
  have hd : DecodeOk utf8_libc (List.replicate 1365 0x01) := by
    unfold DecodeOk; rw [hi]; exact ⟨rfl, rfl⟩
  have hlvl : parse_for_display_level (List.replicate 1365 0x01) LEVEL1 false = 4 :=
    parse_level4 _ ⟨0x01, List.mem_replicate.2 ⟨by omega, rfl⟩, Or.inr (Or.inl (by omega))⟩
  refine ⟨hd, ?_⟩
  rw [lstime_format_path_unfold, if_neg (by decide : ¬ (utf8_libc.iconv_open_ok = false)),
    if_pos hd, hlvl, if_neg (by omega : ¬ ((4 : Nat) = 5)),
    if_neg (by rw [List.length_replicate]; unfold MAX_PATH_LEN; omega), List.map_replicate,
    show 0x01 % 256 = 0x01 from rfl,
    show List.replicate 1365 0x01 = List.replicate 1364 0x01 ++ [0x01] from
      List.replicate_succ' 1364 0x01]
  apply bash_quote_cps_overflow
  rw [length_flatMap_replicate]
  decide

/-- C7, amended. For a path that holds a control byte (below 0x20, or 0x7F)
and decodes as UTF-8, `lstime_format_path`, whenever it returns, returns `$'`
+ the renderings of its units + `'` at level 4 (raw bytes) or 5 (decoded
codepoints), and no byte of the result is a control byte; at both levels BEL,
BS, ESC, FF, LF, CR, TAB and VT are rendered as `\a \b \E \f \n \r \t \v` and
every other control value as backslash, `u`, `00` and its two uppercase
hexadecimal digits; the call does return when the path fits the unit buffer
and the text leaves the 12-byte margin of the output buffer free. Every
control byte of the path is rendered so, where it stands: for each place of a
control byte `c` in the path, the result is `$'`, the renderings of the units
that stand for the bytes before it, the rendering of `c`, the renderings of
the units that stand for the bytes after it, and `'`; here the decoded
codepoints are assumed to be those of which the path is the UTF-8
encoding. -/
theorem format_path_control (libc : Libc) (p : List Nat) (eu dbg : Bool)
    (hp : IsCString p) (hdec : DecodeOk libc p) (hc : ∃ b ∈ p, b < 0x20 ∨ b = 0x7F) :
    (∀ out, lstime_format_path libc p eu dbg = .ok out →
      (∃ lvl units, (lvl = 4 ∧ units = p ∨ lvl = 5 ∧ units = (libc.iconv p).out) ∧
        out = [0x24, 0x27] ++ units.flatMap (quote_unit lvl) ++ [0x27]) ∧
      ∀ x ∈ out, 0x20 ≤ x ∧ x ≠ 0x7F) ∧
    (∀ lvl, lvl = 4 ∨ lvl = 5 →
      quote_unit lvl 0x07 = [0x5C, 0x61] ∧ quote_unit lvl 0x08 = [0x5C, 0x62] ∧
      quote_unit lvl 0x1B = [0x5C, 0x45] ∧ quote_unit lvl 0x0C = [0x5C, 0x66] ∧
      quote_unit lvl 0x0A = [0x5C, 0x6E] ∧ quote_unit lvl 0x0D = [0x5C, 0x72] ∧
      quote_unit lvl 0x09 = [0x5C, 0x74] ∧ quote_unit lvl 0x0B = [0x5C, 0x76]) ∧
    (∀ lvl c, lvl = 4 ∨ lvl = 5 → c < 0x20 ∨ c = 0x7F →
      c ≠ 0x07 ∧ c ≠ 0x08 ∧ c ≠ 0x1B ∧ c ≠ 0x0C ∧ c ≠ 0x0A ∧ c ≠ 0x0D ∧ c ≠ 0x09 ∧ c ≠ 0x0B →
      quote_unit lvl c =
        [0x5C, 0x75, 0x30, 0x30, upper_hex_digit (c / 16), upper_hex_digit (c % 16)]) ∧
    (libc.iconv_open_ok = true → p.length ≤ MAX_PATH_LEN →
      ∀ lvl units, lvl = parse_for_display_level p LEVEL1 eu →
        units = (if lvl = 5 then (libc.iconv p).out else p) →
        2 + (units.flatMap (quote_unit lvl)).length ≤ MAX_PATH_LEN - 12 →
        lstime_format_path libc p eu dbg =
          .ok ([0x24, 0x27] ++ units.flatMap (quote_unit lvl) ++ [0x27])) ∧
    (p = (libc.iconv p).out.flatMap utf8_encode →
      ∀ out, lstime_format_path libc p eu dbg = .ok out →
        ∀ (a b : List Nat) (c : Nat), p = a ++ c :: b → c < 0x20 ∨ c = 0x7F →
          ∃ (lvl : Nat) (ua ub : List Nat), (lvl = 4 ∨ lvl = 5) ∧
            a = ua.flatMap (unit_bytes lvl) ∧ b = ub.flatMap (unit_bytes lvl) ∧
            out = [0x24, 0x27] ++ ua.flatMap (quote_unit lvl) ++ quote_unit lvl c ++
              ub.flatMap (quote_unit lvl) ++ [0x27]) := by
  have hge : 4 ≤ parse_for_display_level p LEVEL1 eu := by
    obtain ⟨b, hb, hb2⟩ := hc
    exact parse_ge_four p eu ⟨b, hb, Or.inr hb2⟩
  have hle := parse_le_five p eu
  have hmap := map_mod_of_cstring p (fun b hb => (hp b hb).2)
  refine ⟨?_, ?_, quote_unit_control, ?_, ?_⟩
  · intro out h
    obtain ⟨lvl, units, hl, hu1, hu2, hout⟩ := lstime_format_path_ok libc p eu dbg hp out h
    have h4 : lvl = 4 ∨ lvl = 5 := by
      rcases hl with ⟨h1, _⟩ | ⟨_, h1⟩
      · omega
      · exact absurd hdec h1
    obtain ⟨e1, e2⟩ := quote_frame_escaped lvl (by omega)
    rw [e1, e2] at hout
    refine ⟨⟨lvl, units, ?_, hout⟩, ?_⟩
    · rcases h4 with h | h
      · exact Or.inl ⟨h, hu1 (by omega)⟩
      · exact Or.inr ⟨h, hu2 h⟩
    · intro x hx
      rw [hout] at hx
      simp only [List.mem_append, List.mem_cons, List.mem_singleton, List.not_mem_nil,
        or_false] at hx
      rcases hx with (h | h) | h
      · omega
      · exact flatMap_quote_unit_no_control lvl units (by omega)
          (fun h5 c hcm => by rw [hu1 h5] at hcm; exact (hp c hcm).2) x h
      · omega
  · intro lvl hl
    rcases hl with h | h <;> subst h <;> decide
  · intro ho hlen lvl units hlvl hunits hfit
    have hlen2 : ¬ p.length > MAX_PATH_LEN := by omega
    have hr := format_path_resolve_unfold libc p eu dbg
    rw [if_neg (by simp [ho] : ¬ (libc.iconv_open_ok = false)), if_pos hdec, hmap,
      if_neg hlen2, ← hlvl] at hr
    have hr2 : format_path_resolve libc p eu dbg = .ok (lvl, units) := by
      rw [hr, hunits]
      by_cases h5 : lvl = 5
      · rw [if_pos h5, if_pos h5, h5]
      · rw [if_neg h5, if_neg h5]
    obtain ⟨e1, e2⟩ := quote_frame_escaped lvl (by omega)
    have hnz : ∀ x ∈ units.flatMap (quote_unit lvl), x ≠ 0 := by
      by_cases h5 : lvl = 5
      · exact flatMap_quote_unit_no_nul units lvl (Or.inl h5)
      · rw [hunits, if_neg h5]
        exact flatMap_quote_unit_no_nul p lvl (Or.inr hp)
    rw [lstime_format_path_fits libc p eu dbg lvl units hr2 hnz
      (by rw [e1]; simpa using hfit), e1, e2]
  · intro hutf8 out h a b c hs hc
    obtain ⟨lvl, ua, ub, hl, ea, eb, hout⟩ :=
      format_path_ascii_byte libc p eu dbg hp (fun _ => hutf8) out h a b c (by omega) hs
    have h4 : lvl = 4 ∨ lvl = 5 := by
      rcases hl with ⟨h1, _⟩ | ⟨_, h1⟩
      · omega
      · exact absurd hdec h1
    obtain ⟨e1, e2⟩ := quote_frame_escaped lvl (by omega)
    rw [e1, e2] at hout
    refine ⟨lvl, ua, ub, h4, ea, eb, ?_⟩
    rw [hout]
    simp only [List.append_assoc]

/-- C7 at the path `abc` TAB `def` of the test `test_control_codes`, with the
reference decoder, and at the path made of U+03B1, the byte 0x01 and `A` with
`escape_uni` set, where the units are the three codepoints: the control byte
is rendered as `\u0001` between the renderings of U+03B1 and of `A`. -/
theorem format_path_control_witness :
    IsCString [0x61, 0x62, 0x63, 0x09, 0x64, 0x65, 0x66] ∧
    DecodeOk utf8_libc [0x61, 0x62, 0x63, 0x09, 0x64, 0x65, 0x66] ∧
    lstime_format_path utf8_libc [0x61, 0x62, 0x63, 0x09, 0x64, 0x65, 0x66] false false =
      .ok [0x24, 0x27, 0x61, 0x62, 0x63, 0x5C, 0x74, 0x64, 0x65, 0x66, 0x27] ∧
    IsCString [0xCE, 0xB1, 0x01, 0x41] ∧ DecodeOk utf8_libc [0xCE, 0xB1, 0x01, 0x41] ∧
    lstime_format_path utf8_libc [0xCE, 0xB1, 0x01, 0x41] true false =
      .ok [0x24, 0x27, 0x5C, 0x75, 0x30, 0x33, 0x42, 0x31,
        0x5C, 0x75, 0x30, 0x30, 0x30, 0x31, 0x41, 0x27] ∧
    ∃ (lvl : Nat) (ua ub : List Nat), (lvl = 4 ∨ lvl = 5) ∧
      [0xCE, 0xB1] = ua.flatMap (unit_bytes lvl) ∧ [0x41] = ub.flatMap (unit_bytes lvl) ∧
      [0x24, 0x27, 0x5C, 0x75, 0x30, 0x33, 0x42, 0x31,
        0x5C, 0x75, 0x30, 0x30, 0x30, 0x31, 0x41, 0x27] =
        [0x24, 0x27] ++ ua.flatMap (quote_unit lvl) ++ quote_unit lvl 0x01 ++
          ub.flatMap (quote_unit lvl) ++ [0x27] :=
  ⟨by decide, by decide,
   (format_path_control utf8_libc [0x61, 0x62, 0x63, 0x09, 0x64, 0x65, 0x66] false false
      (by decide) (by decide) (by decide)).2.2.2.1 (by decide) (by decide) 4
      [0x61, 0x62, 0x63, 0x09, 0x64, 0x65, 0x66] (by decide) (by decide) (by decide),
   by decide, by decide, rfl,
   (format_path_control utf8_libc [0xCE, 0xB1, 0x01, 0x41] true false
      (by decide) (by decide) (by decide)).2.2.2.2 rfl _ rfl [0xCE, 0xB1] [0x41] 0x01 rfl
      (by decide)⟩

/-- C8, counterexample: 4090 TAB bytes followed by U+03B1 decode and hold a
control byte and bytes >= 0x80, and with `escape_uni` false the encoder leaves
through `exit(13)` instead of returning the escaped text. -/
theorem format_path_mixed_overflow :
    DecodeOk utf8_libc (List.replicate 4090 0x09 ++ [0xCE, 0xB1]) ∧
    lstime_format_path utf8_libc (List.replicate 4090 0x09 ++ [0xCE, 0xB1]) false false =
      .error 13 := by
  have hi := utf8_iconv_ascii_alpha 4090 0x09 (by omega) (by unfold MAX_PATH_LEN; omega)
  have hd : DecodeOk utf8_libc (List.replicate 4090 0x09 ++ [0xCE, 0xB1]) := by
    unfold DecodeOk; rw [hi]; exact ⟨rfl, rfl⟩
  have hmem : ∀ b ∈ List.replicate 4090 0x09 ++ [0xCE, 0xB1], b = 0x09 ∨ b = 0xCE ∨ b = 0xB1 := by
    intro b hb
    rcases List.mem_append.1 hb with h | h
    · exact Or.inl (List.eq_of_mem_replicate h)
    · exact Or.inr (by simpa using h)
  have hlvl : parse_for_display_level (List.replicate 4090 0x09 ++ [0xCE, 0xB1]) LEVEL1 false
      = 4 :=
    parse_level4 _ ⟨0x09, List.mem_append_left _ (List.mem_replicate.2 ⟨by omega, rfl⟩),
      Or.inr (Or.inl (by omega))⟩
  refine ⟨hd, ?_⟩
  rw [lstime_format_path_unfold, if_neg (by decide : ¬ (utf8_libc.iconv_open_ok = false)),
    if_pos hd, hlvl, if_neg (by omega : ¬ ((4 : Nat) = 5)),
    if_neg (by rw [List.length_append, List.length_replicate]; unfold MAX_PATH_LEN; simp),
    map_mod_of_cstring _ (fun b hb => by rcases hmem b hb with h | h | h <;> subst h <;> decide)]
  apply bash_quote_cps_overflow
  rw [length_flatMap_replicate]
  decide

/-- C8, amended. With `escape_uni` false, a path that decodes as UTF-8 and
holds both a single quote or control byte and a byte >= 0x80 is classified and
resolved at level 4 with its raw bytes as units; `lstime_format_path`,
whenever it returns, returns `$'` + one rendering per byte, in order, + `'`,
every byte >= 0x80 being rendered as itself; it does return when the path fits
the unit buffer and the text leaves the 12-byte margin of the output buffer
free. -/
theorem format_path_mixed (libc : Libc) (p : List Nat) (dbg : Bool)
    (hp : IsCString p) (hdec : DecodeOk libc p)
    (ht : ∃ b ∈ p, b = 0x27 ∨ b < 0x20 ∨ b = 0x7F) (_hh : ∃ b ∈ p, 0x80 ≤ b) :
    parse_for_display_level p LEVEL1 false = 4 ∧
    (∀ l u, format_path_resolve libc p false dbg = .ok (l, u) → l = 4 ∧ u = p) ∧
    (∀ out, lstime_format_path libc p false dbg = .ok out →
      out = [0x24, 0x27] ++ p.flatMap (quote_unit 4) ++ [0x27]) ∧
    (∀ b, 0x80 ≤ b → b < 256 → quote_unit 4 b = [b]) ∧
    (libc.iconv_open_ok = true → p.length ≤ MAX_PATH_LEN →
      2 + (p.flatMap (quote_unit 4)).length ≤ MAX_PATH_LEN - 12 →
      lstime_format_path libc p false dbg =
        .ok ([0x24, 0x27] ++ p.flatMap (quote_unit 4) ++ [0x27])) := by
  have hlvl := parse_level4 p ht
  have hmap := map_mod_of_cstring p (fun b hb => (hp b hb).2)
  have hopen : quote_open 4 = [0x24, 0x27] := rfl
  have hclose : quote_close 4 = [0x27] := rfl
  refine ⟨hlvl, ?_, ?_, quote_unit_high_level4, ?_⟩
  · intro l u h
    rw [format_path_resolve_unfold, hmap, hlvl, if_pos hdec,
      if_neg (by omega : ¬ ((4 : Nat) = 5))] at h
    split_ifs at h
    simp only [Except.ok.injEq, Prod.mk.injEq] at h
    exact ⟨h.1.symm, h.2.symm⟩
  · intro out h
    rw [lstime_format_path_unfold, hmap, hlvl, if_pos hdec,
      if_neg (by omega : ¬ ((4 : Nat) = 5))] at h
    split_ifs at h
    rw [bash_quote_cps_eq _ _ _
      (flatMap_quote_unit_no_nul _ _ (Or.inr hp)) h, hopen, hclose]
  · intro ho hlen hfit
    have hlen2 : ¬ p.length > MAX_PATH_LEN := by omega
    rw [lstime_format_path_unfold, hmap, hlvl,
      if_neg (by simp [ho] : ¬ (libc.iconv_open_ok = false)), if_pos hdec,
      if_neg (by omega : ¬ ((4 : Nat) = 5)), if_neg hlen2,
      bash_quote_cps_fits _ _
      (flatMap_quote_unit_no_nul _ _ (Or.inr hp))
      (by rw [hopen]; simpa using hfit), hopen, hclose]

/-- C8 at the path TAB U+03B1 of the test `test_escaped_path`, with the
reference decoder. -/
theorem format_path_mixed_witness :
    IsCString [0x09, 0xCE, 0xB1] ∧ DecodeOk utf8_libc [0x09, 0xCE, 0xB1] ∧
    lstime_format_path utf8_libc [0x09, 0xCE, 0xB1] false false =
      .ok [0x24, 0x27, 0x5C, 0x74, 0xCE, 0xB1, 0x27] :=
  ⟨by decide, by decide,
   (format_path_mixed utf8_libc [0x09, 0xCE, 0xB1] false
      (by decide) (by decide) (by decide) (by decide)).2.2.2.2
      (by decide) (by decide) (by decide)⟩

/-! ## Properties of the time-template expander -/

/-- C9. For a nanosecond value `n` from 0 to 999,999,999 and a width `w` from
1 to 9, the template `%wN` expands to the `w`-digit zero-padded decimal of
`n / 10 ^ (9 - w)`, which has exactly `w` characters and is the first `w`
characters of the nine-digit zero-padded `n` (the quotient is below
`10 ^ w`, so no digit of it is lost); in any context the directive appends
these digits and the scan goes on after it, unless fewer than ten bytes of the
buffer are left. -/
theorem subsecond_directive (zbuf : List Nat) (n w : Nat) (hn : n ≤ 999999999)
    (hw1 : 1 ≤ w) (hw9 : w ≤ 9) :
    preprocess_time_format zbuf (n : Int) [0x25, 0x30 + w, 0x4E] =
      .ok (decimal_field w (n / 10 ^ (9 - w))) ∧
    (decimal_field w (n / 10 ^ (9 - w))).length = w ∧
    decimal_field w (n / 10 ^ (9 - w)) = (decimal_field 9 n).take w ∧
    (∀ fuel rest buf,
      preprocess_loop zbuf (n : Int) (fuel + 1) ([0x25, 0x30 + w, 0x4E] ++ rest) buf =
        if buf.length > MAX_TIME_LEN - 1 - 10 then .error 16
        else preprocess_loop zbuf (n : Int) fuel rest
          (buf ++ decimal_field w (n / 10 ^ (9 - w)))) ∧
    n / 10 ^ (9 - w) < 10 ^ w := by
  have htake : decimal_field w (n / 10 ^ (9 - w)) = (decimal_field 9 n).take w := by
    have h := decimal_field_take w (9 - w) n
    rw [show w + (9 - w) = 9 by omega] at h
    exact h.symm
  have hp := printf_09ld_eq n hn
  have hlen : ¬ ((printf_09ld (n : Int)).length ≠ 9) := by
    rw [hp, decimal_field_length]; simp
  have hstep : ∀ fuel rest buf,
      preprocess_loop zbuf (n : Int) (fuel + 1) ([0x25, 0x30 + w, 0x4E] ++ rest) buf =
        if buf.length > MAX_TIME_LEN - 1 - 10 then .error 16
        else preprocess_loop zbuf (n : Int) fuel rest
          (buf ++ decimal_field w (n / 10 ^ (9 - w))) := by
    intro fuel rest buf
    have h := preprocess_loop_subsecond zbuf (n : Int) fuel [] [0x30 + w] [] rest buf
      (by simp) (by intro c hc; rw [List.mem_singleton] at hc; omega) (Or.inl rfl)
    rw [if_neg hlen, subsecond_count_single w hw1 hw9, hp, ← htake] at h
    exact h
  have hlt : n / 10 ^ (9 - w) < 10 ^ w := by
    rw [Nat.div_lt_iff_lt_mul (Nat.pow_pos (by omega)), ← pow_add,
      show w + (9 - w) = 9 by omega]
    omega
  refine ⟨?_, decimal_field_length _ _, htake, hstep, hlt⟩
  have h := hstep 2 [] []
  unfold preprocess_time_format
  rw [show [0x25, 0x30 + w, 0x4E].length = 2 + 1 from rfl]
  have e3 : ¬ (([] : List Nat).length > MAX_TIME_LEN - 1 - 10) := by simp
  rw [show [0x25, 0x30 + w, 0x4E] = [0x25, 0x30 + w, 0x4E] ++ [] from rfl, h,
    if_neg e3, preprocess_loop]
  rfl

/-- C9 at the values of the test `test_msec`: 1,999,999 ns with `%3N` gives
`001`. -/
theorem subsecond_directive_witness :
    1999999 ≤ 999999999 ∧ 1 ≤ 3 ∧ 3 ≤ 9 ∧
    preprocess_time_format [0x2D, 0x30, 0x32, 0x30, 0x30] (1999999 : Nat) [0x25, 0x33, 0x4E] =
      .ok [0x30, 0x30, 0x31] :=
  ⟨by decide, by decide, by decide,
   (subsecond_directive [0x2D, 0x30, 0x32, 0x30, 0x30] 1999999 3
      (by decide) (by decide) (by decide)).1⟩

/-- C10. For a directive made of `%`, flags among `_ - 0 ^ #`, a run of
decimal digits, an optional `E` or `O`, and `N`, and a nanosecond value from 0
to 999,999,999, the expansion is the first `k` characters of the nine-digit
zero-padded value, where `k` is 9 when the digits are absent or all zero
(zeros are consumed as flags) and otherwise the smaller of their value and 9;
`k` is between 1 and 9, a one-digit width 1..9 gives that many digits and a
width of two or more digits gives 9; flags and modifier do not matter. -/
theorem subsecond_width (zbuf : List Nat) (n : Nat) (hn : n ≤ 999999999)
    (fs ws md : List Nat) (hfs : ∀ c ∈ fs, c ∈ [0x5F, 0x2D, 0x30, 0x5E, 0x23])
    (hws : ∀ c ∈ ws, 0x30 ≤ c ∧ c ≤ 0x39) (hmd : md = [] ∨ md = [0x45] ∨ md = [0x4F]) :
    preprocess_time_format zbuf (n : Int) ([0x25] ++ fs ++ ws ++ md ++ [0x4E]) =
      .ok ((decimal_field 9 n).take (subsecond_count ws)) ∧
    ((decimal_field 9 n).take (subsecond_count ws)).length = subsecond_count ws ∧
    1 ≤ subsecond_count ws ∧ subsecond_count ws ≤ 9 ∧
    (ws = [] → subsecond_count ws = 9) ∧
    (∀ d, ws = [d] → d ≠ 0x30 → subsecond_count ws = d - 0x30) ∧
    (2 ≤ ws.length → ws.head? ≠ some 0x30 → subsecond_count ws = 9) := by
  obtain ⟨hk1, hk9⟩ := subsecond_count_range ws
  have hp := printf_09ld_eq n hn
  have hlen : ¬ ((printf_09ld (n : Int)).length ≠ 9) := by
    rw [hp, decimal_field_length]; simp
  have hflag : ∀ c ∈ fs, is_flag c = true := by
    intro c hc
    have := hfs c hc
    simp only [List.mem_cons, List.mem_singleton, List.not_mem_nil, or_false] at this
    rcases this with h | h | h | h | h <;> subst h <;> rfl
  refine ⟨?_, ?_, hk1, hk9, ?_, ?_, ?_⟩
  · have h := preprocess_loop_subsecond zbuf (n : Int) (fs ++ ws ++ md ++ [0x4E]).length
      fs ws md [] [] hflag hws hmd
    have e1 : ([0x25] ++ fs ++ ws ++ md ++ [0x4E]).length =
        (fs ++ ws ++ md ++ [0x4E]).length + 1 := by
      simp only [List.length_append, List.length_singleton]; omega
    have e2 : [0x25] ++ fs ++ ws ++ md ++ [0x4E] = 0x25 :: (fs ++ (ws ++ (md ++ [0x4E]))) := by
      simp
    have e3 : ¬ (([] : List Nat).length > MAX_TIME_LEN - 1 - 10) := by simp
    unfold preprocess_time_format
    rw [e1, e2, h, if_neg e3, if_neg hlen, hp, preprocess_loop]
    rfl
  · rw [List.length_take, decimal_field_length]; omega
  · intro h; subst h; rfl
  · intro d h hd
    subst h
    have := hws d (List.mem_cons_self _ _)
    unfold subsecond_count decimal_value
    simp only [List.foldl_cons, List.foldl_nil]
    rw [if_neg (by omega)]
    omega
  · intro h2 h0
    rw [← nano_width_eq ws hws h0]
    match ws, h2 with
    | _ :: _ :: _, _ => rfl

/-- C10 at `%03N` and 123,456,789 ns: the `0` is a flag, the width is 3. -/
theorem subsecond_width_witness :
    123456789 ≤ 999999999 ∧
    preprocess_time_format [0x2B, 0x30, 0x30, 0x30, 0x30] (123456789 : Nat)
      [0x25, 0x30, 0x33, 0x4E] = .ok [0x31, 0x32, 0x33] :=
  ⟨by decide,
   (subsecond_width [0x2B, 0x30, 0x30, 0x30, 0x30] 123456789 (by decide)
      [0x30] [0x33] [] (by decide) (by decide) (by decide)).1⟩

/-! ## Properties of the classifier, the sentinel timestamp and the bounded buffers -/

/-- C17. The classifier equals its reference definition: started at level 1,
`parse_for_display_level` returns the maximum of 1 and the levels of the
bytes, for every byte string and either flag value; it is a total function
with a plain number as its result, so it cannot fail. -/
theorem classifier_eq_reference (p : List Nat) (eu : Bool) :
    parse_for_display_level p LEVEL1 eu = reference_level eu p := by
  rw [parse_eq_foldr]
  unfold reference_level LEVEL1
  induction p with
  | nil => rfl
  | cons c rest ih =>
    simp only [List.map_cons, List.foldr_cons]
    rw [← ih, ← max_one_byte_level]
    have h1 : 1 ≤ (List.map (byte_level eu) rest).foldr max 1 := by
      clear ih
      induction rest with
      | nil => simp
      | cons d rest ih2 => simp only [List.map_cons, List.foldr_cons]; omega
    omega

/-- C13. For the sentinel timestamp, both fields -1 as `SET_TIMESPEC_EMPTY`
stores them, `lstime_format_timestamp` returns `N/A` for every time format,
either value of the UTC flag and every C library: the format is not scanned
and no library call is made, so the call cannot fail. -/
theorem format_timestamp_sentinel {Tm : Type} (libc : TimeLibc Tm) (time_format : List Nat)
    (utc : Bool) :
    lstime_format_timestamp libc TIMESPEC_EMPTY time_format utc = .ok [0x4E, 0x2F, 0x41] := by
  unfold lstime_format_timestamp
  rw [if_pos (by decide)]

/-- C14, the code at the failing input: a timestamp whose seconds are -1 is
rendered `N/A` whatever its nanoseconds, the time format and the C library;
so is one whose nanoseconds are -1. -/
theorem format_timestamp_minus_one {Tm : Type} (libc : TimeLibc Tm) (sec nsec : Int)
    (time_format : List Nat) (utc : Bool) :
    lstime_format_timestamp libc ⟨-1, nsec⟩ time_format utc = .ok [0x4E, 0x2F, 0x41] ∧
    lstime_format_timestamp libc ⟨sec, -1⟩ time_format utc = .ok [0x4E, 0x2F, 0x41] ∧
    (⟨-1, 0⟩ : timespec) ≠ TIMESPEC_EMPTY := by
  refine ⟨?_, ?_, by decide⟩
  · unfold lstime_format_timestamp
    rw [if_pos (by simp [HAS_TIMESPEC])]
  · unfold lstime_format_timestamp
    rw [if_pos (by simp [HAS_TIMESPEC])]

/-- C19. The debug flag does not change what `lstime_format_path` returns:
with `debug` set or not the call returns the same string or leaves through the
same exit, for every path, either value of `escape_uni` and every C library;
the flag only decides whether `lstime_iconv` prints a warning when the decode
fails. -/
theorem format_path_debug_irrelevant (libc : Libc) (p : List Nat) (eu : Bool) :
    lstime_format_path libc p eu true = lstime_format_path libc p eu false ∧
    (∀ o1 o2, lstime_iconv libc p true = .ok o1 → lstime_iconv libc p false = .ok o2 →
      o1.ok = o2.ok ∧ o1.outbuf_len = o2.outbuf_len ∧ o1.outbuf = o2.outbuf ∧
      o2.warned = false ∧ (o1.warned = true ↔ o1.ok = false)) := by
  refine ⟨?_, ?_⟩
  · rw [lstime_format_path_unfold, lstime_format_path_unfold]
  · intro o1 o2 h1 h2
    unfold lstime_iconv at h1 h2
    by_cases ho : libc.iconv_open_ok = false
    · rw [if_pos ho] at h1; exact absurd h1 (by simp)
    · rw [if_neg ho] at h1 h2
      simp only [] at h1 h2
      split_ifs at h1 h2
      · injection h1 with h1; injection h2 with h2
        subst h1; subst h2
        simp
      · injection h1 with h1; injection h2 with h2
        subst h1; subst h2
        simp

/-- C16, counterexample: a plain path of 8182 letters `a` has at most 8192
bytes and its quoted text, the path itself, fits the output buffer with its
terminator, yet the encoder leaves through `exit(13)`. -/
theorem format_path_margin_overflow :
    (List.replicate 8182 0x61).length ≤ MAX_PATH_LEN ∧
    (bash_quote_unbounded (List.replicate 8182 0x61) 1).length + 1 ≤ MAX_PATH_LEN ∧
    lstime_format_path utf8_libc (List.replicate 8182 0x61) false false = .error 13 := by
  have hi := utf8_iconv_ascii_replicate 8182 0x61 (by omega) (by unfold MAX_PATH_LEN; omega)
  have hd : DecodeOk utf8_libc (List.replicate 8182 0x61) := by
    unfold DecodeOk; rw [hi]; exact ⟨rfl, rfl⟩
  have hlvl : parse_for_display_level (List.replicate 8182 0x61) LEVEL1 false = 1 := by
    have h1 := parse_le_of_bytes (List.replicate 8182 0x61) LEVEL1 0 false (by
      intro b hb
      rw [List.eq_of_mem_replicate hb]
      decide)
    have h2 := parse_ge_min (List.replicate 8182 0x61) LEVEL1 false
    unfold LEVEL1 at h1 h2 ⊢
    omega
  refine ⟨by rw [List.length_replicate]; unfold MAX_PATH_LEN; omega, ?_, ?_⟩
  · unfold bash_quote_unbounded
    rw [List.length_append, List.length_append, length_flatMap_replicate]
    have e1 : (quote_open 1).length = 0 := by decide
    have e2 : (quote_close 1).length = 0 := by decide
    have e3 : (quote_unit 1 0x61).length = 1 := by decide
    rw [e1, e2, e3]
    unfold MAX_PATH_LEN; omega
  · rw [lstime_format_path_unfold, if_neg (by decide : ¬ (utf8_libc.iconv_open_ok = false)),
      if_pos hd, hlvl, if_neg (by omega : ¬ ((1 : Nat) = 5)),
      if_neg (by rw [List.length_replicate]; unfold MAX_PATH_LEN; omega), List.map_replicate,
      show 0x61 % 256 = 0x61 from rfl,
      show List.replicate 8182 0x61 = List.replicate 8181 0x61 ++ [0x61] from
        List.replicate_succ' 8181 0x61]
    apply bash_quote_cps_overflow
    rw [length_flatMap_replicate]
    decide

/-- C16, amended. When the conversion handle opens and the path has at most
8192 bytes, `lstime_format_path` resolves a level and units, and it returns
exactly when there is no unit or the opening frame and the encodings of all
units but the last take at most 8180 bytes; otherwise it leaves through
`exit(13)`, the only exit left. In particular a plain printable ASCII path
that the decoder accepts is returned when it has at most 8181 bytes. -/
theorem format_path_returns (libc : Libc) (p : List Nat) (eu dbg : Bool)
    (hopen : libc.iconv_open_ok = true) (hlen : p.length ≤ MAX_PATH_LEN) :
    (∃ lvl units, format_path_resolve libc p eu dbg = .ok (lvl, units) ∧
      ((∃ out, lstime_format_path libc p eu dbg = .ok out) ↔
        (units = [] ∨
          (quote_open lvl).length + (units.dropLast.flatMap (quote_unit lvl)).length
            ≤ MAX_PATH_LEN - 12))) ∧
    (∀ e, lstime_format_path libc p eu dbg = .error e → e = 13) ∧
    ((∀ b ∈ p, 0x20 ≤ b ∧ b ≤ 0x7E ∧ b ∉ shell_metacharacters ∧ b ≠ 0x27) →
      DecodeOk libc p → p.length ≤ MAX_PATH_LEN - 11 →
      lstime_format_path libc p eu dbg = .ok p) := by
  obtain ⟨lvl, units, hr⟩ := format_path_resolve_total libc p eu dbg hopen hlen
  have hf := lstime_format_path_of_resolve libc p eu dbg lvl units hr
  refine ⟨⟨lvl, units, hr, ?_⟩, ?_, ?_⟩
  · rw [hf]; exact bash_quote_cps_ok_iff units lvl
  · intro e he
    rw [hf] at he
    exact bash_quote_cps_error _ _ _ he
  · intro hpl hd hshort
    have hlt : ∀ b ∈ p, b < 256 := fun b hb => by have := hpl b hb; omega
    have hlvl : parse_for_display_level p LEVEL1 eu = 1 := by
      have h1 := parse_le_of_bytes p LEVEL1 0 eu (by
        intro b hb
        obtain ⟨h1, h2, h3, h4⟩ := hpl b hb
        have hm : ¬ (is_shell_meta b = true) := fun h => h3 ((is_shell_meta_iff b).1 h)
        unfold byte_level level_step
        rw [if_neg hm, if_neg h4, if_neg (by omega : ¬ (b < 0x20 ∨ b = 0x7F)),
          if_pos (by omega : b < 0x80)])
      have h2 := parse_ge_min p LEVEL1 eu
      unfold LEVEL1 at h1 h2 ⊢
      omega
    have hlen2 : ¬ p.length > MAX_PATH_LEN := by omega
    have hbody := flatMap_quote_unit_verbatim 1 (by omega) p hlt
    rw [lstime_format_path_unfold, if_neg (by simp [hopen] : ¬ (libc.iconv_open_ok = false)),
      if_pos hd, hlvl, if_neg (by omega : ¬ ((1 : Nat) = 5)), if_neg hlen2,
      map_mod_of_cstring p hlt]
    obtain ⟨out, hout⟩ := (bash_quote_cps_ok_iff p 1).2 (by
      by_cases hnil : p = []
      · exact Or.inl hnil
      · right
        have hdl : p.dropLast.length = p.length - 1 := List.length_dropLast p
        have hpos : 0 < p.length := List.length_pos.2 hnil
        rw [flatMap_quote_unit_verbatim 1 (by omega) p.dropLast
          (fun b hb => hlt b (List.mem_of_mem_dropLast hb)), hdl]
        have : (quote_open 1).length = 0 := by decide
        unfold MAX_PATH_LEN at hshort ⊢
        omega)
    rw [hout, bash_quote_cps_eq _ _ _ (flatMap_quote_unit_no_nul p 1
      (Or.inr (fun b hb => ⟨by have := hpl b hb; omega, hlt b hb⟩))) hout, hbody]
    simp [quote_open, quote_close, LEVEL2, LEVEL4]

/-- C16 at the path `abc_def.ghi`, with the reference C library: the call
returns. -/
theorem format_path_returns_witness :
    utf8_libc.iconv_open_ok = true ∧
    [0x61, 0x62, 0x63, 0x5F, 0x64, 0x65, 0x66, 0x2E, 0x67, 0x68, 0x69].length
      ≤ MAX_PATH_LEN ∧
    lstime_format_path utf8_libc
      [0x61, 0x62, 0x63, 0x5F, 0x64, 0x65, 0x66, 0x2E, 0x67, 0x68, 0x69] true false =
      .ok [0x61, 0x62, 0x63, 0x5F, 0x64, 0x65, 0x66, 0x2E, 0x67, 0x68, 0x69] :=
  ⟨by decide, by decide,
   (format_path_returns utf8_libc
      [0x61, 0x62, 0x63, 0x5F, 0x64, 0x65, 0x66, 0x2E, 0x67, 0x68, 0x69] true false
      (by decide) (by decide)).2.2 (by decide) (by decide) (by decide)⟩

/-- C12. A time format of at most 1023 bytes whose scan meets no extended
directive is returned unchanged by `preprocess_time_format`, byte for byte,
whatever the nanoseconds and the offset text: literal characters, standard and
unrecognized directives and a directive left unterminated at the end are
copied. A format that holds no `N` and no `:z` is such a format. -/
theorem no_extended_passthrough (zbuf : List Nat) (nsec : Int) (t : List Nat)
    (hlen : t.length ≤ MAX_TIME_LEN - 1) :
    (meets_extended t.length t = false → preprocess_time_format zbuf nsec t = .ok t) ∧
    ((∀ c ∈ t, c ≠ 0x4E) → has_colon_z t = false →
      meets_extended t.length t = false ∧ preprocess_time_format zbuf nsec t = .ok t) := by
  have h1 : meets_extended t.length t = false → preprocess_time_format zbuf nsec t = .ok t := by
    intro hme
    unfold preprocess_time_format
    rw [preprocess_loop_no_extended zbuf nsec t.length t [] (Nat.le_refl _)
      (by simpa using hlen) hme]
    rfl
  refine ⟨h1, fun hN hz => ?_⟩
  have hme := meets_extended_of_plain t.length t hN hz
  exact ⟨hme, h1 hme⟩

/-- C12 at the format `%FT%T.%z %Ey%-d%q%5`, which ends in an unterminated
directive. -/
theorem no_extended_passthrough_witness :
    [0x25, 0x46, 0x54, 0x25, 0x54, 0x2E, 0x25, 0x7A, 0x20, 0x25, 0x45, 0x79, 0x25, 0x2D, 0x64,
      0x25, 0x71, 0x25, 0x35].length ≤ MAX_TIME_LEN - 1 ∧
    preprocess_time_format [0x2D, 0x30, 0x32, 0x30, 0x30] 123000
      [0x25, 0x46, 0x54, 0x25, 0x54, 0x2E, 0x25, 0x7A, 0x20, 0x25, 0x45, 0x79, 0x25, 0x2D, 0x64,
        0x25, 0x71, 0x25, 0x35] =
      .ok [0x25, 0x46, 0x54, 0x25, 0x54, 0x2E, 0x25, 0x7A, 0x20, 0x25, 0x45, 0x79, 0x25, 0x2D,
        0x64, 0x25, 0x71, 0x25, 0x35] :=
  ⟨by decide,
   (no_extended_passthrough [0x2D, 0x30, 0x32, 0x30, 0x30] 123000
      [0x25, 0x46, 0x54, 0x25, 0x54, 0x2E, 0x25, 0x7A, 0x20, 0x25, 0x45, 0x79, 0x25, 0x2D, 0x64,
        0x25, 0x71, 0x25, 0x35] (by decide)).1 (by decide)⟩

/-- C20. Whenever `preprocess_time_format` returns, its output has at most
1023 bytes and is the whole expansion of the format, the one computed with no
capacity limit; a format whose expansion has more than 1023 bytes makes it
leave through one of its four capacity exits (16, 17, 18, 20); and it does
return the expansion when ten bytes of the buffer stay free. -/
theorem expander_never_truncates (zbuf : List Nat) (nsec : Int) (t : List Nat) :
    (∀ out, preprocess_time_format zbuf nsec t = .ok out →
      out.length ≤ MAX_TIME_LEN - 1 ∧ expand_unbounded zbuf nsec t = .ok out) ∧
    (∀ u, expand_unbounded zbuf nsec t = .ok u → u.length > MAX_TIME_LEN - 1 →
      ∃ e, preprocess_time_format zbuf nsec t = .error e ∧ e ∈ [16, 17, 18, 20]) ∧
    (∀ u, expand_unbounded zbuf nsec t = .ok u → u.length ≤ MAX_TIME_LEN - 1 - 10 →
      preprocess_time_format zbuf nsec t = .ok u) := by
  obtain ⟨s1, s2⟩ := preprocess_loop_sim zbuf nsec t.length t [] (by simp)
  refine ⟨?_, ?_, ?_⟩
  · intro out h
    obtain ⟨u, hu1, hu2, hu3⟩ := s1 out h
    rw [List.nil_append] at hu2
    rw [hu2] at hu3 ⊢
    exact ⟨hu3, hu1⟩
  · intro u hu hbig
    cases hr : preprocess_time_format zbuf nsec t with
    | error e =>
      rcases s2 e hr with h | h
      · exact ⟨e, rfl, h⟩
      · unfold expand_unbounded at hu
        rw [hu] at h
        exact absurd h (by simp)
    | ok out =>
      obtain ⟨v, hv1, hv2, hv3⟩ := s1 out hr
      unfold expand_unbounded at hu
      rw [hu] at hv1
      injection hv1 with hv1
      rw [List.nil_append] at hv2
      rw [hv2, ← hv1] at hv3
      omega
  · intro u hu hfit
    unfold preprocess_time_format
    rw [preprocess_loop_fits zbuf nsec t.length t [] u hu (by simpa using hfit)]
    rfl

/-- C11 at a failing input. The format is 1017 letters `x` followed by `%:z`
and the offset text is `-0200`: the expander exits with status 18, although the
expansion of the empty rest is the empty text and the 1023 bytes of the
expected expansion fit the buffer with its terminator. -/
theorem colon_z_margin_overflow :
    (∀ c ∈ List.replicate 1017 0x78, c ≠ 0x25) ∧
    preprocess_time_format [0x2D, 0x30, 0x32, 0x30, 0x30] 0
      (List.replicate 1017 0x78 ++ [0x25, 0x3A, 0x7A] ++ []) = .error 18 ∧
    preprocess_time_format [0x2D, 0x30, 0x32, 0x30, 0x30] 0 [] = .ok [] ∧
    (List.replicate 1017 0x78 ++ [0x2D, 0x30, 0x32, 0x3A, 0x30, 0x30] ++ []).length + 1 =
      MAX_TIME_LEN := by
  have ha : ∀ c ∈ List.replicate 1017 0x78, c ≠ 0x25 := by
    intro c hc
    rw [List.eq_of_mem_replicate hc]
    decide
  refine ⟨ha, ?_, rfl, ?_⟩
  · rw [preprocess_time_format_colon_z [0x2D, 0x30, 0x32, 0x30, 0x30] 0 _ [] ha rfl,
      if_neg (by simp only [List.length_replicate, MAX_TIME_LEN]; omega),
      if_pos (by simp only [List.length_replicate, MAX_TIME_LEN]; omega)]
  · simp only [List.length_append, List.length_replicate, List.length_cons, List.length_nil,
      MAX_TIME_LEN]

/-- C11. For a format `a ++ "%:z" ++ b` where `a` has no `%`, and an offset
text `s h1 h2 m1 m2` of five characters: whenever the expander returns on the
format, it returns on `b` alone too and the value is `a`, then
`s h1 h2 : m1 m2`, then the expansion of `b`; it returns that value as soon as
the expander returns on `b` and the whole text is at most 1013 bytes; it fails
when `a` is longer than 1016 bytes; and with no capacity limit the expansion of
the format is `a`, the offset with its colon, and the expansion of `b`. -/
theorem colon_z_directive (s h1 h2 m1 m2 : Nat) (nsec : Int) (a b : List Nat)
    (ha : ∀ c ∈ a, c ≠ 0x25) :
    (∀ out, preprocess_time_format [s, h1, h2, m1, m2] nsec (a ++ [0x25, 0x3A, 0x7A] ++ b)
        = .ok out →
      ∃ outb, preprocess_time_format [s, h1, h2, m1, m2] nsec b = .ok outb ∧
        out = a ++ [s, h1, h2, 0x3A, m1, m2] ++ outb) ∧
    (∀ outb, preprocess_time_format [s, h1, h2, m1, m2] nsec b = .ok outb →
      a.length + 6 + outb.length ≤ MAX_TIME_LEN - 1 - 10 →
      preprocess_time_format [s, h1, h2, m1, m2] nsec (a ++ [0x25, 0x3A, 0x7A] ++ b)
        = .ok (a ++ [s, h1, h2, 0x3A, m1, m2] ++ outb)) ∧
    (a.length > MAX_TIME_LEN - 1 - 7 →
      ∃ e, preprocess_time_format [s, h1, h2, m1, m2] nsec (a ++ [0x25, 0x3A, 0x7A] ++ b)
        = .error e ∧ e ∈ [18, 20]) ∧
    expand_unbounded [s, h1, h2, m1, m2] nsec (a ++ [0x25, 0x3A, 0x7A] ++ b) =
      prepend (a ++ [s, h1, h2, 0x3A, m1, m2]) (expand_unbounded [s, h1, h2, m1, m2] nsec b) := by
  have hred := preprocess_time_format_colon_z [s, h1, h2, m1, m2] nsec a b ha rfl
  have hz : a ++ List.take 3 [s, h1, h2, m1, m2] ++ [0x3A] ++
      List.take 2 (List.drop 3 [s, h1, h2, m1, m2]) = a ++ [s, h1, h2, 0x3A, m1, m2] := by
    simp
  rw [hz] at hred
  refine ⟨?_, ?_, ?_, ?_⟩
  · intro out h
    rw [hred] at h
    by_cases h20 : a ≠ [] ∧ a.length > MAX_TIME_LEN - 1
    · rw [if_pos h20] at h; exact absurd h (by simp)
    · rw [if_neg h20] at h
      by_cases h18 : a.length > MAX_TIME_LEN - 1 - 7
      · rw [if_pos h18] at h; exact absurd h (by simp)
      · rw [if_neg h18] at h
        obtain ⟨u, hu1, hu2⟩ := preprocess_loop_mono _ nsec b.length b _ [] out (by simp) h
        exact ⟨u, by simpa using hu2, hu1⟩
  · intro outb hb hfit
    obtain ⟨s1, _⟩ := preprocess_loop_sim [s, h1, h2, m1, m2] nsec b.length b [] (by simp)
    obtain ⟨u, hu1, hu2, _⟩ := s1 outb hb
    rw [List.nil_append] at hu2
    rw [hred, if_neg (by intro h; unfold MAX_TIME_LEN at h hfit; omega),
      if_neg (by unfold MAX_TIME_LEN at hfit ⊢; omega), hu2]
    refine preprocess_loop_fits _ nsec b.length b _ u hu1 ?_
    rw [hu2] at hfit
    simp only [List.length_append, List.length_cons, List.length_nil] at hfit ⊢
    omega
  · intro hbig
    rw [hred]
    by_cases h20 : a ≠ [] ∧ a.length > MAX_TIME_LEN - 1
    · rw [if_pos h20]; exact ⟨20, rfl, by simp⟩
    · rw [if_neg h20, if_pos hbig]; exact ⟨18, rfl, by simp⟩
  · rw [expand_unbounded_colon_z [s, h1, h2, m1, m2] nsec a b ha rfl]
    rfl

/-- C11 at the format `%:z%:z%3N%:z`, with the offset text `-0200` and
111333999 nanoseconds: the value is `-02:00-02:00111-02:00`. -/
theorem colon_z_directive_witness :
    (∀ c ∈ ([] : List Nat), c ≠ 0x25) ∧
    preprocess_time_format [0x2D, 0x30, 0x32, 0x30, 0x30] 111333999
      ([] ++ [0x25, 0x3A, 0x7A] ++ [0x25, 0x3A, 0x7A, 0x25, 0x33, 0x4E, 0x25, 0x3A, 0x7A]) =
      .ok ([] ++ [0x2D, 0x30, 0x32, 0x3A, 0x30, 0x30] ++
        [0x2D, 0x30, 0x32, 0x3A, 0x30, 0x30, 0x31, 0x31, 0x31,
          0x2D, 0x30, 0x32, 0x3A, 0x30, 0x30]) :=
  ⟨by simp, (colon_z_directive 0x2D 0x30 0x32 0x30 0x30 111333999 []
    [0x25, 0x3A, 0x7A, 0x25, 0x33, 0x4E, 0x25, 0x3A, 0x7A] (by simp)).2.1 _ rfl (by decide)⟩

/-! ## Properties of the item output, the sort and the static buffers -/

/-- C27. Classification is monotonic and order-independent: the level of a
concatenation is the maximum of the levels of its two parts, so it is the same
for `a ++ b` and `b ++ a` and for any rearrangement of the bytes, appending
bytes never lowers the level, and a scan started from a minimum level `m`
ends at `m` or above. -/
theorem classify_append (a b : List Nat) (eu : Bool) (m : Nat) :
    parse_for_display_level (a ++ b) LEVEL1 eu =
      max (parse_for_display_level a LEVEL1 eu) (parse_for_display_level b LEVEL1 eu) ∧
    parse_for_display_level (a ++ b) LEVEL1 eu = parse_for_display_level (b ++ a) LEVEL1 eu ∧
    (∀ c, a.Perm c →
      parse_for_display_level a LEVEL1 eu = parse_for_display_level c LEVEL1 eu) ∧
    parse_for_display_level a LEVEL1 eu ≤ parse_for_display_level (a ++ b) LEVEL1 eu ∧
    m ≤ parse_for_display_level a m eu ∧
    parse_for_display_level a m eu ≤ parse_for_display_level (a ++ b) m eu := by
  have key : ∀ x y : List Nat, parse_for_display_level (x ++ y) LEVEL1 eu =
      max (parse_for_display_level x LEVEL1 eu) (parse_for_display_level y LEVEL1 eu) := by
    intro x y
    rw [parse_append, parse_eq_max y (parse_for_display_level x LEVEL1 eu),
      parse_eq_max y LEVEL1]
    have := parse_ge_min x LEVEL1 eu
    omega
  refine ⟨key a b, ?_, ?_, ?_, parse_ge_min a m eu, ?_⟩
  · rw [key a b, key b a, Nat.max_comm]
  · intro c hc
    rw [parse_eq_foldr, parse_eq_foldr]
    exact (hc.map (byte_level eu)).foldr_eq' (fun x _ y _ z => by omega) LEVEL1
  · rw [key a b]; omega
  · rw [parse_append]; exact parse_ge_min b _ eu

/-- C28, the code at the failing input. The guard of the decode holds at
every level, so `lstime_format_path` opens the conversion handle on every
path: when `iconv_open` fails it leaves through `exit(22)` whatever the path.
The algorithm of the specification attempts no decode at the levels 1 and 2
and returns a path classified there, framed at its level, whatever the
library. On the path `abc` with a library whose `iconv_open` fails the code
leaves through `exit(22)` and the specified algorithm returns `abc`. When the
handle opens and the decoder accepts every NUL-free ASCII string that fits
its buffer, the two agree on every path, and a path classified at level 1 or 2
is passed to the encoder at that level, never at level 6. -/
theorem decode_guard_exit (libc : Libc) (p : List Nat) (eu dbg : Bool) :
    (∀ level : Nat, level ≥ LEVEL3 ∨ level ≤ LEVEL5) ∧
    (libc.iconv_open_ok = false → lstime_format_path libc p eu dbg = .error 22) ∧
    (IsCString p → parse_for_display_level p LEVEL1 eu ≤ 2 →
      p.length + 1 ≤ MAX_PATH_LEN - 12 →
      format_path_specified libc p eu dbg =
        .ok (quote_open (parse_for_display_level p LEVEL1 eu) ++ p ++
          quote_close (parse_for_display_level p LEVEL1 eu))) ∧
    (lstime_format_path no_iconv_libc [0x61, 0x62, 0x63] false false = .error 22 ∧
      format_path_specified no_iconv_libc [0x61, 0x62, 0x63] false false =
        .ok [0x61, 0x62, 0x63]) ∧
    (libc.iconv_open_ok = true →
      (∀ q : List Nat, (∀ b ∈ q, 0 < b ∧ b < 0x80) → q.length ≤ MAX_PATH_LEN →
        DecodeOk libc q) →
      lstime_format_path libc p eu dbg = format_path_specified libc p eu dbg ∧
      (parse_for_display_level p LEVEL1 eu ≤ 2 →
        ∀ lvl units, format_path_resolve libc p eu dbg = .ok (lvl, units) →
          lvl = parse_for_display_level p LEVEL1 eu ∧ lvl ≠ 6)) := by
  refine ⟨fun level => by unfold LEVEL3 LEVEL5; omega, ?_, ?_, ⟨rfl, rfl⟩,
    decode_guard_agrees libc p eu dbg⟩
  · intro ho
    rw [lstime_format_path_unfold, if_pos ho]
  · intro hp h2 hfit
    have hl : ¬ (parse_for_display_level p LEVEL1 eu = 3 ∨
        parse_for_display_level p LEVEL1 eu = 4 ∨ parse_for_display_level p LEVEL1 eu = 5) := by
      omega
    have hlen : ¬ p.length > MAX_PATH_LEN := by unfold MAX_PATH_LEN at hfit ⊢; omega
    have hbody := flatMap_quote_unit_verbatim (parse_for_display_level p LEVEL1 eu) (by omega) p
      (fun b hb => (hp b hb).2)
    have hopen := quote_open_length_le (parse_for_display_level p LEVEL1 eu)
    have ho1 : (quote_open (parse_for_display_level p LEVEL1 eu)).length ≤ 1 := by
      unfold quote_open LEVEL4
      rw [if_neg (by omega)]
      split_ifs <;> simp
    rw [format_path_specified_unfold, if_neg hl, if_neg hlen,
      map_mod_of_cstring p (fun b hb => (hp b hb).2),
      bash_quote_cps_fits _ _ (flatMap_quote_unit_no_nul p _ (Or.inr hp))
        (by rw [hbody]; unfold MAX_PATH_LEN at hfit ⊢; omega), hbody]

/-- C30. In `lstime_format_path`, whenever the resolved level is not 5, and so
at level 6, the units passed to `bash_quote_cps` are the bytes of the path:
there are as many units as bytes, every unit is in 0..255, both indices into
the `hex` table are in 0..15 and the two characters read there are the
uppercase hexadecimal digits of the byte. -/
theorem hex_fallback_sees_bytes (libc : Libc) (p : List Nat) (eu dbg : Bool) (lvl : Nat)
    (units : List Nat) (hr : format_path_resolve libc p eu dbg = .ok (lvl, units))
    (h5 : lvl ≠ 5) :
    units = p.map (fun b => b % 256) ∧ units.length = p.length ∧
    ∀ u ∈ units, u < 256 ∧ u >>> 4 < 16 ∧ u &&& 0x0F < 16 ∧
      hex (u >>> 4) = upper_hex_digit (u / 16) ∧ hex (u &&& 0x0F) = upper_hex_digit (u % 16) := by
  have hu := resolve_units_are_bytes libc p eu dbg lvl units hr h5
  refine ⟨hu, by rw [hu, List.length_map], ?_⟩
  intro u hmem
  rw [hu, List.mem_map] at hmem
  obtain ⟨b, _, hb⟩ := hmem
  have hlt : u < 256 := by rw [← hb]; exact Nat.mod_lt _ (by decide)
  have h1 : u >>> 4 = u / 16 := by rw [Nat.shiftRight_eq_div_pow]
  have h2 : u &&& 0x0F = u % 16 := Nat.and_pow_two_sub_one_eq_mod u 4
  refine ⟨hlt, by omega, by omega, (hex_shift_and u hlt).1, (hex_shift_and u hlt).2⟩

/-- C30 at the path made of the bytes 0xFF and `A`, which is not UTF-8: the
level is 6 and the units are the two bytes. -/
theorem hex_fallback_sees_bytes_witness :
    format_path_resolve utf8_libc [0xFF, 0x41] true false = .ok (6, [0xFF, 0x41]) ∧
    (6 : Nat) ≠ 5 ∧
    ([0xFF, 0x41] : List Nat).length = ([0xFF, 0x41] : List Nat).length ∧
    ∀ u ∈ ([0xFF, 0x41] : List Nat), u < 256 ∧ u >>> 4 < 16 ∧ u &&& 0x0F < 16 ∧
      hex (u >>> 4) = upper_hex_digit (u / 16) ∧ hex (u &&& 0x0F) = upper_hex_digit (u % 16) :=
  ⟨rfl, by decide,
    (hex_fallback_sees_bytes utf8_libc [0xFF, 0x41] true false 6 [0xFF, 0x41] rfl
      (by decide)).2⟩

/-- C21. For an item format made only of literal characters (any byte but
`%`) and the directives `%n`, `%z` and `%%`, `lstime_out_it` returns after it
has written the format with each `%n` replaced by one newline byte, each `%z`
by one NUL byte and each `%%` by one `%` byte, the literal characters
unchanged and in order, whatever the item, the time format, the flags and the
C library. -/
theorem out_it_plain {Tm : Type} (libc : Libc) (tlibc : TimeLibc Tm) (info : lstime_info)
    (tf : List Nat) (utc dbg : Bool) (items : List PlainItem)
    (h : ∀ c, PlainItem.literal c ∈ items → c ≠ 0x25) :
    lstime_out_it libc tlibc info (items.flatMap PlainItem.text) tf utc dbg =
      (items.flatMap PlainItem.written, none) := by
  unfold lstime_out_it
  have := out_it_loop_plain libc tlibc info tf utc dbg items h [] []
  rw [List.append_nil, List.nil_append] at this
  rw [this]
  rfl

/-- C21 at the format `%z%z ` of the test `test_zero`: two NUL bytes and a
space are written. -/
theorem out_it_plain_witness :
    (∀ c, PlainItem.literal c ∈ [PlainItem.nul, PlainItem.nul, PlainItem.literal 0x20] →
      c ≠ 0x25) ∧
    lstime_out_it utf8_libc plain_time_libc test_info [0x25, 0x7A, 0x25, 0x7A, 0x20] []
      true false = ([0x00, 0x00, 0x20], none) :=
  ⟨by intro c hc; simp at hc; omega,
   out_it_plain utf8_libc plain_time_libc test_info [] true false
     [PlainItem.nul, PlainItem.nul, PlainItem.literal 0x20]
     (by intro c hc; simp at hc; omega)⟩

/-- C22. In `lstime_out_it` each field directive writes the result of the
formatter for its own field and nothing else: `%m`, `%a`, `%c`, `%b` print
`lstime_format_timestamp` of the item's mtime, atime, ctime, btime with the
given time format and UTC flag, `%p` and `%u` print `lstime_format_path` of
the path with `escape_uni` false and true, `%r` prints the path as it is; this
holds for the directive alone and wherever it stands in the format, and an
exit of the formatter ends the run with nothing more written. The last part
evaluates the tests `test_raw_path`, `test_escaped_path` and
`test_u_escaped_path`, and a format `%m %a %c %b` on an item whose four
timestamps differ. -/
theorem out_it_field_directives {Tm : Type} (libc : Libc) (tlibc : TimeLibc Tm)
    (info : lstime_info) (tf : List Nat) (utc dbg : Bool) :
    (lstime_out_it libc tlibc info [0x25, 0x6D] tf utc dbg =
        print_then (lstime_format_timestamp tlibc info.mtime tf utc) [] (fun s => (s, none)) ∧
      lstime_out_it libc tlibc info [0x25, 0x61] tf utc dbg =
        print_then (lstime_format_timestamp tlibc info.atime tf utc) [] (fun s => (s, none)) ∧
      lstime_out_it libc tlibc info [0x25, 0x63] tf utc dbg =
        print_then (lstime_format_timestamp tlibc info.ctime tf utc) [] (fun s => (s, none)) ∧
      lstime_out_it libc tlibc info [0x25, 0x62] tf utc dbg =
        print_then (lstime_format_timestamp tlibc info.btime tf utc) [] (fun s => (s, none)) ∧
      lstime_out_it libc tlibc info [0x25, 0x70] tf utc dbg =
        print_then (lstime_format_path libc info.path false dbg) [] (fun s => (s, none)) ∧
      lstime_out_it libc tlibc info [0x25, 0x75] tf utc dbg =
        print_then (lstime_format_path libc info.path true dbg) [] (fun s => (s, none)) ∧
      lstime_out_it libc tlibc info [0x25, 0x72] tf utc dbg = (info.path, none)) ∧
    (∀ rest fp : List Nat,
      out_it_loop libc tlibc info tf utc dbg (0x25 :: 0x6D :: rest) fp =
        print_then (lstime_format_timestamp tlibc info.mtime tf utc) fp
          (out_it_loop libc tlibc info tf utc dbg rest) ∧
      out_it_loop libc tlibc info tf utc dbg (0x25 :: 0x61 :: rest) fp =
        print_then (lstime_format_timestamp tlibc info.atime tf utc) fp
          (out_it_loop libc tlibc info tf utc dbg rest) ∧
      out_it_loop libc tlibc info tf utc dbg (0x25 :: 0x63 :: rest) fp =
        print_then (lstime_format_timestamp tlibc info.ctime tf utc) fp
          (out_it_loop libc tlibc info tf utc dbg rest) ∧
      out_it_loop libc tlibc info tf utc dbg (0x25 :: 0x62 :: rest) fp =
        print_then (lstime_format_timestamp tlibc info.btime tf utc) fp
          (out_it_loop libc tlibc info tf utc dbg rest) ∧
      out_it_loop libc tlibc info tf utc dbg (0x25 :: 0x70 :: rest) fp =
        print_then (lstime_format_path libc info.path false dbg) fp
          (out_it_loop libc tlibc info tf utc dbg rest) ∧
      out_it_loop libc tlibc info tf utc dbg (0x25 :: 0x75 :: rest) fp =
        print_then (lstime_format_path libc info.path true dbg) fp
          (out_it_loop libc tlibc info tf utc dbg rest) ∧
      out_it_loop libc tlibc info tf utc dbg (0x25 :: 0x72 :: rest) fp =
        out_it_loop libc tlibc info tf utc dbg rest (fp ++ info.path)) ∧
    (lstime_out_it utf8_libc plain_time_libc (info_by_path [0x09, 0xCE, 0xB1]) [0x25, 0x72]
        [] true false = ([0x09, 0xCE, 0xB1], none) ∧
      lstime_out_it utf8_libc plain_time_libc (info_by_path [0x09, 0xCE, 0xB1]) [0x25, 0x70]
        [] true false = ([0x24, 0x27, 0x5C, 0x74, 0xCE, 0xB1, 0x27], none) ∧
      lstime_out_it utf8_libc plain_time_libc (info_by_path [0x09, 0xCE, 0xB1]) [0x25, 0x75]
        [] true false =
        ([0x24, 0x27, 0x5C, 0x74, 0x5C, 0x75, 0x30, 0x33, 0x42, 0x31, 0x27], none) ∧
      lstime_out_it utf8_libc plain_time_libc
        ⟨[0x78], none, TIMESPEC_EMPTY, ⟨0, 5⟩, ⟨0, 123456789⟩, ⟨0, 987654321⟩⟩
        [0x25, 0x6D, 0x20, 0x25, 0x61, 0x20, 0x25, 0x63, 0x20, 0x25, 0x62] [0x25, 0x33, 0x4E]
        true false =
        ([0x4E, 0x2F, 0x41, 0x20, 0x30, 0x30, 0x30, 0x20, 0x31, 0x32, 0x33, 0x20,
          0x39, 0x38, 0x37], none)) := by
  have step := out_it_loop_directive libc tlibc info tf utc dbg
  have em : out_directive libc tlibc info tf utc dbg 0x6D =
      lstime_format_timestamp tlibc info.mtime tf utc := rfl
  have ea : out_directive libc tlibc info tf utc dbg 0x61 =
      lstime_format_timestamp tlibc info.atime tf utc := rfl
  have ec : out_directive libc tlibc info tf utc dbg 0x63 =
      lstime_format_timestamp tlibc info.ctime tf utc := rfl
  have eb : out_directive libc tlibc info tf utc dbg 0x62 =
      lstime_format_timestamp tlibc info.btime tf utc := rfl
  have ep : out_directive libc tlibc info tf utc dbg 0x70 =
      lstime_format_path libc info.path false dbg := rfl
  have eu : out_directive libc tlibc info tf utc dbg 0x75 =
      lstime_format_path libc info.path true dbg := rfl
  have er : out_directive libc tlibc info tf utc dbg 0x72 = .ok info.path := rfl
  have hend : out_it_loop libc tlibc info tf utc dbg [] = fun s => (s, none) := by
    funext s; rfl
  refine ⟨⟨?_, ?_, ?_, ?_, ?_, ?_, ?_⟩, fun rest fp => ⟨?_, ?_, ?_, ?_, ?_, ?_, ?_⟩,
    ⟨rfl, rfl, rfl, rfl⟩⟩
  · unfold lstime_out_it; rw [step, em, hend]
  · unfold lstime_out_it; rw [step, ea, hend]
  · unfold lstime_out_it; rw [step, ec, hend]
  · unfold lstime_out_it; rw [step, eb, hend]
  · unfold lstime_out_it; rw [step, ep, hend]
  · unfold lstime_out_it; rw [step, eu, hend]
  · unfold lstime_out_it; rw [step, er, hend]; simp [print_then]
  · rw [step, em]
  · rw [step, ea]
  · rw [step, ec]
  · rw [step, eb]
  · rw [step, ep]
  · rw [step, eu]
  · rw [step, er]; rfl

/-- C23. With a `qsort` that meets its contract, for every list and sort field
`m`, `a`, `c` or `b` with `reverse` false, `lstime_sort_list` returns and
leaves a permutation of its input in which the chosen timestamp of every
element is greater than or equal to that of the element after it, and of
every later element, in the order that compares seconds first and nanoseconds
second. -/
theorem sort_time_forward (libc : SortLibc) (hq : QsortContract libc.qsort)
    (list : List lstime_info) (sort_field : Nat)
    (hf : sort_field = 0x6D ∨ sort_field = 0x61 ∨ sort_field = 0x63 ∨ sort_field = 0x62) :
    ∃ out, lstime_sort_list libc list sort_field false = .ok out ∧ out.Perm list ∧
      out.Chain' (fun x y =>
        timespec_le (chosen_time sort_field y) (chosen_time sort_field x)) ∧
      out.Pairwise (fun x y =>
        timespec_le (chosen_time sort_field y) (chosen_time sort_field x)) := by
  obtain ⟨out, h1, h2, h3⟩ := sort_list_of_comp libc hq list list sort_field false _
    (select_comp_time_fwd sort_field hf) (by rw [if_neg (time_field_ne_p sort_field hf)])
  have hc : out.Chain' (fun x y =>
      timespec_le (chosen_time sort_field y) (chosen_time sort_field x)) :=
    h3.imp (fun x y h => (comp_timespec_le _ _).1 h)
  have htr : IsTrans lstime_info (fun x y =>
      timespec_le (chosen_time sort_field y) (chosen_time sort_field x)) :=
    ⟨fun a b c hab hbc => timespec_le_trans _ _ _ hbc hab⟩
  exact ⟨out, h1, h2, hc, List.chain'_iff_pairwise.1 hc⟩

/-- C23 at the list of the test `test_fwd_m_sort`, mtimes (0, 3), (0, 4),
(0, 1), (0, 2), with the reference library: the result is by decreasing
mtime. -/
theorem sort_time_forward_witness :
    QsortContract c_locale_sort_libc.qsort ∧
    ((0x6D : Nat) = 0x6D ∨ (0x6D : Nat) = 0x61 ∨ (0x6D : Nat) = 0x63 ∨ (0x6D : Nat) = 0x62) ∧
    lstime_sort_list c_locale_sort_libc
      [info_by_mtime 0 3, info_by_mtime 0 4, info_by_mtime 0 1, info_by_mtime 0 2] 0x6D false =
      .ok [info_by_mtime 0 4, info_by_mtime 0 3, info_by_mtime 0 2, info_by_mtime 0 1] ∧
    ∃ out, lstime_sort_list c_locale_sort_libc
        [info_by_mtime 0 3, info_by_mtime 0 4, info_by_mtime 0 1, info_by_mtime 0 2] 0x6D false =
        .ok out ∧
      out.Perm [info_by_mtime 0 3, info_by_mtime 0 4, info_by_mtime 0 1, info_by_mtime 0 2] ∧
      out.Chain' (fun x y => timespec_le (chosen_time 0x6D y) (chosen_time 0x6D x)) ∧
      out.Pairwise (fun x y => timespec_le (chosen_time 0x6D y) (chosen_time 0x6D x)) :=
  ⟨c_locale_qsort_contract, Or.inl rfl, rfl,
   sort_time_forward c_locale_sort_libc c_locale_qsort_contract
     [info_by_mtime 0 3, info_by_mtime 0 4, info_by_mtime 0 1, info_by_mtime 0 2] 0x6D
     (Or.inl rfl)⟩

/-- C24. With a `qsort` that meets its contract, for every list and sort field
`m`, `a`, `c` or `b` with `reverse` true, `lstime_sort_list` returns and
leaves a permutation of its input in which the chosen timestamp of every
element is less than or equal to that of the element after it, and of every
later element; each reverse comparator is the forward comparator of the same
field with its two arguments exchanged. -/
theorem sort_time_reverse (libc : SortLibc) (hq : QsortContract libc.qsort)
    (list : List lstime_info) (sort_field : Nat)
    (hf : sort_field = 0x6D ∨ sort_field = 0x61 ∨ sort_field = 0x63 ∨ sort_field = 0x62) :
    (∃ out, lstime_sort_list libc list sort_field true = .ok out ∧ out.Perm list ∧
      out.Chain' (fun x y =>
        timespec_le (chosen_time sort_field x) (chosen_time sort_field y)) ∧
      out.Pairwise (fun x y =>
        timespec_le (chosen_time sort_field x) (chosen_time sort_field y))) ∧
    (∀ x y, comp_m_rev x y = comp_m_fwd y x ∧ comp_a_rev x y = comp_a_fwd y x ∧
      comp_c_rev x y = comp_c_fwd y x ∧ comp_b_rev x y = comp_b_fwd y x) ∧
    (∀ comp_fwd comp_rev, select_comp sort_field false = .ok comp_fwd →
      select_comp sort_field true = .ok comp_rev → ∀ x y, comp_rev x y = comp_fwd y x) := by
  obtain ⟨out, h1, h2, h3⟩ := sort_list_of_comp libc hq list list sort_field true _
    (select_comp_time_rev sort_field hf) (by rw [if_neg (time_field_ne_p sort_field hf)])
  have hc : out.Chain' (fun x y =>
      timespec_le (chosen_time sort_field x) (chosen_time sort_field y)) :=
    h3.imp (fun x y h => (comp_timespec_le _ _).1 h)
  have htr : IsTrans lstime_info (fun x y =>
      timespec_le (chosen_time sort_field x) (chosen_time sort_field y)) :=
    ⟨fun a b c hab hbc => timespec_le_trans _ _ _ hab hbc⟩
  refine ⟨⟨out, h1, h2, hc, List.chain'_iff_pairwise.1 hc⟩,
    fun x y => ⟨rfl, rfl, rfl, rfl⟩, ?_⟩
  intro comp_fwd comp_rev hfwd hrev x y
  rw [select_comp_time_fwd sort_field hf] at hfwd
  rw [select_comp_time_rev sort_field hf] at hrev
  injection hfwd with hfwd
  injection hrev with hrev
  rw [← hfwd, ← hrev]

/-- C24 at the list of the test `test_rev_a_sort`, atimes (3, 0), (4, 0),
(1, 0), (2, 0), with the reference library: the result is by increasing
atime. -/
theorem sort_time_reverse_witness :
    QsortContract c_locale_sort_libc.qsort ∧
    ((0x61 : Nat) = 0x6D ∨ (0x61 : Nat) = 0x61 ∨ (0x61 : Nat) = 0x63 ∨ (0x61 : Nat) = 0x62) ∧
    lstime_sort_list c_locale_sort_libc
      [info_by_atime 3 0, info_by_atime 4 0, info_by_atime 1 0, info_by_atime 2 0] 0x61 true =
      .ok [info_by_atime 1 0, info_by_atime 2 0, info_by_atime 3 0, info_by_atime 4 0] ∧
    ∃ out, lstime_sort_list c_locale_sort_libc
        [info_by_atime 3 0, info_by_atime 4 0, info_by_atime 1 0, info_by_atime 2 0] 0x61 true =
        .ok out ∧
      out.Perm [info_by_atime 3 0, info_by_atime 4 0, info_by_atime 1 0, info_by_atime 2 0] ∧
      out.Chain' (fun x y => timespec_le (chosen_time 0x61 x) (chosen_time 0x61 y)) ∧
      out.Pairwise (fun x y => timespec_le (chosen_time 0x61 x) (chosen_time 0x61 y)) :=
  ⟨c_locale_qsort_contract, Or.inr (Or.inl rfl), rfl,
   (sort_time_reverse c_locale_sort_libc c_locale_qsort_contract
     [info_by_atime 3 0, info_by_atime 4 0, info_by_atime 1 0, info_by_atime 2 0] 0x61
     (Or.inr (Or.inl rfl))).1⟩

/-- C25 at a failing input. The list holds one item whose path is 8192 letters
`a`, and the collation is that of the C locale: the key does not fit the
8192-byte buffer with its terminator and `lstime_sort_list` leaves through
`exit(39)`, for either value of `reverse`. -/
theorem sort_path_key_overflow :
    [info_by_path (List.replicate 8192 0x61)] ≠ [] ∧
    (info_by_path (List.replicate 8192 0x61)).path.length ≤ MAX_PATH_LEN ∧
    lstime_sort_list c_locale_sort_libc [info_by_path (List.replicate 8192 0x61)] 0x70 false =
      .error 39 ∧
    lstime_sort_list c_locale_sort_libc [info_by_path (List.replicate 8192 0x61)] 0x70 true =
      .error 39 := by
  have hlen : (info_by_path (List.replicate 8192 0x61)).path.length = 8192 :=
    List.length_replicate 8192 0x61
  have hbig : ∃ info ∈ [info_by_path (List.replicate 8192 0x61)],
      MAX_PATH_LEN ≤ (c_locale_sort_libc.strxfrm info.path).length :=
    ⟨_, List.mem_singleton.2 rfl, by
      show MAX_PATH_LEN ≤ (info_by_path (List.replicate 8192 0x61)).path.length
      rw [hlen]; exact Nat.le_refl _⟩
  refine ⟨List.cons_ne_nil _ _, by rw [hlen]; exact Nat.le_refl _, ?_, ?_⟩
  · exact sort_list_key_overflow _ _ false hbig
  · exact sort_list_key_overflow _ _ true hbig

/-- C25. With a `qsort` that meets its contract, for every list and the sort
field `p`: whenever `lstime_sort_list` returns, it leaves a permutation of its
input, each item with its `sortkey` set to the collation key of its path, in
which the keys are in ascending `strcmp` order when `reverse` is false and in
descending order when it is true; it returns when every key has fewer than
8192 bytes and leaves through `exit(39)` otherwise. When `strxfrm` copies the
path the order is that of `strcmp` on the paths, which for strings without NUL
is the lexicographic order of the bytes. -/
theorem sort_path (libc : SortLibc) (hq : QsortContract libc.qsort)
    (list : List lstime_info) (reverse : Bool) :
    (∀ out, lstime_sort_list libc list 0x70 reverse = .ok out →
      out.Perm (list.map (with_sortkey libc)) ∧
      (out.map fun x => x.path).Perm (list.map fun x => x.path) ∧
      out.Chain' (fun x y =>
        if reverse then strcmp (libc.strxfrm y.path) (libc.strxfrm x.path) ≤ 0
        else strcmp (libc.strxfrm x.path) (libc.strxfrm y.path) ≤ 0) ∧
      ((∀ p, libc.strxfrm p = p) → out.Chain' (fun x y =>
        if reverse then strcmp y.path x.path ≤ 0 else strcmp x.path y.path ≤ 0))) ∧
    ((∀ info ∈ list, (libc.strxfrm info.path).length < MAX_PATH_LEN) →
      ∃ out, lstime_sort_list libc list 0x70 reverse = .ok out) ∧
    ((∃ info ∈ list, MAX_PATH_LEN ≤ (libc.strxfrm info.path).length) →
      lstime_sort_list libc list 0x70 reverse = .error 39) ∧
    (∀ a b : List Nat, (∀ x ∈ a, x ≠ 0) → (∀ x ∈ b, x ≠ 0) →
      (strcmp a b ≤ 0 ↔ ¬ List.Lex (fun x y : Nat => x < y) b a)) := by
  have hfit : (∀ info ∈ list, (libc.strxfrm info.path).length < MAX_PATH_LEN) →
      ∃ out, lstime_sort_list libc list 0x70 reverse = .ok out ∧
        out.Perm (list.map (with_sortkey libc)) ∧
        out.Chain' (fun x y => (if reverse then comp_p_rev else comp_p_fwd) x y ≤ 0) :=
    fun h => sort_list_of_comp libc hq list _ 0x70 reverse _ (select_comp_path reverse)
      (by rw [if_pos rfl, populate_sortkeys_ok libc list h])
  refine ⟨?_, fun h => ?_, sort_list_key_overflow libc list reverse, ?_⟩
  · intro out hout
    by_cases hall : ∀ info ∈ list, (libc.strxfrm info.path).length < MAX_PATH_LEN
    · obtain ⟨out2, h1, h2, h3⟩ := hfit hall
      rw [hout] at h1
      injection h1 with h1
      subst h1
      have hkey : ∀ x ∈ out, sortkey_text x = libc.strxfrm x.path := by
        intro x hx
        obtain ⟨i, _, hi⟩ := List.mem_map.1 (h2.mem_iff.1 hx)
        rw [← hi]
        rfl
      have hpath : (out.map fun x => x.path).Perm (list.map fun x => x.path) := by
        have := h2.map (fun x => x.path)
        rw [List.map_map] at this
        exact this
      have htr : IsTrans lstime_info
          (fun x y => (if reverse then comp_p_rev else comp_p_fwd) x y ≤ 0) :=
        ⟨(select_comp_consistent 0x70 reverse _ (select_comp_path reverse)).2⟩
      have hpw := List.chain'_iff_pairwise.1 h3
      have hch : out.Chain' (fun x y =>
          if reverse then strcmp (libc.strxfrm y.path) (libc.strxfrm x.path) ≤ 0
          else strcmp (libc.strxfrm x.path) (libc.strxfrm y.path) ≤ 0) := by
        refine (hpw.imp_of_mem ?_).chain'
        intro x y hx hy hxy
        cases reverse with
        | true =>
          simp only [if_true] at hxy ⊢
          unfold comp_p_rev at hxy
          rw [hkey x hx, hkey y hy] at hxy
          exact hxy
        | false =>
          simp only [Bool.false_eq_true, if_false] at hxy ⊢
          unfold comp_p_fwd at hxy
          rw [hkey x hx, hkey y hy] at hxy
          exact hxy
      refine ⟨h2, hpath, hch, fun hid => ?_⟩
      simp only [hid] at hch
      exact hch
    · push_neg at hall
      obtain ⟨i, hi, hlen⟩ := hall
      rw [sort_list_key_overflow libc list reverse ⟨i, hi, hlen⟩] at hout
      exact absurd hout (by simp)
  · obtain ⟨out, h1, _⟩ := hfit h
    exact ⟨out, h1⟩
  · intro a b ha hb
    rw [← strcmp_neg_iff_lex b a hb ha]
    have := strcmp_swap a b
    constructor <;> intro h <;> omega

/-- C25 at the list of the tests `test_fwd_p_sort` and `test_rev_p_sort`, the
paths `bbb`, `ddd`, `aaa`, `ccc`, with the reference library: the paths come
out as `aaa`, `bbb`, `ccc`, `ddd`, and in the opposite order when reversed. -/
theorem sort_path_witness :
    QsortContract c_locale_sort_libc.qsort ∧
    (lstime_sort_list c_locale_sort_libc
      [info_by_path [0x62, 0x62, 0x62], info_by_path [0x64, 0x64, 0x64],
        info_by_path [0x61, 0x61, 0x61], info_by_path [0x63, 0x63, 0x63]] 0x70 false).map
        (fun out => out.map fun x => x.path) =
      .ok [[0x61, 0x61, 0x61], [0x62, 0x62, 0x62], [0x63, 0x63, 0x63], [0x64, 0x64, 0x64]] ∧
    (lstime_sort_list c_locale_sort_libc
      [info_by_path [0x62, 0x62, 0x62], info_by_path [0x64, 0x64, 0x64],
        info_by_path [0x61, 0x61, 0x61], info_by_path [0x63, 0x63, 0x63]] 0x70 true).map
        (fun out => out.map fun x => x.path) =
      .ok [[0x64, 0x64, 0x64], [0x63, 0x63, 0x63], [0x62, 0x62, 0x62], [0x61, 0x61, 0x61]] ∧
    ∃ out, lstime_sort_list c_locale_sort_libc
      [info_by_path [0x62, 0x62, 0x62], info_by_path [0x64, 0x64, 0x64],
        info_by_path [0x61, 0x61, 0x61], info_by_path [0x63, 0x63, 0x63]] 0x70 false =
      .ok out :=
  ⟨c_locale_qsort_contract, rfl, rfl,
   (sort_path c_locale_sort_libc c_locale_qsort_contract
      [info_by_path [0x62, 0x62, 0x62], info_by_path [0x64, 0x64, 0x64],
        info_by_path [0x61, 0x61, 0x61], info_by_path [0x63, 0x63, 0x63]] false).2.1
      (by decide)⟩

/-- C26. With the static buffers as explicit state, the string
`lstime_format_path` returns and the string `preprocess_time_format` returns
are those of the functions that have no state, whatever the buffers held
before the call: for a path that is a C string, a decoder that stores at most
8192 units, and a time format and an offset text without NUL. Hence two calls
with the same arguments return the same string or leave through the same
exit, from any two states of the buffers, and so after any call made in
between. -/
theorem no_hidden_state (libc : Libc) (p : List Nat) (eu dbg : Bool) (zbuf : List Nat)
    (nsec : Int) (tf : List Nat) (hp : IsCString p)
    (hdec : (libc.iconv p).out.length ≤ MAX_PATH_LEN)
    (htf : ∀ x ∈ tf, x ≠ 0) (hz : ∀ x ∈ zbuf, x ≠ 0) :
    (∀ st : Statics, (lstime_format_path_mem libc p eu dbg st).map Prod.snd =
      as_fault (lstime_format_path libc p eu dbg)) ∧
    (∀ st : Statics, (preprocess_time_format_mem zbuf nsec tf st).map Prod.snd =
      as_fault (preprocess_time_format zbuf nsec tf)) ∧
    (∀ st1 st2 : Statics,
      (lstime_format_path_mem libc p eu dbg st1).map Prod.snd =
        (lstime_format_path_mem libc p eu dbg st2).map Prod.snd ∧
      (preprocess_time_format_mem zbuf nsec tf st1).map Prod.snd =
        (preprocess_time_format_mem zbuf nsec tf st2).map Prod.snd) ∧
    (∀ (st st1 : Statics) (q : List Nat) (eu2 dbg2 : Bool) (s : List Nat),
      lstime_format_path_mem libc q eu2 dbg2 st = .ok (st1, s) →
      (lstime_format_path_mem libc p eu dbg st1).map Prod.snd =
        (lstime_format_path_mem libc p eu dbg st).map Prod.snd ∧
      (preprocess_time_format_mem zbuf nsec tf st1).map Prod.snd =
        (preprocess_time_format_mem zbuf nsec tf st).map Prod.snd) ∧
    (∀ (st st1 : Statics) (zbuf2 : List Nat) (nsec2 : Int) (tf2 s : List Nat),
      preprocess_time_format_mem zbuf2 nsec2 tf2 st = .ok (st1, s) →
      (lstime_format_path_mem libc p eu dbg st1).map Prod.snd =
        (lstime_format_path_mem libc p eu dbg st).map Prod.snd ∧
      (preprocess_time_format_mem zbuf nsec tf st1).map Prod.snd =
        (preprocess_time_format_mem zbuf nsec tf st).map Prod.snd) := by
  have h1 := fun st => lstime_format_path_mem_eq libc p eu dbg st hp hdec
  have h2 := fun st => preprocess_time_format_mem_eq zbuf nsec tf st htf hz
  have h3 : ∀ st1 st2 : Statics,
      (lstime_format_path_mem libc p eu dbg st1).map Prod.snd =
        (lstime_format_path_mem libc p eu dbg st2).map Prod.snd ∧
      (preprocess_time_format_mem zbuf nsec tf st1).map Prod.snd =
        (preprocess_time_format_mem zbuf nsec tf st2).map Prod.snd :=
    fun st1 st2 => ⟨by rw [h1 st1, h1 st2], by rw [h2 st1, h2 st2]⟩
  exact ⟨h1, h2, h3, fun st st1 _ _ _ _ _ => h3 st1 st, fun st st1 _ _ _ _ _ => h3 st1 st⟩

/-- C26 at the path of the tests, a tab and U+03B1, with the reference
library, and the format `%:z%3N` with the offset `-0200` and 111333999
nanoseconds: on buffers filled with the letter `A` the strings returned are
those of the functions without state. -/
theorem no_hidden_state_witness :
    IsCString [0x09, 0xCE, 0xB1] ∧
    (utf8_libc.iconv [0x09, 0xCE, 0xB1]).out.length ≤ MAX_PATH_LEN ∧
    (∀ x ∈ [0x25, 0x3A, 0x7A, 0x25, 0x33, 0x4E], x ≠ 0) ∧
    (∀ x ∈ [0x2D, 0x30, 0x32, 0x30, 0x30], x ≠ 0) ∧
    (lstime_format_path_mem utf8_libc [0x09, 0xCE, 0xB1] true false
      (statics_filled 0x41 7)).map Prod.snd =
      .ok [0x24, 0x27, 0x5C, 0x74, 0x5C, 0x75, 0x30, 0x33, 0x42, 0x31, 0x27] ∧
    (preprocess_time_format_mem [0x2D, 0x30, 0x32, 0x30, 0x30] 111333999
      [0x25, 0x3A, 0x7A, 0x25, 0x33, 0x4E] (statics_filled 0x41 7)).map Prod.snd =
      .ok [0x2D, 0x30, 0x32, 0x3A, 0x30, 0x30, 0x31, 0x31, 0x31] :=
  ⟨by decide, by decide, by decide, by decide,
   ((no_hidden_state utf8_libc [0x09, 0xCE, 0xB1] true false [0x2D, 0x30, 0x32, 0x30, 0x30]
      111333999 [0x25, 0x3A, 0x7A, 0x25, 0x33, 0x4E] (by decide) (by decide) (by decide)
      (by decide)).1 (statics_filled 0x41 7)).trans rfl,
   ((no_hidden_state utf8_libc [0x09, 0xCE, 0xB1] true false [0x2D, 0x30, 0x32, 0x30, 0x30]
      111333999 [0x25, 0x3A, 0x7A, 0x25, 0x33, 0x4E] (by decide) (by decide) (by decide)
      (by decide)).2.1 (statics_filled 0x41 7)).trans rfl⟩

/-- C29. The 12-byte margin is sufficient: one unit produces at most 10 bytes
and an escape with its terminator fits the 12 bytes of `bash_u_escape`; on the
static buffers, where a store outside an array is a fault, `bash_quote_cps`
never faults, for every unit sequence, every level and whatever the buffers
held; when it returns, the output and its terminator are stored inside
`quoted_buf` and the output has at most 8191 bytes; it leaves through
`exit(13)` otherwise. -/
theorem margin_is_sufficient (cps : List Nat) (lvl : Nat) (st : Statics) :
    (∀ cp, (quote_unit lvl cp).length ≤ 10 ∧ (bash_u_escape cp ++ [0x00]).length ≤ 12) ∧
    (∀ (buf : Nat → Nat) (v : Nat),
      store MAX_PATH_LEN buf MAX_PATH_LEN v = .error .out_of_bounds) ∧
    bash_quote_cps_mem cps lvl st ≠ .error .out_of_bounds ∧
    (∀ out, bash_quote_cps cps lvl = .ok out →
      out.length ≤ MAX_PATH_LEN - 1 ∧
      ∃ st1 s, bash_quote_cps_mem cps lvl st = .ok (st1, s) ∧
        Agree st1.quoted_buf (out ++ [0x00]) ∧ s.length ≤ MAX_PATH_LEN - 1) ∧
    (∀ e, bash_quote_cps cps lvl = .error e →
      e = 13 ∧ bash_quote_cps_mem cps lvl st = .error (.exit 13)) := by
  obtain ⟨s1, s2⟩ := bash_quote_cps_mem_sim cps lvl st
  refine ⟨fun cp => ⟨quote_unit_length_le lvl cp, ?_⟩, fun buf v => ?_, ?_, ?_, ?_⟩
  · have := bash_u_escape_length_le cp
    rw [List.length_append, List.length_singleton]
    omega
  · unfold store
    rw [if_neg (Nat.lt_irrefl _)]
  · cases hp : bash_quote_cps_buf cps lvl with
    | error e => rw [s1 e hp]; intro h; injection h with h; exact Fault.noConfusion h
    | ok w =>
      obtain ⟨st1, h1, _⟩ := s2 w hp
      rw [h1]
      intro h
      exact Except.noConfusion h
  · intro out hp
    have hlen := bash_quote_cps_length cps lvl out hp
    obtain ⟨w, hw, ho⟩ := bash_quote_cps_buf_of_ok cps lvl out hp
    obtain ⟨st1, h1, h2⟩ := s2 w hw
    rw [ho]
    rw [ho] at hlen
    exact ⟨by omega, st1, c_str w, h1, agree_c_str _ _ h2, by omega⟩
  · intro e hp
    have he := bash_quote_cps_error cps lvl e hp
    subst he
    exact ⟨rfl, s1 13 ((bash_quote_cps_error_iff _ _ _).1 hp)⟩

/-! ## Properties of the display text, the classifier range, the expander and the comparator -/

/-- C31. The plain single-quoted form is well formed: whenever
`lstime_format_path` returns, for a path `p` that is a C string, a string that
begins with a single quote, the path was classified at level 2 or 3 and
decoded, the string is a single quote, then `p`, then a single quote, and `p`
holds no single quote and no control byte, so the string holds two single
quotes, its first and its last character. -/
theorem single_quoted_well_formed (libc : Libc) (p : List Nat) (eu dbg : Bool)
    (hp : IsCString p) (out : List Nat) (h : lstime_format_path libc p eu dbg = .ok out)
    (hq : out.head? = some 0x27) :
    (parse_for_display_level p LEVEL1 eu = 2 ∨ parse_for_display_level p LEVEL1 eu = 3) ∧
    DecodeOk libc p ∧
    out = [0x27] ++ p ++ [0x27] ∧
    (∀ b ∈ p, b ≠ 0x27 ∧ 0x20 ≤ b ∧ b ≠ 0x7F) ∧
    out.count 0x27 = 2 ∧ out.getLast? = some 0x27 := by
  obtain ⟨lvl, units, hlvl, hu, _, hout⟩ := lstime_format_path_ok libc p eu dbg hp out h
  have h5 := parse_le_five p eu
  have h1 : 1 ≤ parse_for_display_level p LEVEL1 eu := parse_ge_min p LEVEL1 eu
  have hl16 : 1 ≤ lvl ∧ lvl ≤ 6 := by
    rcases hlvl with h | h <;> omega
  by_cases h4 : 4 ≤ lvl
  · rw [hout, (quote_frame_escaped lvl h4).1] at hq
    exact absurd hq (by simp)
  · have hlp : lvl = parse_for_display_level p LEVEL1 eu ∧ DecodeOk libc p := by
      rcases hlvl with h | h
      · exact h
      · omega
    have hb := flatMap_quote_unit_verbatim lvl (by omega) p (fun b hb => (hp b hb).2)
    rw [hu (by omega), hb] at hout
    have hno := no_trigger_of_low_level p eu (by omega)
    by_cases hl1 : lvl = 1
    · have ho : quote_open lvl = [] := by rw [hl1]; rfl
      have hc : quote_close lvl = [] := by rw [hl1]; rfl
      rw [ho, hc, List.nil_append, List.append_nil] at hout
      rw [hout] at hq
      cases p with
      | nil => simp at hq
      | cons b rest =>
        simp only [List.head?_cons, Option.some.injEq] at hq
        exact absurd hq (hno b (List.mem_cons_self _ _)).1
    · have ho : quote_open lvl = [0x27] := by
        have : lvl = 2 ∨ lvl = 3 := by omega
        rcases this with h | h <;> rw [h] <;> rfl
      have hc : quote_close lvl = [0x27] := by
        have : lvl = 2 ∨ lvl = 3 := by omega
        rcases this with h | h <;> rw [h] <;> rfl
      rw [ho, hc] at hout
      have hcount : p.count 0x27 = 0 :=
        List.count_eq_zero.2 (fun hm => (hno 0x27 hm).1 rfl)
      refine ⟨by omega, hlp.2, hout, hno, ?_, ?_⟩
      · rw [hout, List.count_append, List.count_append, hcount]
        rfl
      · rw [hout]
        exact List.getLast?_append_of_ne_nil _ (List.cons_ne_nil _ _)

/-- C31 at the path `a b`, with the reference library: the output is
`'a b'`. -/
theorem single_quoted_well_formed_witness :
    IsCString [0x61, 0x20, 0x62] ∧
    lstime_format_path utf8_libc [0x61, 0x20, 0x62] false false =
      .ok [0x27, 0x61, 0x20, 0x62, 0x27] ∧
    ([0x27, 0x61, 0x20, 0x62, 0x27] : List Nat).head? = some 0x27 ∧
    ([0x27, 0x61, 0x20, 0x62, 0x27] : List Nat) = [0x27] ++ [0x61, 0x20, 0x62] ++ [0x27] ∧
    ([0x27, 0x61, 0x20, 0x62, 0x27] : List Nat).count 0x27 = 2 :=
  ⟨by decide, rfl, rfl,
   (single_quoted_well_formed utf8_libc [0x61, 0x20, 0x62] false false (by decide)
      [0x27, 0x61, 0x20, 0x62, 0x27] rfl rfl).2.2.1,
   (single_quoted_well_formed utf8_libc [0x61, 0x20, 0x62] false false (by decide)
      [0x27, 0x61, 0x20, 0x62, 0x27] rfl rfl).2.2.2.2.1⟩

/-- C32. For a fixed `escape_uni`, `lstime_format_path` is injective on the
paths on which it returns: two different C strings never give the same
display text. The decoder of the C library is assumed to be a UTF-8 decoder
in this sense: it maps different accepted byte strings to different codepoint
sequences, it accepts a NUL-free ASCII string of at most 8192 bytes and gives
its bytes as codepoints, and the codepoints it stores are below 2^31, so that
the `wchar_t` of `bash_u_escape` holds them as they are. The flag `debug` may
differ between the two calls. -/
theorem format_path_injective (libc : Libc) (eu da db : Bool) (a b : List Nat)
    (ha : IsCString a) (hb : IsCString b)
    (hinj : ∀ x y : List Nat, DecodeOk libc x → DecodeOk libc y →
      (libc.iconv x).out = (libc.iconv y).out → x = y)
    (hascii : ∀ x : List Nat, IsCString x → (∀ c ∈ x, c < 0x80) → x.length ≤ MAX_PATH_LEN →
      DecodeOk libc x ∧ (libc.iconv x).out = x)
    (hu31 : ∀ x : List Nat, DecodeOk libc x → ∀ u ∈ (libc.iconv x).out, u < 2 ^ 31)
    (hne : a ≠ b) (oa ob : List Nat)
    (h1 : lstime_format_path libc a eu da = .ok oa)
    (h2 : lstime_format_path libc b eu db = .ok ob) : oa ≠ ob := by
  intro heq
  subst heq
  apply hne
  have h5a := parse_le_five a eu
  have h5b := parse_le_five b eu
  rcases format_path_shapes libc a eu da ha oa h1 with
    ⟨la1, oa1⟩ | ⟨la3, oa3⟩ | ⟨la, ua, hla, hlva, hua, hua5, oa4⟩
  · rcases format_path_shapes libc b eu db hb oa h2 with
      ⟨lb1, ob1⟩ | ⟨lb3, ob3⟩ | ⟨lb, ub, hlb, hlvb, hub, hub5, ob4⟩
    · rw [← oa1, ← ob1]
    · rw [oa1] at ob3
      exact absurd rfl (level1_head a eu la1 _ _ ob3).1
    · rw [oa1] at ob4
      exact absurd rfl (level1_head a eu la1 _ _ ob4).2
  · rcases format_path_shapes libc b eu db hb oa h2 with
      ⟨lb1, ob1⟩ | ⟨lb3, ob3⟩ | ⟨lb, ub, hlb, hlvb, hub, hub5, ob4⟩
    · rw [ob1] at oa3
      exact absurd rfl (level1_head b eu lb1 _ _ oa3).1
    · rw [oa3] at ob3
      exact List.append_cancel_right (List.cons.inj ob3).2
    · rw [oa3] at ob4
      have := (List.cons.inj ob4).1
      omega
  · rcases format_path_shapes libc b eu db hb oa h2 with
      ⟨lb1, ob1⟩ | ⟨lb3, ob3⟩ | ⟨lb, ub, hlb, hlvb, hub, hub5, ob4⟩
    · rw [ob1] at oa4
      exact absurd rfl (level1_head b eu lb1 _ _ oa4).2
    · rw [ob3] at oa4
      have := (List.cons.inj oa4).1
      omega
    · rw [oa4] at ob4
      have hbody : ua.flatMap (quote_unit la) = ub.flatMap (quote_unit lb) :=
        List.append_cancel_right (List.cons.inj (List.cons.inj ob4).2).2
      have hda : la = 5 → DecodeOk libc a ∧ parse_for_display_level a LEVEL1 eu = 5 := by
        intro h
        rcases hlva with hh | hh
        · exact ⟨hh.2, by omega⟩
        · omega
      have hdb : lb = 5 → DecodeOk libc b ∧ parse_for_display_level b LEVEL1 eu = 5 := by
        intro h
        rcases hlvb with hh | hh
        · exact ⟨hh.2, by omega⟩
        · omega
      have hba : la ≠ 5 → ∀ u ∈ ua, u < 256 := by
        intro h u hu
        rw [hua h] at hu
        exact (ha u hu).2
      have hbb : lb ≠ 5 → ∀ u ∈ ub, u < 256 := by
        intro h u hu
        rw [hub h] at hu
        exact (hb u hu).2
      have h32a : ∀ u ∈ ua, u < 2 ^ 31 := by
        intro u hu
        by_cases h : la = 5
        · rw [hua5 h] at hu
          exact hu31 a (hda h).1 u hu
        · have := hba h u hu
          omega
      have h32b : ∀ u ∈ ub, u < 2 ^ 31 := by
        intro u hu
        by_cases h : lb = 5
        · rw [hub5 h] at hu
          exact hu31 b (hdb h).1 u hu
        · have := hbb h u hu
          omega
      obtain ⟨hunits, hkind⟩ :=
        flatMap_quote_unit_inj la lb hla hlb ua ub h32a h32b hba hbb hbody
      by_cases ea : la = 5
      · by_cases eb : lb = 5
        · refine hinj a b (hda ea).1 (hdb eb).1 ?_
          rw [← hua5 ea, ← hub5 eb, hunits]
        · have hlen := format_path_length libc b eu db oa h2 (by
            rcases hlvb with hh | hh
            · exact Or.inr (by omega)
            · exact Or.inl hh.2)
          refine level5_against_bytes libc eu a b hb hinj hascii (hda ea).1 (hda ea).2 lb
            (by omega) hlvb hlen ?_ ?_
          · rw [← hua5 ea, hunits, hub eb]
          · intro u hu
            rw [← hub eb, ← hunits] at hu
            have := hkind u hu
            rw [ea] at this
            exact this
      · by_cases eb : lb = 5
        · have hlen := format_path_length libc a eu da oa h1 (by
            rcases hlva with hh | hh
            · exact Or.inr (by omega)
            · exact Or.inl hh.2)
          refine (level5_against_bytes libc eu b a ha hinj hascii (hdb eb).1 (hdb eb).2 la
            (by omega) hlva hlen ?_ ?_).symm
          · rw [← hub5 eb, ← hunits, hua ea]
          · intro u hu
            rw [← hua ea] at hu
            have := hkind u hu
            rw [eb] at this
            exact this.symm
        · rw [← hua ea, ← hub eb, hunits]

/-- C32 at the two bytes of U+00E9 and at the byte 0xE9 alone, with
`escape_uni` set and the reference library: the first path is decoded and
shown with a `\u` escape, the second is not valid UTF-8 and is shown with a
`\x` escape. -/
theorem format_path_injective_witness :
    IsCString [0xC3, 0xA9] ∧ IsCString [0xE9] ∧ ([0xC3, 0xA9] : List Nat) ≠ [0xE9] ∧
    lstime_format_path utf8_libc [0xC3, 0xA9] true false =
      .ok [0x24, 0x27, 0x5C, 0x75, 0x30, 0x30, 0x45, 0x39, 0x27] ∧
    lstime_format_path utf8_libc [0xE9] true false =
      .ok [0x24, 0x27, 0x5C, 0x78, 0x45, 0x39, 0x27] ∧
    ([0x24, 0x27, 0x5C, 0x75, 0x30, 0x30, 0x45, 0x39, 0x27] : List Nat) ≠
      [0x24, 0x27, 0x5C, 0x78, 0x45, 0x39, 0x27] :=
  ⟨by decide, by decide, by decide, rfl, rfl,
   format_path_injective utf8_libc true false false [0xC3, 0xA9] [0xE9] (by decide) (by decide)
     utf8_libc_injective.1 (fun x _ hx hlen => utf8_libc_ascii x hx hlen)
     utf8_libc_injective.2 (by decide) _ _ rfl rfl⟩

/-- C33. For a path that is a C string and either flag value, the string
`lstime_format_path` returns holds no control byte: no byte below 0x20 and no
0x7F, at whatever level it was encoded. -/
theorem output_no_control (libc : Libc) (p : List Nat) (eu dbg : Bool) (hp : IsCString p)
    (out : List Nat) (h : lstime_format_path libc p eu dbg = .ok out) :
    ∀ x ∈ out, 0x20 ≤ x ∧ x ≠ 0x7F := by
  obtain ⟨lvl, units, hlvl, hu, _, hout⟩ := lstime_format_path_ok libc p eu dbg hp out h
  intro x hx
  rw [hout, List.mem_append, List.mem_append] at hx
  rcases hx with (hx | hx) | hx
  · have := quote_frame_bytes lvl x (Or.inl hx); omega
  · exact body_no_control libc p eu hp lvl units hlvl hu x hx
  · have := quote_frame_bytes lvl x (Or.inr hx); omega

/-- C33 at the path made of a tab, the bytes of U+03B1 and the byte 0x7F, with
the reference library and the flag not set: the output is
`$'\tα\u007F'`, where the two bytes of U+03B1 are the only ones above
0x7E. -/
theorem output_no_control_witness :
    IsCString [0x09, 0xCE, 0xB1, 0x7F] ∧
    lstime_format_path utf8_libc [0x09, 0xCE, 0xB1, 0x7F] false false =
      .ok [0x24, 0x27, 0x5C, 0x74, 0xCE, 0xB1, 0x5C, 0x75, 0x30, 0x30, 0x37, 0x46, 0x27] ∧
    ∀ x ∈ [0x24, 0x27, 0x5C, 0x74, 0xCE, 0xB1, 0x5C, 0x75, 0x30, 0x30, 0x37, 0x46, 0x27],
      0x20 ≤ x ∧ x ≠ 0x7F :=
  ⟨by decide, rfl,
   output_no_control utf8_libc [0x09, 0xCE, 0xB1, 0x7F] false false (by decide) _ rfl⟩

/-- C34. With `escape_uni` set, for a path that is a C string, valid UTF-8 or
not, every byte of the string `lstime_format_path` returns is printable ASCII,
from 0x20 to 0x7E. -/
theorem output_printable_ascii (libc : Libc) (p : List Nat) (dbg : Bool) (hp : IsCString p)
    (out : List Nat) (h : lstime_format_path libc p true dbg = .ok out) :
    ∀ x ∈ out, 0x20 ≤ x ∧ x ≤ 0x7E := by
  obtain ⟨lvl, units, hlvl, hu, _, hout⟩ := lstime_format_path_ok libc p true dbg hp out h
  have h5 := parse_le_five p true
  have h1 := parse_ge_min p LEVEL1 true
  have hlow : lvl ≤ 4 → ∀ b ∈ p, b < 0x80 := by
    intro hl4 b hb
    have hlp : lvl = parse_for_display_level p LEVEL1 true := by
      rcases hlvl with h | h
      · exact h.1
      · omega
    by_contra hge
    have := parse_ge_byte p LEVEL1 true b hb
    rw [byte_level_high true b (by omega)] at this
    simp only [if_true] at this
    omega
  intro x hx
  rw [hout, List.mem_append, List.mem_append] at hx
  have hnc : 0x20 ≤ x ∧ x ≠ 0x7F := by
    rcases hx with (hx | hx) | hx
    · have := quote_frame_bytes lvl x (Or.inl hx); omega
    · exact body_no_control libc p true hp lvl units hlvl hu x hx
    · have := quote_frame_bytes lvl x (Or.inr hx); omega
  have hlt : x < 0x80 := by
    rcases hx with (hx | hx) | hx
    · have := quote_frame_bytes lvl x (Or.inl hx); omega
    · by_cases h3 : lvl ≤ 3
      · rw [hu (by omega),
          flatMap_quote_unit_verbatim lvl h3 p (fun b hb => (hp b hb).2)] at hx
        exact hlow (by omega) x hx
      · obtain ⟨c, hcm, hxc⟩ := List.mem_flatMap.1 hx
        refine quote_unit_ascii_out lvl c (by unfold LEVEL1 at h1; omega)
          (fun h4 => ?_) (fun h6 => ?_) x hxc
        · rw [hu (by omega)] at hcm
          exact hlow (by omega) c hcm
        · rw [hu (by omega)] at hcm
          exact (hp c hcm).2
    · have := quote_frame_bytes lvl x (Or.inr hx); omega
  omega

/-- C34 at the path made of a tab, the bytes of U+03B1 and the byte 0x7F, with
the reference library: the output is `$'\tα\u007F'`. -/
theorem output_printable_ascii_witness :
    IsCString [0x09, 0xCE, 0xB1, 0x7F] ∧
    lstime_format_path utf8_libc [0x09, 0xCE, 0xB1, 0x7F] true false =
      .ok [0x24, 0x27, 0x5C, 0x74, 0x5C, 0x75, 0x30, 0x33, 0x42, 0x31,
        0x5C, 0x75, 0x30, 0x30, 0x37, 0x46, 0x27] ∧
    ∀ x ∈ [0x24, 0x27, 0x5C, 0x74, 0x5C, 0x75, 0x30, 0x33, 0x42, 0x31,
        0x5C, 0x75, 0x30, 0x30, 0x37, 0x46, 0x27], 0x20 ≤ x ∧ x ≤ 0x7E :=
  ⟨by decide, rfl,
   output_printable_ascii utf8_libc [0x09, 0xCE, 0xB1, 0x7F] false (by decide) _ rfl⟩

/-- C35. The flag `escape_uni` matters for valid non-ASCII text only: for a
path with no byte of 0x80 or more, and for a path on which the decode fails,
`lstime_format_path` returns the same string, or leaves through the same exit,
with the flag set and not set. -/
theorem escape_flag_irrelevant (libc : Libc) (p : List Nat) (dbg : Bool)
    (h : (∀ b ∈ p, b < 0x80) ∨ ¬ DecodeOk libc p) :
    lstime_format_path libc p true dbg = lstime_format_path libc p false dbg := by
  rw [lstime_format_path_unfold, lstime_format_path_unfold]
  by_cases hd : DecodeOk libc p
  · rcases h with ha | hn
    · have e := parse_flag_ascii p ha LEVEL1
      have h4 := parse_no_high p false ha
      have n5 : ¬ parse_for_display_level p LEVEL1 false = 5 := by omega
      simp only [if_pos hd, e, if_neg n5]
    · exact absurd hd hn
  · simp only [if_neg hd]

/-- C35 at the path made of the bytes 0xFF and `A`, on which the decode
fails: both calls return `$'\xFFA'`. -/
theorem escape_flag_irrelevant_witness :
    ((∀ b ∈ [0xFF, 0x41], b < 0x80) ∨ ¬ DecodeOk utf8_libc [0xFF, 0x41]) ∧
    lstime_format_path utf8_libc [0xFF, 0x41] true false =
      .ok [0x24, 0x27, 0x5C, 0x78, 0x46, 0x46, 0x41, 0x27] ∧
    lstime_format_path utf8_libc [0xFF, 0x41] true false =
      lstime_format_path utf8_libc [0xFF, 0x41] false false :=
  ⟨Or.inr (by decide), rfl,
   escape_flag_irrelevant utf8_libc [0xFF, 0x41] false (Or.inr (by decide))⟩

/-- C36. The range of the classifier depends on the flag: started at level 1
it returns 1, 2, 3 or 4 without `escape_uni` and 1, 2, 4 or 5 with it; it
never returns 6; it returns 3 or 5 only when the string holds a byte of 0x80
or more; so the level 6 that `lstime_format_path` hands to the encoder comes
from a failed decode only. -/
theorem classifier_range (p : List Nat) (eu : Bool) :
    (eu = false → parse_for_display_level p LEVEL1 eu = 1 ∨
      parse_for_display_level p LEVEL1 eu = 2 ∨ parse_for_display_level p LEVEL1 eu = 3 ∨
      parse_for_display_level p LEVEL1 eu = 4) ∧
    (eu = true → parse_for_display_level p LEVEL1 eu = 1 ∨
      parse_for_display_level p LEVEL1 eu = 2 ∨ parse_for_display_level p LEVEL1 eu = 4 ∨
      parse_for_display_level p LEVEL1 eu = 5) ∧
    parse_for_display_level p LEVEL1 eu ≠ 6 ∧
    (parse_for_display_level p LEVEL1 eu = 3 ∨ parse_for_display_level p LEVEL1 eu = 5 →
      ∃ b ∈ p, 0x80 ≤ b) ∧
    (∀ (libc : Libc) (dbg : Bool) (units : List Nat),
      format_path_resolve libc p eu dbg = .ok (6, units) → ¬ DecodeOk libc p) := by
  have h5 := parse_le_five p eu
  refine ⟨fun he => (parse_values p eu LEVEL1).1 he (Or.inl rfl),
    fun he => (parse_values p eu LEVEL1).2 he (Or.inl rfl), by omega,
    high_byte_of_level p eu, ?_⟩
  intro libc dbg units hr hd
  rw [format_path_resolve_unfold] at hr
  split_ifs at hr
  · injection hr with hr
    injection hr with hr1 hr2
    exact absurd hr1 (by decide)
  · injection hr with hr
    injection hr with hr1 hr2
    omega

/-- C37. An escaped percent protects what follows it: in the expander `%%` is
one directive, copied as it is, after which the scan goes on with the next
character; so for every nanosecond value and offset text the formats `%%N`,
`%%3N` and `%%:z` expand to themselves, and a format `%%` followed by
characters other than `%` expands to itself when it fits the buffer. -/
theorem escaped_percent (zbuf : List Nat) (nsec : Int) :
    preprocess_time_format zbuf nsec [0x25, 0x25, 0x4E] = .ok [0x25, 0x25, 0x4E] ∧
    preprocess_time_format zbuf nsec [0x25, 0x25, 0x33, 0x4E] = .ok [0x25, 0x25, 0x33, 0x4E] ∧
    preprocess_time_format zbuf nsec [0x25, 0x25, 0x3A, 0x7A] = .ok [0x25, 0x25, 0x3A, 0x7A] ∧
    (∀ (fuel : Nat) (rest buf : List Nat),
      preprocess_loop zbuf nsec (fuel + 1) (0x25 :: 0x25 :: rest) buf =
        if buf.length + 2 > MAX_TIME_LEN - 1 then .error 17
        else preprocess_loop zbuf nsec fuel rest (buf ++ [0x25, 0x25])) ∧
    (∀ a : List Nat, (∀ c ∈ a, c ≠ 0x25) → a.length + 2 ≤ MAX_TIME_LEN - 1 →
      preprocess_time_format zbuf nsec ([0x25, 0x25] ++ a) = .ok ([0x25, 0x25] ++ a)) ∧
    (∀ rest : List Nat, expand_unbounded zbuf nsec ([0x25, 0x25] ++ rest) =
      prepend [0x25, 0x25] (expand_unbounded zbuf nsec rest)) := by
  have hlit : ∀ a : List Nat, (∀ c ∈ a, c ≠ 0x25) → a.length + 2 ≤ MAX_TIME_LEN - 1 →
      preprocess_time_format zbuf nsec ([0x25, 0x25] ++ a) = .ok ([0x25, 0x25] ++ a) := by
    intro a ha hlen
    unfold preprocess_time_format
    have hf : ([0x25, 0x25] ++ a).length = (a.length + 1) + 1 := by
      simp only [List.length_append, List.length_cons, List.length_nil]; omega
    rw [hf]
    show preprocess_loop zbuf nsec (a.length + 1 + 1) (0x25 :: 0x25 :: a) [] = _
    have key := preprocess_loop_literals zbuf nsec a 1 [] ([] ++ [0x25, 0x25]) ha
    rw [List.append_nil] at key
    rw [preprocess_loop_percent, if_neg (by unfold MAX_TIME_LEN; simp), key,
      if_neg (by
        intro h
        have := h.2
        simp only [List.length_append, List.length_cons, List.length_nil] at this
        omega)]
    simp [preprocess_loop]
  refine ⟨hlit [0x4E] (by decide) (by decide), hlit [0x33, 0x4E] (by decide) (by decide),
    hlit [0x3A, 0x7A] (by decide) (by decide), preprocess_loop_percent zbuf nsec, hlit, ?_⟩
  intro rest
  unfold expand_unbounded
  have hf : ([0x25, 0x25] ++ rest).length = (rest.length + 1) + 1 := by
    simp only [List.length_append, List.length_cons, List.length_nil]; omega
  rw [hf]
  show expand_loop zbuf nsec (rest.length + 1 + 1) (0x25 :: 0x25 :: rest) = _
  rw [expand_loop_percent, expand_loop_fuel zbuf nsec (rest.length + 1) rest.length rest
    (by omega) (Nat.le_refl _)]

/-- C38, the code on timestamps with and without a field equal to -1. When
neither field is -1 and the text `strftime` makes of the expanded format is
empty, as for the empty format, `lstime_format_timestamp` leaves through
`exit(23)`, and it never returns the empty string. When the seconds are -1,
it returns `N/A` whatever the nanoseconds, so for the timestamp (-1, 0), which
is not the sentinel, and the empty format it does not leave through
`exit(23)`. -/
theorem format_timestamp_empty_result {Tm : Type} (libc : TimeLibc Tm) (ts : timespec)
    (tf : List Nat) (utc : Bool) :
    (HAS_TIMESPEC ts = true → ∀ tm tmpfmt, tm_from_timespec libc ts utc = .ok tm →
      preprocess_time_format (libc.strftime_text [0x25, 0x7A] tm) ts.tv_nsec tf = .ok tmpfmt →
      libc.strftime_text tmpfmt tm = [] →
      lstime_format_timestamp libc ts tf utc = .error 23) ∧
    (HAS_TIMESPEC ts = true → ∀ tm, tm_from_timespec libc ts utc = .ok tm →
      libc.strftime_text [] tm = [] →
      lstime_format_timestamp libc ts [] utc = .error 23) ∧
    (∀ out, lstime_format_timestamp libc ts tf utc = .ok out → out ≠ []) ∧
    ((⟨-1, 0⟩ : timespec) ≠ TIMESPEC_EMPTY ∧
      lstime_format_timestamp libc ⟨-1, 0⟩ [] utc = .ok [0x4E, 0x2F, 0x41] ∧
      lstime_format_timestamp libc ⟨-1, 0⟩ [] utc ≠ .error 23) := by
  have hA : ∀ tf2 : List Nat, HAS_TIMESPEC ts = true → ∀ tm tmpfmt,
      tm_from_timespec libc ts utc = .ok tm →
      preprocess_time_format (libc.strftime_text [0x25, 0x7A] tm) ts.tv_nsec tf2 = .ok tmpfmt →
      libc.strftime_text tmpfmt tm = [] →
      lstime_format_timestamp libc ts tf2 utc = .error 23 := by
    intro tf2 hs tm tmpfmt htm hpre hempty
    unfold lstime_format_timestamp
    rw [if_neg (by rw [hs]; decide), htm]
    simp only [hpre, hempty, strftime_len]
    rfl
  have hN : lstime_format_timestamp libc ⟨-1, 0⟩ [] utc = .ok [0x4E, 0x2F, 0x41] := by
    unfold lstime_format_timestamp
    rw [if_pos (by decide)]
  refine ⟨hA tf, fun hs tm htm hempty => hA [] hs tm [] htm rfl hempty, ?_,
    by decide, hN, by rw [hN]; intro h; exact Except.noConfusion h⟩
  intro out h
  unfold lstime_format_timestamp at h
  split_ifs at h
  · injection h with h; rw [← h]; simp
  · split at h
    · exact absurd h (by simp)
    · split at h
      · exact absurd h (by simp)
      · rename_i tm _ tmpfmt _
        split_ifs at h with h0
        injection h with h
        intro he
        rw [← h] at he
        apply h0
        unfold strftime_len
        rw [he]
        rfl

/-- C39: `lstime_out_it` ends with exit 15 exactly when its scan reaches a `%`
followed by a character outside `m a c b n p r u z %`, the end of the format
included. With `good` the format before the first such `%` and `bad` telling
whether there is one (`before_bad_directive`, whose result is characterized in
the first two parts): the loop on the index with every read checked returns
what `lstime_out_it` gives, so no read falls beyond the terminating NUL; the run
is the run on `good`, followed by exit 15 when `bad` is set and the run on
`good` ended normally; the run on `good` never ends with exit 15; so the exit
status is 15 exactly when `bad` is set and no formatter has exited before, and
then the bytes written are those of the run on `good`. The last part evaluates
the formats `x%`, `x%q%n` and `%n%%`. -/
theorem unrecognized_directive_exit {Tm : Type} (libc : Libc) (tlibc : TimeLibc Tm)
    (info : lstime_info) (item_format time_format : List Nat) (utc debug : Bool) :
    ((before_bad_directive item_format).2 = false →
        (before_bad_directive item_format).1 = item_format) ∧
    ((before_bad_directive item_format).2 = true →
        ∃ sfx, item_format = (before_bad_directive item_format).1 ++ 0x25 :: sfx ∧
          ∀ d, sfx.head? = some d → d ∉ item_directives) ∧
    out_it_index_loop libc tlibc info time_format utc debug item_format item_format.length 0 [] =
      .ok (lstime_out_it libc tlibc info item_format time_format utc debug) ∧
    lstime_out_it libc tlibc info item_format time_format utc debug =
      then_bad
        (lstime_out_it libc tlibc info (before_bad_directive item_format).1 time_format utc debug)
        (before_bad_directive item_format).2 ∧
    (lstime_out_it libc tlibc info (before_bad_directive item_format).1
        time_format utc debug).2 ≠ some 15 ∧
    ((lstime_out_it libc tlibc info item_format time_format utc debug).2 = some 15 ↔
      (before_bad_directive item_format).2 = true ∧
        (lstime_out_it libc tlibc info (before_bad_directive item_format).1
          time_format utc debug).2 = none) ∧
    (lstime_out_it libc tlibc info item_format time_format utc debug).1 =
      (lstime_out_it libc tlibc info (before_bad_directive item_format).1
        time_format utc debug).1 ∧
    (lstime_out_it utf8_libc plain_time_libc test_info [0x78, 0x25] [] true false =
        ([0x78], some 15) ∧
      lstime_out_it utf8_libc plain_time_libc test_info [0x78, 0x25, 0x71, 0x25, 0x6E] []
        true false = ([0x78], some 15) ∧
      lstime_out_it utf8_libc plain_time_libc test_info [0x25, 0x6E, 0x25, 0x25] []
        true false = ([0x0A, 0x25], none)) := by
  have hspec := before_bad_directive_spec item_format.length item_format (Nat.le_refl _)
  have hidx := out_it_index_loop_eq libc tlibc info time_format utc debug item_format
    item_format.length 0 [] (Nat.zero_le _) (Nat.sub_le _ _)
  have hrun := out_it_loop_before_bad libc tlibc info time_format utc debug item_format.length
    item_format [] (Nat.le_refl _)
  rw [List.drop_zero] at hidx
  refine ⟨hspec.1, hspec.2, hidx, hrun.1, hrun.2, ?_, ?_, ?_⟩
  · unfold lstime_out_it
    rw [hrun.1]
    unfold then_bad
    cases hg : (out_it_loop libc tlibc info time_format utc debug
        (before_bad_directive item_format).1 []).2 with
    | some e =>
      have hne := hrun.2
      rw [hg] at hne
      constructor
      · intro h
        exact absurd h hne
      · intro h
        exact Option.noConfusion h.2
    | none =>
      cases hb : (before_bad_directive item_format).2 with
      | true => simp
      | false => simp
  · unfold lstime_out_it
    rw [hrun.1]
    unfold then_bad
    cases hg : (out_it_loop libc tlibc info time_format utc debug
        (before_bad_directive item_format).1 []).2 with
    | some e => rfl
    | none => rfl
  · refine ⟨?_, ?_, ?_⟩ <;> rfl

/-- C40. The function `comp_timespec` is a three-way comparison of the pairs
(seconds, nanoseconds), seconds first: it returns -1, 0 or 1, -1 exactly when
the first pair is before the second, 1 exactly when it is after, 0 exactly
when both fields are equal; exchanging the arguments changes the sign; "not
greater" is transitive; and the eight time comparators of `lstime_sort_list`
are consistent comparison functions. -/
theorem comp_timespec_order (a b c : timespec) :
    (comp_timespec a b = -1 ∨ comp_timespec a b = 0 ∨ comp_timespec a b = 1) ∧
    (comp_timespec a b = -1 ↔
      a.tv_sec < b.tv_sec ∨ (a.tv_sec = b.tv_sec ∧ a.tv_nsec < b.tv_nsec)) ∧
    (comp_timespec a b = 1 ↔
      b.tv_sec < a.tv_sec ∨ (a.tv_sec = b.tv_sec ∧ b.tv_nsec < a.tv_nsec)) ∧
    (comp_timespec a b = 0 ↔ a.tv_sec = b.tv_sec ∧ a.tv_nsec = b.tv_nsec) ∧
    (comp_timespec a b = 0 ↔ a = b) ∧
    comp_timespec a b = - comp_timespec b a ∧
    (comp_timespec a b ≤ 0 → comp_timespec b c ≤ 0 → comp_timespec a c ≤ 0) ∧
    (comp_timespec a b ≤ 0 ∨ comp_timespec b a ≤ 0) ∧
    (ConsistentComparator comp_m_fwd ∧ ConsistentComparator comp_m_rev ∧
      ConsistentComparator comp_a_fwd ∧ ConsistentComparator comp_a_rev ∧
      ConsistentComparator comp_c_fwd ∧ ConsistentComparator comp_c_rev ∧
      ConsistentComparator comp_b_fwd ∧ ConsistentComparator comp_b_rev) := by
  have hsw : comp_timespec a b = - comp_timespec b a := by
    unfold comp_timespec
    split_ifs <;> omega
  have h0 : comp_timespec a b = 0 ↔ a.tv_sec = b.tv_sec ∧ a.tv_nsec = b.tv_nsec := by
    unfold comp_timespec
    split_ifs <;> constructor <;> intro h <;> first | omega | exact False.elim h
  refine ⟨?_, ?_, ?_, h0, ?_, hsw, comp_timespec_trans a b c, ?_, ?_⟩
  · unfold comp_timespec
    split_ifs <;> simp
  · unfold comp_timespec
    split_ifs <;> constructor <;> intro h <;> first | omega | exact False.elim h
  · unfold comp_timespec
    split_ifs <;> constructor <;> intro h <;> first | omega | exact False.elim h
  · rw [h0]
    constructor
    · intro h
      cases a; cases b
      simp only [timespec.mk.injEq]
      exact h
    · intro h; rw [h]; exact ⟨rfl, rfl⟩
  · omega
  · exact ⟨select_comp_consistent 0x6D false _ rfl, select_comp_consistent 0x6D true _ rfl,
      select_comp_consistent 0x61 false _ rfl, select_comp_consistent 0x61 true _ rfl,
      select_comp_consistent 0x63 false _ rfl, select_comp_consistent 0x63 true _ rfl,
      select_comp_consistent 0x62 false _ rfl, select_comp_consistent 0x62 true _ rfl⟩

end Lstime
